import Mathlib

set_option autoImplicit false

/-!
Micromouse solvers: shallow embedding and verified properties.

The development embeds the C solvers of the repository:

* `Hybrid`    : `src/C-Codes/FloodFillxA*/solver.c` (DFS exploration, BFS distance field,
  A* return path, greedy optimal run);
* `FloodFill` : `src/C-Codes/FloodFill/solver.c` (classic flood fill);
* `AStar`     : `src/C-Codes/A*/solver.c` (DFS exploration with a two-phase move);
* `LeftHandRule`, `RightHandRule` : the two wall followers.

C `int` values are modelled by `Int` (coordinates, which may leave the grid by one) and by
`Nat` (directions, distances, counters, which never become negative).  Two-dimensional C arrays
are modelled by functions of two `Int` indices.  Every `while` loop takes an explicit fuel
argument and yields `none` when the fuel runs out; the theorems show that the stated fuel is
enough.  Host calls (`API_*`) are modelled by a record of host answers (inputs) and a list of
issued movement commands (outputs); colouring, text and logging calls have no effect on the
solver state and are left out.
-/

/-! ## Shared data -/

namespace Micromouse

/-- A grid coordinate pair: `Position` of the hybrid solver, `QueueNode` of the flood-fill solver. -/
structure Position where
  x : Int
  y : Int
deriving DecidableEq

/-- Movement commands a solver sends to the host (`API_turnLeft`, `API_turnRight`,
`API_moveForward`). -/
inductive Cmd where
  | turnLeft
  | turnRight
  | moveForward
deriving DecidableEq

/-- Return value of the stepping operation (`Action` of `solver.h`). -/
inductive Action where
  | IDLE
  | FORWARD
  | LEFT
  | RIGHT
deriving DecidableEq

/-- Direction vector table `dx[] = {0, 1, 0, -1}` (0 = N, 1 = E, 2 = S, 3 = W). -/
def dx : Nat → Int
  | 0 => 0
  | 1 => 1
  | 2 => 0
  | 3 => -1
  | _ => 0

/-- Direction vector table `dy[] = {1, 0, -1, 0}`. -/
def dy : Nat → Int
  | 0 => 1
  | 1 => 0
  | 2 => -1
  | 3 => 0
  | _ => 0

/-- Assignment `a[x][y] = v` on a two-dimensional array. -/
def set2 {α : Type} (a : Int → Int → α) (x y : Int) (v : α) : Int → Int → α :=
  fun i j => if i = x ∧ j = y then v else a i j

/-- Answers of the host during one call of a stepping operation. -/
structure Host where
  mazeWidth : Int
  mazeHeight : Int
  wallFront : Bool
  wallLeft : Bool
  wallRight : Bool
  moveForward : Bool

/-! ## The hybrid solver (`FloodFillxA*/solver.c`) -/

namespace Hybrid

def MAX_SIZE : Nat := 16
def INF : Nat := 9999
def MAX_STACK : Nat := 256
def MAX_QUEUE : Nat := 512
def MAX_HEAP : Nat := 512
def MAX_WALLS : Nat := 1024

/-- Recorded wall `typedef struct { int x, y, dir; } Wall`. -/
structure Wall where
  x : Int
  y : Int
  dir : Nat
deriving DecidableEq

/-- A* heap entry `typedef struct { int f_score; Position pos; } AStarNode`. -/
structure AStarNode where
  f_score : Nat
  pos : Position
deriving DecidableEq

/-- Global state of the hybrid solver.  `walls` holds `walls[0 .. wall_count)`, `dfs_stack`
holds `dfs_stack[0 .. stack_top]` with the top entry first, `goal_cells i` is `goal_cells[i]`,
`path_to_start` holds the array `path_to_start` from index 0.  `initialized` is the static
flag of `init_solver`. -/
structure State where
  mouse_x : Int
  mouse_y : Int
  mouse_dir : Nat
  maze_width : Int
  maze_height : Int
  walls : List Wall
  visited : Int → Int → Bool
  distances : Int → Int → Nat
  goal_cells : Nat → Position
  dfs_stack : List Position
  phase : Nat
  exploration_done : Bool
  path_to_start : List Position
  path_index : Nat
  path_length : Nat
  optimal_run_started : Bool
  initialized : Bool

/-- Result of one call of `floodFill`: the returned action, the new global state and the
movement commands sent to the host, in order. -/
structure Result where
  action : Action
  state : State
  cmds : List Cmd

def manhattan_distance (x1 y1 x2 y2 : Int) : Nat :=
  (x1 - x2).natAbs + (y1 - y2).natAbs

def is_goal (goal_cells : Nat → Position) (x y : Int) : Bool :=
  (List.range 4).any (fun i => (goal_cells i).x == x && (goal_cells i).y == y)

def has_wall (walls : List Wall) (x y : Int) (dir : Nat) : Bool :=
  walls.any (fun w => w.x == x && w.y == y && w.dir == dir)

def add_wall (walls : List Wall) (x y : Int) (dir : Nat) : List Wall :=
  if !has_wall walls x y dir && walls.length < MAX_WALLS then
    walls ++ [{ x := x, y := y, dir := dir }]
  else walls

def sense_walls (s : State) (hst : Host) : State :=
  let w1 := if hst.wallFront then add_wall s.walls s.mouse_x s.mouse_y s.mouse_dir else s.walls
  let w2 := if hst.wallLeft then add_wall w1 s.mouse_x s.mouse_y ((s.mouse_dir + 3) % 4) else w1
  let w3 := if hst.wallRight then add_wall w2 s.mouse_x s.mouse_y ((s.mouse_dir + 1) % 4) else w2
  let back_dir := (s.mouse_dir + 2) % 4
  let back_x := s.mouse_x + dx back_dir
  let back_y := s.mouse_y + dy back_dir
  let w4 :=
    if back_x < 0 ∨ back_x ≥ s.maze_width ∨ back_y < 0 ∨ back_y ≥ s.maze_height then
      add_wall w3 s.mouse_x s.mouse_y back_dir
    else w3
  { s with walls := w4 }

/-- The loop of `turn_to_direction`: returns the final heading and the commands issued. -/
def turn_to_direction : Nat → Nat → Nat → List Cmd → Option (Nat × List Cmd)
  | 0, _, _, _ => none
  | fuel + 1, mouse_dir, target_dir, cmds =>
    if mouse_dir = target_dir then some (mouse_dir, cmds)
    else
      let diff := Int.tmod ((target_dir : Int) - (mouse_dir : Int) + 4) 4
      if diff = 1 then
        turn_to_direction fuel ((mouse_dir + 1) % 4) target_dir (cmds ++ [Cmd.turnRight])
      else if diff = 3 then
        turn_to_direction fuel ((mouse_dir + 3) % 4) target_dir (cmds ++ [Cmd.turnLeft])
      else
        turn_to_direction fuel ((mouse_dir + 2) % 4) target_dir
          (cmds ++ [Cmd.turnRight, Cmd.turnRight])

def stack_push (stack : List Position) (p : Position) : List Position :=
  if stack.length < MAX_STACK then p :: stack else stack

def queue_push (queue : List Position) (p : Position) : List Position :=
  if queue.length < MAX_QUEUE then queue ++ [p] else queue

def heap_swap (heap : List AStarNode) (i j : Nat) : List AStarNode :=
  let temp := heap.getD i ⟨0, ⟨0, 0⟩⟩
  (heap.set i (heap.getD j ⟨0, ⟨0, 0⟩⟩)).set j temp

/-- The sift-up loop of `heap_push`. -/
def heap_push_loop : Nat → List AStarNode → Nat → Option (List AStarNode)
  | 0, _, _ => none
  | fuel + 1, heap, i =>
    if i > 0 then
      let parent := (i - 1) / 2
      if (heap.getD parent ⟨0, ⟨0, 0⟩⟩).f_score ≤ (heap.getD i ⟨0, ⟨0, 0⟩⟩).f_score then
        some heap
      else heap_push_loop fuel (heap_swap heap parent i) parent
    else some heap

def heap_push (fuel : Nat) (heap : List AStarNode) (node : AStarNode) :
    Option (List AStarNode) :=
  if heap.length ≥ MAX_HEAP then some heap
  else heap_push_loop fuel (heap ++ [node]) heap.length

/-- The sift-down loop of `heap_pop`. -/
def heap_pop_loop : Nat → List AStarNode → Nat → Option (List AStarNode)
  | 0, _, _ => none
  | fuel + 1, heap, i =>
    let left := 2 * i + 1
    let right := 2 * i + 2
    let smallest0 := i
    let smallest1 :=
      if left < heap.length ∧
          (heap.getD left ⟨0, ⟨0, 0⟩⟩).f_score < (heap.getD smallest0 ⟨0, ⟨0, 0⟩⟩).f_score then
        left
      else smallest0
    let smallest :=
      if right < heap.length ∧
          (heap.getD right ⟨0, ⟨0, 0⟩⟩).f_score < (heap.getD smallest1 ⟨0, ⟨0, 0⟩⟩).f_score then
        right
      else smallest1
    if smallest = i then some heap
    else heap_pop_loop fuel (heap_swap heap i smallest) smallest

def heap_pop (fuel : Nat) (heap : List AStarNode) : Option (AStarNode × List AStarNode) :=
  let result := heap.getD 0 ⟨0, ⟨0, 0⟩⟩
  let heap1 := (heap.set 0 (heap.getD (heap.length - 1) ⟨0, ⟨0, 0⟩⟩)).take (heap.length - 1)
  (heap_pop_loop fuel heap1 0).map (fun hp => (result, hp))

/-- Cells collected by `get_unvisited_neighbors`, in the order N, E, S, W. -/
def get_unvisited_neighbors (s : State) : List Position :=
  (List.range 4).filterMap (fun d =>
    let nx := s.mouse_x + dx d
    let ny := s.mouse_y + dy d
    if 0 ≤ nx ∧ nx < s.maze_width ∧ 0 ≤ ny ∧ ny < s.maze_height ∧
        !s.visited nx ny ∧ !has_wall s.walls s.mouse_x s.mouse_y d then
      some { x := nx, y := ny }
    else none)

/-- Scratch state of the BFS of `calculate_distances`: the distance array, the queue
`bfs_queue[0 .. queue_tail)` and `queue_head`. -/
structure BfsState where
  distances : Int → Int → Nat
  bfs_queue : List Position
  queue_head : Nat

/-- One pass of the body of `for (d ...)` in the BFS of `calculate_distances`. -/
def bfs_relax (walls : List Wall) (maze_width maze_height : Int) (current : Position)
    (current_dist : Nat) (st : BfsState) (d : Nat) : BfsState :=
  if has_wall walls current.x current.y d then st
  else
    let nx := current.x + dx d
    let ny := current.y + dy d
    if nx < 0 ∨ nx ≥ maze_width ∨ ny < 0 ∨ ny ≥ maze_height then st
    else if st.distances nx ny > current_dist + 1 then
      { st with
        distances := set2 st.distances nx ny (current_dist + 1)
        bfs_queue := queue_push st.bfs_queue { x := nx, y := ny } }
    else st

/-- The loop `while (!queue_empty())` of `calculate_distances`. -/
def bfs_loop (walls : List Wall) (maze_width maze_height : Int) :
    Nat → BfsState → Option BfsState
  | 0, _ => none
  | fuel + 1, st =>
    if st.queue_head ≥ st.bfs_queue.length then some st
    else
      let current := st.bfs_queue.getD st.queue_head ⟨0, 0⟩
      let st1 := { st with queue_head := st.queue_head + 1 }
      let current_dist := st1.distances current.x current.y
      bfs_loop walls maze_width maze_height fuel
        ((List.range 4).foldl (bfs_relax walls maze_width maze_height current current_dist) st1)

/-- The seeding loop `for (i < 4)` of `calculate_distances`. -/
def bfs_seed (goal_cells : Nat → Position) (st : BfsState) (i : Nat) : BfsState :=
  { st with
    distances := set2 st.distances (goal_cells i).x (goal_cells i).y 0
    bfs_queue := queue_push st.bfs_queue (goal_cells i) }

/-- Scratch state of `calculate_distances` before its `while` loop. -/
def bfs_init (goal_cells : Nat → Position) : BfsState :=
  (List.range 4).foldl (bfs_seed goal_cells)
    { distances := fun _ _ => INF, bfs_queue := [], queue_head := 0 }

def calculate_distances (fuel : Nat) (s : State) : Option State :=
  (bfs_loop s.walls s.maze_width s.maze_height fuel (bfs_init s.goal_cells)).map
    (fun st => { s with distances := st.distances })

/-- Local arrays of `find_path_to_start` together with the heap `heap[0 .. heap_size)`. -/
structure AStarState where
  g_score : Int → Int → Nat
  came_from : Int → Int → Position
  in_came_from : Int → Int → Bool
  heap : List AStarNode

/-- One pass of the body of `for (d ...)` in `find_path_to_start`. -/
def astar_relax (fuel : Nat) (walls : List Wall) (maze_width maze_height : Int)
    (current : Position) (st : AStarState) (d : Nat) : Option AStarState :=
  if has_wall walls current.x current.y d then some st
  else
    let nx := current.x + dx d
    let ny := current.y + dy d
    if nx < 0 ∨ nx ≥ maze_width ∨ ny < 0 ∨ ny ≥ maze_height then some st
    else
      let tentative_g := st.g_score current.x current.y + 1
      if tentative_g < st.g_score nx ny then
        (heap_push fuel st.heap
            { f_score := tentative_g + manhattan_distance nx ny 0 0, pos := { x := nx, y := ny } }).map
          (fun hp =>
            { g_score := set2 st.g_score nx ny tentative_g
              came_from := set2 st.came_from nx ny current
              in_came_from := set2 st.in_came_from nx ny true
              heap := hp })
      else some st

/-- The loop `while (in_came_from[temp.x][temp.y])` that collects the path backwards.  A write
past `path_to_start[MAX_STACK - 1]` is outside the array and yields `none`. -/
def reconstruct_loop (in_came_from : Int → Int → Bool) (came_from : Int → Int → Position) :
    Nat → Position → List Position → Option (List Position)
  | 0, _, _ => none
  | fuel + 1, temp, path =>
    if in_came_from temp.x temp.y then
      if path.length < MAX_STACK then
        reconstruct_loop in_came_from came_from fuel (came_from temp.x temp.y) (path ++ [temp])
      else none
    else some path

/-- The in-place reversal loop `for (i < path_length / 2)` of `find_path_to_start`. -/
def reverse_path (path : List Position) : List Position :=
  (List.range (path.length / 2)).foldl
    (fun p i =>
      let tmp := p.getD i ⟨0, 0⟩
      (p.set i (p.getD (path.length - 1 - i) ⟨0, 0⟩)).set (path.length - 1 - i) tmp)
    path

/-- The loop `while (heap_size > 0)` of `find_path_to_start`.  The result is `some path` when
the function returns 1 (`path` is `path_to_start[0 .. path_length)`) and `none` when it
returns 0. -/
def astar_loop (ifuel : Nat) (walls : List Wall) (maze_width maze_height : Int) :
    Nat → AStarState → Option (Option (List Position))
  | 0, _ => none
  | fuel + 1, st =>
    if st.heap.length > 0 then
      match heap_pop ifuel st.heap with
      | none => none
      | some (current_node, hp) =>
        let current := current_node.pos
        if current.x = 0 ∧ current.y = 0 then
          (reconstruct_loop st.in_came_from st.came_from ifuel current []).map
            (fun p => some (reverse_path p))
        else
          match (List.range 4).foldlM
              (astar_relax ifuel walls maze_width maze_height current) { st with heap := hp } with
          | none => none
          | some st1 => astar_loop ifuel walls maze_width maze_height fuel st1
    else some none

/-- Local state of `find_path_to_start` before its `while` loop. -/
def astar_init (fuel : Nat) (mouse_x mouse_y : Int) : Option AStarState :=
  (heap_push fuel [] { f_score := 0, pos := { x := mouse_x, y := mouse_y } }).map
    (fun hp =>
      { g_score := set2 (fun _ _ => INF) mouse_x mouse_y 0
        came_from := fun _ _ => ⟨0, 0⟩
        in_came_from := fun _ _ => false
        heap := hp })

/-- The planner `find_path_to_start`: the boolean is the C return value (1 or 0). -/
def find_path_to_start (fuel : Nat) (s : State) : Option (Bool × State) :=
  match astar_init fuel s.mouse_x s.mouse_y with
  | none => none
  | some st0 =>
    match astar_loop fuel s.walls s.maze_width s.maze_height fuel st0 with
    | none => none
    | some none => some (false, s)
    | some (some path) =>
      some (true,
        { s with
          path_to_start := path ++ s.path_to_start.drop path.length
          path_length := path.length
          path_index := 0 })

def init_solver (s : State) (hst : Host) : State :=
  if s.initialized then s
  else
    let center := Int.tdiv hst.mazeWidth 2
    { s with
      maze_width := hst.mazeWidth
      maze_height := hst.mazeHeight
      goal_cells := fun i =>
        match i with
        | 0 => { x := center - 1, y := center - 1 }
        | 1 => { x := center, y := center - 1 }
        | 2 => { x := center - 1, y := center }
        | 3 => { x := center, y := center }
        | j => s.goal_cells j
      visited := fun _ _ => false
      walls := []
      dfs_stack := stack_push s.dfs_stack { x := 0, y := 0 }
      initialized := true }

/-- First direction `d` in `0 .. 3` with `(x + dx[d], y + dy[d]) = (tx, ty)`: the search done by
the loops `for (d ...) if (mouse_x + dx[d] == ... ) { ...; break; }`. -/
def dir_toward (x y tx ty : Int) : Option Nat :=
  (List.range 4).find? (fun d => x + dx d == tx && y + dy d == ty)

/-- Phase 0 of `floodFill` (exploration). -/
def explore (fuel : Nat) (s0 : State) (hst : Host) : Option Result :=
  let s1 := { s0 with visited := set2 s0.visited s0.mouse_x s0.mouse_y true }
  let s2 := sense_walls s1 hst
  let s :=
    if is_goal s2.goal_cells s2.mouse_x s2.mouse_y && !s2.exploration_done then
      { s2 with exploration_done := true }
    else s2
  let neighbors := get_unvisited_neighbors s
  if neighbors.length > 0 then
    let nx := (neighbors.getD 0 ⟨0, 0⟩).x
    let ny := (neighbors.getD 0 ⟨0, 0⟩).y
    let turned :=
      match dir_toward s.mouse_x s.mouse_y nx ny with
      | some d => turn_to_direction fuel s.mouse_dir d []
      | none => some (s.mouse_dir, [])
    turned.map (fun t =>
      { action := Action.IDLE
        state :=
          { s with
            mouse_dir := t.1
            mouse_x := nx
            mouse_y := ny
            dfs_stack := stack_push s.dfs_stack { x := nx, y := ny } }
        cmds := t.2 ++ [Cmd.moveForward] })
  else if s.dfs_stack.length > 1 then
    let stack := s.dfs_stack.tail
    let prev := stack.headD ⟨0, 0⟩
    match dir_toward s.mouse_x s.mouse_y prev.x prev.y with
    | some d =>
      (turn_to_direction fuel s.mouse_dir d []).map (fun t =>
        { action := Action.IDLE
          state := { s with dfs_stack := stack, mouse_dir := t.1, mouse_x := prev.x, mouse_y := prev.y }
          cmds := t.2 ++ [Cmd.moveForward] })
    | none => some { action := Action.IDLE, state := { s with dfs_stack := stack }, cmds := [] }
  else
    match calculate_distances fuel s with
    | none => none
    | some sd =>
      match find_path_to_start fuel sd with
      | none => none
      | some (true, sp) => some { action := Action.IDLE, state := { sp with phase := 1 }, cmds := [] }
      | some (false, sp) => some { action := Action.IDLE, state := { sp with phase := 3 }, cmds := [] }

/-- Phase 1 of `floodFill` (return to the start along `path_to_start`). -/
def return_to_start (fuel : Nat) (s : State) : Option Result :=
  if s.path_index < s.path_length then
    let next_x := (s.path_to_start.getD s.path_index ⟨0, 0⟩).x
    let next_y := (s.path_to_start.getD s.path_index ⟨0, 0⟩).y
    let turned :=
      match dir_toward s.mouse_x s.mouse_y next_x next_y with
      | some d => turn_to_direction fuel s.mouse_dir d []
      | none => some (s.mouse_dir, [])
    turned.map (fun t =>
      { action := Action.IDLE
        state :=
          { s with mouse_dir := t.1, mouse_x := next_x, mouse_y := next_y, path_index := s.path_index + 1 }
        cmds := t.2 ++ [Cmd.moveForward] })
  else
    (turn_to_direction fuel s.mouse_dir 0 []).map (fun t =>
      { action := Action.IDLE
        state :=
          { s with phase := 2, mouse_x := 0, mouse_y := 0, mouse_dir := t.1, optimal_run_started := true }
        cmds := t.2 })

/-- One pass of the body of `for (d ...)` in phase 2: the pair is `(best_dir, best_dist)`, with
`none` for `best_dir = -1`. -/
def best_step (s : State) (acc : Option Nat × Nat) (d : Nat) : Option Nat × Nat :=
  if has_wall s.walls s.mouse_x s.mouse_y d then acc
  else
    let nx := s.mouse_x + dx d
    let ny := s.mouse_y + dy d
    if nx < 0 ∨ nx ≥ s.maze_width ∨ ny < 0 ∨ ny ≥ s.maze_height then acc
    else if s.distances nx ny < acc.2 then (some d, s.distances nx ny)
    else acc

/-- Phase 2 of `floodFill` (greedy descent on the distance field). -/
def run_optimal (fuel : Nat) (s : State) : Option Result :=
  if is_goal s.goal_cells s.mouse_x s.mouse_y then
    some { action := Action.IDLE, state := { s with phase := 3 }, cmds := [] }
  else
    let current_dist := s.distances s.mouse_x s.mouse_y
    match ((List.range 4).foldl (best_step s) (none, current_dist)).1 with
    | some best_dir =>
      (turn_to_direction fuel s.mouse_dir best_dir []).map (fun t =>
        { action := Action.IDLE
          state := { s with mouse_dir := t.1, mouse_x := s.mouse_x + dx t.1, mouse_y := s.mouse_y + dy t.1 }
          cmds := t.2 ++ [Cmd.moveForward] })
    | none => some { action := Action.IDLE, state := s, cmds := [] }

/-- The stepping operation `floodFill` (also reached through `solver`). -/
def floodFill (fuel : Nat) (s0 : State) (hst : Host) : Option Result :=
  let s := init_solver s0 hst
  if s.phase = 0 then explore fuel s hst
  else if s.phase = 1 then return_to_start fuel s
  else if s.phase = 2 then run_optimal fuel s
  else some { action := Action.IDLE, state := s, cmds := [] }

end Hybrid

/-! ## The flood-fill solver (`FloodFill/solver.c`) -/

namespace FloodFill

def MAX_SIZE : Nat := 16
def INF : Nat := 9999
def MAX_QUEUE : Nat := 256

/-- Global state of the flood-fill solver.  `distance y x` is `distance[y][x]`, `walls y x d` is
`walls[y][x][d]`, `queue` holds `queue[0 .. queueTail)`.  `mazeInitialized` is the static flag
of `initMaze`; `initialized`, `steps` and `goalReached` are the statics of `floodFill`. -/
structure State where
  x : Int
  y : Int
  direction : Nat
  mazeWidth : Int
  mazeHeight : Int
  distance : Int → Int → Nat
  walls : Int → Int → Nat → Bool
  goalX : Nat → Int
  goalY : Nat → Int
  queue : List Position
  queueHead : Nat
  mazeInitialized : Bool
  initialized : Bool
  steps : Nat
  goalReached : Bool

/-- Assignment `walls[y][x][d] = 1`. -/
def setWall (walls : Int → Int → Nat → Bool) (y x : Int) (d : Nat) : Int → Int → Nat → Bool :=
  fun i j e => if i = y ∧ j = x ∧ e = d then true else walls i j e

/-- The boundary loops of `initMaze`, applied to the zeroed wall array. -/
def boundaryWalls (mazeWidth mazeHeight : Int) : Int → Int → Nat → Bool :=
  fun i j e =>
    (0 ≤ i ∧ i < mazeHeight ∧ j = 0 ∧ e = 3) ∨
    (0 ≤ i ∧ i < mazeHeight ∧ j = mazeWidth - 1 ∧ e = 1) ∨
    (0 ≤ j ∧ j < mazeWidth ∧ i = 0 ∧ e = 2) ∨
    (0 ≤ j ∧ j < mazeWidth ∧ i = mazeHeight - 1 ∧ e = 0)

def initMaze (s : State) (hst : Host) : State :=
  if s.mazeInitialized then s
  else
    let centerX := Int.tdiv hst.mazeWidth 2
    let centerY := Int.tdiv hst.mazeHeight 2
    { s with
      mazeWidth := hst.mazeWidth
      mazeHeight := hst.mazeHeight
      walls := boundaryWalls hst.mazeWidth hst.mazeHeight
      goalX := fun i =>
        match i with
        | 0 => centerX - 1
        | 1 => centerX
        | 2 => centerX - 1
        | 3 => centerX
        | j => s.goalX j
      goalY := fun i =>
        match i with
        | 0 => centerY - 1
        | 1 => centerY - 1
        | 2 => centerY
        | 3 => centerY
        | j => s.goalY j
      mazeInitialized := true }

/-- Scratch state of the BFS of `floodFillDistances`. -/
structure BfsState where
  distance : Int → Int → Nat
  queue : List Position
  queueHead : Nat

/-- The write `queue[queueTail] = p; queueTail++`.  The array has `MAX_QUEUE` entries and the
write is unguarded: a write past the end yields `none`. -/
def enqueue (queue : List Position) (p : Position) : Option (List Position) :=
  if queue.length < MAX_QUEUE then some (queue ++ [p]) else none

/-- One pass of the seeding loop `for (i < 4)` of `floodFillDistances`. -/
def seed (goalX goalY : Nat → Int) (st : BfsState) (i : Nat) : Option BfsState :=
  (enqueue st.queue { x := goalX i, y := goalY i }).map (fun q =>
    { st with distance := set2 st.distance (goalY i) (goalX i) 0, queue := q })

/-- One pass of the body of `for (d ...)` in the BFS of `floodFillDistances`. -/
def relax (walls : Int → Int → Nat → Bool) (mazeWidth mazeHeight : Int) (cx cy : Int)
    (currentDist : Nat) (st : BfsState) (d : Nat) : Option BfsState :=
  if walls cy cx d then some st
  else
    let nx := cx + dx d
    let ny := cy + dy d
    if nx < 0 ∨ nx ≥ mazeWidth ∨ ny < 0 ∨ ny ≥ mazeHeight then some st
    else
      let newDist := currentDist + 1
      if newDist < st.distance ny nx then
        (enqueue st.queue { x := nx, y := ny }).map (fun q =>
          { st with distance := set2 st.distance ny nx newDist, queue := q })
      else some st

/-- The loop `while (queueHead < queueTail)` of `floodFillDistances`. -/
def bfsLoop (walls : Int → Int → Nat → Bool) (mazeWidth mazeHeight : Int) :
    Nat → BfsState → Option BfsState
  | 0, _ => none
  | fuel + 1, st =>
    if st.queueHead < st.queue.length then
      let cx := (st.queue.getD st.queueHead ⟨0, 0⟩).x
      let cy := (st.queue.getD st.queueHead ⟨0, 0⟩).y
      let st1 := { st with queueHead := st.queueHead + 1 }
      let currentDist := st1.distance cy cx
      match (List.range 4).foldlM (relax walls mazeWidth mazeHeight cx cy currentDist) st1 with
      | none => none
      | some st2 => bfsLoop walls mazeWidth mazeHeight fuel st2
    else some st

/-- Scratch state of `floodFillDistances` after the initialisation loops and before seeding. -/
def bfsInit (s : State) : BfsState :=
  { distance := fun i j =>
      if 0 ≤ i ∧ i < s.mazeHeight ∧ 0 ≤ j ∧ j < s.mazeWidth then INF else s.distance i j
    queue := []
    queueHead := 0 }

def floodFillDistances (fuel : Nat) (s : State) : Option State :=
  match (List.range 4).foldlM (seed s.goalX s.goalY) (bfsInit s) with
  | none => none
  | some st0 =>
    (bfsLoop s.walls s.mazeWidth s.mazeHeight fuel st0).map (fun st =>
      { s with distance := st.distance, queue := st.queue, queueHead := st.queueHead })

end FloodFill

end Micromouse

/-! ## Specification vocabulary -/

namespace Micromouse

/-- The cell `c` lies in the grid `[0, w) x [0, h)`. -/
def inb (w h : Int) (c : Position) : Prop :=
  0 ≤ c.x ∧ c.x < w ∧ 0 ≤ c.y ∧ c.y < h

instance (w h : Int) (c : Position) : Decidable (inb w h c) := by
  unfold inb
  infer_instance

/-- The grid neighbour of `c` in direction `d`. -/
def nbr (c : Position) (d : Nat) : Position :=
  { x := c.x + dx d, y := c.y + dy d }

/-! ### Breadth-first flooding over a grid, in general

Both solvers flood the grid with the same loop; only the wall representation, the index order of
the distance array and the treatment of a full queue differ.  The loop body is stated once here,
over an arbitrary wall test, together with the invariant used to verify it. -/

namespace Bfs

/-- The value `INF` of both solvers. -/
def INF : Nat := 9999

/-- A flooding problem: the wall test seen from a cell in a direction, the grid size and the
seed cells. -/
structure Graph where
  blocked : Int → Int → Nat → Bool
  w : Int
  h : Int
  seeds : Position → Prop

/-- The flood may step from `u` in direction `d`: no wall on that side of `u` and the neighbour
is in bounds. -/
def Graph.Open (G : Graph) (u : Position) (d : Nat) : Prop :=
  d < 4 ∧ G.blocked u.x u.y d = false ∧ inb G.w G.h (nbr u d)

/-- Cells the flood can touch: the grid and the seeds. -/
def Graph.Rel (G : Graph) (c : Position) : Prop :=
  inb G.w G.h c ∨ G.seeds c

/-- Reachability `Reach G n c`: a walk of `n` open steps leads from some seed to `c`. -/
inductive Reach (G : Graph) : Nat → Position → Prop
  | seed (c : Position) : G.seeds c → Reach G 0 c
  | step (n : Nat) (u : Position) (d : Nat) : Reach G n u → G.Open u d → Reach G (n + 1) (nbr u d)

/-- Distance array, queue contents `queue[0 .. tail)` and head index. -/
structure GState where
  dist : Int → Int → Nat
  queue : List Position
  head : Nat

/-- The distance stored for a cell. -/
def GState.at (st : GState) (c : Position) : Nat :=
  st.dist c.x c.y

/-- The part of the queue not yet dequeued. -/
def GState.pending (st : GState) : List Position :=
  st.queue.drop st.head

/-- The state after the neighbour of `cur` in direction `d` received distance `cd + 1` and
was enqueued. -/
def gPush (cur : Position) (cd : Nat) (st : GState) (d : Nat) : GState :=
  { dist := set2 st.dist (cur.x + dx d) (cur.y + dy d) (cd + 1)
    queue := st.queue ++ [nbr cur d]
    head := st.head }

/-- The state after the head of the queue was dequeued. -/
def gPop (st : GState) : GState :=
  { dist := st.dist, queue := st.queue, head := st.head + 1 }

/-- The loop body for one direction, with an unbounded queue. -/
def gRelax (G : Graph) (cur : Position) (cd : Nat) (st : GState) (d : Nat) : GState :=
  if G.blocked cur.x cur.y d = false ∧ inb G.w G.h (nbr cur d) ∧
      cd + 1 < st.dist (cur.x + dx d) (cur.y + dy d) then
    gPush cur cd st d
  else st

/-- Invariant of the flooding loop while the directions `< j` of the dequeued cell `cur`
(stored distance `cd`) have been handled.  `cells` is a finite set containing every cell the
flood can touch. -/
structure Mid (G : Graph) (cells : Finset Position) (cur : Position) (cd j : Nat)
    (st : GState) : Prop where
  le_inf : ∀ c, G.Rel c → st.at c ≤ INF
  sound : ∀ c, G.Rel c → st.at c < INF → Reach G (st.at c) c
  seeds_zero : ∀ c, G.seeds c → st.at c = 0
  edges : ∀ u d, G.Rel u → G.Open u d → st.at u < INF →
    st.at (nbr u d) ≤ st.at u + 1 ∨ u ∈ st.pending ∨ (u = cur ∧ j ≤ d)
  levels : ∃ A B, st.pending = A ++ B ∧ (∀ a ∈ A, st.at a = cd) ∧ (∀ b ∈ B, st.at b = cd + 1) ∧
    ∀ c, G.Rel c → st.at c < INF → st.at c ≤ cd + 1
  nodup : st.queue.Nodup
  queued : ∀ c ∈ st.queue, G.Rel c ∧ st.at c < INF
  bound : ∀ c, G.Rel c → st.at c < INF → st.at c ≤ st.head
  cur_bound : cd + 1 ≤ st.head
  head_le : st.head ≤ st.queue.length
  cur_mem : cur ∈ st.queue
  cur_at : st.at cur = cd
  in_cells : ∀ c, G.Rel c → c ∈ cells
  card_lt : cells.card + 1 < INF

/-- Invariant of the flooding loop at the loop head. -/
structure Inv (G : Graph) (cells : Finset Position) (st : GState) : Prop where
  le_inf : ∀ c, G.Rel c → st.at c ≤ INF
  sound : ∀ c, G.Rel c → st.at c < INF → Reach G (st.at c) c
  seeds_zero : ∀ c, G.seeds c → st.at c = 0
  edges : ∀ u d, G.Rel u → G.Open u d → st.at u < INF →
    st.at (nbr u d) ≤ st.at u + 1 ∨ u ∈ st.pending
  levels : ∃ k A B, st.pending = A ++ B ∧ (∀ a ∈ A, st.at a = k) ∧ (∀ b ∈ B, st.at b = k + 1) ∧
    ∀ c, G.Rel c → st.at c < INF → st.at c ≤ k + 1
  nodup : st.queue.Nodup
  queued : ∀ c ∈ st.queue, G.Rel c ∧ st.at c < INF
  bound : ∀ c, G.Rel c → st.at c < INF → st.at c ≤ st.head
  head_le : st.head ≤ st.queue.length
  in_cells : ∀ c, G.Rel c → c ∈ cells
  card_lt : cells.card + 1 < INF

/-- The wall test is symmetric: inside the grid, a wall seen from a cell toward a neighbour is
also seen from the neighbour toward the cell. -/
def Graph.Symm (G : Graph) : Prop :=
  ∀ c d, d < 4 → inb G.w G.h c → inb G.w G.h (nbr c d) →
    G.blocked c.x c.y d = G.blocked (nbr c d).x (nbr c d).y ((d + 2) % 4)

/-- Paths to a seed, `ToSeed G n c`: a path of `n` unit steps leads from `c` to a seed, every step leaving its
cell through an unwalled side of that cell into an in-bounds cell. -/
inductive ToSeed (G : Graph) : Nat → Position → Prop
  | here (c : Position) : G.seeds c → ToSeed G 0 c
  | step (n : Nat) (c : Position) (d : Nat) : d < 4 → G.blocked c.x c.y d = false →
      inb G.w G.h (nbr c d) → ToSeed G n (nbr c d) → ToSeed G (n + 1) c

/-- Paths `Path G n a b`: `n` open steps lead from `a` to `b`. -/
inductive Path (G : Graph) : Nat → Position → Position → Prop
  | nil (a : Position) : Path G 0 a a
  | cons (n : Nat) (a : Position) (d : Nat) (b : Position) :
      G.Open a d → Path G n (nbr a d) b → Path G (n + 1) a b

/-- Walks `IsWalk G a l`: starting in `a`, the cells of `l` are visited in order, each by one open
step from the previous cell. -/
def IsWalk (G : Graph) : Position → List Position → Prop
  | _, [] => True
  | a, b :: l => (∃ d, G.Open a d ∧ nbr a d = b) ∧ IsWalk G b l

/-- The cell where a walk from `a` along `l` ends. -/
def walkEnd (a : Position) (l : List Position) : Position :=
  l.getLast?.getD a

end Bfs

/-- The cells of the grid `[0, w) x [0, h)` as a finite set. -/
def gridCells (w h : Int) : Finset Position :=
  (Finset.range w.toNat ×ˢ Finset.range h.toNat).image (fun p => { x := (p.1 : Int), y := (p.2 : Int) })

namespace FloodFill

/-- The flooding problem solved by `floodFillDistances` (`walls` is indexed `[y][x][d]`). -/
def floodGraph (s : State) : Bfs.Graph :=
  { blocked := fun x y d => s.walls y x d
    w := s.mazeWidth
    h := s.mazeHeight
    seeds := fun c => ∃ i, i < 4 ∧ ({ x := s.goalX i, y := s.goalY i } : Position) = c }

/-- The scratch state of `floodFillDistances` as a flooding state (`distance` is indexed
`[y][x]`). -/
def BfsState.toG (st : BfsState) : Bfs.GState :=
  { dist := fun x y => st.distance y x, queue := st.queue, head := st.queueHead }

/-- The goal cells are the 2 x 2 centre block computed by `initMaze`. -/
def CentreGoals (s : State) : Prop :=
  s.goalX 0 = Int.tdiv s.mazeWidth 2 - 1 ∧ s.goalY 0 = Int.tdiv s.mazeHeight 2 - 1 ∧
  s.goalX 1 = Int.tdiv s.mazeWidth 2 ∧ s.goalY 1 = Int.tdiv s.mazeHeight 2 - 1 ∧
  s.goalX 2 = Int.tdiv s.mazeWidth 2 - 1 ∧ s.goalY 2 = Int.tdiv s.mazeHeight 2 ∧
  s.goalX 3 = Int.tdiv s.mazeWidth 2 ∧ s.goalY 3 = Int.tdiv s.mazeHeight 2

/-- The wall map is symmetric: `walls[c][d] = walls[n][(d + 2) % 4]` whenever the cell `c` and
its neighbour `n` in direction `d` are both in bounds. -/
def SymmetricWalls (s : State) : Prop :=
  ∀ c d, d < 4 → inb s.mazeWidth s.mazeHeight c → inb s.mazeWidth s.mazeHeight (nbr c d) →
    s.walls c.y c.x d = s.walls (nbr c d).y (nbr c d).x ((d + 2) % 4)

/-- Goal paths `GoalPath s n c`: a path of `n` unit steps leads from `c` to one of the four goal cells,
each step leaving its cell through an unwalled side into an in-bounds cell. -/
def GoalPath (s : State) (n : Nat) (c : Position) : Prop :=
  Bfs.ToSeed (floodGraph s) n c

/-- The flood-fill solver in an empty `2 x 2` maze with the goal cells of `initMaze`. -/
def open2 : State :=
  { x := 0, y := 0, direction := 0, mazeWidth := 2, mazeHeight := 2, distance := fun _ _ => 0,
    walls := fun _ _ _ => false
    goalX := fun i =>
      match i with
      | 0 => 0
      | 1 => 1
      | 2 => 0
      | _ => 1
    goalY := fun i =>
      match i with
      | 0 => 0
      | 1 => 0
      | 2 => 1
      | _ => 1
    queue := [], queueHead := 0, mazeInitialized := true, initialized := true, steps := 0,
    goalReached := false }

end FloodFill

namespace Hybrid

/-- The flooding problem solved by `calculate_distances`. -/
def floodGraph (walls : List Wall) (w h : Int) (goal_cells : Nat → Position) : Bfs.Graph :=
  { blocked := has_wall walls, w := w, h := h, seeds := fun c => ∃ i, i < 4 ∧ goal_cells i = c }

/-- The scratch state of `calculate_distances` as a flooding state. -/
def BfsState.toG (st : BfsState) : Bfs.GState :=
  { dist := st.distances, queue := st.bfs_queue, head := st.queue_head }

/-- Every cell `calculate_distances` can touch: the grid and the four goal cells. -/
def floodCells (w h : Int) (goal_cells : Nat → Position) : Finset Position :=
  gridCells w h ∪ ((List.range 4).map goal_cells).toFinset

/-- The `f_score` stored at index `i` of the heap array. -/
def fAt (heap : List AStarNode) (i : Nat) : Nat :=
  (heap.getD i ⟨0, ⟨0, 0⟩⟩).f_score

/-- The binary min-heap property of `heap[0 .. heap_size)`. -/
def IsHeap (heap : List AStarNode) : Prop :=
  ∀ i, 0 < i → i < heap.length → fAt heap ((i - 1) / 2) ≤ fAt heap i

/-- Invariant of the sift-up loop: the heap property holds except between `i` and its parent,
and the children of `i` respect the parent of `i`. -/
def UpInv (heap : List AStarNode) (i : Nat) : Prop :=
  (∀ k, 0 < k → k < heap.length → k ≠ i → fAt heap ((k - 1) / 2) ≤ fAt heap k) ∧
    (0 < i → ∀ k, 0 < k → k < heap.length → (k - 1) / 2 = i →
      fAt heap ((i - 1) / 2) ≤ fAt heap k)

/-- Invariant of the sift-down loop: the heap property holds except between `i` and its
children, and the children of `i` respect the parent of `i`. -/
def DownInv (heap : List AStarNode) (i : Nat) : Prop :=
  (∀ k, 0 < k → k < heap.length → (k - 1) / 2 ≠ i → fAt heap ((k - 1) / 2) ≤ fAt heap k) ∧
    (0 < i → ∀ k, 0 < k → k < heap.length → (k - 1) / 2 = i →
      fAt heap ((i - 1) / 2) ≤ fAt heap k)

/-- The search problem of `find_path_to_start`: steps leave a cell through a side without
recorded wall into an in-bounds cell, starting from the mouse cell. -/
def planGraph (walls : List Wall) (w h : Int) (start : Position) : Bfs.Graph :=
  { blocked := has_wall walls, w := w, h := h, seeds := fun c => c = start }

/-- The heuristic of the planner: Manhattan distance to the origin. -/
def hman (c : Position) : Nat :=
  manhattan_distance c.x c.y 0 0

/-- The planner target `(0, 0)`. -/
def origin : Position :=
  { x := 0, y := 0 }

/-- The `g_score` of a cell. -/
def AStarState.g (st : AStarState) (c : Position) : Nat :=
  st.g_score c.x c.y

/-- The `came_from` entry of a cell. -/
def AStarState.parent (st : AStarState) (c : Position) : Position :=
  st.came_from c.x c.y

/-- The `in_came_from` flag of a cell. -/
def AStarState.linked (st : AStarState) (c : Position) : Bool :=
  st.in_came_from c.x c.y

/-- The part of the planner invariant that holds at the loop head and inside the direction
loop.  `E` is the set of cells expanded so far, `exc` marks the cell being expanded and `K`
bounds the finite `g_score` values. -/
structure Core (G : Bfs.Graph) (start : Position) (E : Finset Position)
    (exc : Position → Prop) (K : Nat) (st : AStarState) : Prop where
  g_le : ∀ c, st.g c < INF → st.g c ≤ K
  g_start : st.g start = 0
  start_root : st.linked start = false
  le_inf : ∀ c, st.g c ≤ INF
  sound : ∀ c, st.g c < INF → Bfs.Reach G (st.g c) c
  in_grid : ∀ c, st.g c < INF → inb G.w G.h c
  chain : ∀ c, st.linked c = true →
    ∃ d, G.Open (st.parent c) d ∧ nbr (st.parent c) d = c ∧
      st.g (st.parent c) + 1 ≤ st.g c ∧ st.g c < INF
  linked_of_fin : ∀ c, st.g c < INF → c ≠ start → st.linked c = true
  heap_valid : ∀ e ∈ st.heap,
    st.g e.pos < INF ∧ (e.pos = start ∨ st.g e.pos + hman e.pos ≤ e.f_score)
  open_or_closed : ∀ c, st.g c < INF →
    c ∈ E ∨ exc c ∨ ∃ e ∈ st.heap, e.pos = c ∧ e.f_score ≤ st.g c + hman c
  closed : ∀ u ∈ E, st.g u < INF ∧ u ≠ origin ∧ (∀ d, G.Open u d → st.g (nbr u d) ≤ st.g u + 1) ∧
    ∀ n, Bfs.Reach G n u → st.g u ≤ n
  is_heap : IsHeap st.heap

/-- Invariant of the planner at the head of its `while` loop. -/
structure AInv (G : Bfs.Graph) (start : Position) (E : Finset Position) (K : Nat)
    (st : AStarState) : Prop where
  core : Core G start E (fun _ => False) K st
  count : st.heap.length ≤ 2 + 2 * E.card
  first : start ∉ E → st.heap.length ≤ 1

/-- Invariant of the planner inside the direction loop for the popped cell `u`, after the
directions `< j`.  `dpred` is the direction from `u` back to its parent (4 when `u` is the
start cell) and `B` bounds the heap size after the loop. -/
structure AMid (G : Bfs.Graph) (start : Position) (E : Finset Position) (u : Position)
    (dpred B K j : Nat) (st : AStarState) : Prop where
  core : Core G start E (fun c => c = u) K st
  u_bound : st.g u + 1 ≤ K
  u_fin : st.g u < INF
  u_opt : ∀ n, Bfs.Reach G n u → st.g u ≤ n
  done : ∀ d, d < j → G.Open u d → st.g (nbr u d) ≤ st.g u + 1
  pred_ok : dpred < 4 → st.g (nbr u dpred) ≤ st.g u
  dpred_le : dpred ≤ 4
  count : st.heap.length + (4 - j) ≤ B + (if j ≤ dpred then 1 else 0)
  room : B + (if dpred = 4 then 1 else 0) ≤ MAX_HEAP

/-- The planner state after the neighbour of `u` in direction `j` received a better `g_score`
and was pushed, `hp` being the heap after the push. -/
def aPush (st : AStarState) (u : Position) (j : Nat) (hp : List AStarNode) : AStarState :=
  { g_score := set2 st.g_score (u.x + dx j) (u.y + dy j) (st.g_score u.x u.y + 1)
    came_from := set2 st.came_from (u.x + dx j) (u.y + dy j) u
    in_came_from := set2 st.in_came_from (u.x + dx j) (u.y + dy j) true
    heap := hp }

/-- The cells `temp, came_from[temp], ...` collected by the path reconstruction loop: every
listed cell is linked and the first unlinked cell ends the list. -/
def ChainTo (st : AStarState) : Position → List Position → Prop
  | temp, [] => st.linked temp = false
  | temp, c :: rest => c = temp ∧ st.linked temp = true ∧ ChainTo st (st.parent temp) rest

/-- A correct planner result: `path` is a walk from the start cell that ends at the origin,
and no walk from the start cell to the origin is shorter. -/
def PlanOK (G : Bfs.Graph) (start : Position) (path : List Position) : Prop :=
  Bfs.IsWalk G start path ∧ Bfs.walkEnd start path = origin ∧
    ∀ n, Bfs.Reach G n origin → path.length ≤ n

/-- The recorded walls are symmetric: inside the grid, `has_wall(c, d)` equals
`has_wall(n, (d + 2) % 4)` for the neighbour `n` of `c` in direction `d`. -/
def SymmetricWalls (walls : List Wall) (w h : Int) : Prop :=
  ∀ c d, d < 4 → inb w h c → inb w h (nbr c d) →
    has_wall walls c.x c.y d = has_wall walls (nbr c d).x (nbr c d).y ((d + 2) % 4)

/-- The four goal cells are pairwise distinct and lie in the grid. -/
def GoalsInGrid (s : State) : Prop :=
  [s.goal_cells 0, s.goal_cells 1, s.goal_cells 2, s.goal_cells 3].Nodup ∧
    ∀ i, i < 4 → inb s.maze_width s.maze_height (s.goal_cells i)

/-- Goal paths `GoalPath s n c`: a path of `n` unit steps leads from `c` to a goal cell, each step leaving
its cell through a side without recorded wall into an in-bounds cell. -/
def GoalPath (s : State) (n : Nat) (c : Position) : Prop :=
  Bfs.ToSeed (floodGraph s.walls s.maze_width s.maze_height s.goal_cells) n c

/-- The distance array of `s` is the field `calculate_distances` computes from the walls, goal
cells and maze size of `s`. -/
def ComputedField (s : State) : Prop :=
  ∃ fuel, (calculate_distances fuel s).map (fun t => t.distances) = some s.distances

/-- The result of `n` consecutive calls of `floodFill` with the same host answers: the final state and the
movement commands issued, in order. -/
def ticks (fuel : Nat) (hst : Host) : Nat → State → Option (State × List Cmd)
  | 0, s => some (s, [])
  | n + 1, s =>
    match floodFill fuel s hst with
    | none => none
    | some r => (ticks fuel hst n r.state).map (fun p => (p.1, r.cmds ++ p.2))

/-- Invariant of the direction loop of phase 2 after the directions `< j`: `acc.2` is
`best_dist`, `acc.1` is `best_dir`. -/
def BestInv (s : State) (j : Nat) (acc : Option Nat × Nat) : Prop :=
  acc.2 ≤ s.distances s.mouse_x s.mouse_y ∧
  (∀ d, d < j → has_wall s.walls s.mouse_x s.mouse_y d = false →
    inb s.maze_width s.maze_height (nbr ⟨s.mouse_x, s.mouse_y⟩ d) →
    acc.2 ≤ s.distances (s.mouse_x + dx d) (s.mouse_y + dy d)) ∧
  (∀ b, acc.1 = some b → b < 4 ∧ has_wall s.walls s.mouse_x s.mouse_y b = false ∧
    inb s.maze_width s.maze_height (nbr ⟨s.mouse_x, s.mouse_y⟩ b) ∧
    s.distances (s.mouse_x + dx b) (s.mouse_y + dy b) = acc.2) ∧
  (acc.1 = none → acc.2 = s.distances s.mouse_x s.mouse_y)

/-- A well-formed solver state: heading in `0 .. 3`, maze up to 16 x 16, mouse in bounds and
four distinct goal cells. -/
structure WellFormed (s : State) : Prop where
  dir_lt : s.mouse_dir < 4
  width_le : s.maze_width ≤ 16
  height_le : s.maze_height ≤ 16
  mouse_in : inb s.maze_width s.maze_height ⟨s.mouse_x, s.mouse_y⟩
  goals_nodup : [s.goal_cells 0, s.goal_cells 1, s.goal_cells 2, s.goal_cells 3].Nodup

/-- The standing assumptions of the optimal run: phase 2 of an initialised solver, heading in
`0 .. 3`, mouse in bounds, maze up to 16 x 16, symmetric walls, goal cells in the grid, and a
distance array computed by `calculate_distances`. -/
structure RunReady (s : State) : Prop where
  phase_two : s.phase = 2
  init : s.initialized = true
  dir_lt : s.mouse_dir < 4
  mouse_in : inb s.maze_width s.maze_height ⟨s.mouse_x, s.mouse_y⟩
  width_le : s.maze_width ≤ 16
  height_le : s.maze_height ≤ 16
  symm : SymmetricWalls s.walls s.maze_width s.maze_height
  goals : GoalsInGrid s
  field : ComputedField s

/-- The goal cells of a 16 x 16 maze. -/
def goals16 : Nat → Position
  | 0 => ⟨7, 7⟩
  | 1 => ⟨8, 7⟩
  | 2 => ⟨7, 8⟩
  | _ => ⟨8, 8⟩

/-- The BFS of `calculate_distances` on the empty 16 x 16 maze, run with fuel 261. -/
def field16 : Option BfsState :=
  bfs_loop [] 16 16 261 (bfs_init goals16)

/-- Manhattan distance from `(x, y)` to the nearest goal cell of a 16 x 16 maze. -/
def nearestGoal16 (x y : Int) : Nat :=
  min (min (manhattan_distance x y 7 7) (manhattan_distance x y 8 7))
    (min (manhattan_distance x y 7 8) (manhattan_distance x y 8 8))

/-- The state at program start: every static variable is zero and the DFS stack is empty
(`stack_top = -1`). -/
def powerOn : State :=
  { mouse_x := 0, mouse_y := 0, mouse_dir := 0, maze_width := 0, maze_height := 0, walls := [],
    visited := fun _ _ => false, distances := fun _ _ => 0, goal_cells := fun _ => ⟨0, 0⟩,
    dfs_stack := [], phase := 0, exploration_done := false, path_to_start := [], path_index := 0,
    path_length := 0, optimal_run_started := false, initialized := false }

/-- A host reporting a `w x h` maze, the given sensor readings and the given result of
`API_moveForward`. -/
def host (w h : Int) (front left right moveOk : Bool) : Host :=
  { mazeWidth := w, mazeHeight := h, wallFront := front, wallLeft := left, wallRight := right,
    moveForward := moveOk }

/-- The command sequences `turn_to_direction` can issue from a heading in `0 .. 3`. -/
def turnSequences : List (List Cmd) :=
  [[], [Cmd.turnRight], [Cmd.turnLeft], [Cmd.turnRight, Cmd.turnRight]]

/-- Distances of the open in-bounds neighbours of `(x, y)`: the neighbour in direction `d` is
open when `has_wall(x, y, d)` is false. -/
def openNeighbourDistances (s : State) (x y : Int) : List Nat :=
  (List.range 4).filterMap (fun d =>
    if inb s.maze_width s.maze_height (nbr ⟨x, y⟩ d) ∧ has_wall s.walls x y d = false then
      some (s.distances (x + dx d) (y + dy d))
    else none)

/-- The field is consistent at `(x, y)`: the distance there is one more than the least distance
among the open in-bounds neighbours. -/
def ConsistentAt (s : State) (x y : Int) : Prop :=
  match (openNeighbourDistances s x y).min? with
  | some m => s.distances x y = 1 + m
  | none => False

instance (s : State) (x y : Int) : Decidable (ConsistentAt s x y) := by
  unfold ConsistentAt
  split <;> infer_instance

/-- A phase-2 state of a `4 x 4` maze in which greedy descent is stuck at the origin: the
distance field is constant, so no neighbour improves on the current cell. -/
def stuckState : State :=
  { powerOn with
    maze_width := 4, maze_height := 4, phase := 2, initialized := true
    goal_cells := fun i =>
      match i with
      | 0 => ⟨1, 1⟩
      | 1 => ⟨2, 1⟩
      | 2 => ⟨1, 2⟩
      | _ => ⟨2, 2⟩
    dfs_stack := [⟨0, 0⟩] }

/-- A phase-0 state of a `2 x 2` maze whose mouse stands in the cell `(1, 1)` with a wall
recorded on each of its four sides and a one-element stack. -/
def sealedState : State :=
  { powerOn with
    mouse_x := 1, mouse_y := 1, maze_width := 2, maze_height := 2, initialized := true
    walls := [⟨1, 1, 0⟩, ⟨1, 1, 1⟩, ⟨1, 1, 2⟩, ⟨1, 1, 3⟩]
    visited := fun _ _ => true
    goal_cells := fun i =>
      match i with
      | 0 => ⟨0, 0⟩
      | 1 => ⟨1, 0⟩
      | 2 => ⟨0, 1⟩
      | _ => ⟨1, 1⟩
    dfs_stack := [⟨1, 1⟩] }

/-- The state after sensing in a phase-0 call: the current cell is marked visited, the sensed
walls are recorded and the goal flag is updated. -/
def sensed (s : State) (hst : Host) : State :=
  let s2 := sense_walls { s with visited := set2 s.visited s.mouse_x s.mouse_y true } hst
  if is_goal s2.goal_cells s2.mouse_x s2.mouse_y && !s2.exploration_done then
    { s2 with exploration_done := true }
  else s2

/-- The solver after `init_solver` in a `4 x 4` maze with the single recorded wall
`(0, 1, East)`: the wall is recorded on the west cell only, as `sense_walls` does. -/
def oneSidedWall : State :=
  { init_solver powerOn (host 4 4 false false false true) with walls := [⟨0, 1, 1⟩] }

/-- The solver after `init_solver` in a `4 x 4` maze without recorded walls, the mouse at the
origin. -/
def open4 : State :=
  init_solver powerOn (host 4 4 false false false true)

/-- The solver in phase 2 at the origin of the empty `4 x 4` maze, with the distance field
computed by `calculate_distances`. -/
def ready4 : State :=
  match calculate_distances 300 open4 with
  | some t => { t with phase := 2 }
  | none => open4

/-- The solver in phase 2 at the origin of an empty `6 x 2` maze, with the distance field
computed by `calculate_distances`. -/
def ready6x2 : State :=
  match calculate_distances 300 (init_solver powerOn (host 6 2 false false false true)) with
  | some t => { t with phase := 2 }
  | none => powerOn

/-- Shape of the outcome of one call: the action is `IDLE` and the commands are at most two
turns, optionally followed by one forward move. -/
def CallShape (r : Result) : Prop :=
  r.action = Action.IDLE ∧
    ∃ t, t ∈ turnSequences ∧ (r.cmds = t ∨ r.cmds = t ++ [Cmd.moveForward])

/-- Greedy descent finds no improving neighbour at the current cell: every open in-bounds
neighbour has a distance at least that of the current cell. -/
def NoImprovingNeighbour (s : State) : Prop :=
  ∀ d, d < 4 → has_wall s.walls s.mouse_x s.mouse_y d = false →
    inb s.maze_width s.maze_height (nbr ⟨s.mouse_x, s.mouse_y⟩ d) →
    s.distances s.mouse_x s.mouse_y ≤ s.distances (s.mouse_x + dx d) (s.mouse_y + dy d)

end Hybrid

end Micromouse

namespace Micromouse

/-! ## Further definitions: wall recording of the flood-fill solver, exploration runs -/

namespace FloodFill

/-- The function `addWall`: sets `walls[py][px][dir]` and, when the neighbour in direction `dir`
is in bounds, the mirror entry of the neighbour. -/
def addWall (s : State) (px py : Int) (dir : Nat) : State :=
  let w1 := setWall s.walls py px dir
  let nx := px + dx dir
  let ny := py + dy dir
  if nx ≥ 0 ∧ nx < s.mazeWidth ∧ ny ≥ 0 ∧ ny < s.mazeHeight then
    { s with walls := setWall w1 ny nx ((dir + 2) % 4) }
  else { s with walls := w1 }

/-- The function `scanWalls`: front, right and left sensor, in this order. -/
def scanWalls (s : State) (hst : Host) : State :=
  let s1 := if hst.wallFront then addWall s s.x s.y s.direction else s
  let s2 := if hst.wallRight then addWall s1 s1.x s1.y ((s1.direction + 1) % 4) else s1
  if hst.wallLeft then addWall s2 s2.x s2.y ((s2.direction + 3) % 4) else s2

/-- The entry `walls[c][d]` is one that `scanWalls` sets at the cell `cell` with heading `hd`
and sensor readings `front`, `left`, `right`: the sensed side of `cell` itself, or the opposite
side of the in-bounds neighbour behind a sensed wall. -/
def ScanSets (w h : Int) (cell : Position) (hd : Nat) (front left right : Bool) (c : Position)
    (d : Nat) : Prop :=
  ∃ e, ((front = true ∧ e = hd) ∨ (left = true ∧ e = (hd + 3) % 4) ∨
        (right = true ∧ e = (hd + 1) % 4)) ∧
    ((c = cell ∧ d = e) ∨ (inb w h (nbr cell e) ∧ c = nbr cell e ∧ d = (e + 2) % 4))

/-- The flood-fill solver at power-on: every static variable is zero. -/
def powerOn : State :=
  { x := 0, y := 0, direction := 0, mazeWidth := 0, mazeHeight := 0, distance := fun _ _ => 0,
    walls := fun _ _ _ => false, goalX := fun _ => 0, goalY := fun _ => 0, queue := [],
    queueHead := 0, mazeInitialized := false, initialized := false, steps := 0,
    goalReached := false }

end FloodFill

namespace Hybrid

/-- A sequence of calls of `floodFill`, one per host answer record: the final state and the
movement commands issued, in order. -/
def calls (fuel : Nat) : List Host → State → Option (State × List Cmd)
  | [], s => some (s, [])
  | hst :: rest, s =>
    match floodFill fuel s hst with
    | none => none
    | some r => (calls fuel rest r.state).map (fun p => (p.1, r.cmds ++ p.2))

/-- The states the solver can be in after `init_solver()` has run, in a maze reported as
`w x h`: the state after `init_solver()` in the first call, and the state after every call. -/
inductive Reachable (w h : Int) : State → Prop
  | first (hst : Host) : hst.mazeWidth = w → hst.mazeHeight = h →
      Reachable w h (init_solver powerOn hst)
  | call (fuel : Nat) (s : State) (hst : Host) (r : Result) :
      Reachable w h s → floodFill fuel s hst = some r → Reachable w h r.state

/-- The first direction in the order North, East, South, West whose neighbour is in bounds, not
visited and not separated from the current cell by a recorded wall of the current cell. -/
def firstOpenDir (s : State) : Option Nat :=
  (List.range 4).find? (fun d =>
    decide (inb s.maze_width s.maze_height (nbr ⟨s.mouse_x, s.mouse_y⟩ d)) &&
      !s.visited (s.mouse_x + dx d) (s.mouse_y + dy d) &&
      !has_wall s.walls s.mouse_x s.mouse_y d)

/-- Consecutive stack entries (top first) are grid neighbours, with no wall recorded on the
side of the lower entry that faces the upper entry. -/
def StackLinked (walls : List Wall) : List Position → Prop
  | [] => True
  | [_] => True
  | upper :: lower :: rest =>
    (∃ d, d < 4 ∧ nbr lower d = upper ∧ has_wall walls lower.x lower.y d = false) ∧
      StackLinked walls (lower :: rest)

/-- The frontier-stack invariant: the stack is non-empty, its bottom entry is the origin, its
top entry is the current position, its entries are distinct in-bounds cells, and consecutive
entries are linked. -/
structure StackInv (s : State) : Prop where
  bottom : s.dfs_stack.getLast? = some origin
  top : s.dfs_stack.head? = some ⟨s.mouse_x, s.mouse_y⟩
  nodup : s.dfs_stack.Nodup
  inside : ∀ c, c ∈ s.dfs_stack → inb s.maze_width s.maze_height c
  linked : StackLinked s.walls s.dfs_stack

/-- The invariant that carries `StackInv` through phase 0: in addition the solver is
initialised for a maze of `w x h` cells, the heading is in `0 .. 3` and every stack entry below
the top is visited. -/
structure StackReady (w h : Int) (s : State) : Prop where
  init : s.initialized = true
  dir_lt : s.mouse_dir < 4
  width : s.maze_width = w
  height : s.maze_height = h
  stack : StackInv s
  below : ∀ c, c ∈ s.dfs_stack.tail → s.visited c.x c.y = true

/-- The true maze: `wall x y d` tells whether the side `d` of the cell `(x, y)` is walled. -/
structure Maze where
  wall : Int → Int → Nat → Bool
  width : Int
  height : Int

/-- The true maze as a search problem from the origin. -/
def Maze.graph (M : Maze) : Bfs.Graph :=
  { blocked := M.wall, w := M.width, h := M.height, seeds := fun c => c = origin }

/-- The cell `c` can be reached from the origin by in-bounds steps through sides without
wall. -/
def Maze.Reaches (M : Maze) (c : Position) : Prop :=
  ∃ n, Bfs.Reach M.graph n c

/-- A static maze of size 2 .. 16 in each dimension whose walls are symmetric and whose outer
boundary is closed. -/
structure Maze.Valid (M : Maze) : Prop where
  width_ge : 2 ≤ M.width
  width_le : M.width ≤ 16
  height_ge : 2 ≤ M.height
  height_le : M.height ≤ 16
  symm : ∀ c d, d < 4 → inb M.width M.height c → inb M.width M.height (nbr c d) →
    M.wall c.x c.y d = M.wall (nbr c d).x (nbr c d).y ((d + 2) % 4)
  closed : ∀ c d, d < 4 → inb M.width M.height c → ¬ inb M.width M.height (nbr c d) →
    M.wall c.x c.y d = true

/-- Truthful host answers for a mouse that stands where the solver believes it stands: the
three sensors report the true walls and every move succeeds. -/
def Maze.host (M : Maze) (s : State) : Host :=
  { mazeWidth := M.width
    mazeHeight := M.height
    wallFront := M.wall s.mouse_x s.mouse_y s.mouse_dir
    wallLeft := M.wall s.mouse_x s.mouse_y ((s.mouse_dir + 3) % 4)
    wallRight := M.wall s.mouse_x s.mouse_y ((s.mouse_dir + 1) % 4)
    moveForward := true }

/-- The first `n` calls of `floodFill` from power-on (origin, heading north) in the maze `M`
with truthful answers: the state reached, and the cells entered by forward (non-backtrack)
moves of phase 0, in order. -/
def explorerRun (fuel : Nat) (M : Maze) : Nat → Option (State × List Position)
  | 0 => some (powerOn, [])
  | n + 1 =>
    match explorerRun fuel M n with
    | none => none
    | some (s, log) =>
      match floodFill fuel s (M.host s) with
      | none => none
      | some r =>
        some (r.state,
          if (init_solver s (M.host s)).phase = 0 ∧
              (get_unvisited_neighbors
                (sensed (init_solver s (M.host s)) (M.host s))).length > 0 then
            log ++ [⟨r.state.mouse_x, r.state.mouse_y⟩]
          else log)

/-- The wall list is duplicate-free and every recorded wall is a true wall on a side `0 .. 3`
of an in-bounds cell. -/
def WallsOK (M : Maze) (ws : List Wall) : Prop :=
  ws.Nodup ∧ ∀ wl, wl ∈ ws →
    wl.dir < 4 ∧ inb M.width M.height ⟨wl.x, wl.y⟩ ∧ M.wall wl.x wl.y wl.dir = true

/-- The invariant of the exploration phase in the maze `M` after `k` calls; `log` lists the
cells entered by forward moves and `E` is the set of cells entered so far. -/
structure ExpInv (M : Maze) (s : State) (k : Nat) (log : List Position)
    (E : Finset Position) : Prop where
  phase0 : s.phase = 0
  ready : StackReady M.width M.height s
  goals : [s.goal_cells 0, s.goal_cells 1, s.goal_cells 2, s.goal_cells 3].Nodup
  entered : ∀ c, c ∈ E ↔ (s.visited c.x c.y = true ∨ c = ⟨s.mouse_x, s.mouse_y⟩)
  reach : ∀ c, c ∈ E → M.Reaches c
  walls_ok : WallsOK M s.walls
  complete : ∀ c : Position, s.visited c.x c.y = true → ∀ d, d < 4 →
    M.wall c.x c.y d = true → has_wall s.walls c.x c.y d = true
  back_open : M.wall s.mouse_x s.mouse_y ((s.mouse_dir + 2) % 4) = false ∨
    ¬ inb M.width M.height (nbr ⟨s.mouse_x, s.mouse_y⟩ ((s.mouse_dir + 2) % 4))
  finished : ∀ c : Position, s.visited c.x c.y = true → c ∉ s.dfs_stack → ∀ d, d < 4 →
    M.wall c.x c.y d = false → s.visited (c.x + dx d) (c.y + dy d) = true
  count : k + s.dfs_stack.length + 1 = 2 * E.card
  log_nodup : log.Nodup
  log_sub : ∀ c, c ∈ log → c ∈ E ∧ c ≠ origin
  log_len : log.length + 1 = E.card

/-- The state in which phase 0 ends after `n` calls, with `log` the cells entered by forward
moves and `R` the set of cells reachable from the origin. -/
structure ExpDone (M : Maze) (R : Finset Position) (s : State) (n : Nat)
    (log : List Position) : Prop where
  phase1 : s.phase = 1
  at_origin : s.mouse_x = 0 ∧ s.mouse_y = 0
  path_empty : s.path_length = 0 ∧ s.path_index = 0
  stack : s.dfs_stack = [origin]
  covered : ∀ c : Position, s.visited c.x c.y = true ↔ c ∈ R
  calls : n + 1 = 2 * R.card
  walls_ok : WallsOK M s.walls
  complete : ∀ c : Position, c ∈ R → ∀ d, d < 4 →
    (has_wall s.walls c.x c.y d = true ↔ M.wall c.x c.y d = true)
  log_nodup : log.Nodup
  log_sub : ∀ c, c ∈ log → c ∈ R ∧ c ≠ origin
  log_len : log.length + 1 = R.card

/-- After `k` calls of the run the exploration invariant holds for the state in which the next
call starts its phase-0 block. -/
def ExploreAt (fuel : Nat) (M : Maze) (k : Nat) : Prop :=
  ∃ s log E, explorerRun fuel M k = some (s, log) ∧
    ExpInv M (init_solver s (M.host s)) k log E

/-- The run has ended phase 0 with its call number `n`. -/
def ExploreEnd (fuel : Nat) (M : Maze) (R : Finset Position) (n : Nat) : Prop :=
  ∃ s log, explorerRun fuel M n = some (s, log) ∧ ExpDone M R s n log

/-- The maze of `w x h` cells without inner walls. -/
def openMaze (w h : Int) : Maze :=
  { wall := fun x y d => decide (¬ inb w h (nbr ⟨x, y⟩ d)), width := w, height := h }

end Hybrid

end Micromouse

namespace Micromouse

/-! ## Further definitions: the stepping operations of the flood-fill solver, of the A* explorer
and of the two wall followers -/

namespace FloodFill

/-- Result of one call of `floodFill`: the returned action, the new global state and the
movement commands sent to the host, in order. -/
structure Result where
  action : Action
  state : State
  cmds : List Cmd

def isGoal (s : State) (px py : Int) : Bool :=
  (List.range 4).any (fun i => px == s.goalX i && py == s.goalY i)

/-- One pass of the body of `for (d ...)` in `getBestDirection`: the pair is
`(minDist, bestDir)`, with `none` for `bestDir = -1`. -/
def bestStep (s : State) (acc : Nat × Option Nat) (d : Nat) : Nat × Option Nat :=
  if s.walls s.y s.x d then acc
  else
    let nx := s.x + dx d
    let ny := s.y + dy d
    if nx < 0 ∨ nx ≥ s.mazeWidth ∨ ny < 0 ∨ ny ≥ s.mazeHeight then acc
    else if s.distance ny nx < acc.1 then (s.distance ny nx, some d)
    else acc

def getBestDirection (s : State) : Option Nat :=
  ((List.range 4).foldl (bestStep s) (INF, none)).2

/-- The loop of `turnTo`: returns the final heading and the commands issued. -/
def turnTo : Nat → Nat → Nat → List Cmd → Option (Nat × List Cmd)
  | 0, _, _, _ => none
  | fuel + 1, direction, targetDir, cmds =>
    if direction = targetDir then some (direction, cmds)
    else
      let diff := Int.tmod ((targetDir : Int) - (direction : Int) + 4) 4
      if diff = 1 then
        turnTo fuel ((direction + 1) % 4) targetDir (cmds ++ [Cmd.turnRight])
      else if diff = 3 then
        turnTo fuel ((direction + 3) % 4) targetDir (cmds ++ [Cmd.turnLeft])
      else
        turnTo fuel ((direction + 2) % 4) targetDir (cmds ++ [Cmd.turnRight, Cmd.turnRight])

/-- One pass of the body of `for (d ...)` in the consistency check of `floodFill`: the
accumulator is `minNeighborDist`. -/
def minStep (s : State) (minNeighborDist : Nat) (d : Nat) : Nat :=
  if s.walls s.y s.x d then minNeighborDist
  else
    let nx := s.x + dx d
    let ny := s.y + dy d
    if nx ≥ 0 ∧ nx < s.mazeWidth ∧ ny ≥ 0 ∧ ny < s.mazeHeight then
      if s.distance ny nx < minNeighborDist then s.distance ny nx else minNeighborDist
    else minNeighborDist

/-- The block `if (!initialized) { initMaze(); floodFillDistances(); initialized = 1; }` of
`floodFill`. -/
def startup (fuel : Nat) (s : State) (hst : Host) : Option State :=
  if s.initialized then some s
  else (floodFillDistances fuel (initMaze s hst)).map (fun t => { t with initialized := true })

/-- The part of `floodFill` from `scanWalls()` to the reflood: the state in which the move is
chosen and executed. -/
def reflooded (fuel : Nat) (s : State) (hst : Host) : Option State :=
  let s2 := scanWalls s hst
  let currentDist := s2.distance s2.y s2.x
  let minNeighborDist := (List.range 4).foldl (minStep s2) INF
  if minNeighborDist ≠ INF ∧ currentDist ≠ minNeighborDist + 1 then floodFillDistances fuel s2
  else some s2

/-- The stepping operation `floodFill` (also reached through `solver`). -/
def floodFill (fuel : Nat) (s0 : State) (hst : Host) : Option Result :=
  match startup fuel s0 hst with
  | none => none
  | some s1 =>
    if s1.goalReached then some { action := Action.IDLE, state := s1, cmds := [] }
    else if isGoal s1 s1.x s1.y then
      some { action := Action.IDLE, state := { s1 with goalReached := true }, cmds := [] }
    else
      match reflooded fuel s1 hst with
      | none => none
      | some s3 =>
        match getBestDirection s3 with
        | none => some { action := Action.IDLE, state := s3, cmds := [] }
        | some bestDir =>
          (turnTo fuel s3.direction bestDir []).map (fun t =>
            if hst.moveForward then
              { action := Action.IDLE
                state :=
                  { s3 with
                    direction := t.1, steps := s3.steps + 1, x := s3.x + dx t.1, y := s3.y + dy t.1 }
                cmds := t.2 ++ [Cmd.moveForward] }
            else
              { action := Action.IDLE
                state := { s3 with direction := t.1 }
                cmds := t.2 ++ [Cmd.moveForward] })

/-- The side `d` of the current cell is open: no wall recorded on it and the neighbour behind
it is in bounds. -/
def OpenSide (s : State) (d : Nat) : Prop :=
  d < 4 ∧ s.walls s.y s.x d = false ∧ inb s.mazeWidth s.mazeHeight (nbr ⟨s.x, s.y⟩ d)

/-- The distance stored for the neighbour of the current cell in direction `d`. -/
def sideDist (s : State) (d : Nat) : Nat :=
  s.distance (s.y + dy d) (s.x + dx d)

/-- The field is consistent at the current cell: `distance[current]` is one more than the
least distance among the open in-bounds neighbours. -/
def Consistent (s : State) : Prop :=
  ∃ m, (∃ d, OpenSide s d ∧ sideDist s d = m) ∧ (∀ d, OpenSide s d → m ≤ sideDist s d) ∧
    s.distance s.y s.x = 1 + m

/-- The flood-fill solver at the origin of a `4 x 4` maze after its initialisation block, with
the boundary walls of `initMaze` and a stale distance field. -/
def start4 : State :=
  { initMaze powerOn (Hybrid.host 4 4 false true false true) with initialized := true }

/-- The flood-fill solver in a `4 x 4` maze with the boundary walls of `initMaze` and three
inner walls recorded by `addWall`: east of `(0, 1)`, north of `(0, 0)` and east of `(0, 0)`.
The origin is walled in, and the cell `(0, 1)` is cut off from the goal cell `(1, 1)` next to
it. -/
def walled4 : State :=
  addWall (addWall (addWall start4 0 1 1) 0 0 0) 0 0 1

end FloodFill

/-! ## The A* explorer (`A*/solver.c`) -/

namespace AStar

/-- Global state of the A* explorer.  `walls y x d` is `walls[y][x][d]`, `visited y x` is
`visited[y][x]`, `stack` holds `(stackX[i], stackY[i])` for `i < stackSize` with the top entry
first, `complete` tells whether `state` is `STATE_COMPLETE`, `initialized` is the static flag of
`initMaze`; `cellsExplored`, `moveDirection` (`none` for -1) and `isBacktracking` are the
statics of `explorePhase`. -/
structure State where
  x : Int
  y : Int
  direction : Nat
  mazeWidth : Int
  mazeHeight : Int
  walls : Int → Int → Nat → Bool
  visited : Int → Int → Bool
  stack : List Position
  goalX : Nat → Int
  goalY : Nat → Int
  goalFound : Bool
  complete : Bool
  waitingForMove : Bool
  initialized : Bool
  cellsExplored : Nat
  moveDirection : Option Nat
  isBacktracking : Bool

/-- Result of one call of `solver` or `explorePhase`. -/
structure Result where
  action : Action
  state : State
  cmds : List Cmd

/-- The A* explorer at power-on: the initial values of the static variables. -/
def powerOn : State :=
  { x := 0, y := 0, direction := 0, mazeWidth := 0, mazeHeight := 0,
    walls := fun _ _ _ => false, visited := fun _ _ => false, stack := [],
    goalX := fun _ => 0, goalY := fun _ => 0, goalFound := false, complete := false,
    waitingForMove := false, initialized := false, cellsExplored := 0, moveDirection := none,
    isBacktracking := false }

def initMaze (s : State) (hst : Host) : State :=
  if s.initialized then s
  else
    let centerX := Int.tdiv hst.mazeWidth 2
    let centerY := Int.tdiv hst.mazeHeight 2
    { s with
      mazeWidth := hst.mazeWidth
      mazeHeight := hst.mazeHeight
      walls := fun _ _ _ => false
      visited := fun _ _ => false
      goalX := fun i =>
        match i with
        | 0 => centerX - 1
        | 1 => centerX
        | 2 => centerX - 1
        | 3 => centerX
        | j => s.goalX j
      goalY := fun i =>
        match i with
        | 0 => centerY - 1
        | 1 => centerY - 1
        | 2 => centerY
        | 3 => centerY
        | j => s.goalY j
      stack := [⟨0, 0⟩]
      initialized := true }

def isGoal (s : State) (px py : Int) : Bool :=
  (List.range 4).any (fun i => px == s.goalX i && py == s.goalY i)

/-- Assignment `walls[y][x][d] = 1`. -/
def setWall (walls : Int → Int → Nat → Bool) (y x : Int) (d : Nat) : Int → Int → Nat → Bool :=
  fun i j e => if i = y ∧ j = x ∧ e = d then true else walls i j e

/-- The function `senseWalls`: front, left and right sensor, in this order, without mirror
entries. -/
def senseWalls (s : State) (hst : Host) : State :=
  let w1 := if hst.wallFront then setWall s.walls s.y s.x s.direction else s.walls
  let w2 := if hst.wallLeft then setWall w1 s.y s.x ((s.direction + 3) % 4) else w1
  let w3 := if hst.wallRight then setWall w2 s.y s.x ((s.direction + 1) % 4) else w2
  { s with walls := w3 }

/-- The loop of `turnToDirection`: returns the final heading and the commands issued. -/
def turnToDirection : Nat → Nat → Nat → List Cmd → Option (Nat × List Cmd)
  | 0, _, _, _ => none
  | fuel + 1, direction, targetDir, cmds =>
    if direction = targetDir then some (direction, cmds)
    else
      let diff := Int.tmod ((targetDir : Int) - (direction : Int) + 4) 4
      if diff = 1 then
        turnToDirection fuel ((direction + 1) % 4) targetDir (cmds ++ [Cmd.turnRight])
      else if diff = 3 then
        turnToDirection fuel ((direction + 3) % 4) targetDir (cmds ++ [Cmd.turnLeft])
      else
        turnToDirection fuel ((direction + 2) % 4) targetDir
          (cmds ++ [Cmd.turnRight, Cmd.turnRight])

/-- The first direction accepted by the loop "try unvisited neighbor" of `explorePhase`: the
neighbour is in bounds, not visited and not behind a recorded wall of the current cell. -/
def firstUnvisited (s : State) : Option Nat :=
  (List.range 4).find? (fun d =>
    decide (s.x + dx d ≥ 0 ∧ s.x + dx d < s.mazeWidth ∧ s.y + dy d ≥ 0 ∧
      s.y + dy d < s.mazeHeight) &&
      !s.visited (s.y + dy d) (s.x + dx d) && !s.walls s.y s.x d)

/-- The state of `explorePhase` after the current cell has been marked visited and its walls
have been sensed. -/
def processed (s : State) (hst : Host) : State :=
  senseWalls
    { s with visited := set2 s.visited s.y s.x true, cellsExplored := s.cellsExplored + 1 } hst

/-- The function `explorePhase`.  Reading `dx[moveDirection]` with `moveDirection = -1` and
writing `stackX[256]` are accesses outside their arrays and yield `none`. -/
def explorePhase (fuel : Nat) (s : State) (hst : Host) : Option Result :=
  if s.waitingForMove then
    match s.moveDirection with
    | none => none
    | some md =>
      let x := s.x + dx md
      let y := s.y + dy md
      if s.isBacktracking then
        some
          { action := Action.IDLE
            state :=
              { s with
                x := x, y := y, waitingForMove := false, moveDirection := none
                isBacktracking := false }
            cmds := [] }
      else if s.stack.length < 256 then
        some
          { action := Action.IDLE
            state :=
              { s with
                x := x, y := y, stack := ⟨x, y⟩ :: s.stack, waitingForMove := false
                moveDirection := none, isBacktracking := false }
            cmds := [] }
      else none
  else
    let s1 := processed s hst
    if !s1.goalFound && isGoal s1 s1.x s1.y then
      some { action := Action.IDLE, state := { s1 with goalFound := true, complete := true }, cmds := [] }
    else
      match firstUnvisited s1 with
      | some d =>
        (turnToDirection fuel s1.direction d []).map (fun t =>
          { action := Action.FORWARD
            state := { s1 with direction := t.1, moveDirection := some d, waitingForMove := true }
            cmds := t.2 })
      | none =>
        if s1.stack.length > 1 then
          let prev := s1.stack.tail.headD ⟨0, 0⟩
          let s2 := { s1 with stack := s1.stack.tail }
          match (List.range 4).find? (fun d => s2.x + dx d == prev.x && s2.y + dy d == prev.y) with
          | some d =>
            (turnToDirection fuel s2.direction d []).map (fun t =>
              { action := Action.FORWARD
                state :=
                  { s2 with
                    direction := t.1, moveDirection := some d, isBacktracking := true
                    waitingForMove := true }
                cmds := t.2 })
          | none => some { action := Action.IDLE, state := { s2 with complete := true }, cmds := [] }
        else some { action := Action.IDLE, state := { s1 with complete := true }, cmds := [] }

/-- The stepping operation `solver`. -/
def solver (fuel : Nat) (s0 : State) (hst : Host) : Option Result :=
  let s := initMaze s0 hst
  if s.complete then some { action := Action.IDLE, state := s, cmds := [] }
  else explorePhase fuel s hst

/-- The states the A* explorer can be in after `initMaze()` has run, in a maze reported as
`w x h`: the state after `initMaze()` in the first call, and the state after every call of
`solver`. -/
inductive Reachable (w h : Int) : State → Prop
  | first (hst : Host) : hst.mazeWidth = w → hst.mazeHeight = h →
      Reachable w h (initMaze powerOn hst)
  | call (fuel : Nat) (s : State) (hst : Host) (r : Result) :
      Reachable w h s → solver fuel s hst = some r → Reachable w h r.state

end AStar

/-! ## The wall followers (`LeftHandRule/solver.c`, `RightHandRule/solver.c`) -/

/-- Global state of a wall follower: the static variables `x`, `y`, `direction`, `steps` and
`goalReached` of either file. -/
structure Follower where
  x : Int
  y : Int
  direction : Nat
  steps : Nat
  goalReached : Bool
deriving DecidableEq

/-- Result of one call of a wall follower. -/
structure FollowerResult where
  action : Action
  state : Follower
  cmds : List Cmd
deriving DecidableEq

/-- A wall follower at power-on: origin, heading north. -/
def Follower.powerOn : Follower :=
  { x := 0, y := 0, direction := 0, steps := 0, goalReached := false }

namespace LeftHandRule

def isGoal (s : Follower) (hst : Host) : Bool :=
  let centerX := Int.tdiv hst.mazeWidth 2
  let centerY := Int.tdiv hst.mazeHeight 2
  (s.x == centerX - 1 || s.x == centerX) && (s.y == centerY - 1 || s.y == centerY)

def leftWallFollower (s : Follower) (hst : Host) : FollowerResult :=
  if !s.goalReached && isGoal s hst then
    { action := Action.IDLE, state := { s with goalReached := true }, cmds := [] }
  else if !hst.wallLeft then
    let direction := (s.direction + 3) % 4
    if hst.moveForward then
      { action := Action.IDLE
        state :=
          { s with
            direction := direction, steps := s.steps + 1, x := s.x + dx direction
            y := s.y + dy direction }
        cmds := [Cmd.turnLeft, Cmd.moveForward] }
    else
      { action := Action.IDLE, state := { s with direction := direction }
        cmds := [Cmd.turnLeft, Cmd.moveForward] }
  else if !hst.wallFront then
    if hst.moveForward then
      { action := Action.IDLE
        state :=
          { s with steps := s.steps + 1, x := s.x + dx s.direction, y := s.y + dy s.direction }
        cmds := [Cmd.moveForward] }
    else { action := Action.IDLE, state := s, cmds := [Cmd.moveForward] }
  else if !hst.wallRight then
    { action := Action.IDLE, state := { s with direction := (s.direction + 1) % 4 }
      cmds := [Cmd.turnRight] }
  else
    { action := Action.IDLE, state := { s with direction := (s.direction + 1) % 4 }
      cmds := [Cmd.turnRight] }

/-- The stepping operation `solver` of the left-hand follower. -/
def solver (s : Follower) (hst : Host) : FollowerResult :=
  leftWallFollower s hst

end LeftHandRule

namespace RightHandRule

def isGoal (s : Follower) (hst : Host) : Bool :=
  let centerX := Int.tdiv hst.mazeWidth 2
  let centerY := Int.tdiv hst.mazeHeight 2
  (s.x == centerX - 1 || s.x == centerX) && (s.y == centerY - 1 || s.y == centerY)

def rightWallFollower (s : Follower) (hst : Host) : FollowerResult :=
  if !s.goalReached && isGoal s hst then
    { action := Action.IDLE, state := { s with goalReached := true }, cmds := [] }
  else if !hst.wallRight then
    let direction := (s.direction + 1) % 4
    if hst.moveForward then
      { action := Action.IDLE
        state :=
          { s with
            direction := direction, steps := s.steps + 1, x := s.x + dx direction
            y := s.y + dy direction }
        cmds := [Cmd.turnRight, Cmd.moveForward] }
    else
      { action := Action.IDLE, state := { s with direction := direction }
        cmds := [Cmd.turnRight, Cmd.moveForward] }
  else if !hst.wallFront then
    if hst.moveForward then
      { action := Action.IDLE
        state :=
          { s with steps := s.steps + 1, x := s.x + dx s.direction, y := s.y + dy s.direction }
        cmds := [Cmd.moveForward] }
    else { action := Action.IDLE, state := s, cmds := [Cmd.moveForward] }
  else if !hst.wallLeft then
    { action := Action.IDLE, state := { s with direction := (s.direction + 3) % 4 }
      cmds := [Cmd.turnLeft] }
  else
    { action := Action.IDLE, state := { s with direction := (s.direction + 1) % 4 }
      cmds := [Cmd.turnRight] }

/-- The stepping operation `solver` of the right-hand follower. -/
def solver (s : Follower) (hst : Host) : FollowerResult :=
  rightWallFollower s hst

end RightHandRule

namespace Hybrid

/-- The function `turn_to_direction` on the global state: its loop reads and writes
`mouse_dir` only. -/
def turn_to_direction_state (fuel : Nat) (s : State) (target_dir : Nat) :
    Option (State × List Cmd) :=
  (turn_to_direction fuel s.mouse_dir target_dir []).map
    (fun t => ({ s with mouse_dir := t.1 }, t.2))

/-- Distances of the in-bounds neighbours of `(x, y)` from which `(x, y)` can be entered: the
neighbour `n` in direction `d` counts when `has_wall(n.x, n.y, (d + 2) % 4)` is false, that is,
the wall is read on the side of the neighbour. -/
def enteringNeighbourDistances (s : State) (x y : Int) : List Nat :=
  (List.range 4).filterMap (fun d =>
    if inb s.maze_width s.maze_height (nbr ⟨x, y⟩ d) ∧
        has_wall s.walls (x + dx d) (y + dy d) ((d + 2) % 4) = false then
      some (s.distances (x + dx d) (y + dy d))
    else none)

/-- The field is consistent at `(x, y)` when walls are read on the side of the neighbour: the
distance there is one more than the least distance among the in-bounds neighbours from which
`(x, y)` can be entered. -/
def EnteredConsistentAt (s : State) (x y : Int) : Prop :=
  match (enteringNeighbourDistances s x y).min? with
  | some m => s.distances x y = 1 + m
  | none => False

instance (s : State) (x y : Int) : Decidable (EnteredConsistentAt s x y) := by
  unfold EnteredConsistentAt
  split <;> infer_instance

/-- Entering paths `EnteredPath s n c`: a path of `n` unit steps leads from `c` to a goal cell, each step
entering an in-bounds neighbour through a side on which that neighbour has no recorded wall. -/
inductive EnteredPath (s : State) : Nat → Position → Prop
  | here (c : Position) : is_goal s.goal_cells c.x c.y = true → EnteredPath s 0 c
  | step (n : Nat) (c : Position) (d : Nat) : d < 4 →
      inb s.maze_width s.maze_height (nbr c d) →
      has_wall s.walls (nbr c d).x (nbr c d).y ((d + 2) % 4) = false →
      EnteredPath s n (nbr c d) → EnteredPath s (n + 1) c

/-- The solver after `init_solver` in a `4 x 4` maze with the mouse on the goal cell `(2, 2)`
and walls recorded on the south and west side of that cell. -/
def planFrom22 : State :=
  { open4 with mouse_x := 2, mouse_y := 2, walls := [⟨2, 2, 2⟩, ⟨2, 2, 3⟩] }

/-- The wall list holds no triple twice, and every triple names a side `0 .. 3` of a cell of
the `w x h` grid. -/
def WallsInGrid (w h : Int) (ws : List Wall) : Prop :=
  ws.Nodup ∧ ∀ wl, wl ∈ ws → wl.dir < 4 ∧ inb w h ⟨wl.x, wl.y⟩

end Hybrid

end Micromouse

namespace Micromouse

namespace Hybrid

/-! ## One call of `floodFill`: commands and failure handling -/

theorem turn_to_direction_spec (fuel dir tgt : Nat) (hd : dir < 4) (ht : tgt < 4)
    (r : Nat × List Cmd) (h : turn_to_direction fuel dir tgt [] = some r) :
    r.1 = tgt ∧ r.2 ∈ turnSequences := by
  match fuel with
  | 0 => simp [turn_to_direction] at h
  | 1 =>
    interval_cases dir <;> interval_cases tgt <;>
      simp [turn_to_direction, turnSequences, Int.tmod] at h ⊢ <;>
      (try (subst h; simp))
  | n + 2 =>
    interval_cases dir <;> interval_cases tgt <;>
      simp [turn_to_direction, turnSequences, Int.tmod] at h ⊢ <;>
      (try (subst h; simp))

theorem turn_to_direction_total (fuel dir tgt : Nat) (hd : dir < 4) (ht : tgt < 4)
    (hf : 2 ≤ fuel) : ∃ r, turn_to_direction fuel dir tgt [] = some r := by
  obtain ⟨n, rfl⟩ : ∃ n, fuel = n + 2 := ⟨fuel - 2, by omega⟩
  interval_cases dir <;> interval_cases tgt <;>
    simp [turn_to_direction, Int.tmod]

theorem dir_toward_lt (x y tx ty : Int) (d : Nat) (h : dir_toward x y tx ty = some d) :
    d < 4 := by
  unfold dir_toward at h
  have hm := List.mem_of_find?_eq_some h
  simpa using hm

theorem best_step_lt (s : State) (acc : Option Nat × Nat) (d : Nat) (hd : d < 4)
    (h : ∀ b, acc.1 = some b → b < 4) : ∀ b, (best_step s acc d).1 = some b → b < 4 := by
  intro b hb
  unfold best_step at hb
  dsimp only at hb
  split_ifs at hb
  · exact h b hb
  · exact h b hb
  · simp only [Option.some.injEq] at hb
    omega
  · exact h b hb

theorem best_dir_lt (s : State) (cd b : Nat)
    (h : ((List.range 4).foldl (best_step s) (none, cd)).1 = some b) : b < 4 := by
  have hr : List.range 4 = [0, 1, 2, 3] := by decide
  rw [hr] at h
  simp only [List.foldl] at h
  refine best_step_lt s _ 3 (by decide) ?_ b h
  refine best_step_lt s _ 2 (by decide) ?_
  refine best_step_lt s _ 1 (by decide) ?_
  refine best_step_lt s _ 0 (by decide) ?_
  simp

theorem sensed_mouse_dir (s : State) (hst : Host) : (sensed s hst).mouse_dir = s.mouse_dir := by
  unfold sensed sense_walls
  simp only []
  split_ifs <;> rfl

theorem explore_eq (fuel : Nat) (s0 : State) (hst : Host) :
    explore fuel s0 hst =
      (if (get_unvisited_neighbors (sensed s0 hst)).length > 0 then
        let s := sensed s0 hst
        let nx := ((get_unvisited_neighbors s).getD 0 ⟨0, 0⟩).x
        let ny := ((get_unvisited_neighbors s).getD 0 ⟨0, 0⟩).y
        let turned :=
          match dir_toward s.mouse_x s.mouse_y nx ny with
          | some d => turn_to_direction fuel s.mouse_dir d []
          | none => some (s.mouse_dir, [])
        turned.map (fun t =>
          { action := Action.IDLE
            state :=
              { s with
                mouse_dir := t.1
                mouse_x := nx
                mouse_y := ny
                dfs_stack := stack_push s.dfs_stack { x := nx, y := ny } }
            cmds := t.2 ++ [Cmd.moveForward] })
      else if (sensed s0 hst).dfs_stack.length > 1 then
        let s := sensed s0 hst
        let stack := s.dfs_stack.tail
        let prev := stack.headD ⟨0, 0⟩
        match dir_toward s.mouse_x s.mouse_y prev.x prev.y with
        | some d =>
          (turn_to_direction fuel s.mouse_dir d []).map (fun t =>
            { action := Action.IDLE
              state :=
                { s with dfs_stack := stack, mouse_dir := t.1, mouse_x := prev.x, mouse_y := prev.y }
              cmds := t.2 ++ [Cmd.moveForward] })
        | none => some { action := Action.IDLE, state := { s with dfs_stack := stack }, cmds := [] }
      else
        match calculate_distances fuel (sensed s0 hst) with
        | none => none
        | some sd =>
          match find_path_to_start fuel sd with
          | none => none
          | some (true, sp) =>
            some { action := Action.IDLE, state := { sp with phase := 1 }, cmds := [] }
          | some (false, sp) =>
            some { action := Action.IDLE, state := { sp with phase := 3 }, cmds := [] }) := by
  rfl

theorem explore_shape (fuel : Nat) (s0 : State) (hst : Host) (r : Result)
    (hd : s0.mouse_dir < 4) (h : explore fuel s0 hst = some r) : CallShape r := by
  rw [explore_eq] at h
  have hsd := sensed_mouse_dir s0 hst
  split_ifs at h with h1 h2
  · simp only [Option.map_eq_some'] at h
    obtain ⟨t, ht, rfl⟩ := h
    split at ht
    · next d hdt =>
      have := turn_to_direction_spec fuel _ d (by omega) (dir_toward_lt _ _ _ _ _ hdt) t ht
      exact ⟨rfl, t.2, this.2, Or.inr rfl⟩
    · next hdt =>
      simp only [Option.some.injEq] at ht
      subst ht
      exact ⟨rfl, [], by simp [turnSequences], Or.inr rfl⟩
  · simp only [] at h
    split at h
    · next d hdt =>
      simp only [Option.map_eq_some'] at h
      obtain ⟨t, ht, rfl⟩ := h
      have := turn_to_direction_spec fuel _ d (by omega) (dir_toward_lt _ _ _ _ _ hdt) t ht
      exact ⟨rfl, t.2, this.2, Or.inr rfl⟩
    · next hdt =>
      simp only [Option.some.injEq] at h
      subst h
      exact ⟨rfl, [], by simp [turnSequences], Or.inl rfl⟩
  · split at h
    · simp at h
    · split at h
      · simp at h
      · simp only [Option.some.injEq] at h
        subst h
        exact ⟨rfl, [], by simp [turnSequences], Or.inl rfl⟩
      · simp only [Option.some.injEq] at h
        subst h
        exact ⟨rfl, [], by simp [turnSequences], Or.inl rfl⟩

theorem return_to_start_shape (fuel : Nat) (s : State) (r : Result)
    (hd : s.mouse_dir < 4) (h : return_to_start fuel s = some r) : CallShape r := by
  unfold return_to_start at h
  split_ifs at h with h1
  · simp only [Option.map_eq_some'] at h
    obtain ⟨t, ht, rfl⟩ := h
    split at ht
    · next d hdt =>
      have := turn_to_direction_spec fuel _ d hd (dir_toward_lt _ _ _ _ _ hdt) t ht
      exact ⟨rfl, t.2, this.2, Or.inr rfl⟩
    · next hdt =>
      simp only [Option.some.injEq] at ht
      subst ht
      exact ⟨rfl, [], by simp [turnSequences], Or.inr rfl⟩
  · simp only [Option.map_eq_some'] at h
    obtain ⟨t, ht, rfl⟩ := h
    have := turn_to_direction_spec fuel _ 0 hd (by decide) t ht
    exact ⟨rfl, t.2, this.2, Or.inl rfl⟩

theorem run_optimal_shape (fuel : Nat) (s : State) (r : Result)
    (hd : s.mouse_dir < 4) (h : run_optimal fuel s = some r) : CallShape r := by
  unfold run_optimal at h
  split_ifs at h with h1
  · simp only [Option.some.injEq] at h
    subst h
    exact ⟨rfl, [], by simp [turnSequences], Or.inl rfl⟩
  · simp only [] at h
    split at h
    · next b hb =>
      simp only [Option.map_eq_some'] at h
      obtain ⟨t, ht, rfl⟩ := h
      have := turn_to_direction_spec fuel _ b hd (best_dir_lt _ _ _ hb) t ht
      exact ⟨rfl, t.2, this.2, Or.inr rfl⟩
    · simp only [Option.some.injEq] at h
      subst h
      exact ⟨rfl, [], by simp [turnSequences], Or.inl rfl⟩

theorem init_solver_mouse_dir (s : State) (hst : Host) :
    (init_solver s hst).mouse_dir = s.mouse_dir := by
  unfold init_solver
  split_ifs <;> rfl

theorem floodFill_shape (fuel : Nat) (s : State) (hst : Host) (r : Result)
    (hd : s.mouse_dir < 4) (h : floodFill fuel s hst = some r) : CallShape r := by
  unfold floodFill at h
  have hi := init_solver_mouse_dir s hst
  simp only [] at h
  split_ifs at h with h0 h1 h2
  · exact explore_shape fuel _ hst r (by omega) h
  · exact return_to_start_shape fuel _ r (by omega) h
  · exact run_optimal_shape fuel _ r (by omega) h
  · simp only [Option.some.injEq] at h
    subst h
    exact ⟨rfl, [], by simp [turnSequences], Or.inl rfl⟩

theorem best_step_stuck (s : State) (d : Nat) (hd : d < 4) (h : NoImprovingNeighbour s) :
    best_step s (none, s.distances s.mouse_x s.mouse_y) d =
      (none, s.distances s.mouse_x s.mouse_y) := by
  unfold best_step
  dsimp only
  split_ifs with h1 h2 h3
  · rfl
  · rfl
  · exfalso
    have := h d hd (by simpa using h1) (by unfold inb nbr; dsimp only; omega)
    omega
  · rfl

theorem best_dir_stuck (s : State) (h : NoImprovingNeighbour s) :
    ((List.range 4).foldl (best_step s) (none, s.distances s.mouse_x s.mouse_y)).1 = none := by
  have hr : List.range 4 = [0, 1, 2, 3] := by decide
  rw [hr]
  simp only [List.foldl]
  rw [best_step_stuck s 0 (by decide) h, best_step_stuck s 1 (by decide) h,
    best_step_stuck s 2 (by decide) h, best_step_stuck s 3 (by decide) h]

theorem run_optimal_stuck (fuel : Nat) (s : State)
    (hg : is_goal s.goal_cells s.mouse_x s.mouse_y = false) (h : NoImprovingNeighbour s) :
    run_optimal fuel s = some { action := Action.IDLE, state := s, cmds := [] } := by
  unfold run_optimal
  rw [hg]
  simp only [Bool.false_eq_true, if_false]
  rw [best_dir_stuck s h]

theorem explore_planner_failed (fuel : Nat) (s : State) (hst : Host)
    (hn : (get_unvisited_neighbors (sensed s hst)).length = 0)
    (hs : (sensed s hst).dfs_stack.length ≤ 1)
    (hp : ((calculate_distances fuel (sensed s hst)).bind (find_path_to_start fuel)).map
        Prod.fst = some false) :
    (explore fuel s hst).map (fun r => r.state.phase) = some 3 := by
  rw [explore_eq]
  rw [if_neg (by omega), if_neg (by omega)]
  cases hc : calculate_distances fuel (sensed s hst) with
  | none => simp [hc] at hp
  | some sd =>
    simp only [hc, Option.some_bind] at hp
    dsimp only
    cases hf : find_path_to_start fuel sd with
    | none => simp [hf] at hp
    | some p =>
      obtain ⟨b, sp⟩ := p
      simp only [hf, Option.map_some', Option.some.injEq] at hp
      subst hp
      rfl

end Hybrid

end Micromouse

namespace Micromouse

theorem set2_apply {α : Type} (a : Int → Int → α) (x y : Int) (v : α) (c : Position) :
    set2 a x y v c.x c.y = if c = ⟨x, y⟩ then v else a c.x c.y := by
  unfold set2
  by_cases h : c = ⟨x, y⟩
  · subst h
    simp
  · rw [if_neg h, if_neg]
    intro hxy
    apply h
    cases c
    simp_all

theorem set2_apply_pos {α : Type} (a : Int → Int → α) (p : Position) (v : α) (c : Position) :
    set2 a p.x p.y v c.x c.y = if c = p then v else a c.x c.y :=
  set2_apply a p.x p.y v c

theorem mem_gridCells (w h : Int) (c : Position) (hc : inb w h c) : c ∈ gridCells w h := by
  obtain ⟨x, y⟩ := c
  obtain ⟨h1, h2, h3, h4⟩ := hc
  dsimp only at h1 h2 h3 h4
  unfold gridCells
  rw [Finset.mem_image]
  refine ⟨(x.toNat, y.toNat), ?_, ?_⟩
  · rw [Finset.mem_product, Finset.mem_range, Finset.mem_range]
    constructor <;> dsimp only <;> omega
  · simp only [Position.mk.injEq]
    constructor <;> omega

theorem card_gridCells (w h : Int) : (gridCells w h).card ≤ w.toNat * h.toNat := by
  unfold gridCells
  refine le_trans Finset.card_image_le ?_
  rw [Finset.card_product, Finset.card_range, Finset.card_range]

theorem nodup_length_le_card (l : List Position) (s : Finset Position) (hn : l.Nodup)
    (hs : ∀ c ∈ l, c ∈ s) : l.length ≤ s.card := by
  rw [← List.toFinset_card_of_nodup hn]
  apply Finset.card_le_card
  intro c hc
  exact hs c (List.mem_toFinset.mp hc)

namespace Bfs

theorem Reach.rel {G : Graph} {n : Nat} {c : Position} (h : Reach G n c) : G.Rel c := by
  cases h with
  | seed c hs => exact Or.inr hs
  | step n u d _ ho => exact Or.inl ho.2.2

theorem at_set2 (st : GState) (x y : Int) (v : Nat) (q : List Position) (hd : Nat)
    (c : Position) :
    GState.at { dist := set2 st.dist x y v, queue := q, head := hd } c =
      if c = ⟨x, y⟩ then v else st.at c := by
  unfold GState.at
  exact set2_apply st.dist x y v c

theorem Mid.queue_le {G : Graph} {cells : Finset Position} {cur : Position} {cd j : Nat}
    {st : GState} (hM : Mid G cells cur cd j st) : st.queue.length ≤ cells.card :=
  nodup_length_le_card _ _ hM.nodup (fun c hc => hM.in_cells c (hM.queued c hc).1)

/-- When the body is about to enqueue a cell, its distance is still `INF`. -/
theorem Mid.fresh {G : Graph} {cells : Finset Position} {cur : Position} {cd j : Nat}
    {st : GState} (hM : Mid G cells cur cd j st) (hin : inb G.w G.h (nbr cur j))
    (hlt : cd + 1 < st.at (nbr cur j)) :
    st.at (nbr cur j) = INF ∧ nbr cur j ∉ st.queue ∧ ¬ G.seeds (nbr cur j) ∧ nbr cur j ≠ cur := by
  have hR : G.Rel (nbr cur j) := Or.inl hin
  have hle := hM.le_inf _ hR
  obtain ⟨A, B, hp, hA, hB, hall⟩ := hM.levels
  have hinf : st.at (nbr cur j) = INF := by
    by_contra hne
    have hfin : st.at (nbr cur j) < INF := lt_of_le_of_ne hle hne
    have := hall _ hR hfin
    omega
  have hnq : nbr cur j ∉ st.queue := by
    intro hq
    have := (hM.queued _ hq).2
    omega
  refine ⟨hinf, hnq, ?_, ?_⟩
  · intro hs
    have := hM.seeds_zero _ hs
    rw [this] at hinf
    exact absurd hinf (by decide)
  · intro he
    rw [he] at hnq
    exact hnq hM.cur_mem

/-- There is room in a queue of `cells.card` entries whenever the body enqueues. -/
theorem Mid.room {G : Graph} {cells : Finset Position} {cur : Position} {cd j : Nat}
    {st : GState} (hM : Mid G cells cur cd j st) (hin : inb G.w G.h (nbr cur j))
    (hlt : cd + 1 < st.at (nbr cur j)) : st.queue.length < cells.card := by
  obtain ⟨_, hnq, _, _⟩ := hM.fresh hin hlt
  have hnd : (st.queue ++ [nbr cur j]).Nodup := by
    rw [List.nodup_append]
    refine ⟨hM.nodup, List.nodup_singleton _, ?_⟩
    intro a ha hb
    rw [List.mem_singleton] at hb
    subst hb
    exact hnq ha
  have := nodup_length_le_card _ cells hnd (by
    intro c hc
    rw [List.mem_append, List.mem_singleton] at hc
    rcases hc with hc | hc
    · exact hM.in_cells c (hM.queued c hc).1
    · exact hM.in_cells c (hc ▸ Or.inl hin))
  rw [List.length_append, List.length_singleton] at this
  omega

/-- The invariant survives an enqueue. -/
theorem Mid.push {G : Graph} {cells : Finset Position} {cur : Position} {cd j : Nat}
    {st : GState} (hM : Mid G cells cur cd j st) (hj : j < 4)
    (hb : G.blocked cur.x cur.y j = false) (hin : inb G.w G.h (nbr cur j))
    (hlt : cd + 1 < st.at (nbr cur j)) :
    Mid G cells cur cd (j + 1) (gPush cur cd st j) := by
  obtain ⟨hinf, hnq, hns, hne⟩ := hM.fresh hin hlt
  have hR : G.Rel (nbr cur j) := Or.inl hin
  have hqle := hM.queue_le
  have hcard := hM.card_lt
  have hhead := hM.head_le
  have hcb := hM.cur_bound
  have hRcur : G.Rel cur := (hM.queued cur hM.cur_mem).1
  have hat : ∀ c, (gPush cur cd st j).at c = if c = nbr cur j then cd + 1 else st.at c :=
    fun c => at_set2 st _ _ _ _ _ c
  have hpend : (gPush cur cd st j).pending = st.pending ++ [nbr cur j] := by
    unfold GState.pending
    exact List.drop_append_of_le_length hM.head_le
  have hpq : ∀ a, a ∈ st.pending → a ≠ nbr cur j := by
    intro a ha han
    exact hnq (han ▸ List.mem_of_mem_drop ha)
  constructor
  · intro c hRc
    rw [hat]
    split_ifs
    · omega
    · exact hM.le_inf c hRc
  · intro c hRc hfin
    rw [hat] at hfin ⊢
    split_ifs at hfin ⊢ with hcn
    · subst hcn
      refine Reach.step cd cur j ?_ ⟨hj, hb, hin⟩
      have := hM.sound cur hRcur (by rw [hM.cur_at]; omega)
      rwa [hM.cur_at] at this
    · exact hM.sound c hRc hfin
  · intro c hs
    rw [hat, if_neg]
    · exact hM.seeds_zero c hs
    · intro hcn
      subst hcn
      exact hns hs
  · intro u d hRu hO hfin
    rw [hat] at hfin
    rw [hat u, hat (nbr u d), hpend]
    by_cases hun : u = nbr cur j
    · right; left
      rw [hun]
      simp
    · rw [if_neg hun] at hfin ⊢
      rcases hM.edges u d hRu hO hfin with h1 | h2 | ⟨h3, h4⟩
      · by_cases hvn : nbr u d = nbr cur j
        · exfalso
          rw [hvn, hinf] at h1
          have := hM.bound u hRu hfin
          omega
        · rw [if_neg hvn]
          left
          exact h1
      · right; left
        exact List.mem_append_left _ h2
      · by_cases hdj : d = j
        · left
          subst hdj
          subst h3
          rw [if_pos rfl, hM.cur_at]
        · right; right
          exact ⟨h3, by omega⟩
  · obtain ⟨A, B, hp, hA, hB, hall⟩ := hM.levels
    refine ⟨A, B ++ [nbr cur j], ?_, ?_, ?_, ?_⟩
    · rw [hpend, hp, List.append_assoc]
    · intro a ha
      rw [hat, if_neg (hpq a (by rw [hp]; exact List.mem_append_left _ ha))]
      exact hA a ha
    · intro b hb'
      rw [List.mem_append, List.mem_singleton] at hb'
      rcases hb' with hb' | hb'
      · rw [hat, if_neg (hpq b (by rw [hp]; exact List.mem_append_right _ hb'))]
        exact hB b hb'
      · rw [hat, if_pos hb']
    · intro c hRc hfin
      rw [hat] at hfin ⊢
      split_ifs at hfin ⊢ with hcn
      · exact le_refl _
      · exact hall c hRc hfin
  · show (st.queue ++ [nbr cur j]).Nodup
    rw [List.nodup_append]
    refine ⟨hM.nodup, List.nodup_singleton _, ?_⟩
    intro a ha hb'
    rw [List.mem_singleton] at hb'
    subst hb'
    exact hnq ha
  · intro c hc
    change c ∈ st.queue ++ [nbr cur j] at hc
    rw [List.mem_append, List.mem_singleton] at hc
    rw [hat]
    rcases hc with hc | hc
    · have hcn : c ≠ nbr cur j := fun h => hnq (h ▸ hc)
      rw [if_neg hcn]
      exact hM.queued c hc
    · rw [if_pos hc]
      exact ⟨hc ▸ hR, by omega⟩
  · intro c hRc hfin
    rw [hat] at hfin ⊢
    split_ifs at hfin ⊢ with hcn
    · exact hcb
    · exact hM.bound c hRc hfin
  · exact hcb
  · show st.head ≤ (st.queue ++ [nbr cur j]).length
    rw [List.length_append]
    omega
  · show cur ∈ st.queue ++ [nbr cur j]
    exact List.mem_append_left _ hM.cur_mem
  · rw [hat, if_neg (fun h => hne h.symm)]
    exact hM.cur_at
  · exact hM.in_cells
  · exact hM.card_lt

/-- The invariant survives a direction that enqueues nothing. -/
theorem Mid.skip {G : Graph} {cells : Finset Position} {cur : Position} {cd j : Nat}
    {st : GState} (hM : Mid G cells cur cd j st)
    (hc : ¬ (G.blocked cur.x cur.y j = false ∧ inb G.w G.h (nbr cur j) ∧
      cd + 1 < st.at (nbr cur j))) :
    Mid G cells cur cd (j + 1) st := by
  refine { hM with edges := ?_ }
  intro u d hRu hO hfin
  rcases hM.edges u d hRu hO hfin with h1 | h2 | ⟨h3, h4⟩
  · exact Or.inl h1
  · exact Or.inr (Or.inl h2)
  · by_cases hdj : d = j
    · left
      subst hdj
      subst h3
      rw [hM.cur_at]
      by_contra hlt
      exact hc ⟨hO.2.1, hO.2.2, by omega⟩
    · right; right
      exact ⟨h3, by omega⟩

theorem Mid.relax {G : Graph} {cells : Finset Position} {cur : Position} {cd j : Nat}
    {st : GState} (hM : Mid G cells cur cd j st) (hj : j < 4) :
    Mid G cells cur cd (j + 1) (gRelax G cur cd st j) := by
  unfold gRelax
  split_ifs with hc
  · exact hM.push hj hc.1 hc.2.1 hc.2.2
  · exact hM.skip hc

theorem range_four : List.range 4 = [0, 1, 2, 3] := by decide

theorem gRelax_head (G : Graph) (cur : Position) (cd : Nat) (st : GState) (d : Nat) :
    (gRelax G cur cd st d).head = st.head := by
  unfold gRelax
  split_ifs <;> rfl

theorem gRelax_all_head (G : Graph) (cur : Position) (cd : Nat) (st : GState) :
    ((List.range 4).foldl (gRelax G cur cd) st).head = st.head := by
  rw [range_four]
  simp only [List.foldl, gRelax_head]

theorem Mid.relax_all {G : Graph} {cells : Finset Position} {cur : Position} {cd : Nat}
    {st : GState} (hM : Mid G cells cur cd 0 st) :
    Mid G cells cur cd 4 ((List.range 4).foldl (gRelax G cur cd) st) := by
  rw [range_four]
  simp only [List.foldl]
  exact (((hM.relax (by decide)).relax (by decide)).relax (by decide)).relax (by decide)

theorem Inv.queue_bound {G : Graph} {cells : Finset Position} {st : GState}
    (hI : Inv G cells st) : st.queue.length ≤ cells.card :=
  nodup_length_le_card _ _ hI.nodup (fun c hc => hI.in_cells c (hI.queued c hc).1)

/-- Dequeuing the head establishes the invariant of the direction loop. -/
theorem Inv.pop {G : Graph} {cells : Finset Position} {st : GState} (hI : Inv G cells st)
    (hlt : st.head < st.queue.length) :
    Mid G cells (st.queue.getD st.head ⟨0, 0⟩) (st.at (st.queue.getD st.head ⟨0, 0⟩)) 0
      (gPop st) := by
  have hget : st.queue.getD st.head ⟨0, 0⟩ = st.queue[st.head] := List.getD_eq_getElem _ _ hlt
  have hpend : st.pending = st.queue.getD st.head ⟨0, 0⟩ :: (gPop st).pending := by
    unfold GState.pending gPop
    rw [hget]
    exact List.drop_eq_getElem_cons hlt
  have hmem : st.queue.getD st.head ⟨0, 0⟩ ∈ st.queue := by
    rw [hget]
    exact List.getElem_mem hlt
  have hq := hI.queued _ hmem
  constructor
  · exact hI.le_inf
  · exact hI.sound
  · exact hI.seeds_zero
  · intro u d hRu hO hfin
    rcases hI.edges u d hRu hO hfin with h1 | h2
    · exact Or.inl h1
    · rw [hpend, List.mem_cons] at h2
      rcases h2 with h2 | h2
      · exact Or.inr (Or.inr ⟨h2, Nat.zero_le _⟩)
      · exact Or.inr (Or.inl h2)
  · obtain ⟨k, A, B, hp, hA, hB, hall⟩ := hI.levels
    rw [hpend] at hp
    cases A with
    | nil =>
      rw [List.nil_append] at hp
      have hcur : st.at (st.queue.getD st.head ⟨0, 0⟩) = k + 1 :=
        hB _ (by rw [← hp]; exact List.mem_cons_self _ _)
      refine ⟨(gPop st).pending, [], by simp, ?_, by simp, ?_⟩
      · intro a ha
        show st.at a = _
        rw [hcur]
        exact hB a (by rw [← hp]; exact List.mem_cons_of_mem _ ha)
      · intro c hRc hfin
        have := hall c hRc hfin
        show st.at c ≤ _
        omega
    | cons a A' =>
      rw [List.cons_append, List.cons.injEq] at hp
      have hcur : st.at (st.queue.getD st.head ⟨0, 0⟩) = k := by
        rw [hp.1]
        exact hA a (List.mem_cons_self _ _)
      refine ⟨A', B, hp.2, ?_, ?_, ?_⟩
      · intro a' ha'
        show st.at a' = _
        rw [hcur]
        exact hA a' (List.mem_cons_of_mem _ ha')
      · intro b hb
        show st.at b = _
        rw [hcur]
        exact hB b hb
      · intro c hRc hfin
        show st.at c ≤ _
        rw [hcur]
        exact hall c hRc hfin
  · exact hI.nodup
  · exact hI.queued
  · intro c hRc hfin
    have := hI.bound c hRc hfin
    show st.at c ≤ st.head + 1
    omega
  · have := hI.bound _ hq.1 hq.2
    show _ ≤ st.head + 1
    omega
  · show st.head + 1 ≤ st.queue.length
    omega
  · exact hmem
  · rfl
  · exact hI.in_cells
  · exact hI.card_lt

theorem Mid.done {G : Graph} {cells : Finset Position} {cur : Position} {cd : Nat}
    {st : GState} (hM : Mid G cells cur cd 4 st) : Inv G cells st := by
  constructor
  · exact hM.le_inf
  · exact hM.sound
  · exact hM.seeds_zero
  · intro u d hRu hO hfin
    rcases hM.edges u d hRu hO hfin with h1 | h2 | ⟨_, h4⟩
    · exact Or.inl h1
    · exact Or.inr h2
    · have := hO.1
      omega
  · obtain ⟨A, B, h⟩ := hM.levels
    exact ⟨cd, A, B, h⟩
  · exact hM.nodup
  · exact hM.queued
  · exact hM.bound
  · exact hM.head_le
  · exact hM.in_cells
  · exact hM.card_lt

/-- One full pass of the `while` body preserves the loop invariant. -/
theorem Inv.body {G : Graph} {cells : Finset Position} {st : GState} (hI : Inv G cells st)
    (hlt : st.head < st.queue.length) :
    Inv G cells ((List.range 4).foldl
      (gRelax G (st.queue.getD st.head ⟨0, 0⟩) (st.at (st.queue.getD st.head ⟨0, 0⟩)))
      (gPop st)) :=
  (hI.pop hlt).relax_all.done

/-- With an empty queue every reachable cell holds a finite distance, at most the length of
any walk that reaches it. -/
theorem Inv.complete {G : Graph} {cells : Finset Position} {st : GState} (hI : Inv G cells st)
    (hend : st.queue.length ≤ st.head) (n : Nat) (c : Position) (hr : Reach G n c) :
    st.at c ≤ n ∧ st.at c < INF := by
  have hq := hI.queue_bound
  have hcard := hI.card_lt
  have hpend : st.pending = [] := by
    unfold GState.pending
    exact List.drop_eq_nil_of_le hend
  induction hr with
  | seed c hs =>
    rw [hI.seeds_zero c hs]
    exact ⟨le_refl _, by decide⟩
  | step n u d hr ho ih =>
    have hRu := hr.rel
    have hb := hI.bound u hRu ih.2
    have hhl := hI.head_le
    rcases hI.edges u d hRu ho ih.2 with h1 | h2
    · constructor <;> omega
    · rw [hpend] at h2
      exact absurd h2 (List.not_mem_nil _)

/-- With an empty queue the stored distances are the lengths of shortest walks from the seeds,
and `INF` marks exactly the cells no walk reaches. -/
theorem Inv.result {G : Graph} {cells : Finset Position} {st : GState} (hI : Inv G cells st)
    (hend : st.queue.length ≤ st.head) (c : Position) (hR : G.Rel c) :
    (st.at c < INF → Reach G (st.at c) c) ∧ (∀ n, Reach G n c → st.at c ≤ n) ∧
      (st.at c = INF ↔ ∀ n, ¬ Reach G n c) := by
  refine ⟨hI.sound c hR, fun n hr => (hI.complete hend n c hr).1, ?_⟩
  constructor
  · intro hinf n hr
    have := (hI.complete hend n c hr).2
    omega
  · intro hno
    by_contra hne
    have hfin : st.at c < INF := lt_of_le_of_ne (hI.le_inf c hR) hne
    exact hno _ (hI.sound c hR hfin)

/-- The state after seeding satisfies the loop invariant: the queue holds the distinct seeds,
which have distance 0, and every other cell has distance `INF`. -/
theorem Inv.init {G : Graph} {cells : Finset Position} {st : GState} (g : List Position)
    (hq : st.queue = g) (hhd : st.head = 0) (hnd : g.Nodup) (hseeds : ∀ c, G.seeds c ↔ c ∈ g)
    (hat : ∀ c, G.Rel c → st.at c = if c ∈ g then 0 else INF)
    (hcells : ∀ c, G.Rel c → c ∈ cells) (hcard : cells.card + 1 < INF) : Inv G cells st := by
  have hpend : st.pending = g := by
    unfold GState.pending
    rw [hq, hhd]
    rfl
  have hfin : ∀ c, G.Rel c → st.at c < INF → c ∈ g ∧ st.at c = 0 := by
    intro c hR hc
    rw [hat c hR] at hc ⊢
    split_ifs at hc ⊢ with hs
    · exact ⟨hs, rfl⟩
    · exact absurd hc (lt_irrefl _)
  constructor
  · intro c hR
    rw [hat c hR]
    split_ifs
    · exact Nat.zero_le _
    · exact le_refl _
  · intro c hR hc
    obtain ⟨hs, h0⟩ := hfin c hR hc
    rw [h0]
    exact Reach.seed c ((hseeds c).mpr hs)
  · intro c hs
    rw [hat c (Or.inr hs), if_pos ((hseeds c).mp hs)]
  · intro u d hR _ hc
    right
    rw [hpend]
    exact (hfin u hR hc).1
  · refine ⟨0, g, [], by rw [hpend, List.append_nil], ?_, by simp, ?_⟩
    · intro a ha
      rw [hat a (Or.inr ((hseeds a).mpr ha)), if_pos ha]
    · intro c hR hc
      rw [(hfin c hR hc).2]
      exact Nat.zero_le _
  · rw [hq]
    exact hnd
  · intro c hc
    rw [hq] at hc
    have hs := (hseeds c).mpr hc
    refine ⟨Or.inr hs, ?_⟩
    rw [hat c (Or.inr hs), if_pos hc]
    decide
  · intro c hR hc
    rw [(hfin c hR hc).2]
    exact Nat.zero_le _
  · rw [hhd]
    exact Nat.zero_le _
  · exact hcells
  · exact hcard

theorem nbr_back (c : Position) (d : Nat) (hd : d < 4) : nbr (nbr c d) ((d + 2) % 4) = c := by
  obtain ⟨x, y⟩ := c
  interval_cases d <;> simp [nbr, dx, dy]

theorem opp_lt (d : Nat) : (d + 2) % 4 < 4 := Nat.mod_lt _ (by decide)

/-- Under symmetric walls an open step can be walked in both directions. -/
theorem Graph.Symm.back {G : Graph} (hS : G.Symm) (c : Position) (d : Nat) (hd : d < 4)
    (hc : inb G.w G.h c) (hb : G.blocked c.x c.y d = false) (hn : inb G.w G.h (nbr c d)) :
    G.Open (nbr c d) ((d + 2) % 4) := by
  refine ⟨opp_lt d, ?_, ?_⟩
  · rw [← hS c d hd hc hn]
    exact hb
  · rw [nbr_back c d hd]
    exact hc

theorem Reach.toSeed {G : Graph} (hS : G.Symm) (hin : ∀ c, G.seeds c → inb G.w G.h c)
    {n : Nat} {c : Position} (hr : Reach G n c) : ToSeed G n c := by
  induction hr with
  | seed c hs => exact ToSeed.here c hs
  | step n u d hr ho ih =>
    have hu : inb G.w G.h u := by
      rcases hr.rel with h | h
      · exact h
      · exact hin u h
    have hback := hS.back u d ho.1 hu ho.2.1 ho.2.2
    refine ToSeed.step n (nbr u d) ((d + 2) % 4) hback.1 hback.2.1 hback.2.2 ?_
    rw [nbr_back u d ho.1]
    exact ih

theorem ToSeed.reach {G : Graph} (hS : G.Symm) {n : Nat} {c : Position} (ht : ToSeed G n c) :
    inb G.w G.h c → Reach G n c := by
  induction ht with
  | here c hs => exact fun _ => Reach.seed c hs
  | step n c d hd hb hn _ ih =>
    intro hc
    have hback := hS.back c d hd hc hb hn
    have := Reach.step n (nbr c d) ((d + 2) % 4) (ih hn) hback
    rwa [nbr_back c d hd] at this

end Bfs

end Micromouse

namespace Micromouse

namespace Hybrid

open Bfs

theorem card_floodCells (w h : Int) (g : Nat → Position) :
    (floodCells w h g).card ≤ w.toNat * h.toNat + 4 := by
  unfold floodCells
  refine le_trans (Finset.card_union_le _ _) ?_
  have h1 := card_gridCells w h
  have h2 : ((List.range 4).map g).toFinset.card ≤ 4 := by
    refine le_trans (List.toFinset_card_le _) ?_
    simp
  omega

theorem mem_floodCells (walls : List Wall) (w h : Int) (g : Nat → Position) (c : Position)
    (hc : (floodGraph walls w h g).Rel c) : c ∈ floodCells w h g := by
  unfold floodCells
  rw [Finset.mem_union]
  rcases hc with hc | ⟨i, hi, hc⟩
  · exact Or.inl (mem_gridCells w h c hc)
  · right
    rw [List.mem_toFinset, List.mem_map]
    exact ⟨i, List.mem_range.mpr hi, hc⟩

/-- While the invariant holds the guarded `queue_push` never drops a cell, so the body of the
direction loop agrees with the unbounded one. -/
theorem bfs_relax_toG (walls : List Wall) (w h : Int) (g : Nat → Position)
    (cells : Finset Position) (cur : Position) (cd j : Nat) (st : BfsState)
    (hM : Mid (floodGraph walls w h g) cells cur cd j st.toG) (hcap : cells.card ≤ MAX_QUEUE) :
    (bfs_relax walls w h cur cd st j).toG = gRelax (floodGraph walls w h g) cur cd st.toG j := by
  unfold bfs_relax gRelax
  dsimp only [floodGraph]
  by_cases hw : has_wall walls cur.x cur.y j = true
  · rw [if_pos hw, if_neg]
    rintro ⟨h1, -⟩
    rw [hw] at h1
    exact absurd h1 (by decide)
  · rw [if_neg hw]
    have hwf : has_wall walls cur.x cur.y j = false := by simpa using hw
    by_cases hb : cur.x + dx j < 0 ∨ cur.x + dx j ≥ w ∨ cur.y + dy j < 0 ∨ cur.y + dy j ≥ h
    · rw [if_pos hb, if_neg]
      rintro ⟨-, h2, -⟩
      unfold inb nbr at h2
      dsimp only at h2
      omega
    · rw [if_neg hb]
      have hin : inb w h (nbr cur j) := by
        unfold inb nbr
        dsimp only
        omega
      by_cases hlt : st.distances (cur.x + dx j) (cur.y + dy j) > cd + 1
      · rw [if_pos hlt, if_pos ⟨hwf, hin, hlt⟩]
        have hroom := hM.room hin hlt
        unfold queue_push
        rw [if_pos (by show st.bfs_queue.length < MAX_QUEUE; exact lt_of_lt_of_le hroom hcap)]
        rfl
      · rw [if_neg hlt, if_neg]
        rintro ⟨-, -, h3⟩
        exact hlt h3

theorem bfs_relax_all_toG (walls : List Wall) (w h : Int) (g : Nat → Position)
    (cells : Finset Position) (cur : Position) (cd : Nat) (st : BfsState)
    (hM : Mid (floodGraph walls w h g) cells cur cd 0 st.toG) (hcap : cells.card ≤ MAX_QUEUE) :
    ((List.range 4).foldl (bfs_relax walls w h cur cd) st).toG =
      (List.range 4).foldl (gRelax (floodGraph walls w h g) cur cd) st.toG := by
  rw [range_four]
  simp only [List.foldl]
  have e0 := bfs_relax_toG walls w h g cells cur cd 0 st hM hcap
  have m1 := hM.relax (by decide)
  rw [← e0] at m1
  have e1 := bfs_relax_toG walls w h g cells cur cd 1 _ m1 hcap
  have m2 := m1.relax (by decide)
  rw [← e1] at m2
  have e2 := bfs_relax_toG walls w h g cells cur cd 2 _ m2 hcap
  have m3 := m2.relax (by decide)
  rw [← e2] at m3
  have e3 := bfs_relax_toG walls w h g cells cur cd 3 _ m3 hcap
  rw [e3, e2, e1, e0]

/-- The `while` loop of `calculate_distances` terminates within the fuel and ends with an empty
queue in a state satisfying the flooding invariant. -/
theorem bfs_loop_spec (walls : List Wall) (w h : Int) (g : Nat → Position)
    (cells : Finset Position) (hcap : cells.card ≤ MAX_QUEUE) :
    ∀ (fuel : Nat) (st : BfsState), Inv (floodGraph walls w h g) cells st.toG →
      cells.card + 1 ≤ fuel + st.queue_head →
      ∃ st', bfs_loop walls w h fuel st = some st' ∧
        Inv (floodGraph walls w h g) cells st'.toG ∧ st'.bfs_queue.length ≤ st'.queue_head := by
  intro fuel
  induction fuel with
  | zero =>
    intro st hI hf
    have h1 := hI.queue_bound
    have h2 := hI.head_le
    have h3 : st.toG.head = st.queue_head := rfl
    have h4 : st.toG.queue = st.bfs_queue := rfl
    by_cases hn : st.queue_head < st.bfs_queue.length
    · omega
    · exfalso
      rw [h3, h4] at h2
      rw [h4] at h1
      omega
  | succ fuel ih =>
    intro st hI hf
    unfold bfs_loop
    by_cases hge : st.queue_head ≥ st.bfs_queue.length
    · rw [if_pos hge]
      exact ⟨st, rfl, hI, hge⟩
    · rw [if_neg hge]
      have hlt : st.toG.head < st.toG.queue.length := by
        show st.queue_head < st.bfs_queue.length
        omega
      have hpop := hI.pop hlt
      have hbody := hI.body hlt
      have hagree := bfs_relax_all_toG walls w h g cells
        (st.bfs_queue.getD st.queue_head ⟨0, 0⟩)
        (st.distances (st.bfs_queue.getD st.queue_head ⟨0, 0⟩).x
          (st.bfs_queue.getD st.queue_head ⟨0, 0⟩).y)
        { st with queue_head := st.queue_head + 1 } hpop hcap
      dsimp only
      apply ih
      · rw [hagree]
        exact hbody
      · have hh : (((List.range 4).foldl (bfs_relax walls w h
            (st.bfs_queue.getD st.queue_head ⟨0, 0⟩)
            (st.distances (st.bfs_queue.getD st.queue_head ⟨0, 0⟩).x
              (st.bfs_queue.getD st.queue_head ⟨0, 0⟩).y))
            { st with queue_head := st.queue_head + 1 }).toG).head = st.queue_head + 1 := by
          rw [hagree, gRelax_all_head]
          rfl
        have : ∀ s : BfsState, s.toG.head = s.queue_head := fun _ => rfl
        rw [this] at hh
        omega

theorem bfs_init_toG (g : Nat → Position) :
    (bfs_init g).toG =
      { dist := set2 (set2 (set2 (set2 (fun _ _ => INF) (g 0).x (g 0).y 0) (g 1).x (g 1).y 0)
          (g 2).x (g 2).y 0) (g 3).x (g 3).y 0
        queue := [g 0, g 1, g 2, g 3]
        head := 0 } := by
  unfold bfs_init
  rw [range_four]
  simp [List.foldl, bfs_seed, queue_push, MAX_QUEUE, BfsState.toG]

theorem bfs_init_at (g : Nat → Position) (c : Position) :
    (bfs_init g).toG.at c = if c ∈ [g 0, g 1, g 2, g 3] then 0 else Bfs.INF := by
  rw [bfs_init_toG]
  unfold GState.at
  dsimp only
  rw [set2_apply_pos, set2_apply_pos, set2_apply_pos, set2_apply_pos]
  simp only [List.mem_cons, List.mem_singleton, List.not_mem_nil, or_false]
  split_ifs <;> first | rfl | (exfalso; tauto)

theorem bfs_init_queue (g : Nat → Position) : (bfs_init g).toG.queue = [g 0, g 1, g 2, g 3] := by
  rw [bfs_init_toG]

theorem bfs_init_head (g : Nat → Position) : (bfs_init g).toG.head = 0 := by
  rw [bfs_init_toG]

theorem mem_goal_list (g : Nat → Position) (c : Position) :
    c ∈ [g 0, g 1, g 2, g 3] ↔ ∃ i, i < 4 ∧ g i = c := by
  constructor
  · intro hc
    simp only [List.mem_cons, List.mem_singleton, List.not_mem_nil, or_false] at hc
    rcases hc with hc | hc | hc | hc
    · exact ⟨0, by decide, hc.symm⟩
    · exact ⟨1, by decide, hc.symm⟩
    · exact ⟨2, by decide, hc.symm⟩
    · exact ⟨3, by decide, hc.symm⟩
  · rintro ⟨i, hi, hc⟩
    subst hc
    interval_cases i <;> simp

/-- The state before the `while` loop of `calculate_distances` satisfies the flooding
invariant when the four goal cells are distinct. -/
theorem bfs_init_inv (walls : List Wall) (w h : Int) (g : Nat → Position)
    (hnd : [g 0, g 1, g 2, g 3].Nodup) (hw : w ≤ 16) (hh : h ≤ 16) :
    Inv (floodGraph walls w h g) (floodCells w h g) (bfs_init g).toG := by
  refine Inv.init [g 0, g 1, g 2, g 3] (bfs_init_queue g) (bfs_init_head g) hnd
    (fun c => (mem_goal_list g c).symm) (fun c _ => bfs_init_at g c)
    (mem_floodCells walls w h g) ?_
  have := card_floodCells w h g
  have h1 : w.toNat ≤ 16 := by omega
  have h2 : h.toNat ≤ 16 := by omega
  have h3 : w.toNat * h.toNat ≤ 16 * 16 := Nat.mul_le_mul h1 h2
  show _ < 9999
  omega

theorem floodCells_le_cap (w h : Int) (g : Nat → Position) (hw : w ≤ 16) (hh : h ≤ 16) :
    (floodCells w h g).card ≤ 260 := by
  have := card_floodCells w h g
  have h1 : w.toNat ≤ 16 := by omega
  have h2 : h.toNat ≤ 16 := by omega
  have h3 : w.toNat * h.toNat ≤ 16 * 16 := Nat.mul_le_mul h1 h2
  omega

/-- The function `calculate_distances` terminates on every maze up to 16 x 16 with distinct goal cells,
changes only the distance array, and stores in it the lengths of the shortest walks that start
at a goal cell and leave each cell through a side on which that cell has no recorded wall;
`INF` marks exactly the cells no such walk reaches. -/
theorem calculate_distances_spec (fuel : Nat) (s : State)
    (hnd : [s.goal_cells 0, s.goal_cells 1, s.goal_cells 2, s.goal_cells 3].Nodup)
    (hw : s.maze_width ≤ 16) (hh : s.maze_height ≤ 16) (hf : 261 ≤ fuel) :
    ∃ dist, calculate_distances fuel s = some { s with distances := dist } ∧
      ∀ c, (floodGraph s.walls s.maze_width s.maze_height s.goal_cells).Rel c →
        (dist c.x c.y < INF →
          Reach (floodGraph s.walls s.maze_width s.maze_height s.goal_cells) (dist c.x c.y) c) ∧
        (∀ n, Reach (floodGraph s.walls s.maze_width s.maze_height s.goal_cells) n c →
          dist c.x c.y ≤ n) ∧
        (dist c.x c.y = INF ↔
          ∀ n, ¬ Reach (floodGraph s.walls s.maze_width s.maze_height s.goal_cells) n c) := by
  have hcard := floodCells_le_cap s.maze_width s.maze_height s.goal_cells hw hh
  have hinit := bfs_init_inv s.walls s.maze_width s.maze_height s.goal_cells hnd hw hh
  obtain ⟨st', hrun, hI, hend⟩ := bfs_loop_spec s.walls s.maze_width s.maze_height s.goal_cells
    (floodCells s.maze_width s.maze_height s.goal_cells)
    (le_trans hcard (by decide)) fuel (bfs_init s.goal_cells) hinit (by omega)
  refine ⟨st'.distances, ?_, ?_⟩
  · unfold calculate_distances
    rw [hrun]
    rfl
  · intro c hR
    exact hI.result hend c hR

theorem is_goal_iff (g : Nat → Position) (c : Position) :
    is_goal g c.x c.y = true ↔ ∃ i, i < 4 ∧ g i = c := by
  unfold is_goal
  rw [List.any_eq_true]
  constructor
  · rintro ⟨i, hi, h⟩
    refine ⟨i, List.mem_range.mp hi, ?_⟩
    simp only [Bool.and_eq_true, beq_iff_eq] at h
    cases c
    cases hg : g i
    simp_all
  · rintro ⟨i, hi, h⟩
    refine ⟨i, List.mem_range.mpr hi, ?_⟩
    subst h
    simp

theorem mem_openNeighbourDistances (s : State) (c : Position) (v : Nat) :
    v ∈ openNeighbourDistances s c.x c.y ↔
      ∃ d, d < 4 ∧ inb s.maze_width s.maze_height (nbr c d) ∧
        has_wall s.walls c.x c.y d = false ∧ (nbr c d).x = c.x + dx d ∧
        v = s.distances (nbr c d).x (nbr c d).y := by
  unfold openNeighbourDistances
  rw [List.mem_filterMap]
  constructor
  · rintro ⟨d, hd, h⟩
    split_ifs at h with hc
    simp only [Option.some.injEq] at h
    exact ⟨d, List.mem_range.mp hd, hc.1, hc.2, rfl, h.symm⟩
  · rintro ⟨d, hd, h1, h2, -, h3⟩
    refine ⟨d, List.mem_range.mpr hd, ?_⟩
    rw [if_pos ⟨h1, h2⟩, h3]
    rfl

/-- With symmetric walls and the goal cells in the grid, the field computed by
`calculate_distances` is zero on the goal cells, locally consistent on every other in-bounds
cell with a finite distance, and `INF` on every in-bounds cell without a path to a goal. -/
theorem calculate_distances_symmetric (fuel : Nat) (s : State)
    (hsym : SymmetricWalls s.walls s.maze_width s.maze_height) (hg : GoalsInGrid s)
    (hw : s.maze_width ≤ 16) (hh : s.maze_height ≤ 16) (hf : 261 ≤ fuel) :
    ∃ s', calculate_distances fuel s = some s' ∧
      s' = { s with distances := s'.distances } ∧
      (∀ i, i < 4 → s'.distances (s.goal_cells i).x (s.goal_cells i).y = 0) ∧
      (∀ c, inb s.maze_width s.maze_height c →
        (is_goal s.goal_cells c.x c.y = false → s'.distances c.x c.y < INF →
          ConsistentAt s' c.x c.y) ∧
        (s'.distances c.x c.y < INF →
          GoalPath s (s'.distances c.x c.y) c ∧ ∀ n, GoalPath s n c → s'.distances c.x c.y ≤ n) ∧
        (s'.distances c.x c.y = INF ↔ ∀ n, ¬ GoalPath s n c)) := by
  obtain ⟨dist, hrun, hres⟩ := calculate_distances_spec fuel s hg.1 hw hh hf
  have hS : (floodGraph s.walls s.maze_width s.maze_height s.goal_cells).Symm := hsym
  have hin : ∀ c, (floodGraph s.walls s.maze_width s.maze_height s.goal_cells).seeds c →
      inb s.maze_width s.maze_height c := by
    rintro c ⟨i, hi, rfl⟩
    exact hg.2 i hi
  refine ⟨_, hrun, rfl, ?_, ?_⟩
  · intro i hi
    have hseed : (floodGraph s.walls s.maze_width s.maze_height s.goal_cells).seeds
        (s.goal_cells i) := ⟨i, hi, rfl⟩
    have := (hres _ (Or.inr hseed)).2.1 0 (Reach.seed _ hseed)
    exact Nat.le_zero.mp this
  · intro c hc
    obtain ⟨hsound, hmin, hinf⟩ := hres c (Or.inl hc)
    refine ⟨?_, ?_, ?_⟩
    · intro hng hfin
      have hr := hsound hfin
      have hnseed : ¬ (floodGraph s.walls s.maze_width s.maze_height s.goal_cells).seeds c := by
        intro hs
        have := (is_goal_iff s.goal_cells c).mpr hs
        rw [hng] at this
        exact absurd this (by decide)
      have hfin0 : dist c.x c.y < INF := hfin
      clear hfin
      obtain ⟨k, hk⟩ : ∃ k, dist c.x c.y = k := ⟨_, rfl⟩
      rw [hk] at hr hfin0
      clear hsound hinf hmin
      cases hr with
      | seed _ hs => exact absurd hs hnseed
      | step n u d hru ho =>
        have hu : inb s.maze_width s.maze_height u := by
          rcases hru.rel with h | h
          · exact h
          · exact hin u h
        obtain ⟨husound, humin, -⟩ := hres u (Or.inl hu)
        have hun : dist u.x u.y ≤ n := humin n hru
        have hufin : dist u.x u.y < INF := by
          omega
        have hk' : dist (nbr u d).x (nbr u d).y = n + 1 := hk
        have hge : n + 1 ≤ dist u.x u.y + 1 := by
          have := (hres (nbr u d) (Or.inl ho.2.2)).2.1 _ (Reach.step _ u d (husound hufin) ho)
          rw [hk'] at this
          exact this
        have hback := hS.back u d ho.1 hu ho.2.1 ho.2.2
        have hmn : (openNeighbourDistances { s with distances := dist } (nbr u d).x
            (nbr u d).y).min? = some n := by
          rw [List.min?_eq_some_iff']
          constructor
          · rw [mem_openNeighbourDistances]
            refine ⟨(d + 2) % 4, hback.1, hback.2.2, hback.2.1, rfl, ?_⟩
            rw [nbr_back u d ho.1]
            show n = dist u.x u.y
            omega
          · intro b hb
            rw [mem_openNeighbourDistances] at hb
            obtain ⟨e, he, hein, hew, -, rfl⟩ := hb
            show n ≤ dist (nbr (nbr u d) e).x (nbr (nbr u d) e).y
            by_cases hfe : dist (nbr (nbr u d) e).x (nbr (nbr u d) e).y < INF
            · have hbe := hS.back (nbr u d) e he ho.2.2 hew hein
              have hre := Reach.step _ _ _ ((hres _ (Or.inl hein)).1 hfe) hbe
              rw [nbr_back _ e he] at hre
              have := (hres (nbr u d) (Or.inl ho.2.2)).2.1 _ hre
              rw [hk'] at this
              omega
            · omega
        unfold ConsistentAt
        rw [hmn]
        show dist (nbr u d).x (nbr u d).y = 1 + n
        omega
    · intro hfin
      refine ⟨(hsound hfin).toSeed hS hin, ?_⟩
      intro n hp
      exact hmin n (hp.reach hS hc)
    · rw [hinf]
      constructor
      · intro h n hp
        exact h n (hp.reach hS hc)
      · intro h n hr
        exact h n (hr.toSeed hS hin)

end Hybrid

end Micromouse

namespace Micromouse

namespace FloodFill

open Bfs

theorem set2_transpose (a : Int → Int → Nat) (x y : Int) (v : Nat) :
    (fun i j => set2 a y x v j i) = set2 (fun i j => a j i) x y v := by
  funext i j
  unfold set2
  by_cases h : i = x ∧ j = y
  · rw [if_pos h, if_pos ⟨h.2, h.1⟩]
  · rw [if_neg h, if_neg (fun h' => h ⟨h'.2, h'.1⟩)]

/-- While the invariant holds the unguarded queue write stays inside the array, and the body
of the direction loop agrees with the unbounded one. -/
theorem relax_toG (s : State) (cells : Finset Position) (cx cy : Int) (cd j : Nat)
    (st : BfsState) (hM : Mid (floodGraph s) cells ⟨cx, cy⟩ cd j st.toG)
    (hcap : cells.card ≤ MAX_QUEUE) :
    ∃ st', relax s.walls s.mazeWidth s.mazeHeight cx cy cd st j = some st' ∧
      st'.toG = gRelax (floodGraph s) ⟨cx, cy⟩ cd st.toG j := by
  unfold relax gRelax
  dsimp only [floodGraph]
  by_cases hw : s.walls cy cx j = true
  · rw [if_pos hw, if_neg]
    · exact ⟨st, rfl, rfl⟩
    · rintro ⟨h1, -⟩
      rw [hw] at h1
      exact absurd h1 (by decide)
  · rw [if_neg hw]
    have hwf : s.walls cy cx j = false := by simpa using hw
    by_cases hb : cx + dx j < 0 ∨ cx + dx j ≥ s.mazeWidth ∨ cy + dy j < 0 ∨
        cy + dy j ≥ s.mazeHeight
    · rw [if_pos hb, if_neg]
      · exact ⟨st, rfl, rfl⟩
      · rintro ⟨-, h2, -⟩
        unfold inb nbr at h2
        dsimp only at h2
        omega
    · rw [if_neg hb]
      have hin : inb s.mazeWidth s.mazeHeight (nbr ⟨cx, cy⟩ j) := by
        unfold inb nbr
        dsimp only
        omega
      by_cases hlt : cd + 1 < st.distance (cy + dy j) (cx + dx j)
      · rw [if_pos hlt, if_pos ⟨hwf, hin, hlt⟩]
        have hroom := hM.room hin hlt
        unfold enqueue
        rw [if_pos (by show st.queue.length < MAX_QUEUE; exact lt_of_lt_of_le hroom hcap)]
        refine ⟨_, rfl, ?_⟩
        unfold BfsState.toG gPush
        dsimp only
        rw [set2_transpose]
        rfl
      · rw [if_neg hlt, if_neg]
        · exact ⟨st, rfl, rfl⟩
        · rintro ⟨-, -, h3⟩
          exact hlt h3

theorem relax_all_toG (s : State) (cells : Finset Position) (cx cy : Int) (cd : Nat)
    (st : BfsState) (hM : Mid (floodGraph s) cells ⟨cx, cy⟩ cd 0 st.toG)
    (hcap : cells.card ≤ MAX_QUEUE) :
    ∃ st', (List.range 4).foldlM (relax s.walls s.mazeWidth s.mazeHeight cx cy cd) st = some st' ∧
      st'.toG = (List.range 4).foldl (gRelax (floodGraph s) ⟨cx, cy⟩ cd) st.toG := by
  rw [range_four]
  simp only [List.foldlM, List.foldl]
  obtain ⟨s1, r0, e0⟩ := relax_toG s cells cx cy cd 0 st hM hcap
  have m1 := hM.relax (by decide)
  rw [← e0] at m1
  obtain ⟨s2, r1, e1⟩ := relax_toG s cells cx cy cd 1 s1 m1 hcap
  have m2 := m1.relax (by decide)
  rw [← e1] at m2
  obtain ⟨s3, r2, e2⟩ := relax_toG s cells cx cy cd 2 s2 m2 hcap
  have m3 := m2.relax (by decide)
  rw [← e2] at m3
  obtain ⟨s4, r3, e3⟩ := relax_toG s cells cx cy cd 3 s3 m3 hcap
  refine ⟨s4, ?_, ?_⟩
  · rw [r0]
    simp only [Option.bind_eq_bind, Option.some_bind, r1, r2, r3]
    rfl
  · rw [e3, e2, e1, e0]

/-- The `while` loop of `floodFillDistances` terminates within the fuel without writing past
the end of the queue array, and ends with an empty queue in a state satisfying the flooding
invariant. -/
theorem bfsLoop_spec (s : State) (cells : Finset Position) (hcap : cells.card ≤ MAX_QUEUE) :
    ∀ (fuel : Nat) (st : BfsState), Inv (floodGraph s) cells st.toG →
      cells.card + 1 ≤ fuel + st.queueHead →
      ∃ st', bfsLoop s.walls s.mazeWidth s.mazeHeight fuel st = some st' ∧
        Inv (floodGraph s) cells st'.toG ∧ st'.queue.length ≤ st'.queueHead := by
  intro fuel
  induction fuel with
  | zero =>
    intro st hI hf
    have h1 := hI.queue_bound
    have h2 := hI.head_le
    have h3 : st.toG.head = st.queueHead := rfl
    have h4 : st.toG.queue = st.queue := rfl
    rw [h3, h4] at h2
    rw [h4] at h1
    exfalso
    omega
  | succ fuel ih =>
    intro st hI hf
    unfold bfsLoop
    by_cases hlt : st.queueHead < st.queue.length
    · rw [if_pos hlt]
      have hlt' : st.toG.head < st.toG.queue.length := hlt
      have hpop := hI.pop hlt'
      have hbody := hI.body hlt'
      obtain ⟨st2, hr, he⟩ := relax_all_toG s cells
        (st.queue.getD st.queueHead ⟨0, 0⟩).x (st.queue.getD st.queueHead ⟨0, 0⟩).y
        (st.distance (st.queue.getD st.queueHead ⟨0, 0⟩).y (st.queue.getD st.queueHead ⟨0, 0⟩).x)
        { st with queueHead := st.queueHead + 1 } hpop hcap
      dsimp only
      rw [hr]
      dsimp only
      apply ih
      · rw [he]
        exact hbody
      · have hh : st2.toG.head = st.queueHead + 1 := by
          rw [he, gRelax_all_head]
          rfl
        have : st2.toG.head = st2.queueHead := rfl
        omega
    · rw [if_neg hlt]
      exact ⟨st, rfl, hI, by omega⟩

/-- The goal cell `i` as a position. -/
theorem seeds_iff (s : State) (c : Position) :
    (floodGraph s).seeds c ↔
      c ∈ [(⟨s.goalX 0, s.goalY 0⟩ : Position), ⟨s.goalX 1, s.goalY 1⟩, ⟨s.goalX 2, s.goalY 2⟩,
        ⟨s.goalX 3, s.goalY 3⟩] := by
  constructor
  · rintro ⟨i, hi, hc⟩
    subst hc
    interval_cases i <;> simp
  · intro hc
    simp only [List.mem_cons, List.mem_singleton, List.not_mem_nil, or_false] at hc
    rcases hc with hc | hc | hc | hc
    · exact ⟨0, by decide, hc.symm⟩
    · exact ⟨1, by decide, hc.symm⟩
    · exact ⟨2, by decide, hc.symm⟩
    · exact ⟨3, by decide, hc.symm⟩

theorem seed_all (s : State) :
    (List.range 4).foldlM (seed s.goalX s.goalY) (bfsInit s) =
      some
        { distance := set2 (set2 (set2 (set2 (bfsInit s).distance (s.goalY 0) (s.goalX 0) 0)
            (s.goalY 1) (s.goalX 1) 0) (s.goalY 2) (s.goalX 2) 0) (s.goalY 3) (s.goalX 3) 0
          queue := [⟨s.goalX 0, s.goalY 0⟩, ⟨s.goalX 1, s.goalY 1⟩, ⟨s.goalX 2, s.goalY 2⟩,
            ⟨s.goalX 3, s.goalY 3⟩]
          queueHead := 0 } := by
  rw [range_four]
  simp [List.foldlM, seed, enqueue, MAX_QUEUE, bfsInit]

theorem centre_goals_inb (s : State) (hg : CentreGoals s) (hw : 2 ≤ s.mazeWidth)
    (hh : 2 ≤ s.mazeHeight) (c : Position) (hc : (floodGraph s).seeds c) :
    inb s.mazeWidth s.mazeHeight c := by
  obtain ⟨g0x, g0y, g1x, g1y, g2x, g2y, g3x, g3y⟩ := hg
  have ew : Int.tdiv s.mazeWidth 2 = s.mazeWidth / 2 :=
    Int.tdiv_eq_ediv (by omega) (by decide)
  have eh : Int.tdiv s.mazeHeight 2 = s.mazeHeight / 2 :=
    Int.tdiv_eq_ediv (by omega) (by decide)
  obtain ⟨i, hi, rfl⟩ := hc
  unfold inb
  dsimp only
  interval_cases i <;> omega

theorem centre_goals_nodup (s : State) (hg : CentreGoals s) :
    [(⟨s.goalX 0, s.goalY 0⟩ : Position), ⟨s.goalX 1, s.goalY 1⟩, ⟨s.goalX 2, s.goalY 2⟩,
      ⟨s.goalX 3, s.goalY 3⟩].Nodup := by
  obtain ⟨g0x, g0y, g1x, g1y, g2x, g2y, g3x, g3y⟩ := hg
  simp only [List.nodup_cons, List.mem_cons, List.mem_singleton, List.not_mem_nil,
    Position.mk.injEq, List.nodup_nil, and_true, or_false, not_or, not_false_eq_true]
  rw [g0x, g0y, g1x, g1y, g2x, g2y, g3x, g3y]
  refine ⟨⟨?_, ?_, ?_⟩, ⟨?_, ?_⟩, ?_⟩ <;> intro h <;> omega

theorem card_grid_le (w h : Int) (hw : w ≤ 16) (hh : h ≤ 16) : (gridCells w h).card ≤ 256 := by
  have := card_gridCells w h
  have h1 : w.toNat ≤ 16 := by omega
  have h2 : h.toNat ≤ 16 := by omega
  have h3 : w.toNat * h.toNat ≤ 16 * 16 := Nat.mul_le_mul h1 h2
  omega

/-- The state after the seeding loop of `floodFillDistances` satisfies the flooding
invariant. -/
theorem seeded_inv (s : State) (hg : CentreGoals s) (hw : 2 ≤ s.mazeWidth)
    (hw16 : s.mazeWidth ≤ 16) (hh : 2 ≤ s.mazeHeight) (hh16 : s.mazeHeight ≤ 16)
    (st0 : BfsState) (h0 : (List.range 4).foldlM (seed s.goalX s.goalY) (bfsInit s) = some st0) :
    Inv (floodGraph s) (gridCells s.mazeWidth s.mazeHeight) st0.toG := by
  rw [seed_all] at h0
  simp only [Option.some.injEq] at h0
  subst h0
  have hrel : ∀ c, (floodGraph s).Rel c → inb s.mazeWidth s.mazeHeight c := by
    rintro c (hc | hc)
    · exact hc
    · exact centre_goals_inb s hg hw hh c hc
  refine Inv.init _ rfl rfl (centre_goals_nodup s hg) (seeds_iff s) ?_
    (fun c hc => mem_gridCells _ _ c (hrel c hc)) ?_
  · intro c hR
    have hin := hrel c hR
    obtain ⟨x, y⟩ := c
    unfold GState.at BfsState.toG set2 bfsInit
    dsimp only
    unfold inb at hin
    dsimp only at hin
    simp only [List.mem_cons, List.mem_singleton, List.not_mem_nil, or_false, Position.mk.injEq]
    rw [if_pos (show 0 ≤ y ∧ y < s.mazeHeight ∧ 0 ≤ x ∧ x < s.mazeWidth by omega)]
    split_ifs <;> first | rfl | (exfalso; tauto)
  · have := card_grid_le s.mazeWidth s.mazeHeight hw16 hh16
    show _ < 9999
    omega

/-- The function `floodFillDistances` terminates on every maze of size 2 .. 16 in each dimension with
symmetric walls, never writes past the end of its queue, and stores for every in-bounds cell
the length of a shortest path to a goal cell, or `INF` exactly when there is no such path. -/
theorem floodFillDistances_spec (fuel : Nat) (s : State) (hg : CentreGoals s)
    (hw : 2 ≤ s.mazeWidth) (hw16 : s.mazeWidth ≤ 16) (hh : 2 ≤ s.mazeHeight)
    (hh16 : s.mazeHeight ≤ 16) (hsym : SymmetricWalls s) (hf : 257 ≤ fuel) :
    ∃ s', floodFillDistances fuel s = some s' ∧
      ∀ c, inb s.mazeWidth s.mazeHeight c →
        (∀ n, GoalPath s n c →
          GoalPath s (s'.distance c.y c.x) c ∧ s'.distance c.y c.x ≤ n) ∧
        (s'.distance c.y c.x = INF ↔ ∀ n, ¬ GoalPath s n c) := by
  have hcard := card_grid_le s.mazeWidth s.mazeHeight hw16 hh16
  have hS : (floodGraph s).Symm := fun c d hd hc hn => hsym c d hd hc hn
  have hin := centre_goals_inb s hg hw hh
  obtain ⟨st', hrun, hI, hend⟩ := bfsLoop_spec s (gridCells s.mazeWidth s.mazeHeight)
    (le_trans hcard (by decide)) fuel _
    (seeded_inv s hg hw hw16 hh hh16 _ (seed_all s)) (by
      show _ ≤ fuel + 0
      omega)
  refine ⟨{ s with distance := st'.distance, queue := st'.queue, queueHead := st'.queueHead }, ?_, ?_⟩
  · unfold floodFillDistances
    rw [seed_all]
    dsimp only
    rw [hrun]
    rfl
  · intro c hc
    obtain ⟨hsound, hmin, hinf⟩ := hI.result hend c (Or.inl hc)
    constructor
    · intro n hp
      have hr := hp.reach hS hc
      have hfin := (hI.complete hend n c hr).2
      exact ⟨(hsound hfin).toSeed hS hin, hmin n hr⟩
    · show st'.toG.at c = Bfs.INF ↔ _
      rw [hinf]
      constructor
      · intro h n hp
        exact h n (hp.reach hS hc)
      · intro h n hr
        exact h n (hr.toSeed hS hin)

end FloodFill

end Micromouse

namespace Micromouse

namespace Hybrid

/-! ## The binary heap of the planner -/

theorem heap_swap_length (h : List AStarNode) (i j : Nat) : (heap_swap h i j).length = h.length := by
  unfold heap_swap
  simp

theorem heap_swap_getD (h : List AStarNode) (i j k : Nat) (hi : i < h.length)
    (hj : j < h.length) (d : AStarNode) :
    (heap_swap h i j).getD k d =
      if k = j then h.getD i d else if k = i then h.getD j d else h.getD k d := by
  unfold heap_swap
  simp only [List.getD_eq_getElem?_getD, List.getElem?_set, List.length_set]
  by_cases hkj : k = j
  · subst hkj
    simp [hi, hj]
  · by_cases hki : k = i
    · subst hki
      simp [hi, hj, hkj, Ne.symm hkj]
    · simp [hkj, hki, Ne.symm hkj, Ne.symm hki]

theorem fAt_swap (h : List AStarNode) (i j k : Nat) (hi : i < h.length) (hj : j < h.length) :
    fAt (heap_swap h i j) k = if k = j then fAt h i else if k = i then fAt h j else fAt h k := by
  unfold fAt
  rw [heap_swap_getD h i j k hi hj]
  split_ifs <;> rfl

theorem heap_swap_perm (h : List AStarNode) (i j : Nat) (hi : i < h.length)
    (hj : j < h.length) : (heap_swap h i j).Perm h := by
  rw [List.perm_iff_count]
  intro b
  unfold heap_swap
  dsimp only
  rw [List.getD_eq_getElem _ _ hi, List.getD_eq_getElem _ _ hj]
  have hj' : j < (h.set i h[j]).length := by simpa using hj
  have e1 : (h.set i h[j])[j] = h[j] := by
    rw [List.getElem_set]
    split_ifs with hij
    · rfl
    · rfl
  rw [List.count_set _ _ _ _ hj', List.count_set _ _ _ _ hi, e1]
  have hmi : h[i] ∈ h := List.getElem_mem hi
  have hci : (h[i] == b) = true → 1 ≤ List.count b h := by
    intro hb
    rw [beq_iff_eq] at hb
    rw [List.one_le_count_iff, ← hb]
    exact hmi
  by_cases hbi : (h[i] == b) = true <;> by_cases hbj : (h[j] == b) = true
  · have := hci hbi
    simp only [hbi, hbj, if_true]
    omega
  · have := hci hbi
    simp only [hbi, hbj, if_true, if_false, Bool.false_eq_true]
    omega
  · simp only [hbi, hbj, if_true, if_false, Bool.false_eq_true]
    omega
  · simp only [hbi, hbj, if_false, Bool.false_eq_true]
    omega

theorem IsHeap.root_le {h : List AStarNode} (hH : IsHeap h) :
    ∀ i, i < h.length → fAt h 0 ≤ fAt h i := by
  intro i
  induction i using Nat.strong_induction_on with
  | _ i ih =>
    intro hi
    by_cases h0 : i = 0
    · subst h0
      exact le_refl _
    · have hp : (i - 1) / 2 < i := by omega
      exact le_trans (ih _ hp (by omega)) (hH i (by omega) hi)

theorem heap_push_loop_spec :
    ∀ (fuel : Nat) (h : List AStarNode) (i : Nat), i < h.length → i < fuel → UpInv h i →
      ∃ h', heap_push_loop fuel h i = some h' ∧ h'.Perm h ∧ IsHeap h' := by
  intro fuel
  induction fuel with
  | zero =>
    intro h i _ hf
    exact absurd hf (Nat.not_lt_zero _)
  | succ fuel ih =>
    intro h i hi hf hU
    unfold heap_push_loop
    by_cases h0 : i > 0
    · rw [if_pos h0]
      dsimp only
      have hp : (i - 1) / 2 < i := by omega
      by_cases hle : (h.getD ((i - 1) / 2) ⟨0, ⟨0, 0⟩⟩).f_score ≤ (h.getD i ⟨0, ⟨0, 0⟩⟩).f_score
      · rw [if_pos hle]
        refine ⟨h, rfl, List.Perm.refl _, ?_⟩
        intro k hk0 hk
        by_cases hki : k = i
        · subst hki
          exact hle
        · exact hU.1 k hk0 hk hki
      · rw [if_neg hle]
        have hlt : fAt h i < fAt h ((i - 1) / 2) := by
          unfold fAt
          omega
        have hpl : (i - 1) / 2 < h.length := by omega
        have hsw := fAt_swap h ((i - 1) / 2) i
        obtain ⟨h', hr, hperm, hheap⟩ := ih (heap_swap h ((i - 1) / 2) i) ((i - 1) / 2)
          (by rw [heap_swap_length]; exact hpl) (by omega) (by
            constructor
            · intro k hk0 hk hkp
              rw [heap_swap_length] at hk
              rw [hsw _ hpl hi, hsw _ hpl hi]
              by_cases hki : k = i
              · subst hki
                rw [if_pos rfl, if_neg (by omega), if_pos rfl]
                omega
              · rw [if_neg hki, if_neg hkp]
                by_cases hq : (k - 1) / 2 = i
                · rw [if_pos hq]
                  exact hU.2 h0 k hk0 hk hq
                · rw [if_neg hq]
                  by_cases hq2 : (k - 1) / 2 = (i - 1) / 2
                  · rw [if_pos hq2]
                    have := hU.1 k hk0 hk hki
                    rw [hq2] at this
                    omega
                  · rw [if_neg hq2]
                    exact hU.1 k hk0 hk hki
            · intro hp0 k hk0 hk hkp
              rw [heap_swap_length] at hk
              rw [hsw _ hpl hi, hsw _ hpl hi]
              have hpp := hU.1 ((i - 1) / 2) hp0 hpl (by omega)
              rw [if_neg (by omega), if_neg (by omega)]
              by_cases hki : k = i
              · rw [if_pos hki]
                exact hpp
              · rw [if_neg hki, if_neg (by omega)]
                have := hU.1 k hk0 hk hki
                rw [hkp] at this
                omega)
        exact ⟨h', hr, hperm.trans (heap_swap_perm h _ _ hpl hi), hheap⟩
    · rw [if_neg h0]
      refine ⟨h, rfl, List.Perm.refl _, ?_⟩
      intro k hk0 hk
      exact hU.1 k hk0 hk (by omega)

theorem fAt_append_lt (h : List AStarNode) (n : AStarNode) (k : Nat) (hk : k < h.length) :
    fAt (h ++ [n]) k = fAt h k := by
  unfold fAt
  rw [List.getD_eq_getElem _ _ hk, List.getD_eq_getElem _ _ (by simp; omega)]
  rw [List.getElem_append_left]

/-- A `heap_push` on a heap with room inserts the node and keeps the heap property. -/
theorem heap_push_spec (fuel : Nat) (h : List AStarNode) (n : AStarNode)
    (hroom : h.length < MAX_HEAP) (hH : IsHeap h) (hf : h.length < fuel) :
    ∃ h', heap_push fuel h n = some h' ∧ h'.Perm (n :: h) ∧ IsHeap h' := by
  unfold heap_push
  rw [if_neg (by omega)]
  obtain ⟨h', hr, hperm, hheap⟩ := heap_push_loop_spec fuel (h ++ [n]) h.length (by simp) hf (by
    constructor
    · intro k hk0 hk hkn
      rw [List.length_append, List.length_singleton] at hk
      rw [fAt_append_lt h n k (by omega), fAt_append_lt h n _ (by omega)]
      exact hH k hk0 (by omega)
    · intro _ k hk0 hk hkp
      rw [List.length_append, List.length_singleton] at hk
      omega)
  exact ⟨h', hr, hperm.trans (List.perm_append_singleton n h), hheap⟩

theorem down_step (h : List AStarNode) (i s : Nat) (hs : s < h.length) (hs0 : 0 < s)
    (hsi : (s - 1) / 2 = i) (hlt : fAt h s < fAt h i)
    (hmin : ∀ k, 0 < k → k < h.length → (k - 1) / 2 = i → fAt h s ≤ fAt h k)
    (hD : DownInv h i) : DownInv (heap_swap h i s) s := by
  have hi : i < h.length := by omega
  have hsw := fAt_swap h i s
  constructor
  · intro k hk0 hk hkp
    rw [heap_swap_length] at hk
    rw [hsw _ hi hs, hsw _ hi hs]
    rw [if_neg hkp]
    by_cases hq : (k - 1) / 2 = i
    · rw [if_pos hq]
      by_cases hks : k = s
      · rw [if_pos hks]
        omega
      · rw [if_neg hks, if_neg (by omega)]
        exact hmin k hk0 hk hq
    · rw [if_neg hq]
      rw [if_neg (by omega : ¬ k = s)]
      by_cases hki : k = i
      · rw [if_pos hki]
        subst hki
        exact hD.2 hk0 s hs0 hs hsi
      · rw [if_neg hki]
        exact hD.1 k hk0 hk hq
  · intro _ k hk0 hk hkp
    rw [heap_swap_length] at hk
    rw [hsw _ hi hs, hsw _ hi hs]
    rw [hsi, if_neg (by omega), if_pos rfl, if_neg (by omega), if_neg (by omega)]
    have := hD.1 k hk0 hk (by omega)
    rw [hkp] at this
    exact this

theorem heap_pop_loop_spec :
    ∀ (fuel : Nat) (h : List AStarNode) (i : Nat), 0 < fuel → h.length < fuel + i →
      DownInv h i → ∃ h', heap_pop_loop fuel h i = some h' ∧ h'.Perm h ∧ IsHeap h' := by
  intro fuel
  induction fuel with
  | zero =>
    intro h i h0
    exact absurd h0 (Nat.lt_irrefl _)
  | succ fuel ih =>
    intro h i _ hf hD
    unfold heap_pop_loop
    dsimp only
    have hfa : ∀ k, (h.getD k ⟨0, ⟨0, 0⟩⟩).f_score = fAt h k := fun _ => rfl
    simp only [hfa]
    have hrec : ∀ s, s < h.length → 0 < s → (s - 1) / 2 = i → fAt h s < fAt h i →
        (∀ k, 0 < k → k < h.length → (k - 1) / 2 = i → fAt h s ≤ fAt h k) →
        ∃ h', heap_pop_loop fuel (heap_swap h i s) s = some h' ∧ h'.Perm h ∧ IsHeap h' := by
      intro s hs hs0 hsi hlt hmin
      obtain ⟨h', hr, hperm, hheap⟩ := ih (heap_swap h i s) s (by omega)
        (by rw [heap_swap_length]; omega) (down_step h i s hs hs0 hsi hlt hmin hD)
      exact ⟨h', hr, hperm.trans (heap_swap_perm h i s (by omega) hs), hheap⟩
    by_cases c1 : 2 * i + 1 < h.length ∧ fAt h (2 * i + 1) < fAt h i
    · rw [if_pos c1]
      by_cases c2 : 2 * i + 2 < h.length ∧ fAt h (2 * i + 2) < fAt h (2 * i + 1)
      · rw [if_pos c2, if_neg (by omega)]
        refine hrec (2 * i + 2) c2.1 (by omega) (by omega) (by omega) ?_
        intro k hk0 hk hkp
        have hk2 : k = 2 * i + 1 ∨ k = 2 * i + 2 := by omega
        rcases hk2 with rfl | rfl
        · omega
        · exact le_refl _
      · rw [if_neg c2, if_neg (by omega)]
        refine hrec (2 * i + 1) c1.1 (by omega) (by omega) c1.2 ?_
        intro k hk0 hk hkp
        have hk2 : k = 2 * i + 1 ∨ k = 2 * i + 2 := by omega
        rcases hk2 with rfl | rfl
        · exact le_refl _
        · by_contra hc
          exact c2 ⟨hk, by omega⟩
    · rw [if_neg c1]
      by_cases c2 : 2 * i + 2 < h.length ∧ fAt h (2 * i + 2) < fAt h i
      · rw [if_pos c2, if_neg (by omega)]
        refine hrec (2 * i + 2) c2.1 (by omega) (by omega) c2.2 ?_
        intro k hk0 hk hkp
        have hk2 : k = 2 * i + 1 ∨ k = 2 * i + 2 := by omega
        rcases hk2 with rfl | rfl
        · by_contra hc
          exact c1 ⟨hk, by omega⟩
        · exact le_refl _
      · rw [if_neg c2, if_pos rfl]
        refine ⟨h, rfl, List.Perm.refl _, ?_⟩
        intro k hk0 hk
        by_cases hq : (k - 1) / 2 = i
        · rw [hq]
          have hk2 : k = 2 * i + 1 ∨ k = 2 * i + 2 := by omega
          rcases hk2 with rfl | rfl
          · by_contra hc
            exact c1 ⟨hk, by omega⟩
          · by_contra hc
            exact c2 ⟨hk, by omega⟩
        · exact hD.1 k hk0 hk hq

theorem fAt_pop_start (h : List AStarNode) (k : Nat) (hk0 : 0 < k) (hk : k < h.length - 1) :
    fAt ((h.set 0 (h.getD (h.length - 1) ⟨0, ⟨0, 0⟩⟩)).take (h.length - 1)) k = fAt h k := by
  unfold fAt
  simp only [List.getD_eq_getElem?_getD, List.getElem?_take, List.getElem?_set]
  rw [if_pos hk, if_neg (by omega)]

/-- A `heap_pop` on a non-empty heap returns an entry of least `f_score`, removes it and keeps
the heap property. -/
theorem heap_pop_spec (fuel : Nat) (h : List AStarNode) (hne : 0 < h.length) (hH : IsHeap h)
    (hf : h.length < fuel) :
    ∃ r h', heap_pop fuel h = some (r, h') ∧ h.Perm (r :: h') ∧ IsHeap h' ∧
      ∀ e ∈ h, r.f_score ≤ e.f_score := by
  unfold heap_pop
  dsimp only
  obtain ⟨h', hr, hperm, hheap⟩ := heap_pop_loop_spec fuel
    ((h.set 0 (h.getD (h.length - 1) ⟨0, ⟨0, 0⟩⟩)).take (h.length - 1)) 0 (by omega)
    (by simp; omega) (by
      constructor
      · intro k hk0 hk hkp
        have hk' : k < h.length - 1 := by simpa using hk
        rw [fAt_pop_start h k hk0 hk', fAt_pop_start h _ (by omega) (by omega)]
        exact hH k hk0 (by omega)
      · intro h0
        exact absurd h0 (Nat.lt_irrefl _))
  refine ⟨h.getD 0 ⟨0, ⟨0, 0⟩⟩, h', ?_, ?_, hheap, ?_⟩
  · rw [hr]
    rfl
  · refine List.Perm.trans ?_ (List.Perm.cons _ hperm.symm)
    cases h with
    | nil => simp at hne
    | cons a t =>
      simp only [List.getD_cons_zero, List.set_cons_zero, List.length_cons, Nat.add_sub_cancel]
      by_cases ht : t = []
      · subst ht
        simp
      · have hlen : 0 < t.length := List.length_pos.mpr ht
        have hlast : (a :: t).getD t.length ⟨0, ⟨0, 0⟩⟩ = t.getLast ht := by
          rw [List.getLast_eq_getElem]
          obtain ⟨n, hn⟩ : ∃ n, t.length = n + 1 := ⟨t.length - 1, by omega⟩
          rw [List.getD_eq_getElem _ _ (by simp)]
          simp only [hn, List.getElem_cons_succ, Nat.add_sub_cancel]
        rw [hlast]
        obtain ⟨n, hn⟩ : ∃ n, t.length = n + 1 := ⟨t.length - 1, by omega⟩
        rw [hn, List.take_succ_cons]
        have hdl : t.take n = t.dropLast := by
          rw [List.dropLast_eq_take, hn, Nat.add_sub_cancel]
        rw [hdl]
        refine List.Perm.cons a ?_
        have hp := List.perm_append_singleton (t.getLast ht) t.dropLast
        rw [List.dropLast_append_getLast ht] at hp
        exact hp
  · intro e he
    obtain ⟨k, hk, rfl⟩ := List.getElem_of_mem he
    have := hH.root_le k hk
    unfold fAt at this
    rw [List.getD_eq_getElem _ _ hk] at this
    exact this

end Hybrid

end Micromouse

namespace Micromouse

namespace Bfs

theorem Path.snoc {G : Graph} {n : Nat} {a b : Position} (hp : Path G n a b) (d : Nat)
    (ho : G.Open b d) : Path G (n + 1) a (nbr b d) := by
  induction hp with
  | nil a => exact Path.cons 0 a d _ ho (Path.nil _)
  | cons n a e b ha _ ih => exact Path.cons _ a e _ ha (ih ho)

theorem Reach.path {G : Graph} {start : Position} (hs : ∀ c, G.seeds c → c = start) {n : Nat}
    {c : Position} (hr : Reach G n c) : Path G n start c := by
  induction hr with
  | seed c hc =>
    rw [hs c hc]
    exact Path.nil _
  | step n u d _ ho ih => exact ih.snoc d ho

theorem Path.extend {G : Graph} {n : Nat} {a b : Position} (hp : Path G n a b) :
    ∀ k, Reach G k a → Reach G (k + n) b := by
  induction hp with
  | nil a => exact fun k hk => hk
  | cons n a d b ho _ ih =>
    intro k hk
    have := ih (k + 1) (Reach.step k a d hk ho)
    rwa [Nat.add_assoc, Nat.add_comm 1 n] at this

theorem walkEnd_cons (a c : Position) (l : List Position) :
    walkEnd a (c :: l) = walkEnd c l := by
  unfold walkEnd
  cases l with
  | nil => rfl
  | cons e l =>
    rw [List.getLast?_cons_cons]
    rw [List.getLast?_eq_getLast (e :: l) (by simp)]
    rfl

theorem IsWalk.append_one {G : Graph} : ∀ (l : List Position) (a b : Position), IsWalk G a l →
    (∃ d, G.Open (walkEnd a l) d ∧ nbr (walkEnd a l) d = b) → IsWalk G a (l ++ [b]) := by
  intro l
  induction l with
  | nil =>
    intro a b _ hb
    exact ⟨hb, trivial⟩
  | cons c l ih =>
    intro a b hw hb
    refine ⟨hw.1, ih c b hw.2 ?_⟩
    rwa [walkEnd_cons] at hb

theorem walkEnd_snoc (a b : Position) (l : List Position) : walkEnd a (l ++ [b]) = b := by
  unfold walkEnd
  simp

theorem IsWalk.reach_end {G : Graph} : ∀ (l : List Position) (a : Position) (k : Nat),
    IsWalk G a l → Reach G k a → Reach G (k + l.length) (walkEnd a l) := by
  intro l
  induction l with
  | nil => exact fun a k _ hk => hk
  | cons c l ih =>
    intro a k hw hk
    obtain ⟨⟨d, ho, hd⟩, hw'⟩ := hw
    have h1 : Reach G (k + 1) c := hd ▸ Reach.step k a d hk ho
    have h2 := ih c (k + 1) hw' h1
    rw [walkEnd_cons, List.length_cons]
    have e2 : k + (l.length + 1) = k + 1 + l.length := by omega
    rw [e2]
    exact h2

end Bfs

namespace Hybrid

open Bfs

/-! ## The planner `find_path_to_start` -/

theorem hman_nbr_le (a : Position) (d : Nat) : hman a ≤ hman (nbr a d) + 1 := by
  obtain ⟨x, y⟩ := a
  unfold hman manhattan_distance nbr
  dsimp only
  rcases Nat.lt_or_ge d 4 with hd | hd
  · interval_cases d <;> simp only [dx, dy] <;> omega
  · have e1 : dx d = 0 := by
      unfold dx
      split <;> first | rfl | omega
    have e2 : dy d = 0 := by
      unfold dy
      split <;> first | rfl | omega
    rw [e1, e2]
    omega

theorem hman_path {G : Graph} {n : Nat} {a b : Position} (hp : Path G n a b) :
    hman a ≤ hman b + n := by
  induction hp with
  | nil a => exact le_refl _
  | cons n a d b _ _ ih =>
    have := hman_nbr_le a d
    omega

/-- When an entry of least `f_score` is popped, the `g_score` of its cell is the length of a
shortest walk from the start. -/
theorem Core.pop_opt {G : Graph} {start : Position} {E : Finset Position} {K : Nat}
    {st : AStarState} (hC : Core G start E (fun _ => False) K st) (hK : K + 1 < INF)
    (hseed : ∀ c, G.seeds c → c = start) (r : AStarNode) (hr : r ∈ st.heap)
    (hmin : ∀ e ∈ st.heap, r.f_score ≤ e.f_score) :
    ∀ n, Reach G n r.pos → st.g r.pos ≤ n := by
  by_cases hrs : r.pos = start
  · intro n _
    rw [hrs, hC.g_start]
    exact Nat.zero_le _
  · have hv := (hC.heap_valid r hr).2.resolve_left hrs
    have key : ∀ n a b, Path G n a b → b = r.pos → st.g a < INF → st.g r.pos ≤ st.g a + n := by
      intro n a b hp
      induction hp with
      | nil a =>
        intro hb _
        rw [hb]
        exact Nat.le_add_right _ _
      | cons n a d b ho hp ih =>
        intro hb ha
        rcases hC.open_or_closed a ha with hE | hF | ⟨e, he, hpos, hf⟩
        · have hcl := (hC.closed a hE).2.2.1 d ho
          have hak := hC.g_le a ha
          have := ih hb (by omega)
          omega
        · exact absurd hF id
        · have h1 := hmin e he
          have h2 := hman_path (Path.cons n a d b ho hp)
          rw [hb] at h2
          omega
    intro n hrch
    have := key n start r.pos (hrch.path hseed) rfl (by rw [hC.g_start]; decide)
    rw [hC.g_start] at this
    omega

theorem aPush_g (st : AStarState) (u : Position) (j : Nat) (hp : List AStarNode)
    (c : Position) :
    (aPush st u j hp).g c = if c = nbr u j then st.g u + 1 else st.g c := by
  unfold AStarState.g aPush
  exact set2_apply _ _ _ _ c

theorem aPush_parent (st : AStarState) (u : Position) (j : Nat) (hp : List AStarNode)
    (c : Position) :
    (aPush st u j hp).parent c = if c = nbr u j then u else st.parent c := by
  unfold AStarState.parent aPush
  exact set2_apply _ _ _ _ c

theorem aPush_linked (st : AStarState) (u : Position) (j : Nat) (hp : List AStarNode)
    (c : Position) :
    (aPush st u j hp).linked c = if c = nbr u j then true else st.linked c := by
  unfold AStarState.linked aPush
  exact set2_apply _ _ _ _ c

theorem aPush_g_le (st : AStarState) (u : Position) (j : Nat) (hp : List AStarNode)
    (hlt : st.g u + 1 < st.g (nbr u j)) (c : Position) : (aPush st u j hp).g c ≤ st.g c := by
  rw [aPush_g]
  split_ifs with h
  · rw [h]
    omega
  · exact le_refl _

/-- The planner invariant survives a relaxation that pushes the neighbour. -/
theorem Core.push_node {G : Graph} {start : Position} {E : Finset Position} {K : Nat}
    {st : AStarState} {u : Position} {exc : Position → Prop} (hC : Core G start E exc K st)
    (j : Nat) (ho : G.Open u j) (hlt : st.g u + 1 < st.g (nbr u j)) (hu : st.g u < INF)
    (huK : st.g u + 1 ≤ K) (hp : List AStarNode)
    (hperm : hp.Perm (⟨st.g u + 1 + hman (nbr u j), nbr u j⟩ :: st.heap)) (hheap : IsHeap hp) :
    Core G start E exc K (aPush st u j hp) := by
  have hg := aPush_g st u j hp
  have hpa := aPush_parent st u j hp
  have hli := aPush_linked st u j hp
  have hmono := aPush_g_le st u j hp hlt
  have hn_start : nbr u j ≠ start := by
    intro h
    rw [h, hC.g_start] at hlt
    omega
  have hn_u : u ≠ nbr u j := by
    intro h
    rw [← h] at hlt
    omega
  have hnE : nbr u j ∉ E := by
    intro h
    have := (hC.closed _ h).2.2.2 _ (Reach.step _ u j (hC.sound u hu) ho)
    omega
  have hleinf := hC.le_inf (nbr u j)
  constructor
  · intro c hc
    rw [hg] at hc ⊢
    split_ifs at hc ⊢ with h
    · exact huK
    · exact hC.g_le c hc
  · rw [hg, if_neg (fun h => hn_start h.symm)]
    exact hC.g_start
  · rw [hli, if_neg (fun h => hn_start h.symm)]
    exact hC.start_root
  · intro c
    exact le_trans (hmono c) (hC.le_inf c)
  · intro c hc
    rw [hg] at hc ⊢
    split_ifs at hc ⊢ with h
    · rw [h]
      exact Reach.step _ u j (hC.sound u hu) ho
    · exact hC.sound c hc
  · intro c hc
    rw [hg] at hc
    split_ifs at hc with h
    · rw [h]
      exact ho.2.2
    · exact hC.in_grid c hc
  · intro c hc
    rw [hli] at hc
    rw [hpa, hg c]
    split_ifs at hc ⊢ with h
    · refine ⟨j, ho, h.symm, ?_, by omega⟩
      rw [hg, if_neg hn_u]
    · obtain ⟨d, hod, hnd, hgd, hfin⟩ := hC.chain c hc
      exact ⟨d, hod, hnd, le_trans (Nat.add_le_add_right (hmono _) 1) hgd, hfin⟩
  · intro c hc hcs
    rw [hg] at hc
    rw [hli]
    split_ifs at hc ⊢ with h
    · rfl
    · exact hC.linked_of_fin c hc hcs
  · intro e he
    change e ∈ hp at he
    rw [hperm.mem_iff, List.mem_cons] at he
    rcases he with he | he
    · subst he
      dsimp only
      rw [hg, if_pos rfl]
      exact ⟨by omega, Or.inr (le_refl _)⟩
    · obtain ⟨h1, h2⟩ := hC.heap_valid e he
      have := hmono e.pos
      refine ⟨by omega, ?_⟩
      rcases h2 with h2 | h2
      · exact Or.inl h2
      · exact Or.inr (by omega)
  · intro c hc
    rw [hg] at hc ⊢
    split_ifs at hc ⊢ with h
    · right; right
      refine ⟨⟨st.g u + 1 + hman (nbr u j), nbr u j⟩, ?_, h.symm, ?_⟩
      · show _ ∈ hp
        rw [hperm.mem_iff]
        exact List.mem_cons_self _ _
      · rw [h]
    · rcases hC.open_or_closed c hc with h1 | h1 | ⟨e, he, hpos, hf⟩
      · exact Or.inl h1
      · exact Or.inr (Or.inl h1)
      · right; right
        refine ⟨e, ?_, hpos, hf⟩
        show _ ∈ hp
        rw [hperm.mem_iff]
        exact List.mem_cons_of_mem _ he
  · intro v hv
    obtain ⟨h1, h2, h3, h4⟩ := hC.closed v hv
    have hvn : v ≠ nbr u j := fun h => hnE (h ▸ hv)
    rw [hg, if_neg hvn]
    refine ⟨h1, h2, ?_, h4⟩
    intro d hd
    exact le_trans (hmono _) (h3 d hd)
  · exact hheap

theorem AMid.skip_dir {G : Graph} {start : Position} {E : Finset Position} {u : Position}
    {dpred B K j : Nat} {st : AStarState} (hM : AMid G start E u dpred B K j st) (hj : j < 4)
    (hns : ¬ (G.Open u j ∧ st.g u + 1 < st.g (nbr u j))) :
    AMid G start E u dpred B K (j + 1) st := by
  refine { hM with done := ?_, count := ?_ }
  · intro d hd ho
    by_cases hdj : d = j
    · subst hdj
      by_contra hc
      exact hns ⟨ho, by omega⟩
    · exact hM.done d (by omega) ho
  · have := hM.count
    split_ifs at this ⊢ <;> omega

theorem AMid.relax_dir (walls : List Wall) (w h : Int) {start : Position} {E : Finset Position}
    {u : Position} {dpred B K j : Nat} {st : AStarState} (ifuel : Nat)
    (hM : AMid (planGraph walls w h start) start E u dpred B K j st) (hj : j < 4)
    (hif : MAX_HEAP < ifuel) :
    ∃ st', astar_relax ifuel walls w h u st j = some st' ∧
      AMid (planGraph walls w h start) start E u dpred B K (j + 1) st' := by
  unfold astar_relax
  by_cases hw : has_wall walls u.x u.y j = true
  · rw [if_pos hw]
    refine ⟨st, rfl, hM.skip_dir hj ?_⟩
    rintro ⟨⟨-, hb, -⟩, -⟩
    change has_wall walls u.x u.y j = false at hb
    rw [hw] at hb
    exact absurd hb (by decide)
  · rw [if_neg hw]
    dsimp only
    by_cases hb : u.x + dx j < 0 ∨ u.x + dx j ≥ w ∨ u.y + dy j < 0 ∨ u.y + dy j ≥ h
    · rw [if_pos hb]
      refine ⟨st, rfl, hM.skip_dir hj ?_⟩
      rintro ⟨⟨-, -, hin⟩, -⟩
      change inb w h (nbr u j) at hin
      unfold inb nbr at hin
      dsimp only at hin
      omega
    · rw [if_neg hb]
      by_cases hlt : st.g_score u.x u.y + 1 < st.g_score (u.x + dx j) (u.y + dy j)
      · rw [if_pos hlt]
        have hlt' : st.g u + 1 < st.g (nbr u j) := hlt
        have ho : (planGraph walls w h start).Open u j := by
          refine ⟨hj, by simpa using hw, ?_⟩
          show inb w h (nbr u j)
          unfold inb nbr
          dsimp only
          omega
        have hjd : j ≠ dpred := by
          intro hjd
          have := hM.pred_ok (hjd ▸ hj)
          rw [← hjd] at this
          omega
        have hcount := hM.count
        have hroom := hM.room
        have hdl := hM.dpred_le
        have hlen : st.heap.length < MAX_HEAP := by
          split_ifs at hcount hroom <;> omega
        obtain ⟨hp, hpush, hperm, hheap⟩ := heap_push_spec ifuel st.heap
          ⟨st.g u + 1 + hman (nbr u j), nbr u j⟩ hlen hM.core.is_heap (by omega)
        refine ⟨aPush st u j hp, ?_, ?_⟩
        · have : heap_push ifuel st.heap
              { f_score := st.g_score u.x u.y + 1 + manhattan_distance (u.x + dx j) (u.y + dy j) 0 0,
                pos := { x := u.x + dx j, y := u.y + dy j } } = some hp := hpush
          rw [this]
          rfl
        · have hg := aPush_g st u j hp
          have hun : u ≠ nbr u j := by
            intro hh
            rw [← hh] at hlt'
            omega
          constructor
          · exact hM.core.push_node j ho hlt' hM.u_fin hM.u_bound hp hperm hheap
          · rw [hg, if_neg hun]
            exact hM.u_bound
          · rw [hg, if_neg hun]
            exact hM.u_fin
          · rw [hg, if_neg hun]
            exact hM.u_opt
          · intro d hd hod
            rw [hg u, if_neg hun]
            have hmono := aPush_g_le st u j hp hlt' (nbr u d)
            by_cases hdj : d = j
            · rw [hdj, hg, if_pos rfl]
            · exact le_trans hmono (hM.done d (by omega) hod)
          · intro hd
            rw [hg u, if_neg hun]
            exact le_trans (aPush_g_le st u j hp hlt' _) (hM.pred_ok hd)
          · exact hM.dpred_le
          · have hl : (aPush st u j hp).heap.length = st.heap.length + 1 := by
              show hp.length = _
              rw [hperm.length_eq]
              rfl
            rw [hl]
            split_ifs at hcount ⊢ <;> omega
          · exact hM.room
      · rw [if_neg hlt]
        refine ⟨st, rfl, hM.skip_dir hj ?_⟩
        rintro ⟨-, hlt'⟩
        exact hlt hlt'

theorem astar_relax_skip (walls : List Wall) (w h : Int) (start u : Position) (j : Nat)
    (st : AStarState) (ifuel : Nat) (hj : j < 4)
    (hns : ¬ ((planGraph walls w h start).Open u j ∧ st.g u + 1 < st.g (nbr u j))) :
    astar_relax ifuel walls w h u st j = some st := by
  unfold astar_relax
  by_cases hw : has_wall walls u.x u.y j = true
  · rw [if_pos hw]
  · rw [if_neg hw]
    dsimp only
    by_cases hb : u.x + dx j < 0 ∨ u.x + dx j ≥ w ∨ u.y + dy j < 0 ∨ u.y + dy j ≥ h
    · rw [if_pos hb]
    · rw [if_neg hb]
      by_cases hlt : st.g_score u.x u.y + 1 < st.g_score (u.x + dx j) (u.y + dy j)
      · exfalso
        apply hns
        refine ⟨⟨hj, by simpa using hw, ?_⟩, hlt⟩
        show inb w h (nbr u j)
        unfold inb nbr
        dsimp only
        omega
      · rw [if_neg hlt]

theorem astar_relax_all_skip (walls : List Wall) (w h : Int) (start u : Position)
    (st : AStarState) (ifuel : Nat)
    (hns : ∀ j, (planGraph walls w h start).Open u j → st.g (nbr u j) ≤ st.g u + 1) :
    (List.range 4).foldlM (astar_relax ifuel walls w h u) st = some st := by
  have hs : ∀ j, j < 4 → astar_relax ifuel walls w h u st j = some st := by
    intro j hj
    apply astar_relax_skip walls w h start u j st ifuel hj
    rintro ⟨ho, hlt⟩
    have := hns j ho
    omega
  rw [range_four]
  simp only [List.foldlM, Option.bind_eq_bind]
  rw [hs 0 (by decide), Option.some_bind, hs 1 (by decide), Option.some_bind,
    hs 2 (by decide), Option.some_bind, hs 3 (by decide), Option.some_bind]
  rfl

/-- The state after `heap_pop`, the popped cell being exempt from the open-or-closed rule. -/
theorem Core.pop_min {G : Graph} {start : Position} {E : Finset Position} {K : Nat}
    {st : AStarState} (hC : Core G start E (fun _ => False) K st) (r : AStarNode)
    (hp : List AStarNode) (hperm : st.heap.Perm (r :: hp)) (hheap : IsHeap hp) :
    Core G start E (fun c => c = r.pos) (K + 1) { st with heap := hp } := by
  constructor
  · intro c hc
    exact le_trans (hC.g_le c hc) (Nat.le_succ _)
  · exact hC.g_start
  · exact hC.start_root
  · exact hC.le_inf
  · exact hC.sound
  · exact hC.in_grid
  · exact hC.chain
  · exact hC.linked_of_fin
  · intro e he
    exact hC.heap_valid e (by rw [hperm.mem_iff]; exact List.mem_cons_of_mem _ he)
  · intro c hc
    rcases hC.open_or_closed c hc with h1 | h1 | ⟨e, he, hpos, hf⟩
    · exact Or.inl h1
    · exact absurd h1 id
    · rw [hperm.mem_iff, List.mem_cons] at he
      rcases he with he | he
      · right; left
        rw [← hpos, he]
      · exact Or.inr (Or.inr ⟨e, he, hpos, hf⟩)
  · exact hC.closed
  · exact hheap

theorem Core.reclose {G : Graph} {start : Position} {E : Finset Position} {K : Nat}
    {st : AStarState} {u : Position} (hC : Core G start E (fun c => c = u) K st) (hu : u ∈ E) :
    Core G start E (fun _ => False) K st := by
  refine { hC with open_or_closed := ?_ }
  intro c hc
  rcases hC.open_or_closed c hc with h1 | h1 | h1
  · exact Or.inl h1
  · exact Or.inl (h1 ▸ hu)
  · exact Or.inr (Or.inr h1)

theorem AMid.close {G : Graph} {start : Position} {E : Finset Position} {u : Position}
    {dpred B K : Nat} {st : AStarState} (hM : AMid G start E u dpred B K 4 st)
    (huo : u ≠ origin) : Core G start (insert u E) (fun _ => False) K st := by
  refine { hM.core with open_or_closed := ?_, closed := ?_ }
  · intro c hc
    rcases hM.core.open_or_closed c hc with h1 | h1 | h1
    · exact Or.inl (Finset.mem_insert_of_mem h1)
    · left
      rw [h1]
      exact Finset.mem_insert_self _ _
    · exact Or.inr (Or.inr h1)
  · intro v hv
    rw [Finset.mem_insert] at hv
    rcases hv with hv | hv
    · subst hv
      exact ⟨hM.u_fin, huo, fun d hd => hM.done d hd.1 hd, hM.u_opt⟩
    · exact hM.core.closed v hv

theorem AMid.relax_dirs (walls : List Wall) (w h : Int) {start : Position} {E : Finset Position}
    {u : Position} {dpred B K : Nat} {st : AStarState} (ifuel : Nat)
    (hM : AMid (planGraph walls w h start) start E u dpred B K 0 st)
    (hif : MAX_HEAP < ifuel) :
    ∃ st', (List.range 4).foldlM (astar_relax ifuel walls w h u) st = some st' ∧
      AMid (planGraph walls w h start) start E u dpred B K 4 st' := by
  rw [range_four]
  simp only [List.foldlM]
  obtain ⟨s1, r0, m1⟩ := hM.relax_dir walls w h ifuel (by decide) hif
  obtain ⟨s2, r1, m2⟩ := m1.relax_dir walls w h ifuel (by decide) hif
  obtain ⟨s3, r2, m3⟩ := m2.relax_dir walls w h ifuel (by decide) hif
  obtain ⟨s4, r3, m4⟩ := m3.relax_dir walls w h ifuel (by decide) hif
  refine ⟨s4, ?_, m4⟩
  rw [r0]
  simp only [Option.bind_eq_bind, Option.some_bind, r1, r2, r3]
  rfl

theorem AInv.expanded_sub {G : Graph} {start : Position} {E : Finset Position} {K : Nat}
    {st : AStarState} (hI : AInv G start E K st) : E ⊆ gridCells G.w G.h := by
  intro v hv
  exact mem_gridCells _ _ v (hI.core.in_grid v (hI.core.closed v hv).1)

theorem AInv.origin_not_mem {G : Graph} {start : Position} {E : Finset Position} {K : Nat}
    {st : AStarState} (hI : AInv G start E K st) : origin ∉ E :=
  fun h => (hI.core.closed origin h).2.1 rfl

/-- One pass of the `while` body of the planner: the popped cell carries an optimal `g_score`;
unless it is the origin, the direction loop succeeds without dropping a push, re-establishes
the invariant, and the progress measure decreases. -/
theorem AInv.expand (walls : List Wall) (w h : Int) {start : Position} {E : Finset Position}
    {K : Nat} {st : AStarState} (ifuel : Nat)
    (hI : AInv (planGraph walls w h start) start E K st) (hne : 0 < st.heap.length)
    (hif : MAX_HEAP < ifuel) (hK : K + 2 < INF) (hcard : (gridCells w h).card ≤ 256)
    (hor : inb w h origin) :
    ∃ r hp, heap_pop ifuel st.heap = some (r, hp) ∧ st.g r.pos < INF ∧
      (∀ n, Reach (planGraph walls w h start) n r.pos → st.g r.pos ≤ n) ∧
      (r.pos ≠ origin →
        ∃ st' E', (List.range 4).foldlM (astar_relax ifuel walls w h r.pos)
            { st with heap := hp } = some st' ∧
          AInv (planGraph walls w h start) start E' (K + 1) st' ∧
          st'.heap.length + 4 * E.card + 1 ≤ st.heap.length + 4 * E'.card) := by
  have hcard1 : E.card + 1 ≤ (gridCells w h).card := by
    have h1 : insert origin E ⊆ gridCells w h := by
      intro v hv
      rw [Finset.mem_insert] at hv
      rcases hv with hv | hv
      · rw [hv]; exact mem_gridCells _ _ _ hor
      · exact hI.expanded_sub hv
    have h2 := Finset.card_le_card h1
    rw [Finset.card_insert_of_not_mem hI.origin_not_mem] at h2
    exact h2
  obtain ⟨r, hp, hpop, hperm, hheap, hmin⟩ := heap_pop_spec ifuel st.heap hne hI.core.is_heap
    (by unfold MAX_HEAP at hif; have := hI.count; omega)
  have hrmem : r ∈ st.heap := by
    rw [hperm.mem_iff]
    exact List.mem_cons_self _ _
  have hfin := (hI.core.heap_valid r hrmem).1
  have hopt := hI.core.pop_opt (by omega) (fun c hc => hc) r hrmem hmin
  have hlen : st.heap.length = hp.length + 1 := by
    rw [hperm.length_eq]
    rfl
  refine ⟨r, hp, hpop, hfin, hopt, ?_⟩
  intro hro
  have hcore := hI.core.pop_min r hp hperm hheap
  by_cases huE : r.pos ∈ E
  · refine ⟨{ st with heap := hp }, E, ?_, ?_, ?_⟩
    · exact astar_relax_all_skip walls w h start r.pos _ ifuel (hI.core.closed _ huE).2.2.1
    · refine ⟨hcore.reclose huE, ?_, ?_⟩
      · have := hI.count
        show hp.length ≤ _
        omega
      · intro hs
        have := hI.first hs
        show hp.length ≤ _
        omega
    · show hp.length + 4 * E.card + 1 ≤ _
      omega
  · have hsub := hI.expanded_sub
    have hon := hI.origin_not_mem
    have hu_cell : r.pos ∈ gridCells w h := mem_gridCells _ _ _ (hI.core.in_grid _ hfin)
    have hcard2 : E.card + 2 ≤ (gridCells w h).card := by
      have h1 : insert r.pos (insert origin E) ⊆ gridCells w h := by
        intro v hv
        rw [Finset.mem_insert, Finset.mem_insert] at hv
        rcases hv with hv | hv | hv
        · rw [hv]; exact hu_cell
        · rw [hv]; exact mem_gridCells _ _ _ hor
        · exact hsub hv
      have h2 := Finset.card_le_card h1
      rw [Finset.card_insert_of_not_mem (by
        rw [Finset.mem_insert]
        rintro (hh | hh)
        · exact hro hh
        · exact huE hh), Finset.card_insert_of_not_mem hon] at h2
      omega
    have hcount := hI.count
    have hstart_case : r.pos ≠ start → start ∈ E := by
      intro hrs
      by_contra hsE
      have h1 := hI.first hsE
      have hpl : hp = [] := List.eq_nil_of_length_eq_zero (by omega)
      rcases hI.core.open_or_closed start (by rw [hI.core.g_start]; decide) with h2 | h2 | h2
      · exact hsE h2
      · exact h2
      · obtain ⟨e, he, hpos, -⟩ := h2
        rw [hperm.mem_iff, hpl, List.mem_singleton] at he
        rw [he] at hpos
        exact hrs hpos
    have hmid : ∃ dpred B, AMid (planGraph walls w h start) start E r.pos dpred B (K + 1) 0
        { st with heap := hp } ∧ B + (if 4 ≤ dpred then 1 else 0) ≤ hp.length + 4 ∧
        (r.pos ≠ start → B + (if 4 ≤ dpred then 1 else 0) ≤ hp.length + 3) := by
      by_cases hrs : r.pos = start
      · refine ⟨4, 3, ?_, by simp, fun h => absurd hrs h⟩
        have hfirst := hI.first (hrs ▸ huE)
        refine ⟨hcore, ?_, hfin, hopt, ?_, ?_, le_refl _, ?_, ?_⟩
        · have := hI.core.g_le _ hfin
          show st.g r.pos + 1 ≤ K + 1
          omega
        · intro d hd
          exact absurd hd (Nat.not_lt_zero _)
        · intro hd
          exact absurd hd (by decide)
        · show hp.length + (4 - 0) ≤ 3 + (if 0 ≤ 4 then 1 else 0)
          rw [if_pos (by decide)]
          omega
        · rw [if_pos rfl]
          decide
      · have hlink := hI.core.linked_of_fin _ hfin hrs
        obtain ⟨d0, hod, hnd, hgd, -⟩ := hI.core.chain _ hlink
        have hback : nbr r.pos ((d0 + 2) % 4) = st.parent r.pos := by
          have := nbr_back (st.parent r.pos) d0 hod.1
          rw [hnd] at this
          exact this
        have hdp := opp_lt d0
        refine ⟨(d0 + 2) % 4, hp.length + 3, ?_, ?_, ?_⟩
        · refine ⟨hcore, ?_, hfin, hopt, ?_, ?_, by omega, ?_, ?_⟩
          · have := hI.core.g_le _ hfin
            show st.g r.pos + 1 ≤ K + 1
            omega
          · intro d hd
            exact absurd hd (Nat.not_lt_zero _)
          · intro _
            rw [hback]
            show st.g (st.parent r.pos) ≤ st.g r.pos
            omega
          · show hp.length + (4 - 0) ≤ hp.length + 3 + (if 0 ≤ (d0 + 2) % 4 then 1 else 0)
            rw [if_pos (Nat.zero_le _)]
          · rw [if_neg (by omega)]
            unfold MAX_HEAP
            omega
        · rw [if_neg (by omega)]
          omega
        · intro _
          rw [if_neg (by omega)]
    obtain ⟨dpred, B, hM0, hB, hB'⟩ := hmid
    obtain ⟨st', hrun, hM4⟩ := hM0.relax_dirs walls w h ifuel hif
    have hc4 := hM4.count
    have hEc : (insert r.pos E).card = E.card + 1 := Finset.card_insert_of_not_mem huE
    refine ⟨st', insert r.pos E, hrun, ⟨hM4.close hro, ?_, ?_⟩, ?_⟩
    · rw [hEc]
      by_cases hrs : r.pos = start
      · have := hI.first (hrs ▸ huE)
        split_ifs at hc4 hB <;> omega
      · have := hB' hrs
        split_ifs at hc4 this <;> omega
    · intro hs
      exfalso
      apply hs
      by_cases hrs : r.pos = start
      · rw [← hrs]
        exact Finset.mem_insert_self _ _
      · exact Finset.mem_insert_of_mem (hstart_case hrs)
    · rw [hEc]
      split_ifs at hc4 hB <;> omega

/-! ### Path reconstruction -/

theorem swap_getD {α : Type} (l : List α) (i j k : Nat) (hi : i < l.length)
    (hj : j < l.length) (d : α) :
    ((l.set i (l.getD j d)).set j (l.getD i d)).getD k d =
      if k = j then l.getD i d else if k = i then l.getD j d else l.getD k d := by
  simp only [List.getD_eq_getElem?_getD, List.getElem?_set, List.length_set]
  by_cases hkj : k = j
  · subst hkj
    simp [hi, hj]
  · by_cases hki : k = i
    · subst hki
      simp [hi, hj, hkj, Ne.symm hkj]
    · simp [hkj, hki, Ne.symm hkj, Ne.symm hki]

theorem reverse_path_fold (path : List Position) :
    ∀ m, m ≤ path.length / 2 →
      ((List.range m).foldl
        (fun p i =>
          let tmp := p.getD i ⟨0, 0⟩
          (p.set i (p.getD (path.length - 1 - i) ⟨0, 0⟩)).set (path.length - 1 - i) tmp)
        path).length = path.length ∧
      ∀ k, k < path.length →
        ((List.range m).foldl
          (fun p i =>
            let tmp := p.getD i ⟨0, 0⟩
            (p.set i (p.getD (path.length - 1 - i) ⟨0, 0⟩)).set (path.length - 1 - i) tmp)
          path).getD k ⟨0, 0⟩ =
          if k < m ∨ path.length - m ≤ k then path.getD (path.length - 1 - k) ⟨0, 0⟩
          else path.getD k ⟨0, 0⟩ := by
  intro m
  induction m with
  | zero =>
    intro _
    refine ⟨rfl, ?_⟩
    intro k hk
    rw [if_neg (by omega)]
    rfl
  | succ m ih =>
    intro hm
    obtain ⟨hl, hg⟩ := ih (by omega)
    rw [List.range_succ, List.foldl_append, List.foldl_cons, List.foldl_nil]
    generalize (List.range m).foldl
      (fun p i =>
        let tmp := p.getD i ⟨0, 0⟩
        (p.set i (p.getD (path.length - 1 - i) ⟨0, 0⟩)).set (path.length - 1 - i) tmp)
      path = R at hl hg ⊢
    show ((R.set m (R.getD (path.length - 1 - m) ⟨0, 0⟩)).set (path.length - 1 - m)
        (R.getD m ⟨0, 0⟩)).length = path.length ∧
      ∀ k, k < path.length →
        ((R.set m (R.getD (path.length - 1 - m) ⟨0, 0⟩)).set (path.length - 1 - m)
          (R.getD m ⟨0, 0⟩)).getD k ⟨0, 0⟩ =
          if k < m + 1 ∨ path.length - (m + 1) ≤ k then path.getD (path.length - 1 - k) ⟨0, 0⟩
          else path.getD k ⟨0, 0⟩
    refine ⟨by simp [hl], ?_⟩
    intro k hk
    rw [swap_getD R m (path.length - 1 - m) k (by omega) (by omega)]
    rw [hg m (by omega), hg (path.length - 1 - m) (by omega)]
    have e1 : ¬ (m < m ∨ path.length - m ≤ m) := by omega
    have e2 : ¬ (path.length - 1 - m < m ∨ path.length - m ≤ path.length - 1 - m) := by omega
    rw [if_neg e1, if_neg e2]
    by_cases h1 : k = path.length - 1 - m
    · rw [if_pos h1, if_pos (by omega)]
      congr 1
      omega
    · rw [if_neg h1]
      by_cases h2 : k = m
      · rw [if_pos h2, if_pos (by omega), h2]
      · rw [if_neg h2, hg k hk]
        by_cases h3 : k < m ∨ path.length - m ≤ k
        · rw [if_pos h3, if_pos (by omega)]
        · rw [if_neg h3, if_neg (by omega)]

/-- The in-place reversal loop reverses the path. -/
theorem reverse_path_eq (path : List Position) : reverse_path path = path.reverse := by
  obtain ⟨hl, hg⟩ := reverse_path_fold path (path.length / 2) (le_refl _)
  unfold reverse_path
  apply List.ext_getElem
  · rw [hl, List.length_reverse]
  · intro k h1 h2
    have hk : k < path.length := by rw [hl] at h1; exact h1
    have := hg k hk
    rw [List.getD_eq_getElem _ _ h1] at this
    rw [this, List.getElem_reverse]
    by_cases h3 : k < path.length / 2 ∨ path.length - path.length / 2 ≤ k
    · rw [if_pos h3, List.getD_eq_getElem _ _ (by omega)]
    · rw [if_neg h3, List.getD_eq_getElem _ _ hk]
      congr 1
      omega

theorem reconstruct_spec {G : Graph} {start : Position} {E : Finset Position}
    {exc : Position → Prop} {K : Nat} {st : AStarState} (hC : Core G start E exc K st)
    (hcard : (gridCells G.w G.h).card ≤ MAX_STACK) :
    ∀ (fuel : Nat) (temp : Position) (acc : List Position), st.g temp < INF →
      st.g temp < fuel → (∀ a ∈ acc, st.g temp < st.g a ∧ st.g a < INF) → acc.Nodup →
      ∃ tail, reconstruct_loop st.in_came_from st.came_from fuel temp acc = some (acc ++ tail) ∧
        ChainTo st temp tail := by
  intro fuel
  induction fuel with
  | zero =>
    intro temp acc _ hf
    exact absurd hf (Nat.not_lt_zero _)
  | succ fuel ih =>
    intro temp acc hfin hf hacc hnd
    unfold reconstruct_loop
    by_cases hl : st.in_came_from temp.x temp.y = true
    · rw [if_pos hl]
      have hnd' : (acc ++ [temp]).Nodup := by
        rw [List.nodup_append]
        refine ⟨hnd, List.nodup_singleton _, ?_⟩
        intro a ha hb
        rw [List.mem_singleton] at hb
        subst hb
        have := (hacc a ha).1
        omega
      have hlen := nodup_length_le_card (acc ++ [temp]) (gridCells G.w G.h) hnd' (by
        intro c hc
        rw [List.mem_append, List.mem_singleton] at hc
        rcases hc with hc | hc
        · exact mem_gridCells _ _ c (hC.in_grid c (hacc c hc).2)
        · rw [hc]
          exact mem_gridCells _ _ _ (hC.in_grid temp hfin))
      rw [List.length_append, List.length_singleton] at hlen
      rw [if_pos (by omega)]
      obtain ⟨d, -, -, hgd, -⟩ := hC.chain temp hl
      have hp : st.came_from temp.x temp.y = st.parent temp := rfl
      rw [hp]
      obtain ⟨tail, hr, hch⟩ := ih (st.parent temp) (acc ++ [temp]) (by omega) (by omega) (by
        intro a ha
        rw [List.mem_append, List.mem_singleton] at ha
        rcases ha with ha | ha
        · have := hacc a ha
          omega
        · rw [ha]
          omega) hnd'
      refine ⟨temp :: tail, ?_, rfl, hl, hch⟩
      rw [hr, List.append_assoc]
      rfl
    · rw [if_neg hl]
      refine ⟨[], by rw [List.append_nil], ?_⟩
      show st.linked temp = false
      simpa using hl

theorem chain_walk {G : Graph} {start : Position} {E : Finset Position}
    {exc : Position → Prop} {K : Nat} {st : AStarState} (hC : Core G start E exc K st) :
    ∀ (tail : List Position) (temp : Position), ChainTo st temp tail → st.g temp < INF →
      IsWalk G start tail.reverse ∧ walkEnd start tail.reverse = temp ∧
        tail.length ≤ st.g temp := by
  intro tail
  induction tail with
  | nil =>
    intro temp hch hfin
    have hts : temp = start := by
      by_contra hne
      have := hC.linked_of_fin temp hfin hne
      rw [hch] at this
      exact absurd this (by decide)
    exact ⟨trivial, hts.symm, Nat.zero_le _⟩
  | cons c rest ih =>
    intro temp hch hfin
    obtain ⟨hc, hl, hrest⟩ := hch
    obtain ⟨d, hod, hnd, hgd, -⟩ := hC.chain temp hl
    obtain ⟨hw, he, hlen⟩ := ih (st.parent temp) hrest (by omega)
    rw [List.reverse_cons]
    refine ⟨IsWalk.append_one _ _ _ hw ⟨d, by rw [he]; exact hod, by rw [he, hc]; exact hnd⟩, ?_, ?_⟩
    · rw [walkEnd_snoc, hc]
    · rw [List.length_cons]
      omega

/-! ### The planner loop -/

theorem pos_eq_origin (c : Position) : (c.x = 0 ∧ c.y = 0) ↔ c = origin := by
  obtain ⟨x, y⟩ := c
  unfold origin
  simp

/-- With an empty heap every cell reachable from the start has been expanded, so the origin
is unreachable. -/
theorem AInv.exhausted {G : Graph} {start : Position} {E : Finset Position} {K : Nat}
    {st : AStarState} (hI : AInv G start E K st) (hseed : ∀ c, G.seeds c → c = start)
    (hK : K + 1 < INF) (hemp : st.heap.length = 0) : ∀ n, ¬ Reach G n origin := by
  have hnil : st.heap = [] := List.eq_nil_of_length_eq_zero hemp
  have hall : ∀ c, st.g c < INF → c ∈ E := by
    intro c hc
    rcases hI.core.open_or_closed c hc with h | h | ⟨e, he, -, -⟩
    · exact h
    · exact absurd h id
    · rw [hnil] at he
      exact absurd he (List.not_mem_nil _)
  have key : ∀ n c, Reach G n c → c ∈ E := by
    intro n c hr
    induction hr with
    | seed c hs =>
      rw [hseed c hs]
      exact hall start (by rw [hI.core.g_start]; decide)
    | step n u d _ ho ih =>
      obtain ⟨h1, -, h3, -⟩ := hI.core.closed u ih
      have := h3 d ho
      have := hI.core.g_le u h1
      exact hall _ (by omega)
  intro n hr
  exact hI.origin_not_mem (key n origin hr)

/-- The `while` loop of `find_path_to_start` terminates within the fuel; it returns 1 with a
shortest walk to the origin, or 0 when the origin is unreachable. -/
theorem astar_loop_spec (walls : List Wall) (w h : Int) (start : Position) (ifuel : Nat)
    (hif : 1026 ≤ ifuel) (hcard : (gridCells w h).card ≤ 256) (hor : inb w h origin) :
    ∀ (fuel : Nat) (st : AStarState) (E : Finset Position) (K : Nat),
      AInv (planGraph walls w h start) start E K st →
      K + st.heap.length + 4 * (gridCells w h).card ≤ 1025 + 4 * E.card →
      st.heap.length + 4 * (gridCells w h).card + 1 ≤ fuel + 4 * E.card →
      (∃ path, astar_loop ifuel walls w h fuel st = some (some path) ∧
          PlanOK (planGraph walls w h start) start path) ∨
        (astar_loop ifuel walls w h fuel st = some none ∧
          ∀ n, ¬ Reach (planGraph walls w h start) n origin) := by
  intro fuel
  induction fuel with
  | zero =>
    intro st E K hI _ hf
    have := Finset.card_le_card hI.expanded_sub
    have e : (gridCells (planGraph walls w h start).w (planGraph walls w h start).h) =
        gridCells w h := rfl
    rw [e] at this
    omega
  | succ fuel ih =>
    intro st E K hI hK hf
    have hEc := Finset.card_le_card hI.expanded_sub
    have e : (gridCells (planGraph walls w h start).w (planGraph walls w h start).h) =
        gridCells w h := rfl
    rw [e] at hEc
    have hK2 : K + 2 < INF := by
      show K + 2 < 9999
      omega
    unfold astar_loop
    by_cases hne : st.heap.length > 0
    · rw [if_pos hne]
      obtain ⟨r, hp, hpop, hfin, hopt, hnext⟩ := hI.expand walls w h ifuel hne
        (by unfold MAX_HEAP; omega) hK2 hcard hor
      rw [hpop]
      dsimp only
      by_cases hro : r.pos = origin
      · rw [if_pos ((pos_eq_origin r.pos).mpr hro)]
        left
        obtain ⟨tail, hrec, hch⟩ := reconstruct_spec hI.core (by
            show (gridCells w h).card ≤ MAX_STACK
            unfold MAX_STACK
            exact hcard) ifuel r.pos [] hfin
          (by have := hI.core.g_le _ hfin; omega) (by simp) List.nodup_nil
        rw [List.nil_append] at hrec
        rw [hrec]
        obtain ⟨hw, he, hlen⟩ := chain_walk hI.core tail r.pos hch hfin
        refine ⟨reverse_path tail, rfl, ?_⟩
        rw [reverse_path_eq]
        refine ⟨hw, by rw [he, hro], ?_⟩
        intro n hn
        rw [List.length_reverse]
        have := hopt n (hro ▸ hn)
        omega
      · rw [if_neg (fun hc => hro ((pos_eq_origin r.pos).mp hc))]
        obtain ⟨st', E', hrun, hI', hmeas⟩ := hnext hro
        rw [hrun]
        dsimp only
        exact ih st' E' (K + 1) hI' (by omega) (by omega)
    · rw [if_neg hne]
      right
      exact ⟨rfl, hI.exhausted (fun c hc => hc) (by omega) (by omega)⟩

theorem astar_init_eq (fuel : Nat) (hf : 0 < fuel) (mx my : Int) :
    astar_init fuel mx my =
      some
        { g_score := set2 (fun _ _ => INF) mx my 0
          came_from := fun _ _ => ⟨0, 0⟩
          in_came_from := fun _ _ => false
          heap := [{ f_score := 0, pos := { x := mx, y := my } }] } := by
  obtain ⟨n, rfl⟩ : ∃ n, fuel = n + 1 := ⟨fuel - 1, by omega⟩
  unfold astar_init heap_push
  simp [heap_push_loop, MAX_HEAP]

/-- The state before the `while` loop of `find_path_to_start` satisfies the planner invariant
with no expanded cell. -/
theorem astar_init_inv (walls : List Wall) (w h : Int) (start : Position)
    (hs : inb w h start) :
    AInv (planGraph walls w h start) start ∅ 0
      { g_score := set2 (fun _ _ => INF) start.x start.y 0
        came_from := fun _ _ => ⟨0, 0⟩
        in_came_from := fun _ _ => false
        heap := [{ f_score := 0, pos := start }] } := by
  have hg : ∀ c, AStarState.g
      { g_score := set2 (fun _ _ => INF) start.x start.y 0
        came_from := fun _ _ => ⟨0, 0⟩
        in_came_from := fun _ _ => false
        heap := [{ f_score := 0, pos := start }] } c = if c = start then 0 else INF := by
    intro c
    unfold AStarState.g
    exact set2_apply_pos (fun _ _ => INF) start 0 c
  have hfin : ∀ c, AStarState.g
      { g_score := set2 (fun _ _ => INF) start.x start.y 0
        came_from := fun _ _ => ⟨0, 0⟩
        in_came_from := fun _ _ => false
        heap := [{ f_score := 0, pos := start }] } c < INF → c = start := by
    intro c hc
    rw [hg] at hc
    split_ifs at hc with h
    · exact h
    · exact absurd hc (lt_irrefl _)
  refine ⟨?_, by simp, fun _ => le_refl _⟩
  constructor
  · intro c hc
    rw [hfin c hc, hg, if_pos rfl]
  · rw [hg, if_pos rfl]
  · rfl
  · intro c
    rw [hg]
    split_ifs
    · exact Nat.zero_le _
    · exact le_refl _
  · intro c hc
    have := hfin c hc
    subst this
    rw [hg, if_pos rfl]
    exact Reach.seed _ rfl
  · intro c hc
    rw [hfin c hc]
    exact hs
  · intro c hc
    exact absurd hc (by simp [AStarState.linked])
  · intro c hc hcs
    exact absurd (hfin c hc) hcs
  · intro e he
    simp only [List.mem_singleton] at he
    subst he
    refine ⟨?_, Or.inl rfl⟩
    rw [hg, if_pos rfl]
    decide
  · intro c hc
    right; right
    refine ⟨⟨0, start⟩, by simp, (hfin c hc).symm, Nat.zero_le _⟩
  · intro u hu
    exact absurd hu (Finset.not_mem_empty _)
  · intro i hi0 hi
    simp only [List.length_singleton] at hi
    omega

/-- The planner `find_path_to_start` terminates on every maze up to 16 x 16 with the mouse in
bounds.  It returns 1 together with a shortest walk from the mouse cell to the origin, stored
in `path_to_start[0 .. path_length)`, or it returns 0, leaves the state unchanged, and no walk
leads from the mouse cell to the origin. -/
theorem find_path_to_start_spec (fuel : Nat) (s : State)
    (hin : inb s.maze_width s.maze_height ⟨s.mouse_x, s.mouse_y⟩) (hw : s.maze_width ≤ 16)
    (hh : s.maze_height ≤ 16) (hf : 1026 ≤ fuel) :
    (∃ path, find_path_to_start fuel s =
          some (true, { s with
            path_to_start := path ++ s.path_to_start.drop path.length
            path_length := path.length
            path_index := 0 }) ∧
        PlanOK (planGraph s.walls s.maze_width s.maze_height ⟨s.mouse_x, s.mouse_y⟩)
          ⟨s.mouse_x, s.mouse_y⟩ path) ∨
      (find_path_to_start fuel s = some (false, s) ∧
        ∀ n, ¬ Reach (planGraph s.walls s.maze_width s.maze_height ⟨s.mouse_x, s.mouse_y⟩)
          n origin) := by
  have hcard := FloodFill.card_grid_le s.maze_width s.maze_height hw hh
  have hor : inb s.maze_width s.maze_height origin := by
    unfold inb at hin ⊢
    unfold origin
    dsimp only at hin ⊢
    omega
  have hinit := astar_init_inv s.walls s.maze_width s.maze_height ⟨s.mouse_x, s.mouse_y⟩ hin
  have hloop := astar_loop_spec s.walls s.maze_width s.maze_height ⟨s.mouse_x, s.mouse_y⟩ fuel
    hf hcard hor fuel _ ∅ 0 hinit (by simp; omega) (by simp; omega)
  unfold find_path_to_start
  rw [astar_init_eq fuel (by omega)]
  dsimp only
  rcases hloop with ⟨path, hrun, hok⟩ | ⟨hrun, hno⟩
  · left
    refine ⟨path, ?_, hok⟩
    rw [hrun]
  · right
    refine ⟨?_, hno⟩
    rw [hrun]

end Hybrid

end Micromouse

namespace Micromouse

namespace Hybrid

open Bfs

/-! ## The optimal run (phase 2) -/

theorem bfs_loop_mono (walls : List Wall) (w h : Int) :
    ∀ (fuel : Nat) (st r : BfsState), bfs_loop walls w h fuel st = some r →
      ∀ k, bfs_loop walls w h (fuel + k) st = some r := by
  intro fuel
  induction fuel with
  | zero =>
    intro st r hr
    simp [bfs_loop] at hr
  | succ fuel ih =>
    intro st r hr k
    have e : fuel + 1 + k = (fuel + k) + 1 := by omega
    rw [e]
    unfold bfs_loop at hr ⊢
    split_ifs at hr ⊢ with hc
    · exact hr
    · exact ih _ r hr k

theorem calculate_distances_mono (fuel k : Nat) (s r : State)
    (hr : calculate_distances fuel s = some r) : calculate_distances (fuel + k) s = some r := by
  unfold calculate_distances at hr ⊢
  cases hb : bfs_loop s.walls s.maze_width s.maze_height fuel (bfs_init s.goal_cells) with
  | none => simp [hb] at hr
  | some st =>
    rw [bfs_loop_mono _ _ _ fuel _ st hb k]
    rw [hb] at hr
    exact hr

/-- The facts about a computed field used by the optimal run. -/
theorem ComputedField.props (s : State) (hcf : ComputedField s)
    (hsym : SymmetricWalls s.walls s.maze_width s.maze_height) (hg : GoalsInGrid s)
    (hw : s.maze_width ≤ 16) (hh : s.maze_height ≤ 16) :
    (∀ i, i < 4 → s.distances (s.goal_cells i).x (s.goal_cells i).y = 0) ∧
      ∀ c, inb s.maze_width s.maze_height c → is_goal s.goal_cells c.x c.y = false →
        s.distances c.x c.y < INF → ConsistentAt s c.x c.y := by
  obtain ⟨fuel, hfuel⟩ := hcf
  obtain ⟨s', hrun, hs', hgoal, hcell⟩ :=
    calculate_distances_symmetric (261 + fuel) s hsym hg hw hh (by omega)
  cases hc : calculate_distances fuel s with
  | none => simp [hc] at hfuel
  | some t =>
    have h1 := calculate_distances_mono fuel 261 s t hc
    rw [Nat.add_comm] at h1
    rw [h1] at hrun
    simp only [Option.some.injEq] at hrun
    rw [hc] at hfuel
    simp only [Option.map_some', Option.some.injEq] at hfuel
    have hd : s'.distances = s.distances := by rw [← hrun, hfuel]
    have hss : s' = s := by
      rw [hs', hd]
    rw [hss] at hgoal hcell
    exact ⟨hgoal, fun c hc hng hfin => (hcell c hc).1 hng hfin⟩

/-- Invariant of the direction loop of phase 2 after the directions `< j`. -/
theorem best_step_inv (s : State) (j : Nat) (hj : j < 4) (acc : Option Nat × Nat)
    (h1 : acc.2 ≤ s.distances s.mouse_x s.mouse_y)
    (h2 : ∀ d, d < j → has_wall s.walls s.mouse_x s.mouse_y d = false →
      inb s.maze_width s.maze_height (nbr ⟨s.mouse_x, s.mouse_y⟩ d) →
      acc.2 ≤ s.distances (s.mouse_x + dx d) (s.mouse_y + dy d))
    (h3 : ∀ b, acc.1 = some b → b < 4 ∧ has_wall s.walls s.mouse_x s.mouse_y b = false ∧
      inb s.maze_width s.maze_height (nbr ⟨s.mouse_x, s.mouse_y⟩ b) ∧
      s.distances (s.mouse_x + dx b) (s.mouse_y + dy b) = acc.2)
    (h4 : acc.1 = none → acc.2 = s.distances s.mouse_x s.mouse_y) :
    (best_step s acc j).2 ≤ s.distances s.mouse_x s.mouse_y ∧
    (∀ d, d < j + 1 → has_wall s.walls s.mouse_x s.mouse_y d = false →
      inb s.maze_width s.maze_height (nbr ⟨s.mouse_x, s.mouse_y⟩ d) →
      (best_step s acc j).2 ≤ s.distances (s.mouse_x + dx d) (s.mouse_y + dy d)) ∧
    (∀ b, (best_step s acc j).1 = some b → b < 4 ∧
      has_wall s.walls s.mouse_x s.mouse_y b = false ∧
      inb s.maze_width s.maze_height (nbr ⟨s.mouse_x, s.mouse_y⟩ b) ∧
      s.distances (s.mouse_x + dx b) (s.mouse_y + dy b) = (best_step s acc j).2) ∧
    ((best_step s acc j).1 = none → (best_step s acc j).2 = s.distances s.mouse_x s.mouse_y) := by
  unfold best_step
  dsimp only
  by_cases hw : has_wall s.walls s.mouse_x s.mouse_y j = true
  · rw [if_pos hw]
    refine ⟨h1, ?_, h3, h4⟩
    intro d hd hwd hin
    by_cases hdj : d = j
    · rw [hdj, hw] at hwd
      exact absurd hwd (by decide)
    · exact h2 d (by omega) hwd hin
  · rw [if_neg hw]
    by_cases hb : s.mouse_x + dx j < 0 ∨ s.mouse_x + dx j ≥ s.maze_width ∨
        s.mouse_y + dy j < 0 ∨ s.mouse_y + dy j ≥ s.maze_height
    · rw [if_pos hb]
      refine ⟨h1, ?_, h3, h4⟩
      intro d hd hwd hin
      by_cases hdj : d = j
      · rw [hdj] at hin
        unfold inb nbr at hin
        dsimp only at hin
        omega
      · exact h2 d (by omega) hwd hin
    · rw [if_neg hb]
      by_cases hlt : s.distances (s.mouse_x + dx j) (s.mouse_y + dy j) < acc.2
      · rw [if_pos hlt]
        dsimp only
        refine ⟨by omega, ?_, ?_, ?_⟩
        · intro d hd hwd hin
          by_cases hdj : d = j
          · rw [hdj]
          · have := h2 d (by omega) hwd hin
            omega
        · intro b hb'
          simp only [Option.some.injEq] at hb'
          subst hb'
          refine ⟨hj, by simpa using hw, ?_, rfl⟩
          unfold inb nbr
          dsimp only
          omega
        · intro hn
          exact absurd hn (by simp)
      · rw [if_neg hlt]
        refine ⟨h1, ?_, h3, h4⟩
        intro d hd hwd hin
        by_cases hdj : d = j
        · rw [hdj]
          omega
        · exact h2 d (by omega) hwd hin

theorem BestInv.step {s : State} {j : Nat} {acc : Option Nat × Nat} (hB : BestInv s j acc)
    (hj : j < 4) : BestInv s (j + 1) (best_step s acc j) :=
  best_step_inv s j hj acc hB.1 hB.2.1 hB.2.2.1 hB.2.2.2

/-- At a cell where the field is consistent, the direction loop of phase 2 selects an open
neighbour whose distance is one less than that of the cell. -/
theorem best_dir_descends (s : State) (hc : ConsistentAt s s.mouse_x s.mouse_y) :
    ∃ b, ((List.range 4).foldl (best_step s) (none, s.distances s.mouse_x s.mouse_y)).1 =
        some b ∧ b < 4 ∧ has_wall s.walls s.mouse_x s.mouse_y b = false ∧
      inb s.maze_width s.maze_height (nbr ⟨s.mouse_x, s.mouse_y⟩ b) ∧
      s.distances (s.mouse_x + dx b) (s.mouse_y + dy b) + 1 = s.distances s.mouse_x s.mouse_y := by
  unfold ConsistentAt at hc
  cases hm : (openNeighbourDistances s s.mouse_x s.mouse_y).min? with
  | none =>
    rw [hm] at hc
    exact absurd hc id
  | some m =>
    rw [hm] at hc
    dsimp only at hc
    rw [List.min?_eq_some_iff'] at hm
    obtain ⟨hmem, hle⟩ := hm
    have hmem' := (mem_openNeighbourDistances s ⟨s.mouse_x, s.mouse_y⟩ m).mp hmem
    obtain ⟨d0, hd0, hin0, hw0, -, hv0⟩ := hmem'
    have h0 : BestInv s 0 (none, s.distances s.mouse_x s.mouse_y) := by
      refine ⟨le_refl _, ?_, ?_, fun _ => rfl⟩
      · intro d hd
        exact absurd hd (Nat.not_lt_zero _)
      · intro b hb
        exact absurd hb (by simp)
    have h4 := (((h0.step (by decide)).step (by decide)).step (by decide)).step (by decide)
    rw [range_four]
    simp only [List.foldl]
    obtain ⟨a1, a2, a3, a4⟩ := h4
    have hv : s.distances (s.mouse_x + dx d0) (s.mouse_y + dy d0) = m := hv0.symm
    have hlt := a2 d0 hd0 hw0 hin0
    cases hb : (best_step s (best_step s (best_step s (best_step s
        (none, s.distances s.mouse_x s.mouse_y) 0) 1) 2) 3).1 with
    | none =>
      have := a4 hb
      omega
    | some b =>
      obtain ⟨b1, b2, b3, b4⟩ := a3 b hb
      refine ⟨b, rfl, b1, b2, b3, ?_⟩
      have hbm : m ≤ s.distances (s.mouse_x + dx b) (s.mouse_y + dy b) :=
        hle _ ((mem_openNeighbourDistances s ⟨s.mouse_x, s.mouse_y⟩ _).mpr
          ⟨b, b1, b3, b2, rfl, rfl⟩)
      omega

/-- One call of phase 2 at a non-goal cell where the field is consistent: the mouse turns and
moves to an open neighbour whose distance is one less. -/
theorem run_optimal_descends (fuel : Nat) (s : State) (hf : 2 ≤ fuel) (hd : s.mouse_dir < 4)
    (hng : is_goal s.goal_cells s.mouse_x s.mouse_y = false)
    (hc : ConsistentAt s s.mouse_x s.mouse_y) :
    ∃ b t, run_optimal fuel s =
        some { action := Action.IDLE
               state := { s with mouse_dir := b, mouse_x := s.mouse_x + dx b,
                                 mouse_y := s.mouse_y + dy b }
               cmds := t ++ [Cmd.moveForward] } ∧
      b < 4 ∧ t ∈ turnSequences ∧ has_wall s.walls s.mouse_x s.mouse_y b = false ∧
      inb s.maze_width s.maze_height (nbr ⟨s.mouse_x, s.mouse_y⟩ b) ∧
      s.distances (s.mouse_x + dx b) (s.mouse_y + dy b) + 1 = s.distances s.mouse_x s.mouse_y := by
  obtain ⟨b, hb, b1, b2, b3, b4⟩ := best_dir_descends s hc
  obtain ⟨t, ht⟩ := turn_to_direction_total fuel s.mouse_dir b hd b1 hf
  obtain ⟨e1, e2⟩ := turn_to_direction_spec fuel s.mouse_dir b hd b1 t ht
  refine ⟨b, t.2, ?_, b1, e2, b2, b3, b4⟩
  unfold run_optimal
  rw [hng]
  simp only [Bool.false_eq_true, if_false]
  rw [hb]
  dsimp only
  rw [ht]
  simp only [Option.map_some', e1]

theorem turnSequences_no_move (t : List Cmd) (ht : t ∈ turnSequences) :
    t.count Cmd.moveForward = 0 := by
  unfold turnSequences at ht
  simp only [List.mem_cons, List.mem_singleton, List.not_mem_nil, or_false] at ht
  rcases ht with rfl | rfl | rfl | rfl <;> decide

theorem floodFill_phase_two (fuel : Nat) (s : State) (hst : Host) (hi : s.initialized = true)
    (hp : s.phase = 2) : floodFill fuel s hst = run_optimal fuel s := by
  unfold floodFill init_solver
  rw [if_pos hi]
  dsimp only
  rw [if_neg (by omega), if_neg (by omega), if_pos hp]

theorem ComputedField.move (s : State) (d : Nat) (x y : Int) (h : ComputedField s) :
    ComputedField { s with mouse_dir := d, mouse_x := x, mouse_y := y } := by
  obtain ⟨fuel, hf⟩ := h
  refine ⟨fuel, ?_⟩
  unfold calculate_distances at hf ⊢
  simp only [Option.map_map] at hf ⊢
  exact hf

theorem RunReady.goal_zero {s : State} (hR : RunReady s)
    (hg : is_goal s.goal_cells s.mouse_x s.mouse_y = true) :
    s.distances s.mouse_x s.mouse_y = 0 := by
  obtain ⟨i, hi, he⟩ := (is_goal_iff s.goal_cells ⟨s.mouse_x, s.mouse_y⟩).mp hg
  have := (hR.field.props s hR.symm hR.goals hR.width_le hR.height_le).1 i hi
  rw [he] at this
  exact this

theorem RunReady.consistent {s : State} (hR : RunReady s)
    (hg : is_goal s.goal_cells s.mouse_x s.mouse_y = false)
    (hfin : s.distances s.mouse_x s.mouse_y < INF) : ConsistentAt s s.mouse_x s.mouse_y :=
  (hR.field.props s hR.symm hR.goals hR.width_le hR.height_le).2 ⟨s.mouse_x, s.mouse_y⟩
    hR.mouse_in hg hfin

theorem RunReady.zero_goal {s : State} (hR : RunReady s)
    (h0 : s.distances s.mouse_x s.mouse_y = 0) :
    is_goal s.goal_cells s.mouse_x s.mouse_y = true := by
  by_contra hng
  have hng' : is_goal s.goal_cells s.mouse_x s.mouse_y = false := by simpa using hng
  have hc := hR.consistent hng' (by rw [h0]; decide)
  unfold ConsistentAt at hc
  split at hc
  · omega
  · exact hc

/-- One call of `floodFill` in phase 2 at a non-goal cell with finite distance. -/
theorem RunReady.tick {s : State} (hR : RunReady s) (fuel : Nat) (hst : Host) (hf : 2 ≤ fuel)
    (hg : is_goal s.goal_cells s.mouse_x s.mouse_y = false)
    (hfin : s.distances s.mouse_x s.mouse_y < INF) :
    ∃ b t, floodFill fuel s hst =
        some { action := Action.IDLE
               state := { s with mouse_dir := b, mouse_x := s.mouse_x + dx b,
                                 mouse_y := s.mouse_y + dy b }
               cmds := t ++ [Cmd.moveForward] } ∧
      b < 4 ∧ t ∈ turnSequences ∧ has_wall s.walls s.mouse_x s.mouse_y b = false ∧
      inb s.maze_width s.maze_height (nbr ⟨s.mouse_x, s.mouse_y⟩ b) ∧
      s.distances (s.mouse_x + dx b) (s.mouse_y + dy b) + 1 = s.distances s.mouse_x s.mouse_y ∧
      RunReady { s with mouse_dir := b, mouse_x := s.mouse_x + dx b,
                        mouse_y := s.mouse_y + dy b } := by
  obtain ⟨b, t, hrun, b1, ht, b2, b3, b4⟩ :=
    run_optimal_descends fuel s hf hR.dir_lt hg (hR.consistent hg hfin)
  refine ⟨b, t, ?_, b1, ht, b2, b3, b4, ?_⟩
  · rw [floodFill_phase_two fuel s hst hR.init hR.phase_two]
    exact hrun
  · exact ⟨hR.phase_two, hR.init, b1, b3, hR.width_le, hR.height_le, hR.symm, hR.goals,
      hR.field.move s b _ _⟩

/-- After `j` calls the mouse is `j` steps closer to the goal and has made `j` forward
moves. -/
theorem RunReady.ticks (fuel : Nat) (hst : Host) (hf : 2 ≤ fuel) :
    ∀ (j : Nat) (s : State), RunReady s → j ≤ s.distances s.mouse_x s.mouse_y →
      s.distances s.mouse_x s.mouse_y < INF →
      ∃ sj cj, Hybrid.ticks fuel hst j s = some (sj, cj) ∧ RunReady sj ∧
        sj.distances = s.distances ∧ sj.goal_cells = s.goal_cells ∧
        sj.distances sj.mouse_x sj.mouse_y + j = s.distances s.mouse_x s.mouse_y ∧
        cj.count Cmd.moveForward = j := by
  intro j
  induction j with
  | zero =>
    intro s hR _ _
    exact ⟨s, [], rfl, hR, rfl, rfl, rfl, rfl⟩
  | succ j ih =>
    intro s hR hj hfin
    have hng : is_goal s.goal_cells s.mouse_x s.mouse_y = false := by
      by_contra hg
      have := hR.goal_zero (by simpa using hg)
      omega
    obtain ⟨b, t, hrun, b1, ht, b2, b3, b4, hR'⟩ := hR.tick fuel hst hf hng hfin
    obtain ⟨sj, cj, hticks, hRj, hd, hgc, hdist, hcount⟩ := ih _ hR' (by
      show j ≤ s.distances (s.mouse_x + dx b) (s.mouse_y + dy b)
      omega) (by
      show s.distances (s.mouse_x + dx b) (s.mouse_y + dy b) < INF
      omega)
    refine ⟨sj, (t ++ [Cmd.moveForward]) ++ cj, ?_, hRj, hd, hgc, ?_, ?_⟩
    · unfold Hybrid.ticks
      rw [hrun]
      dsimp only
      rw [hticks]
      rfl
    · have : sj.distances sj.mouse_x sj.mouse_y + j =
          s.distances (s.mouse_x + dx b) (s.mouse_y + dy b) := hdist
      omega
    · rw [List.count_append, List.count_append, turnSequences_no_move t ht, hcount]
      simp
      omega

end Hybrid

end Micromouse

namespace Micromouse

namespace Hybrid

open Bfs

/-! ## Termination of one call and relation between field and planner -/

theorem sensed_frame (s : State) (hst : Host) :
    (sensed s hst).mouse_x = s.mouse_x ∧ (sensed s hst).mouse_y = s.mouse_y ∧
      (sensed s hst).maze_width = s.maze_width ∧ (sensed s hst).maze_height = s.maze_height ∧
      (sensed s hst).goal_cells = s.goal_cells := by
  unfold sensed sense_walls
  dsimp only
  split_ifs <;> exact ⟨rfl, rfl, rfl, rfl, rfl⟩

theorem calculate_distances_frame (fuel : Nat) (s t : State)
    (h : calculate_distances fuel s = some t) : t = { s with distances := t.distances } := by
  unfold calculate_distances at h
  cases hb : bfs_loop s.walls s.maze_width s.maze_height fuel (bfs_init s.goal_cells) with
  | none => simp [hb] at h
  | some st =>
    rw [hb] at h
    simp only [Option.map_some', Option.some.injEq] at h
    rw [← h]

theorem explore_total (fuel : Nat) (s : State) (hst : Host) (hW : WellFormed s)
    (hf : 1026 ≤ fuel) : ∃ r, explore fuel s hst = some r := by
  rw [explore_eq]
  obtain ⟨e1, e2, e3, e4, e5⟩ := sensed_frame s hst
  have hd := sensed_mouse_dir s hst
  split_ifs with h1 h2
  · dsimp only
    split
    · next d hdt =>
      obtain ⟨t, ht⟩ := turn_to_direction_total fuel (sensed s hst).mouse_dir d
        (by rw [hd]; exact hW.dir_lt) (dir_toward_lt _ _ _ _ _ hdt) (by omega)
      rw [ht]
      exact ⟨_, rfl⟩
    · exact ⟨_, rfl⟩
  · dsimp only
    split
    · next d hdt =>
      obtain ⟨t, ht⟩ := turn_to_direction_total fuel (sensed s hst).mouse_dir d
        (by rw [hd]; exact hW.dir_lt) (dir_toward_lt _ _ _ _ _ hdt) (by omega)
      rw [ht]
      exact ⟨_, rfl⟩
    · exact ⟨_, rfl⟩
  · obtain ⟨dist, hrun, -⟩ := calculate_distances_spec fuel (sensed s hst)
      (by rw [e5]; exact hW.goals_nodup) (by rw [e3]; exact hW.width_le)
      (by rw [e4]; exact hW.height_le) (by omega)
    rw [hrun]
    dsimp only
    have hspec := find_path_to_start_spec fuel { sensed s hst with distances := dist }
      (by
        show inb (sensed s hst).maze_width (sensed s hst).maze_height
          ⟨(sensed s hst).mouse_x, (sensed s hst).mouse_y⟩
        rw [e1, e2, e3, e4]
        exact hW.mouse_in)
      (by show (sensed s hst).maze_width ≤ 16; rw [e3]; exact hW.width_le)
      (by show (sensed s hst).maze_height ≤ 16; rw [e4]; exact hW.height_le) hf
    rcases hspec with ⟨path, hp, -⟩ | ⟨hp, -⟩
    · rw [hp]
      exact ⟨_, rfl⟩
    · rw [hp]
      exact ⟨_, rfl⟩

theorem return_to_start_total (fuel : Nat) (s : State) (hd : s.mouse_dir < 4) (hf : 2 ≤ fuel) :
    ∃ r, return_to_start fuel s = some r := by
  unfold return_to_start
  split_ifs with h1
  · dsimp only
    split
    · next d hdt =>
      obtain ⟨t, ht⟩ := turn_to_direction_total fuel s.mouse_dir d hd
        (dir_toward_lt _ _ _ _ _ hdt) hf
      rw [ht]
      exact ⟨_, rfl⟩
    · exact ⟨_, rfl⟩
  · obtain ⟨t, ht⟩ := turn_to_direction_total fuel s.mouse_dir 0 hd (by decide) hf
    rw [ht]
    exact ⟨_, rfl⟩

theorem run_optimal_total (fuel : Nat) (s : State) (hd : s.mouse_dir < 4) (hf : 2 ≤ fuel) :
    ∃ r, run_optimal fuel s = some r := by
  unfold run_optimal
  split_ifs with h1
  · exact ⟨_, rfl⟩
  · dsimp only
    split
    · next b hb =>
      obtain ⟨t, ht⟩ := turn_to_direction_total fuel s.mouse_dir b hd (best_dir_lt _ _ _ hb) hf
      rw [ht]
      exact ⟨_, rfl⟩
    · exact ⟨_, rfl⟩

/-- One call of `floodFill` terminates from every state that is well formed after
`init_solver`. -/
theorem floodFill_total (fuel : Nat) (s : State) (hst : Host)
    (hW : WellFormed (init_solver s hst)) (hf : 1026 ≤ fuel) :
    ∃ r, floodFill fuel s hst = some r := by
  unfold floodFill
  dsimp only
  split_ifs with h0 h1 h2
  · exact explore_total fuel _ hst hW hf
  · exact return_to_start_total fuel _ hW.dir_lt (by omega)
  · exact run_optimal_total fuel _ hW.dir_lt (by omega)
  · exact ⟨_, rfl⟩

/-- The planner's answer only depends on fields of the state that `bfs_init` reads at the four
goal indices. -/
theorem bfs_init_congr (g g' : Nat → Position) (h0 : g 0 = g' 0) (h1 : g 1 = g' 1)
    (h2 : g 2 = g' 2) (h3 : g 3 = g' 3) : bfs_init g = bfs_init g' := by
  have e : List.range 4 = [0, 1, 2, 3] := by decide
  unfold bfs_init
  rw [e]
  simp only [List.foldl_cons, List.foldl_nil, bfs_seed, h0, h1, h2, h3]

set_option maxRecDepth 1000000 in
theorem field16_eval :
    field16.map (fun st =>
      (List.range 16).all (fun i => (List.range 16).all (fun j =>
        st.distances (i : Int) (j : Int) == nearestGoal16 (i : Int) (j : Int)))) = some true := by
  decide!

theorem field16_spec :
    ∃ st, field16 = some st ∧
      ∀ x y : Int, 0 ≤ x → x < 16 → 0 ≤ y → y < 16 → st.distances x y = nearestGoal16 x y := by
  have h := field16_eval
  cases hf : field16 with
  | none =>
    rw [hf] at h
    simp at h
  | some st =>
    rw [hf] at h
    simp only [Option.map_some', Option.some.injEq, List.all_eq_true, List.mem_range,
      beq_iff_eq] at h
    refine ⟨st, rfl, ?_⟩
    intro x y hx0 hx hy0 hy
    have := h x.toNat (by omega) y.toNat (by omega)
    rwa [Int.toNat_of_nonneg hx0, Int.toNat_of_nonneg hy0] at this

theorem computedField_of_run (fuel p : Nat) (s t : State)
    (h : calculate_distances fuel s = some t) : ComputedField { t with phase := p } := by
  refine ⟨fuel, ?_⟩
  unfold calculate_distances at h ⊢
  cases hb : bfs_loop s.walls s.maze_width s.maze_height fuel (bfs_init s.goal_cells) with
  | none => simp [hb] at h
  | some st =>
    rw [hb] at h
    simp only [Option.map_some', Option.some.injEq] at h
    subst h
    dsimp only
    rw [hb]
    rfl

/-- The standing assumptions of the optimal run hold for the empty `4 x 4` maze. -/
theorem ready4_runReady : RunReady ready4 := by
  obtain ⟨dist, hrun, -⟩ := calculate_distances_spec 300 open4 (by decide) (by decide)
    (by decide) (by decide)
  have hcf := computedField_of_run 300 2 open4 _ hrun
  have e : ready4 = { open4 with distances := dist, phase := 2 } := by
    unfold ready4
    rw [hrun]
  rw [e]
  have h1 : open4.mouse_dir < 4 := by decide
  have h2 : inb open4.maze_width open4.maze_height ⟨open4.mouse_x, open4.mouse_y⟩ := by decide
  have h3 : open4.maze_width ≤ 16 := by decide
  have h4 : open4.maze_height ≤ 16 := by decide
  have h5 : GoalsInGrid open4 := ⟨by decide, by decide⟩
  exact ⟨rfl, rfl, h1, h2, h3, h4, fun _ _ _ _ _ => rfl, h5, hcf⟩

theorem reach_flood_iff (walls : List Wall) (w h : Int) (g : Nat → Position) (n : Nat)
    (c : Position) :
    Reach (floodGraph walls w h g) n c ↔ ∃ i, i < 4 ∧ Reach (planGraph walls w h (g i)) n c := by
  constructor
  · intro hr
    induction hr with
    | seed c hs =>
      obtain ⟨i, hi, rfl⟩ := hs
      exact ⟨i, hi, Reach.seed _ rfl⟩
    | step n u d _ ho ih =>
      obtain ⟨i, hi, hr⟩ := ih
      exact ⟨i, hi, Reach.step n u d hr ho⟩
  · rintro ⟨i, hi, hr⟩
    induction hr with
    | seed c hs => exact Reach.seed c ⟨i, hi, hs.symm⟩
    | step n u d _ ho ih => exact Reach.step n u d ih ho

theorem PlanOK.reach_origin {G : Graph} {start : Position} {path : List Position}
    (hs : G.seeds start) (hp : PlanOK G start path) : Reach G path.length origin := by
  have := IsWalk.reach_end path start 0 hp.1 (Reach.seed start hs)
  rw [hp.2.1, Nat.zero_add] at this
  exact this

/-- The field value at the origin is the least planner path length over the four goal cells:
no planner path from a goal cell is shorter, some goal cell attains it when it is finite, and
the planner fails from every goal cell when it is `INF`. -/
theorem field_origin_planner (fuel : Nat) (s : State) (hg : GoalsInGrid s)
    (hw : s.maze_width ≤ 16) (hh : s.maze_height ≤ 16) (hf : 1026 ≤ fuel) :
    ∃ sd, calculate_distances fuel s = some sd ∧
      (∀ i, i < 4 → ∃ b sp,
        find_path_to_start fuel
          { sd with mouse_x := (s.goal_cells i).x, mouse_y := (s.goal_cells i).y } = some (b, sp) ∧
        (b = true → sd.distances 0 0 ≤ sp.path_length)) ∧
      (sd.distances 0 0 < INF → ∃ i sp, i < 4 ∧
        find_path_to_start fuel
          { sd with mouse_x := (s.goal_cells i).x, mouse_y := (s.goal_cells i).y } =
            some (true, sp) ∧
        sp.path_length = sd.distances 0 0) ∧
      (sd.distances 0 0 = INF → ∀ i, i < 4 → ∃ sp,
        find_path_to_start fuel
          { sd with mouse_x := (s.goal_cells i).x, mouse_y := (s.goal_cells i).y } =
            some (false, sp)) := by
  obtain ⟨dist, hrun, hres⟩ := calculate_distances_spec fuel s hg.1 hw hh (by omega)
  have hor : inb s.maze_width s.maze_height origin := by
    have := hg.2 0 (by decide)
    unfold inb at this ⊢
    unfold origin
    dsimp only
    omega
  obtain ⟨hsound, hmin, hinf⟩ := hres origin (Or.inl hor)
  have hd0 : dist origin.x origin.y = dist 0 0 := rfl
  rw [hd0] at hsound hmin hinf
  have hplan : ∀ i, i < 4 →
      (∃ path, find_path_to_start fuel
          { mouse_x := (s.goal_cells i).x, mouse_y := (s.goal_cells i).y, mouse_dir := s.mouse_dir,
            maze_width := s.maze_width, maze_height := s.maze_height, walls := s.walls,
            visited := s.visited, distances := dist, goal_cells := s.goal_cells,
            dfs_stack := s.dfs_stack, phase := s.phase, exploration_done := s.exploration_done,
            path_to_start := s.path_to_start, path_index := s.path_index,
            path_length := s.path_length, optimal_run_started := s.optimal_run_started,
            initialized := s.initialized } =
          some (true,
            { mouse_x := (s.goal_cells i).x, mouse_y := (s.goal_cells i).y,
              mouse_dir := s.mouse_dir, maze_width := s.maze_width,
              maze_height := s.maze_height, walls := s.walls, visited := s.visited,
              distances := dist, goal_cells := s.goal_cells, dfs_stack := s.dfs_stack,
              phase := s.phase, exploration_done := s.exploration_done,
              path_to_start := path ++ s.path_to_start.drop path.length, path_index := 0,
              path_length := path.length, optimal_run_started := s.optimal_run_started,
              initialized := s.initialized }) ∧
        PlanOK (planGraph s.walls s.maze_width s.maze_height (s.goal_cells i))
          (s.goal_cells i) path) ∨
      ((∃ sp, find_path_to_start fuel
          { mouse_x := (s.goal_cells i).x, mouse_y := (s.goal_cells i).y, mouse_dir := s.mouse_dir,
            maze_width := s.maze_width, maze_height := s.maze_height, walls := s.walls,
            visited := s.visited, distances := dist, goal_cells := s.goal_cells,
            dfs_stack := s.dfs_stack, phase := s.phase, exploration_done := s.exploration_done,
            path_to_start := s.path_to_start, path_index := s.path_index,
            path_length := s.path_length, optimal_run_started := s.optimal_run_started,
            initialized := s.initialized } = some (false, sp)) ∧
        ∀ n, ¬ Reach (planGraph s.walls s.maze_width s.maze_height (s.goal_cells i)) n origin) := by
    intro i hi
    have := find_path_to_start_spec fuel
      { s with distances := dist, mouse_x := (s.goal_cells i).x, mouse_y := (s.goal_cells i).y }
      (hg.2 i hi) hw hh hf
    rcases this with ⟨path, hp, hok⟩ | ⟨hp, hno⟩
    · exact Or.inl ⟨path, hp, hok⟩
    · exact Or.inr ⟨⟨_, hp⟩, hno⟩
  refine ⟨_, hrun, ?_, ?_, ?_⟩
  · intro i hi
    rcases hplan i hi with ⟨path, hp, hok⟩ | ⟨⟨sp, hp⟩, hno⟩
    · refine ⟨true, _, hp, fun _ => ?_⟩
      exact hmin _ ((reach_flood_iff _ _ _ _ _ _).mpr ⟨i, hi, hok.reach_origin rfl⟩)
    · exact ⟨false, sp, hp, fun h => absurd h (by decide)⟩
  · intro hfin
    obtain ⟨i, hi, hr⟩ := (reach_flood_iff _ _ _ _ _ _).mp (hsound hfin)
    rcases hplan i hi with ⟨path, hp, hok⟩ | ⟨-, hno⟩
    · refine ⟨i, _, hi, hp, ?_⟩
      have h1 := hok.2.2 _ hr
      have h2 := hmin _ ((reach_flood_iff _ _ _ _ _ _).mpr ⟨i, hi, hok.reach_origin rfl⟩)
      show path.length = dist 0 0
      omega
    · exact absurd hr (hno _)
  · intro hi0 i hi
    rcases hplan i hi with ⟨path, hp, hok⟩ | ⟨hp, -⟩
    · exfalso
      exact (hinf.mp hi0) _ ((reach_flood_iff _ _ _ _ _ _).mpr ⟨i, hi, hok.reach_origin rfl⟩)
    · exact hp

end Hybrid

end Micromouse

set_option maxRecDepth 1000000

namespace Micromouse

namespace FloodFill

open Bfs

/-! ## Claims about the flood-fill solver -/

/-- Claim C1. For a maze of size 2 .. 16 in each dimension with the centre goal cells of
`initMaze` and a symmetric wall map, `floodFillDistances` terminates, and for every in-bounds
cell the computed distance is the length of a shortest path of unwalled in-bounds unit steps
from that cell to a goal cell (whenever such a path exists, one of that length exists and none
is shorter), and it is `INF` exactly when no such path exists. -/
theorem floodFillDistances_shortest (fuel : Nat) (s : State) (hg : CentreGoals s)
    (hw : 2 ≤ s.mazeWidth) (hw16 : s.mazeWidth ≤ 16) (hh : 2 ≤ s.mazeHeight)
    (hh16 : s.mazeHeight ≤ 16) (hsym : SymmetricWalls s) (hf : 257 ≤ fuel) :
    ∃ s', floodFillDistances fuel s = some s' ∧
      ∀ c, inb s.mazeWidth s.mazeHeight c →
        (∀ n, GoalPath s n c →
          GoalPath s (s'.distance c.y c.x) c ∧ s'.distance c.y c.x ≤ n) ∧
        (s'.distance c.y c.x = INF ↔ ∀ n, ¬ GoalPath s n c) :=
  floodFillDistances_spec fuel s hg hw hw16 hh hh16 hsym hf

end FloodFill

namespace Hybrid

open Bfs

/-! ## Claims about the hybrid solver -/

/-- Claim C2, counterexample. In a `4 x 4` maze whose wall list holds the single wall
`(0, 1, East)`, recorded on one side only as `sense_walls` records it, `calculate_distances`
gives the in-bounds non-goal cell `(0, 1)` the distance 1, while its open neighbours have the
distances 1 and 2: the distance is not one more than their minimum. -/
theorem calculate_distances_one_sided_wall :
    oneSidedWall.walls = [⟨0, 1, 1⟩] ∧ oneSidedWall.maze_width = 4 ∧
    oneSidedWall.maze_height = 4 ∧
    (calculate_distances 300 oneSidedWall).map
        (fun t => (is_goal t.goal_cells 0 1, t.distances 0 1, has_wall t.walls 0 1 1,
          openNeighbourDistances t 0 1, decide (ConsistentAt t 0 1))) =
      some (false, 1, true, [1, 2], false) := by
  decide!

/-- Claim C3. For every wall list, every maze of at most 16 x 16 cells and every in-bounds
mouse cell, `find_path_to_start` terminates, and when it returns 1 the cells
`path_to_start[0 .. path_length)` form a walk from the mouse cell (each cell is the in-bounds
neighbour of the previous one through a side of the previous cell without recorded wall) that
ends at `(0, 0)`, `path_length` is at most the length of every such walk from the mouse cell to
`(0, 0)`, and it is 0 when the mouse stands on `(0, 0)`. -/
theorem find_path_to_start_shortest (fuel : Nat) (s : State)
    (hin : inb s.maze_width s.maze_height ⟨s.mouse_x, s.mouse_y⟩) (hw : s.maze_width ≤ 16)
    (hh : s.maze_height ≤ 16) (hf : 1026 ≤ fuel) :
    ∃ b s', find_path_to_start fuel s = some (b, s') ∧
      (b = true →
        (s'.path_to_start.take s'.path_length).length = s'.path_length ∧
        IsWalk (planGraph s.walls s.maze_width s.maze_height ⟨s.mouse_x, s.mouse_y⟩)
          ⟨s.mouse_x, s.mouse_y⟩ (s'.path_to_start.take s'.path_length) ∧
        walkEnd ⟨s.mouse_x, s.mouse_y⟩ (s'.path_to_start.take s'.path_length) = origin ∧
        (∀ l, IsWalk (planGraph s.walls s.maze_width s.maze_height ⟨s.mouse_x, s.mouse_y⟩)
            ⟨s.mouse_x, s.mouse_y⟩ l →
          walkEnd ⟨s.mouse_x, s.mouse_y⟩ l = origin → s'.path_length ≤ l.length) ∧
        ((⟨s.mouse_x, s.mouse_y⟩ : Position) = origin → s'.path_length = 0)) := by
  have hmin : ∀ path,
      PlanOK (planGraph s.walls s.maze_width s.maze_height ⟨s.mouse_x, s.mouse_y⟩)
        ⟨s.mouse_x, s.mouse_y⟩ path →
      ∀ l, IsWalk (planGraph s.walls s.maze_width s.maze_height ⟨s.mouse_x, s.mouse_y⟩)
          ⟨s.mouse_x, s.mouse_y⟩ l →
        walkEnd ⟨s.mouse_x, s.mouse_y⟩ l = origin → path.length ≤ l.length := by
    intro path hok l hl he
    have := IsWalk.reach_end l ⟨s.mouse_x, s.mouse_y⟩ 0 hl (Reach.seed _ rfl)
    rw [he, Nat.zero_add] at this
    exact hok.2.2 _ this
  rcases find_path_to_start_spec fuel s hin hw hh hf with ⟨path, hp, hok⟩ | ⟨hp, -⟩
  · refine ⟨true, _, hp, fun _ => ?_⟩
    have et : (path ++ s.path_to_start.drop path.length).take path.length = path :=
      List.take_left path _
    dsimp only
    rw [et]
    exact ⟨rfl, hok.1, hok.2.1, hmin path hok, fun he =>
      Nat.le_zero.mp (hmin path hok [] trivial he)⟩
  · exact ⟨false, s, hp, fun h => absurd h (by decide)⟩

/-- Claim C4. For every wall list, every maze of at most 16 x 16 cells and every in-bounds
mouse cell, `find_path_to_start` terminates, and it returns 0 if and only if no walk of
in-bounds steps through sides without recorded wall leads from the mouse cell to `(0, 0)`; the
heap of 512 entries, whose `heap_push` drops silently when full, never makes it fail on a
reachable origin. -/
theorem find_path_to_start_fails_iff (fuel : Nat) (s : State)
    (hin : inb s.maze_width s.maze_height ⟨s.mouse_x, s.mouse_y⟩) (hw : s.maze_width ≤ 16)
    (hh : s.maze_height ≤ 16) (hf : 1026 ≤ fuel) :
    ∃ b s', find_path_to_start fuel s = some (b, s') ∧
      (b = false ↔
        ∀ l, IsWalk (planGraph s.walls s.maze_width s.maze_height ⟨s.mouse_x, s.mouse_y⟩)
            ⟨s.mouse_x, s.mouse_y⟩ l →
          walkEnd ⟨s.mouse_x, s.mouse_y⟩ l ≠ origin) := by
  rcases find_path_to_start_spec fuel s hin hw hh hf with ⟨path, hp, hok⟩ | ⟨hp, hno⟩
  · exact ⟨true, _, hp, fun h => absurd h (by decide), fun h => absurd hok.2.1 (h path hok.1)⟩
  · refine ⟨false, s, hp, fun _ l hl he => ?_, fun _ => rfl⟩
    have := IsWalk.reach_end l ⟨s.mouse_x, s.mouse_y⟩ 0 hl (Reach.seed _ rfl)
    rw [he, Nat.zero_add] at this
    exact hno _ this

/-- The statement of C4 at the `2 x 2` maze whose mouse cell `(1, 1)` is walled in. -/
theorem find_path_to_start_fails_iff_witness :
    inb sealedState.maze_width sealedState.maze_height
        ⟨sealedState.mouse_x, sealedState.mouse_y⟩ ∧
      ∃ b s', find_path_to_start 1026 sealedState = some (b, s') ∧
        (b = false ↔
          ∀ l, IsWalk
              (planGraph sealedState.walls sealedState.maze_width sealedState.maze_height
                ⟨sealedState.mouse_x, sealedState.mouse_y⟩)
              ⟨sealedState.mouse_x, sealedState.mouse_y⟩ l →
            walkEnd ⟨sealedState.mouse_x, sealedState.mouse_y⟩ l ≠ origin) :=
  ⟨by decide, find_path_to_start_fails_iff 1026 sealedState (by decide) (by decide) (by decide)
    (by decide)⟩

/-- Claim C5, counterexample. In the empty `4 x 4` maze with the mouse at `(0, 0)`,
`find_path_to_start` returns 1 with `path_length = 0`, while `calculate_distances` over the
same wall list gives `distances[0][0] = 2`: the planner measures the way to the origin, the
field the way to the goal cells. -/
theorem planner_length_differs_from_field :
    open4.walls = [] ∧ open4.mouse_x = 0 ∧ open4.mouse_y = 0 ∧
    (find_path_to_start 1100 open4).map (fun r => (r.1, r.2.path_length)) = some (true, 0) ∧
    (calculate_distances 300 open4).map (fun t => t.distances 0 0) = some 2 := by
  decide!

/-- Claim C5, amended. For goal cells that are distinct and inside the grid and a maze of at
most 16 x 16 cells, the distance `calculate_distances` computes for the origin is the least
path length `find_path_to_start` computes over the same wall list with the mouse placed on a
goal cell: the planner terminates from each goal cell and no path it returns is shorter than
the field value, a finite field value is the path length from some goal cell, and when the
field value is `INF` the planner fails from every goal cell. -/
theorem field_at_origin_least_plan (fuel : Nat) (s : State) (hg : GoalsInGrid s)
    (hw : s.maze_width ≤ 16) (hh : s.maze_height ≤ 16) (hf : 1026 ≤ fuel) :
    ∃ sd, calculate_distances fuel s = some sd ∧
      (∀ i, i < 4 → ∃ b sp,
        find_path_to_start fuel
          { sd with mouse_x := (s.goal_cells i).x, mouse_y := (s.goal_cells i).y } = some (b, sp) ∧
        (b = true → sd.distances 0 0 ≤ sp.path_length)) ∧
      (sd.distances 0 0 < INF → ∃ i sp, i < 4 ∧
        find_path_to_start fuel
          { sd with mouse_x := (s.goal_cells i).x, mouse_y := (s.goal_cells i).y } =
            some (true, sp) ∧
        sp.path_length = sd.distances 0 0) ∧
      (sd.distances 0 0 = INF → ∀ i, i < 4 → ∃ sp,
        find_path_to_start fuel
          { sd with mouse_x := (s.goal_cells i).x, mouse_y := (s.goal_cells i).y } =
            some (false, sp)) :=
  field_origin_planner fuel s hg hw hh hf

/-- The amended statement of C5 at the empty `4 x 4` maze. -/
theorem field_at_origin_least_plan_witness :
    GoalsInGrid open4 ∧
      ∃ sd, calculate_distances 1026 open4 = some sd ∧
        (∀ i, i < 4 → ∃ b sp,
          find_path_to_start 1026
            { sd with mouse_x := (open4.goal_cells i).x, mouse_y := (open4.goal_cells i).y } =
              some (b, sp) ∧
          (b = true → sd.distances 0 0 ≤ sp.path_length)) ∧
        (sd.distances 0 0 < INF → ∃ i sp, i < 4 ∧
          find_path_to_start 1026
            { sd with mouse_x := (open4.goal_cells i).x, mouse_y := (open4.goal_cells i).y } =
              some (true, sp) ∧
          sp.path_length = sd.distances 0 0) ∧
        (sd.distances 0 0 = INF → ∀ i, i < 4 → ∃ sp,
          find_path_to_start 1026
            { sd with mouse_x := (open4.goal_cells i).x, mouse_y := (open4.goal_cells i).y } =
              some (false, sp)) :=
  ⟨⟨by decide, by decide⟩,
    field_at_origin_least_plan 1026 open4 ⟨by decide, by decide⟩ (by decide) (by decide)
      (by decide)⟩

/-- Claim C6, the code at a failing input. In an empty `6 x 2` maze `init_solver` places the
goal cells at `(2, 2), (3, 2), (2, 3), (3, 3)`, outside the grid, because it uses `width / 2`
for both coordinates. Phase 2 starts at the origin with the computed distance 4; after three
calls the mouse has made three forward moves and stands on `(2, 1)` with distance 1, which is
not a goal cell; the fourth call issues no further move and the phase is still 2. -/
theorem optimal_run_stops_short_6x2 :
    ready6x2.phase = 2 ∧ ready6x2.walls = [] ∧
    (ready6x2.maze_width, ready6x2.maze_height, ready6x2.mouse_x, ready6x2.mouse_y) =
      (6, 2, 0, 0) ∧
    (List.range 4).map ready6x2.goal_cells = [⟨2, 2⟩, ⟨3, 2⟩, ⟨2, 3⟩, ⟨3, 3⟩] ∧
    (calculate_distances 300 ready6x2).map (fun t => t.distances 0 0) =
      some (ready6x2.distances 0 0) ∧
    ready6x2.distances 0 0 = 4 ∧
    (ticks 4 (host 6 2 false false false true) 3 ready6x2).map
        (fun p => (p.1.mouse_x, p.1.mouse_y, p.1.distances p.1.mouse_x p.1.mouse_y,
          is_goal p.1.goal_cells p.1.mouse_x p.1.mouse_y, p.2.count Cmd.moveForward,
          p.1.phase)) =
      some (2, 1, 1, false, 3, 2) ∧
    (ticks 4 (host 6 2 false false false true) 4 ready6x2).map
        (fun p => (p.1.mouse_x, p.1.mouse_y, p.1.distances p.1.mouse_x p.1.mouse_y,
          is_goal p.1.goal_cells p.1.mouse_x p.1.mouse_y, p.2.count Cmd.moveForward,
          p.1.phase)) =
      some (2, 1, 1, false, 3, 2) :=
  ⟨by decide!, by decide!, by decide!, by decide!, by decide!, by decide!, by decide!,
    by decide!⟩

/-- Claim C7. In a 16 x 16 maze `init_solver` of an uninitialised solver yields the goal cells
`(7, 7), (8, 7), (7, 8), (8, 8)` and an empty wall list, and `calculate_distances` then
terminates with `distances[0][0] = 14` and, for every cell `(x, y)` of the grid, the Manhattan
distance from `(x, y)` to the nearest goal cell. -/
theorem init_16x16_field (fuel : Nat) (s : State) (hst : Host) (hi : s.initialized = false)
    (hw : hst.mazeWidth = 16) (hh : hst.mazeHeight = 16) (hf : 261 ≤ fuel) :
    (init_solver s hst).goal_cells 0 = ⟨7, 7⟩ ∧ (init_solver s hst).goal_cells 1 = ⟨8, 7⟩ ∧
    (init_solver s hst).goal_cells 2 = ⟨7, 8⟩ ∧ (init_solver s hst).goal_cells 3 = ⟨8, 8⟩ ∧
    (init_solver s hst).walls = [] ∧
    ∃ t, calculate_distances fuel (init_solver s hst) = some t ∧ t.distances 0 0 = 14 ∧
      ∀ x y : Int, 0 ≤ x → x < 16 → 0 ≤ y → y < 16 → t.distances x y = nearestGoal16 x y := by
  have e : init_solver s hst =
      { s with
        maze_width := 16
        maze_height := 16
        goal_cells := fun i =>
          match i with
          | 0 => { x := 7, y := 7 }
          | 1 => { x := 8, y := 7 }
          | 2 => { x := 7, y := 8 }
          | 3 => { x := 8, y := 8 }
          | j => s.goal_cells j
        visited := fun _ _ => false
        walls := []
        dfs_stack := stack_push s.dfs_stack { x := 0, y := 0 }
        initialized := true } := by
    unfold init_solver
    rw [if_neg (by simp [hi]), hw, hh]
    rfl
  have hg0 : (init_solver s hst).goal_cells 0 = ⟨7, 7⟩ := by rw [e]
  have hg1 : (init_solver s hst).goal_cells 1 = ⟨8, 7⟩ := by rw [e]
  have hg2 : (init_solver s hst).goal_cells 2 = ⟨7, 8⟩ := by rw [e]
  have hg3 : (init_solver s hst).goal_cells 3 = ⟨8, 8⟩ := by rw [e]
  have hwalls : (init_solver s hst).walls = [] := by rw [e]
  have hwid : (init_solver s hst).maze_width = 16 := by rw [e]
  have hhei : (init_solver s hst).maze_height = 16 := by rw [e]
  have hb : bfs_init (init_solver s hst).goal_cells = bfs_init goals16 :=
    bfs_init_congr _ _ hg0 hg1 hg2 hg3
  refine ⟨hg0, hg1, hg2, hg3, hwalls, ?_⟩
  obtain ⟨st, hst16, hall⟩ := field16_spec
  have hk : fuel = 261 + (fuel - 261) := by omega
  have hrun := bfs_loop_mono [] 16 16 261 (bfs_init goals16) st hst16 (fuel - 261)
  rw [← hk] at hrun
  have h00 : st.distances 0 0 = 14 := hall 0 0 (by decide) (by decide) (by decide) (by decide)
  unfold calculate_distances
  rw [hb, hwalls, hwid, hhei, hrun]
  exact ⟨_, rfl, h00, hall⟩

/-- The statement of C7 for the first call after power-on. -/
theorem init_16x16_field_witness :
    (init_solver powerOn (host 16 16 false false false true)).goal_cells 0 = ⟨7, 7⟩ ∧
    (init_solver powerOn (host 16 16 false false false true)).goal_cells 1 = ⟨8, 7⟩ ∧
    (init_solver powerOn (host 16 16 false false false true)).goal_cells 2 = ⟨7, 8⟩ ∧
    (init_solver powerOn (host 16 16 false false false true)).goal_cells 3 = ⟨8, 8⟩ ∧
    (init_solver powerOn (host 16 16 false false false true)).walls = [] ∧
    ∃ t, calculate_distances 261 (init_solver powerOn (host 16 16 false false false true)) =
        some t ∧ t.distances 0 0 = 14 ∧
      ∀ x y : Int, 0 ≤ x → x < 16 → 0 ≤ y → y < 16 → t.distances x y = nearestGoal16 x y :=
  init_16x16_field 261 powerOn (host 16 16 false false false true) rfl rfl rfl (by decide)

/-- Claim C8, counterexample. The first call after power-on in a 16 x 16 maze with a wall
sensed in front issues a right turn and a forward move within the same call. -/
theorem floodFill_turn_and_move :
    (floodFill 4 powerOn (host 16 16 true false false true)).map (fun r => (r.action, r.cmds)) =
      some (Action.IDLE, [Cmd.turnRight, Cmd.moveForward]) := by
  decide

/-- Claim C8, amended. From every state that is well formed after `init_solver` (heading in
`0 .. 3`, maze of at most 16 x 16 cells, mouse in bounds, distinct goal cells), one call of
`floodFill` terminates, returns `IDLE` and issues at most two turns (none, one right, one left
or two right) followed by at most one forward move. -/
theorem floodFill_call_shape (fuel : Nat) (s : State) (hst : Host)
    (hW : WellFormed (init_solver s hst)) (hf : 1026 ≤ fuel) :
    ∃ r, floodFill fuel s hst = some r ∧ CallShape r := by
  obtain ⟨r, hr⟩ := floodFill_total fuel s hst hW hf
  have hd : s.mouse_dir < 4 := by
    have := hW.dir_lt
    rwa [init_solver_mouse_dir] at this
  exact ⟨r, hr, floodFill_shape fuel s hst r hd hr⟩

/-- The amended statement of C8 for the first call after power-on. -/
theorem floodFill_call_shape_witness :
    WellFormed (init_solver powerOn (host 16 16 true false false true)) ∧
      ∃ r, floodFill 1026 powerOn (host 16 16 true false false true) = some r ∧ CallShape r :=
  ⟨⟨by decide, by decide, by decide, by decide, by decide⟩,
    floodFill_call_shape 1026 powerOn (host 16 16 true false false true)
      ⟨by decide, by decide, by decide, by decide, by decide⟩ (by decide)⟩

/-- Claim C9, the code at a failing input. In the first call after power-on in a 16 x 16 maze
without sensed walls, the host reports the forward move as failed; after `init_solver` the
mouse is at `(0, 0)` with the stack `[(0, 0)]`, and after the call the position belief is
`(0, 1)` and the stack holds `(0, 1)` on top of `(0, 0)`. -/
theorem floodFill_failed_move_advances :
    (host 16 16 false false false false).moveForward = false ∧
    (init_solver powerOn (host 16 16 false false false false)).mouse_x = 0 ∧
    (init_solver powerOn (host 16 16 false false false false)).mouse_y = 0 ∧
    (init_solver powerOn (host 16 16 false false false false)).dfs_stack = [⟨0, 0⟩] ∧
    (floodFill 4 powerOn (host 16 16 false false false false)).map
        (fun r => (r.cmds, r.state.mouse_x, r.state.mouse_y, r.state.dfs_stack)) =
      some ([Cmd.moveForward], 0, 1, [⟨0, 1⟩, ⟨0, 0⟩]) := by
  decide

/-- Claim C10, counterexample. In phase 2 at the non-goal origin of a `4 x 4` maze whose
distance field is constant, no neighbour has a smaller distance, and after the call the phase
is still 2. -/
theorem run_optimal_stuck_keeps_phase :
    stuckState.phase = 2 ∧
    is_goal stuckState.goal_cells stuckState.mouse_x stuckState.mouse_y = false ∧
    NoImprovingNeighbour stuckState ∧
    (floodFill 4 stuckState (host 4 4 false false false true)).map (fun r => r.state.phase) =
      some 2 := by
  refine ⟨rfl, by decide, ?_, by decide⟩
  intro d hd _ _
  simp [stuckState, powerOn]

/-- Claim C10, amended. In phase 2 at a non-goal cell none of whose open in-bounds neighbours
has a smaller distance than the current cell, the call returns `IDLE`, issues no command and
leaves the state unchanged, so the phase stays 2. In phase 0, when no unvisited open neighbour
is left, the stack holds at most one cell and `find_path_to_start` fails, the call sets the
phase to 3. -/
theorem floodFill_dead_end (fuel : Nat) (s : State) (hst : Host) :
    ((init_solver s hst).phase = 2 →
      is_goal (init_solver s hst).goal_cells (init_solver s hst).mouse_x
        (init_solver s hst).mouse_y = false →
      NoImprovingNeighbour (init_solver s hst) →
      floodFill fuel s hst =
        some { action := Action.IDLE, state := init_solver s hst, cmds := [] }) ∧
    ((init_solver s hst).phase = 0 →
      (get_unvisited_neighbors (sensed (init_solver s hst) hst)).length = 0 →
      (sensed (init_solver s hst) hst).dfs_stack.length ≤ 1 →
      ((calculate_distances fuel (sensed (init_solver s hst) hst)).bind
          (find_path_to_start fuel)).map Prod.fst = some false →
      (floodFill fuel s hst).map (fun r => r.state.phase) = some 3) := by
  constructor
  · intro hp hg hn
    unfold floodFill
    dsimp only
    rw [if_neg (by omega), if_neg (by omega), if_pos hp]
    exact run_optimal_stuck fuel _ hg hn
  · intro hp hn hs hf
    unfold floodFill
    dsimp only
    rw [if_pos hp]
    exact explore_planner_failed fuel _ hst hn hs hf

/-- The amended statement of C10 at a stuck phase-2 state and at a walled-in phase-0 state. -/
theorem floodFill_dead_end_witness :
    floodFill 4 stuckState (host 4 4 false false false true) =
        some { action := Action.IDLE
               state := init_solver stuckState (host 4 4 false false false true)
               cmds := [] } ∧
    (floodFill 40 sealedState (host 2 2 false false false true)).map (fun r => r.state.phase) =
      some 3 :=
  ⟨(floodFill_dead_end 4 stuckState (host 4 4 false false false true)).1 rfl (by decide)
      (by intro d hd _ _; simp [stuckState, powerOn, init_solver]),
   (floodFill_dead_end 40 sealedState (host 2 2 false false false true)).2 rfl (by decide)
      (by decide) (by decide)⟩

end Hybrid

end Micromouse

namespace Micromouse

namespace FloodFill

open Bfs

/-! ## Wall recording of the flood-fill solver -/

theorem addWall_walls (s : State) (px py : Int) (dir : Nat) (c : Position) (d : Nat) :
    (addWall s px py dir).walls c.y c.x d = true ↔
      s.walls c.y c.x d = true ∨ (c = ⟨px, py⟩ ∧ d = dir) ∨
        (inb s.mazeWidth s.mazeHeight (nbr ⟨px, py⟩ dir) ∧ c = nbr ⟨px, py⟩ dir ∧
          d = (dir + 2) % 4) := by
  obtain ⟨cx, cy⟩ := c
  have e1 : (({ x := cx, y := cy } : Position) = ⟨px, py⟩ ∧ d = dir) ↔
      (cy = py ∧ cx = px ∧ d = dir) := by
    rw [Position.mk.injEq]
    tauto
  have e2 : (({ x := cx, y := cy } : Position) = nbr ⟨px, py⟩ dir ∧ d = (dir + 2) % 4) ↔
      (cy = py + dy dir ∧ cx = px + dx dir ∧ d = (dir + 2) % 4) := by
    unfold nbr
    rw [Position.mk.injEq]
    tauto
  rw [e1, e2]
  unfold addWall
  dsimp only
  split_ifs with hin
  · have hin' : inb s.mazeWidth s.mazeHeight (nbr ⟨px, py⟩ dir) := by
      unfold inb nbr
      dsimp only
      omega
    simp only [setWall]
    by_cases h1 : cy = py + dy dir ∧ cx = px + dx dir ∧ d = (dir + 2) % 4
    · rw [if_pos h1]
      simp only [true_iff]
      exact Or.inr (Or.inr ⟨hin', h1⟩)
    · rw [if_neg h1]
      by_cases h2 : cy = py ∧ cx = px ∧ d = dir
      · rw [if_pos h2]
        simp only [true_iff]
        exact Or.inr (Or.inl h2)
      · rw [if_neg h2]
        constructor
        · exact fun h => Or.inl h
        · rintro (h | h | ⟨-, h⟩)
          · exact h
          · exact absurd h h2
          · exact absurd h h1
  · have hin' : ¬ inb s.mazeWidth s.mazeHeight (nbr ⟨px, py⟩ dir) := by
      unfold inb nbr
      dsimp only
      omega
    simp only [setWall]
    by_cases h2 : cy = py ∧ cx = px ∧ d = dir
    · rw [if_pos h2]
      simp only [true_iff]
      exact Or.inr (Or.inl h2)
    · rw [if_neg h2]
      constructor
      · exact fun h => Or.inl h
      · rintro (h | h | ⟨hi, -⟩)
        · exact h
        · exact absurd h h2
        · exact absurd hi hin'

theorem addWall_frame (s : State) (px py : Int) (dir : Nat) :
    addWall s px py dir = { s with walls := (addWall s px py dir).walls } := by
  unfold addWall
  dsimp only
  split_ifs <;> rfl

theorem nbr_inj (a b : Position) (d : Nat) (h : nbr a d = nbr b d) : a = b := by
  obtain ⟨ax, ay⟩ := a
  obtain ⟨bx, by'⟩ := b
  simp only [nbr, Position.mk.injEq] at h ⊢
  constructor <;> omega

theorem opp_opp (d : Nat) (hd : d < 4) : ((d + 2) % 4 + 2) % 4 = d := by
  interval_cases d <;> rfl

theorem opp_inj (d e : Nat) (hd : d < 4) (he : e < 4) (h : (d + 2) % 4 = (e + 2) % 4) :
    d = e := by
  interval_cases d <;> interval_cases e <;> simp at h ⊢

theorem addWall_symmetric (s : State) (px py : Int) (dir : Nat) (hdir : dir < 4)
    (hs : SymmetricWalls s) : SymmetricWalls (addWall s px py dir) := by
  have hfr := addWall_frame s px py dir
  have hw : (addWall s px py dir).mazeWidth = s.mazeWidth := by rw [hfr]
  have hh : (addWall s px py dir).mazeHeight = s.mazeHeight := by rw [hfr]
  intro c d hd hc hn
  rw [hw, hh] at hc hn
  have hold := hs c d hd hc hn
  have h1 := addWall_walls s px py dir c d
  have h2 := addWall_walls s px py dir (nbr c d) ((d + 2) % 4)
  have key : ((c = ⟨px, py⟩ ∧ d = dir) ∨
        (inb s.mazeWidth s.mazeHeight (nbr ⟨px, py⟩ dir) ∧ c = nbr ⟨px, py⟩ dir ∧
          d = (dir + 2) % 4)) ↔
      ((nbr c d = ⟨px, py⟩ ∧ (d + 2) % 4 = dir) ∨
        (inb s.mazeWidth s.mazeHeight (nbr ⟨px, py⟩ dir) ∧ nbr c d = nbr ⟨px, py⟩ dir ∧
          (d + 2) % 4 = (dir + 2) % 4)) := by
    constructor
    · rintro (⟨rfl, rfl⟩ | ⟨hi, rfl, rfl⟩)
      · exact Or.inr ⟨hn, rfl, rfl⟩
      · refine Or.inl ⟨nbr_back _ _ hdir, opp_opp _ hdir⟩
    · rintro (⟨hp, hdd⟩ | ⟨hi, hp, hdd⟩)
      · refine Or.inr ?_
        have hc' : c = nbr ⟨px, py⟩ dir := by
          rw [← hp, ← hdd, nbr_back c d hd]
        have hd' : d = (dir + 2) % 4 := by
          rw [← hdd, opp_opp d hd]
        refine ⟨?_, hc', hd'⟩
        rw [← hc']
        exact hc
      · have hd' := opp_inj d dir hd hdir hdd
        subst hd'
        exact Or.inl ⟨nbr_inj _ _ _ hp, rfl⟩
  have e : (addWall s px py dir).walls c.y c.x d = true ↔
      (addWall s px py dir).walls (nbr c d).y (nbr c d).x ((d + 2) % 4) = true := by
    rw [h1, h2, hold, key]
  cases ha : (addWall s px py dir).walls c.y c.x d with
  | true => exact (e.mp ha).symm
  | false =>
    cases hb : (addWall s px py dir).walls (nbr c d).y (nbr c d).x ((d + 2) % 4) with
    | true => rw [e.mpr hb] at ha; exact absurd ha (by decide)
    | false => rfl

theorem scanWalls_frame (s : State) (hst : Host) :
    scanWalls s hst = { s with walls := (scanWalls s hst).walls } := by
  unfold scanWalls
  dsimp only
  split_ifs <;> simp only [addWall] <;> split_ifs <;> rfl

theorem scanWalls_symmetric (s : State) (hst : Host) (hd : s.direction < 4)
    (hs : SymmetricWalls s) : SymmetricWalls (scanWalls s hst) := by
  have hm : ∀ e : Nat, e % 4 < 4 := fun e => Nat.mod_lt _ (by decide)
  have step : ∀ (b : Bool) (t : State) (px py : Int) (dir : Nat), dir < 4 → SymmetricWalls t →
      SymmetricWalls (if b = true then addWall t px py dir else t) := by
    intro b t px py dir hdir ht
    split_ifs
    · exact addWall_symmetric t px py dir hdir ht
    · exact ht
  unfold scanWalls
  dsimp only
  exact step _ _ _ _ _ (hm _) (step _ _ _ _ _ (hm _) (step _ _ _ _ _ hd hs))

theorem boundaryWalls_outer (w h : Int) (c : Position) (d : Nat) (hd : d < 4)
    (hc : inb w h c) (hb : boundaryWalls w h c.y c.x d = true) : ¬ inb w h (nbr c d) := by
  obtain ⟨x, y⟩ := c
  unfold inb at hc ⊢
  unfold boundaryWalls at hb
  simp only [decide_eq_true_eq] at hb
  dsimp only [nbr] at hc ⊢
  interval_cases d <;> simp only [dx, dy] <;> omega

theorem initMaze_symmetric (s : State) (hst : Host) (hi : s.mazeInitialized = false) :
    SymmetricWalls (initMaze s hst) := by
  have e : initMaze s hst =
      { s with
        mazeWidth := hst.mazeWidth
        mazeHeight := hst.mazeHeight
        walls := boundaryWalls hst.mazeWidth hst.mazeHeight
        goalX := (initMaze s hst).goalX
        goalY := (initMaze s hst).goalY
        mazeInitialized := true } := by
    unfold initMaze
    rw [if_neg (by simp [hi])]
  intro c d hd hc hn
  rw [e] at hc hn ⊢
  dsimp only at hc hn ⊢
  cases ha : boundaryWalls hst.mazeWidth hst.mazeHeight c.y c.x d with
  | true => exact absurd hn (boundaryWalls_outer _ _ c d hd hc ha)
  | false =>
    cases hb : boundaryWalls hst.mazeWidth hst.mazeHeight (nbr c d).y (nbr c d).x
        ((d + 2) % 4) with
    | true =>
      have := boundaryWalls_outer _ _ (nbr c d) ((d + 2) % 4) (opp_lt d) hn hb
      rw [nbr_back c d hd] at this
      exact absurd hc this
    | false => rfl

theorem addWall_fields (t : State) (px py : Int) (dir : Nat) :
    (addWall t px py dir).direction = t.direction ∧ (addWall t px py dir).x = t.x ∧
      (addWall t px py dir).y = t.y ∧ (addWall t px py dir).mazeWidth = t.mazeWidth ∧
      (addWall t px py dir).mazeHeight = t.mazeHeight := by
  unfold addWall
  dsimp only
  split_ifs <;> exact ⟨rfl, rfl, rfl, rfl, rfl⟩

theorem scanWalls_walls (s : State) (hst : Host) (c : Position) (d : Nat) :
    (scanWalls s hst).walls c.y c.x d = true ↔
      s.walls c.y c.x d = true ∨
        ScanSets s.mazeWidth s.mazeHeight ⟨s.x, s.y⟩ s.direction hst.wallFront hst.wallLeft
          hst.wallRight c d := by
  have step : ∀ (b : Bool) (t : State) (e : Nat),
      ((if b = true then addWall t t.x t.y e else t).walls c.y c.x d = true ↔
        t.walls c.y c.x d = true ∨
          (b = true ∧ ((c = ⟨t.x, t.y⟩ ∧ d = e) ∨
            (inb t.mazeWidth t.mazeHeight (nbr ⟨t.x, t.y⟩ e) ∧ c = nbr ⟨t.x, t.y⟩ e ∧
              d = (e + 2) % 4)))) ∧
      (if b = true then addWall t t.x t.y e else t).direction = t.direction ∧
      (if b = true then addWall t t.x t.y e else t).x = t.x ∧
      (if b = true then addWall t t.x t.y e else t).y = t.y ∧
      (if b = true then addWall t t.x t.y e else t).mazeWidth = t.mazeWidth ∧
      (if b = true then addWall t t.x t.y e else t).mazeHeight = t.mazeHeight := by
    intro b t e
    cases b with
    | true =>
      simp only [if_true, true_and]
      exact ⟨addWall_walls t t.x t.y e c d, addWall_fields t t.x t.y e⟩
    | false => exact ⟨by simp, rfl, rfl, rfl, rfl, rfl⟩
  unfold scanWalls
  dsimp only
  have h1 := step hst.wallFront s s.direction
  generalize (if hst.wallFront = true then addWall s s.x s.y s.direction else s) = s1 at h1 ⊢
  obtain ⟨w1, d1, x1, y1, mw1, mh1⟩ := h1
  have h2 := step hst.wallRight s1 ((s1.direction + 1) % 4)
  generalize (if hst.wallRight = true then addWall s1 s1.x s1.y ((s1.direction + 1) % 4)
    else s1) = s2 at h2 ⊢
  obtain ⟨w2, d2, x2, y2, mw2, mh2⟩ := h2
  obtain ⟨w3, -⟩ := step hst.wallLeft s2 ((s2.direction + 3) % 4)
  rw [w3, w2, w1]
  simp only [d2, x2, y2, mw2, mh2, d1, x1, y1, mw1, mh1]
  unfold ScanSets
  constructor
  · rintro (((h | ⟨hf, h⟩) | ⟨hr, h⟩) | ⟨hl, h⟩)
    · exact Or.inl h
    · exact Or.inr ⟨_, Or.inl ⟨hf, rfl⟩, h⟩
    · exact Or.inr ⟨_, Or.inr (Or.inr ⟨hr, rfl⟩), h⟩
    · exact Or.inr ⟨_, Or.inr (Or.inl ⟨hl, rfl⟩), h⟩
  · rintro (h | ⟨e, (⟨hf, rfl⟩ | ⟨hl, rfl⟩ | ⟨hr, rfl⟩), h⟩)
    · exact Or.inl (Or.inl (Or.inl h))
    · exact Or.inl (Or.inl (Or.inr ⟨hf, h⟩))
    · exact Or.inr ⟨hl, h⟩
    · exact Or.inl (Or.inr ⟨hr, h⟩)

end FloodFill

namespace Hybrid

/-! ## The wall list of the hybrid solver -/

theorem has_wall_iff (ws : List Wall) (x y : Int) (d : Nat) :
    has_wall ws x y d = true ↔ (⟨x, y, d⟩ : Wall) ∈ ws := by
  unfold has_wall
  rw [List.any_eq_true]
  constructor
  · rintro ⟨w, hw, h⟩
    simp only [Bool.and_eq_true, beq_iff_eq] at h
    obtain ⟨⟨h1, h2⟩, h3⟩ := h
    obtain ⟨wx, wy, wd⟩ := w
    dsimp only at h1 h2 h3
    subst h1 h2 h3
    exact hw
  · intro h
    exact ⟨_, h, by simp⟩

theorem add_wall_eq (ws : List Wall) (x y : Int) (d : Nat) :
    add_wall ws x y d =
      if (⟨x, y, d⟩ : Wall) ∉ ws ∧ ws.length < MAX_WALLS then ws ++ [⟨x, y, d⟩] else ws := by
  unfold add_wall
  by_cases h : (⟨x, y, d⟩ : Wall) ∈ ws
  · have := (has_wall_iff ws x y d).mpr h
    simp [this, h]
  · have : has_wall ws x y d = false := by
      cases hw : has_wall ws x y d with
      | true => exact absurd ((has_wall_iff ws x y d).mp hw) h
      | false => rfl
    simp [this, h]

theorem add_wall_extends (ws : List Wall) (x y : Int) (d : Nat) :
    ∃ l, add_wall ws x y d = ws ++ l := by
  rw [add_wall_eq]
  split_ifs
  · exact ⟨_, rfl⟩
  · exact ⟨[], by simp⟩

theorem add_wall_twice (ws : List Wall) (x y : Int) (d : Nat) :
    add_wall (add_wall ws x y d) x y d = add_wall ws x y d := by
  rw [add_wall_eq ws]
  split_ifs with h
  · rw [add_wall_eq]
    rw [if_neg]
    simp
  · rw [add_wall_eq, if_neg h]

theorem sense_walls_extends (s : State) (hst : Host) :
    ∃ l, (sense_walls s hst).walls = s.walls ++ l := by
  have step : ∀ (b : Prop) [Decidable b] (ws : List Wall) (x y : Int) (d : Nat),
      (∃ l, ws = s.walls ++ l) → ∃ l, (if b then add_wall ws x y d else ws) = s.walls ++ l := by
    intro b _ ws x y d ⟨l, hl⟩
    split_ifs
    · obtain ⟨l2, h2⟩ := add_wall_extends ws x y d
      exact ⟨l ++ l2, by rw [h2, hl, List.append_assoc]⟩
    · exact ⟨l, hl⟩
  unfold sense_walls
  dsimp only
  exact step _ _ _ _ _ (step _ _ _ _ _ (step _ _ _ _ _ (step _ _ _ _ _ ⟨[], by simp⟩)))

/-- The state after sensing differs from the state before in the visited mark of the current
cell, the wall list and the goal flag only. -/
theorem sensed_eq (s : State) (hst : Host) :
    ∃ e, sensed s hst =
      { s with
        visited := set2 s.visited s.mouse_x s.mouse_y true
        walls := (sense_walls s hst).walls
        exploration_done := e } := by
  unfold sensed
  dsimp only
  split_ifs
  · exact ⟨true, rfl⟩
  · exact ⟨s.exploration_done, rfl⟩

theorem find_path_to_start_frame (fuel : Nat) (s : State) (b : Bool) (s' : State)
    (h : find_path_to_start fuel s = some (b, s')) :
    ∃ p l i, s' = { s with path_to_start := p, path_length := l, path_index := i } := by
  unfold find_path_to_start at h
  split at h
  · exact absurd h (by simp)
  · split at h
    · exact absurd h (by simp)
    · simp only [Option.some.injEq, Prod.mk.injEq] at h
      exact ⟨_, _, _, h.2.symm⟩
    · simp only [Option.some.injEq, Prod.mk.injEq] at h
      exact ⟨_, _, _, h.2.symm⟩

end Hybrid

end Micromouse

namespace Micromouse

namespace Hybrid

open Bfs

/-! ## One exploration call, case by case -/

theorem find_first (f : Nat → Bool) (g : Nat → Position) :
    ∀ (l : List Nat),
      (∀ d, l.find? f = some d →
        (l.filterMap (fun e => if f e = true then some (g e) else none)).head? = some (g d)) ∧
      (l.find? f = none →
        l.filterMap (fun e => if f e = true then some (g e) else none) = []) := by
  intro l
  induction l with
  | nil => exact ⟨fun d h => absurd h (by simp), fun _ => rfl⟩
  | cons a l ih =>
    cases hfa : f a with
    | true =>
      constructor
      · intro d h
        rw [List.find?_cons_of_pos _ hfa] at h
        simp only [Option.some.injEq] at h
        subst h
        rw [List.filterMap_cons_some (by rw [if_pos hfa])]
        rfl
      · intro h
        rw [List.find?_cons_of_pos _ hfa] at h
        exact absurd h (by simp)
    | false =>
      have hna : ¬ f a = true := by simp [hfa]
      constructor
      · intro d h
        rw [List.find?_cons_of_neg _ hna] at h
        rw [List.filterMap_cons_none (by rw [if_neg hna])]
        exact ih.1 d h
      · intro h
        rw [List.find?_cons_of_neg _ hna] at h
        rw [List.filterMap_cons_none (by rw [if_neg hna])]
        exact ih.2 h

theorem neighbors_eq (s : State) :
    get_unvisited_neighbors s =
      (List.range 4).filterMap (fun d =>
        if (decide (inb s.maze_width s.maze_height (nbr ⟨s.mouse_x, s.mouse_y⟩ d)) &&
            !s.visited (s.mouse_x + dx d) (s.mouse_y + dy d) &&
            !has_wall s.walls s.mouse_x s.mouse_y d) = true then
          some (nbr ⟨s.mouse_x, s.mouse_y⟩ d)
        else none) := by
  unfold get_unvisited_neighbors
  congr 1
  funext d
  dsimp only
  have e : (0 ≤ s.mouse_x + dx d ∧ s.mouse_x + dx d < s.maze_width ∧ 0 ≤ s.mouse_y + dy d ∧
        s.mouse_y + dy d < s.maze_height ∧
        (!s.visited (s.mouse_x + dx d) (s.mouse_y + dy d)) = true ∧
        (!has_wall s.walls s.mouse_x s.mouse_y d) = true) ↔
      ((decide (inb s.maze_width s.maze_height (nbr ⟨s.mouse_x, s.mouse_y⟩ d)) &&
            !s.visited (s.mouse_x + dx d) (s.mouse_y + dy d) &&
            !has_wall s.walls s.mouse_x s.mouse_y d) = true) := by
    simp only [Bool.and_eq_true, decide_eq_true_eq, inb, nbr]
    tauto
  by_cases hc : (decide (inb s.maze_width s.maze_height (nbr ⟨s.mouse_x, s.mouse_y⟩ d)) &&
            !s.visited (s.mouse_x + dx d) (s.mouse_y + dy d) &&
            !has_wall s.walls s.mouse_x s.mouse_y d) = true
  · rw [if_pos hc, if_pos (e.mpr hc)]
    rfl
  · rw [if_neg hc, if_neg (fun h => hc (e.mp h))]

theorem firstOpenDir_some (s : State) (d : Nat) (h : firstOpenDir s = some d) :
    d < 4 ∧ inb s.maze_width s.maze_height (nbr ⟨s.mouse_x, s.mouse_y⟩ d) ∧
      s.visited (s.mouse_x + dx d) (s.mouse_y + dy d) = false ∧
      has_wall s.walls s.mouse_x s.mouse_y d = false ∧
      (get_unvisited_neighbors s).length > 0 ∧
      (get_unvisited_neighbors s).getD 0 ⟨0, 0⟩ = nbr ⟨s.mouse_x, s.mouse_y⟩ d := by
  unfold firstOpenDir at h
  have hm := List.mem_of_find?_eq_some h
  have hp := List.find?_some h
  simp only [Bool.and_eq_true, decide_eq_true_eq, Bool.not_eq_true'] at hp
  have hh := (find_first _ (fun e => nbr ⟨s.mouse_x, s.mouse_y⟩ e) (List.range 4)).1 d h
  rw [← neighbors_eq] at hh
  refine ⟨List.mem_range.mp hm, hp.1.1, hp.1.2, hp.2, ?_, ?_⟩
  · cases hl : get_unvisited_neighbors s with
    | nil => rw [hl] at hh; exact absurd hh (by simp)
    | cons a l => simp
  · cases hl : get_unvisited_neighbors s with
    | nil => rw [hl] at hh; exact absurd hh (by simp)
    | cons a l =>
      rw [hl] at hh
      simp only [List.head?_cons, Option.some.injEq] at hh
      simp [hh]

theorem firstOpenDir_none (s : State) (h : firstOpenDir s = none) :
    get_unvisited_neighbors s = [] ∧
      ∀ d, d < 4 → inb s.maze_width s.maze_height (nbr ⟨s.mouse_x, s.mouse_y⟩ d) →
        has_wall s.walls s.mouse_x s.mouse_y d = false →
        s.visited (s.mouse_x + dx d) (s.mouse_y + dy d) = true := by
  unfold firstOpenDir at h
  have hh := (find_first _ (fun e => nbr ⟨s.mouse_x, s.mouse_y⟩ e) (List.range 4)).2 h
  rw [← neighbors_eq] at hh
  refine ⟨hh, ?_⟩
  intro d hd hin hw
  cases hv : s.visited (s.mouse_x + dx d) (s.mouse_y + dy d) with
  | true => rfl
  | false =>
    exfalso
    apply List.find?_eq_none.mp h d (List.mem_range.mpr hd)
    simp [hin, hv, hw]

theorem dir_toward_nbr (x y : Int) (d : Nat) (hd : d < 4) :
    dir_toward x y (x + dx d) (y + dy d) = some d := by
  have a1 : (x == x + 1) = false := by rw [beq_eq_false_iff_ne]; omega
  have a2 : (y + 1 == y + -1) = false := by rw [beq_eq_false_iff_ne]; omega
  have a3 : (x == x + -1) = false := by rw [beq_eq_false_iff_ne]; omega
  have a4 : (x + 1 == x + -1) = false := by rw [beq_eq_false_iff_ne]; omega
  have a5 : (x + 1 == x) = false := by rw [beq_eq_false_iff_ne]; omega
  unfold dir_toward
  rw [range_four]
  interval_cases d <;> simp [List.find?, dx, dy, a1, a2, a3, a4, a5]

theorem dir_toward_some (x y tx ty : Int) (d : Nat) (h : dir_toward x y tx ty = some d) :
    d < 4 ∧ nbr ⟨x, y⟩ d = ⟨tx, ty⟩ := by
  refine ⟨dir_toward_lt x y tx ty d h, ?_⟩
  unfold dir_toward at h
  have hp := List.find?_some h
  simp only [Bool.and_eq_true, beq_iff_eq] at hp
  unfold nbr
  rw [hp.1, hp.2]

theorem dir_toward_back (c : Position) (d : Nat) (hd : d < 4) :
    dir_toward (nbr c d).x (nbr c d).y c.x c.y = some ((d + 2) % 4) := by
  have := dir_toward_nbr (nbr c d).x (nbr c d).y ((d + 2) % 4) (opp_lt d)
  have e := nbr_back c d hd
  obtain ⟨cx, cy⟩ := c
  simp only [nbr, Position.mk.injEq] at e
  simp only [nbr] at this ⊢
  rw [e.1, e.2] at this
  exact this

theorem sensed_fields (s : State) (hst : Host) :
    (sensed s hst).initialized = s.initialized ∧ (sensed s hst).phase = s.phase ∧
      (sensed s hst).dfs_stack = s.dfs_stack ∧
      (sensed s hst).walls = (sense_walls s hst).walls ∧
      (sensed s hst).visited = set2 s.visited s.mouse_x s.mouse_y true ∧
      (sensed s hst).distances = s.distances ∧
      (sensed s hst).path_index = s.path_index ∧
      (sensed s hst).path_length = s.path_length := by
  obtain ⟨e, he⟩ := sensed_eq s hst
  rw [he]
  exact ⟨rfl, rfl, rfl, rfl, rfl, rfl, rfl, rfl⟩

theorem explore_forward (fuel : Nat) (s : State) (hst : Host) (r : Result) (d : Nat)
    (hdir : s.mouse_dir < 4) (hfo : firstOpenDir (sensed s hst) = some d)
    (h : explore fuel s hst = some r) :
    r.action = Action.IDLE ∧
      r.state =
        { sensed s hst with
          mouse_dir := d
          mouse_x := (sensed s hst).mouse_x + dx d
          mouse_y := (sensed s hst).mouse_y + dy d
          dfs_stack := stack_push (sensed s hst).dfs_stack
            ⟨(sensed s hst).mouse_x + dx d, (sensed s hst).mouse_y + dy d⟩ } ∧
      ∃ t, t ∈ turnSequences ∧ r.cmds = t ++ [Cmd.moveForward] := by
  obtain ⟨hd, -, -, -, hlen, hget⟩ := firstOpenDir_some _ d hfo
  have hsd := sensed_mouse_dir s hst
  rw [explore_eq, if_pos hlen] at h
  dsimp only at h
  rw [hget] at h
  dsimp only [nbr] at h
  rw [dir_toward_nbr _ _ d hd] at h
  dsimp only at h
  obtain ⟨t, ht, rfl⟩ := Option.map_eq_some'.mp h
  obtain ⟨t1, t2⟩ := turn_to_direction_spec fuel _ d (by rw [hsd]; exact hdir) hd t ht
  dsimp only
  rw [t1]
  exact ⟨rfl, rfl, t.2, t2, rfl⟩

theorem explore_backtrack (fuel : Nat) (s : State) (hst : Host) (r : Result)
    (top prev : Position) (rest : List Position) (hdir : s.mouse_dir < 4)
    (hfo : firstOpenDir (sensed s hst) = none) (hstk : s.dfs_stack = top :: prev :: rest)
    (hadj : ∃ d, d < 4 ∧ nbr prev d = ⟨s.mouse_x, s.mouse_y⟩)
    (h : explore fuel s hst = some r) :
    ∃ d, d < 4 ∧ nbr ⟨s.mouse_x, s.mouse_y⟩ d = prev ∧ r.action = Action.IDLE ∧
      r.state =
        { sensed s hst with
          dfs_stack := prev :: rest, mouse_dir := d, mouse_x := prev.x, mouse_y := prev.y } ∧
      ∃ t, t ∈ turnSequences ∧ r.cmds = t ++ [Cmd.moveForward] := by
  obtain ⟨hnil, -⟩ := firstOpenDir_none _ hfo
  obtain ⟨e1, e2, -⟩ := sensed_frame s hst
  obtain ⟨-, -, e3, -⟩ := sensed_fields s hst
  have hsd := sensed_mouse_dir s hst
  rw [explore_eq, if_neg (by rw [hnil]; simp), if_pos (by rw [e3, hstk]; simp)] at h
  dsimp only at h
  rw [e3, hstk] at h
  dsimp only [List.tail_cons, List.headD_cons] at h
  obtain ⟨d0, hd0, hn0⟩ := hadj
  have hback := dir_toward_back prev d0 hd0
  rw [hn0] at hback
  dsimp only at hback
  rw [e1, e2, hback] at h
  dsimp only at h
  obtain ⟨t, ht, rfl⟩ := Option.map_eq_some'.mp h
  obtain ⟨t1, t2⟩ := turn_to_direction_spec fuel _ _ (by rw [hsd]; exact hdir) (opp_lt d0) t ht
  refine ⟨(d0 + 2) % 4, opp_lt d0, ?_, rfl, ?_, t.2, t2, rfl⟩
  · rw [← hn0]
    exact nbr_back prev d0 hd0
  · dsimp only
    rw [t1]

theorem explore_finish (fuel : Nat) (s : State) (hst : Host) (r : Result)
    (hfo : firstOpenDir (sensed s hst) = none) (hlen : s.dfs_stack.length ≤ 1)
    (h : explore fuel s hst = some r) :
    ∃ sd b p l i, calculate_distances fuel (sensed s hst) = some sd ∧
      find_path_to_start fuel sd =
        some (b, { sd with path_to_start := p, path_length := l, path_index := i }) ∧
      r = { action := Action.IDLE
            state := { sd with path_to_start := p, path_length := l, path_index := i,
                               phase := if b = true then 1 else 3 }
            cmds := [] } := by
  obtain ⟨hnil, -⟩ := firstOpenDir_none _ hfo
  obtain ⟨-, -, e3, -⟩ := sensed_fields s hst
  rw [explore_eq, if_neg (by rw [hnil]; simp), if_neg (by rw [e3]; omega)] at h
  cases hc : calculate_distances fuel (sensed s hst) with
  | none => rw [hc] at h; exact absurd h (by simp)
  | some sd =>
    rw [hc] at h
    dsimp only at h
    cases hf : find_path_to_start fuel sd with
    | none => rw [hf] at h; exact absurd h (by simp)
    | some q =>
      obtain ⟨b, sp⟩ := q
      obtain ⟨p, l, i, rfl⟩ := find_path_to_start_frame fuel sd b sp hf
      rw [hf] at h
      cases b with
      | true =>
        simp only [Option.some.injEq] at h
        exact ⟨sd, true, p, l, i, rfl, hf, h.symm⟩
      | false =>
        simp only [Option.some.injEq] at h
        exact ⟨sd, false, p, l, i, rfl, hf, h.symm⟩


end Hybrid

end Micromouse

namespace Micromouse

namespace Hybrid

open Bfs

/-! ## What every call preserves -/

theorem init_solver_idem (s : State) (hi : s.initialized = true) (hst : Host) :
    init_solver s hst = s := by
  unfold init_solver
  rw [if_pos hi]

theorem init_solver_initialized (s : State) (hst : Host) :
    (init_solver s hst).initialized = true := by
  unfold init_solver
  split_ifs with h
  · exact h
  · rfl

/-- Fields of the state that an exploration call keeps or extends. -/
theorem explore_frame (fuel : Nat) (s : State) (hst : Host) (r : Result)
    (h : explore fuel s hst = some r) :
    r.state.initialized = s.initialized ∧ r.state.maze_width = s.maze_width ∧
      r.state.maze_height = s.maze_height ∧ r.state.goal_cells = s.goal_cells ∧
      r.state.walls = (sense_walls s hst).walls ∧
      r.state.visited = set2 s.visited s.mouse_x s.mouse_y true := by
  obtain ⟨a1, -, -, a4, a5, -⟩ := sensed_fields s hst
  obtain ⟨-, -, b3, b4, b5⟩ := sensed_frame s hst
  rw [explore_eq] at h
  split_ifs at h with h1 h2
  · dsimp only at h
    obtain ⟨t, -, rfl⟩ := Option.map_eq_some'.mp h
    exact ⟨a1, b3, b4, b5, a4, a5⟩
  · dsimp only at h
    split at h
    · obtain ⟨t, -, rfl⟩ := Option.map_eq_some'.mp h
      exact ⟨a1, b3, b4, b5, a4, a5⟩
    · simp only [Option.some.injEq] at h
      subst h
      exact ⟨a1, b3, b4, b5, a4, a5⟩
  · cases hc : calculate_distances fuel (sensed s hst) with
    | none => rw [hc] at h; exact absurd h (by simp)
    | some sd =>
      rw [hc] at h
      dsimp only at h
      have hsd := calculate_distances_frame fuel _ sd hc
      cases hf : find_path_to_start fuel sd with
      | none => rw [hf] at h; exact absurd h (by simp)
      | some q =>
        obtain ⟨b, sp⟩ := q
        obtain ⟨p, l, i, rfl⟩ := find_path_to_start_frame fuel sd b sp hf
        rw [hf] at h
        cases b <;>
        · simp only [Option.some.injEq] at h
          subst h
          dsimp only
          rw [hsd]
          exact ⟨a1, b3, b4, b5, a4, a5⟩

theorem return_to_start_frame (fuel : Nat) (s : State) (r : Result)
    (h : return_to_start fuel s = some r) :
    r.state.initialized = s.initialized ∧ r.state.maze_width = s.maze_width ∧
      r.state.maze_height = s.maze_height ∧ r.state.goal_cells = s.goal_cells ∧
      r.state.walls = s.walls ∧ r.state.visited = s.visited ∧
      r.state.dfs_stack = s.dfs_stack ∧ (s.phase = 1 → r.state.phase = 1 ∨ r.state.phase = 2) := by
  unfold return_to_start at h
  split_ifs at h
  · dsimp only at h
    obtain ⟨t, -, rfl⟩ := Option.map_eq_some'.mp h
    exact ⟨rfl, rfl, rfl, rfl, rfl, rfl, rfl, fun hp => Or.inl hp⟩
  · obtain ⟨t, -, rfl⟩ := Option.map_eq_some'.mp h
    exact ⟨rfl, rfl, rfl, rfl, rfl, rfl, rfl, fun _ => Or.inr rfl⟩

theorem run_optimal_frame (fuel : Nat) (s : State) (r : Result)
    (h : run_optimal fuel s = some r) :
    r.state.initialized = s.initialized ∧ r.state.maze_width = s.maze_width ∧
      r.state.maze_height = s.maze_height ∧ r.state.goal_cells = s.goal_cells ∧
      r.state.walls = s.walls ∧ r.state.visited = s.visited ∧
      r.state.dfs_stack = s.dfs_stack ∧ (s.phase = 2 → r.state.phase = 2 ∨ r.state.phase = 3) := by
  unfold run_optimal at h
  split_ifs at h
  · simp only [Option.some.injEq] at h
    subst h
    exact ⟨rfl, rfl, rfl, rfl, rfl, rfl, rfl, fun _ => Or.inr rfl⟩
  · dsimp only at h
    split at h
    · obtain ⟨t, -, rfl⟩ := Option.map_eq_some'.mp h
      exact ⟨rfl, rfl, rfl, rfl, rfl, rfl, rfl, fun hp => Or.inl hp⟩
    · simp only [Option.some.injEq] at h
      subst h
      exact ⟨rfl, rfl, rfl, rfl, rfl, rfl, rfl, fun hp => Or.inl hp⟩

/-- Every call leaves the solver initialised, keeps the maze size and the goal cells that
`init_solver` has set, only appends to the wall list, and never returns to phase 0. -/
theorem floodFill_frame (fuel : Nat) (s : State) (hst : Host) (r : Result)
    (h : floodFill fuel s hst = some r) :
    r.state.initialized = true ∧ r.state.maze_width = (init_solver s hst).maze_width ∧
      r.state.maze_height = (init_solver s hst).maze_height ∧
      r.state.goal_cells = (init_solver s hst).goal_cells ∧
      (∃ l, r.state.walls = (init_solver s hst).walls ++ l) ∧
      ((init_solver s hst).phase ≠ 0 → r.state.phase ≠ 0) := by
  have hi := init_solver_initialized s hst
  unfold floodFill at h
  dsimp only at h
  split_ifs at h with h0 h1 h2
  · obtain ⟨a, b, c, d, e, -⟩ := explore_frame fuel _ hst r h
    exact ⟨a.trans hi, b, c, d, by rw [e]; exact sense_walls_extends _ hst,
      fun hne => absurd h0 hne⟩
  · obtain ⟨a, b, c, d, e, -, -, f⟩ := return_to_start_frame fuel _ r h
    refine ⟨a.trans hi, b, c, d, ⟨[], by rw [e, List.append_nil]⟩, fun _ => ?_⟩
    rcases f h1 with f | f <;> rw [f] <;> decide
  · obtain ⟨a, b, c, d, e, -, -, f⟩ := run_optimal_frame fuel _ r h
    refine ⟨a.trans hi, b, c, d, ⟨[], by rw [e, List.append_nil]⟩, fun _ => ?_⟩
    rcases f h2 with f | f <;> rw [f] <;> decide
  · simp only [Option.some.injEq] at h
    subst h
    exact ⟨hi, rfl, rfl, rfl, ⟨[], by rw [List.append_nil]⟩, fun hne => hne⟩

theorem floodFill_done (fuel : Nat) (s : State) (hst : Host) (hi : s.initialized = true)
    (hp : s.phase = 3) :
    floodFill fuel s hst = some { action := Action.IDLE, state := s, cmds := [] } := by
  unfold floodFill
  rw [init_solver_idem s hi hst]
  dsimp only
  rw [if_neg (by omega), if_neg (by omega), if_neg (by omega)]

theorem calls_done (fuel : Nat) (s : State) (hi : s.initialized = true) (hp : s.phase = 3) :
    ∀ hs : List Host, calls fuel hs s = some (s, []) := by
  intro hs
  induction hs with
  | nil => rfl
  | cons hst rest ih =>
    unfold calls
    rw [floodFill_done fuel s hst hi hp]
    dsimp only
    rw [ih]
    rfl

theorem Reachable.initialized {w h : Int} {s : State} (hr : Reachable w h s) :
    s.initialized = true ∧ s.maze_width = w ∧ s.maze_height = h := by
  induction hr with
  | first hst hw hh =>
    refine ⟨init_solver_initialized _ _, ?_, ?_⟩
    · rw [← hw]; rfl
    · rw [← hh]; rfl
  | call fuel s hst r _ hc ih =>
    obtain ⟨a, b, c, -⟩ := floodFill_frame fuel s hst r hc
    rw [init_solver_idem s ih.1 hst] at b c
    exact ⟨a, b.trans ih.2.1, c.trans ih.2.2⟩

/-! ## The frontier stack during exploration -/

theorem mem_add_wall (ws : List Wall) (x y : Int) (d : Nat) (wl : Wall)
    (h : wl ∈ add_wall ws x y d) : wl ∈ ws ∨ wl = ⟨x, y, d⟩ := by
  rw [add_wall_eq] at h
  split_ifs at h
  · rcases List.mem_append.mp h with h | h
    · exact Or.inl h
    · exact Or.inr (List.mem_singleton.mp h)
  · exact Or.inl h

theorem subset_add_wall (ws : List Wall) (x y : Int) (d : Nat) (wl : Wall) (h : wl ∈ ws) :
    wl ∈ add_wall ws x y d := by
  obtain ⟨l, hl⟩ := add_wall_extends ws x y d
  rw [hl]
  exact List.mem_append_left _ h

theorem mem_add_wall_self (ws : List Wall) (x y : Int) (d : Nat)
    (hcap : (⟨x, y, d⟩ : Wall) ∈ ws ∨ ws.length < MAX_WALLS) :
    (⟨x, y, d⟩ : Wall) ∈ add_wall ws x y d := by
  rw [add_wall_eq]
  split_ifs with h
  · exact List.mem_append_right _ (List.mem_singleton.mpr rfl)
  · rcases hcap with hc | hc
    · exact hc
    · by_contra hn
      exact h ⟨hn, hc⟩

theorem add_wall_nodup (ws : List Wall) (x y : Int) (d : Nat) (h : ws.Nodup) :
    (add_wall ws x y d).Nodup := by
  rw [add_wall_eq]
  split_ifs with hc
  · rw [List.nodup_append]
    refine ⟨h, List.nodup_singleton _, ?_⟩
    intro a ha hb
    rw [List.mem_singleton] at hb
    subst hb
    exact hc.1 ha
  · exact h

/-- The walls that `sense_walls` can add: sides of the current cell, in the direction of a
sensor that reports a wall or in the back direction when the cell behind is out of bounds. -/
theorem mem_sense_walls (s : State) (hst : Host) (wl : Wall)
    (h : wl ∈ (sense_walls s hst).walls) :
    wl ∈ s.walls ∨ (wl.x = s.mouse_x ∧ wl.y = s.mouse_y ∧
      ((hst.wallFront = true ∧ wl.dir = s.mouse_dir) ∨
        (hst.wallLeft = true ∧ wl.dir = (s.mouse_dir + 3) % 4) ∨
        (hst.wallRight = true ∧ wl.dir = (s.mouse_dir + 1) % 4) ∨
        (¬ inb s.maze_width s.maze_height (nbr ⟨s.mouse_x, s.mouse_y⟩ ((s.mouse_dir + 2) % 4)) ∧
          wl.dir = (s.mouse_dir + 2) % 4))) := by
  have step : ∀ (b : Prop) [Decidable b] (ws : List Wall) (x y : Int) (d : Nat),
      wl ∈ (if b then add_wall ws x y d else ws) → wl ∈ ws ∨ (b ∧ wl = ⟨x, y, d⟩) := by
    intro b _ ws x y d hm
    split_ifs at hm with hb
    · rcases mem_add_wall ws x y d wl hm with hm | hm
      · exact Or.inl hm
      · exact Or.inr ⟨hb, hm⟩
    · exact Or.inl hm
  unfold sense_walls at h
  dsimp only at h
  rcases step _ _ _ _ _ h with h | ⟨hb, rfl⟩
  · rcases step _ _ _ _ _ h with h | ⟨hb, rfl⟩
    · rcases step _ _ _ _ _ h with h | ⟨hb, rfl⟩
      · rcases step _ _ _ _ _ h with h | ⟨hb, rfl⟩
        · exact Or.inl h
        · exact Or.inr ⟨rfl, rfl, Or.inl ⟨hb, rfl⟩⟩
      · exact Or.inr ⟨rfl, rfl, Or.inr (Or.inl ⟨hb, rfl⟩)⟩
    · exact Or.inr ⟨rfl, rfl, Or.inr (Or.inr (Or.inl ⟨hb, rfl⟩))⟩
  · refine Or.inr ⟨rfl, rfl, Or.inr (Or.inr (Or.inr ⟨?_, rfl⟩))⟩
    unfold inb nbr
    dsimp only
    omega

theorem sense_walls_nodup (s : State) (hst : Host) (h : s.walls.Nodup) :
    (sense_walls s hst).walls.Nodup := by
  have step : ∀ (b : Prop) [Decidable b] (ws : List Wall) (x y : Int) (d : Nat),
      ws.Nodup → (if b then add_wall ws x y d else ws).Nodup := by
    intro b _ ws x y d hn
    split_ifs
    · exact add_wall_nodup ws x y d hn
    · exact hn
  unfold sense_walls
  dsimp only
  exact step _ _ _ _ _ (step _ _ _ _ _ (step _ _ _ _ _ (step _ _ _ _ _ h)))

theorem mem_sense_walls_old (s : State) (hst : Host) (wl : Wall) (h : wl ∈ s.walls) :
    wl ∈ (sense_walls s hst).walls := by
  obtain ⟨l, hl⟩ := sense_walls_extends s hst
  rw [hl]
  exact List.mem_append_left _ h

/-- Sensing leaves the recorded walls of every cell other than the current one unchanged. -/
theorem sense_walls_other (s : State) (hst : Host) (c : Position) (d : Nat)
    (hne : c ≠ ⟨s.mouse_x, s.mouse_y⟩) :
    has_wall (sense_walls s hst).walls c.x c.y d = has_wall s.walls c.x c.y d := by
  cases ha : has_wall s.walls c.x c.y d with
  | true =>
    rw [has_wall_iff] at ha ⊢
    exact mem_sense_walls_old s hst _ ha
  | false =>
    cases hb : has_wall (sense_walls s hst).walls c.x c.y d with
    | false => rfl
    | true =>
      rw [has_wall_iff] at hb
      rcases mem_sense_walls s hst _ hb with h | ⟨hx, hy, -⟩
      · rw [(has_wall_iff _ _ _ _).mpr h] at ha
        exact absurd ha (by decide)
      · dsimp only at hx hy
        exfalso
        apply hne
        obtain ⟨cx, cy⟩ := c
        dsimp only at hx hy
        rw [hx, hy]

theorem StackLinked.transfer (ws ws' : List Wall) :
    ∀ l : List Position, StackLinked ws l →
      (∀ c, c ∈ l.tail → ∀ d, has_wall ws' c.x c.y d = has_wall ws c.x c.y d) →
      StackLinked ws' l := by
  intro l
  induction l with
  | nil => exact fun _ _ => trivial
  | cons a l ih =>
    intro hl hw
    cases l with
    | nil => trivial
    | cons b rest =>
      obtain ⟨⟨d, hd, hn, hwd⟩, hrest⟩ := hl
      refine ⟨⟨d, hd, hn, ?_⟩, ih hrest ?_⟩
      · rw [hw b (by simp)]
        exact hwd
      · intro c hc e
        exact hw c (List.mem_cons_of_mem _ hc) e

theorem nbr_ne (c : Position) (d : Nat) (hd : d < 4) : nbr c d ≠ c := by
  obtain ⟨x, y⟩ := c
  interval_cases d <;> simp [nbr, dx, dy]

theorem stack_room (w h : Int) (hw : w ≤ 16) (hh : h ≤ 16) (l : List Position) (c : Position)
    (hn : (c :: l).Nodup) (hin : ∀ a, a ∈ c :: l → inb w h a) : l.length < MAX_STACK := by
  have h1 := nodup_length_le_card (c :: l) (gridCells w h) hn
    (fun a ha => mem_gridCells w h a (hin a ha))
  have h2 := FloodFill.card_grid_le w h hw hh
  rw [List.length_cons] at h1
  unfold MAX_STACK
  omega

/-- A phase-0 call keeps the stack invariant, whatever the sensors report. -/
theorem StackReady.keep {w h : Int} (hw : w ≤ 16) (hh : h ≤ 16) {s : State}
    (hS : StackReady w h s) (hp : s.phase = 0) (fuel : Nat) (hst : Host) (r : Result)
    (hr : floodFill fuel s hst = some r) (hp' : r.state.phase = 0) :
    StackReady w h r.state := by
  have hfl : floodFill fuel s hst = explore fuel s hst := by
    unfold floodFill
    rw [init_solver_idem s hS.init hst]
    dsimp only
    rw [if_pos hp]
  rw [hfl] at hr
  obtain ⟨e, he⟩ := sensed_eq s hst
  -- the stack before the call
  obtain ⟨top, rest, hstk, htop⟩ : ∃ top rest, s.dfs_stack = top :: rest ∧
      top = ⟨s.mouse_x, s.mouse_y⟩ := by
    have := hS.stack.top
    cases hl : s.dfs_stack with
    | nil => rw [hl] at this; exact absurd this (by simp)
    | cons a l =>
      rw [hl] at this
      simp only [List.head?_cons, Option.some.injEq] at this
      exact ⟨a, l, rfl, this⟩
  have hnd := hS.stack.nodup
  rw [hstk] at hnd
  have hvis : ∀ c, c ∈ s.dfs_stack →
      set2 s.visited s.mouse_x s.mouse_y true c.x c.y = true := by
    intro c hc
    rw [hstk] at hc
    unfold set2
    rcases List.mem_cons.mp hc with hc | hc
    · rw [hc, htop]
      simp
    · have := hS.below c (by rw [hstk]; exact hc)
      split_ifs
      · rfl
      · exact this
  have hlink : StackLinked (sense_walls s hst).walls s.dfs_stack := by
    refine StackLinked.transfer s.walls _ _ hS.stack.linked ?_
    intro c hc d
    refine sense_walls_other s hst c d ?_
    rw [hstk] at hc
    rw [← htop]
    intro hct
    rw [hct] at hc
    exact (List.nodup_cons.mp hnd).1 hc
  cases hfo : firstOpenDir (sensed s hst) with
  | some d =>
    obtain ⟨-, hstate, -⟩ := explore_forward fuel s hst r d hS.dir_lt hfo hr
    obtain ⟨hd, hin, hnv, hnw, -, -⟩ := firstOpenDir_some _ d hfo
    rw [he] at hstate hin hnv hnw
    dsimp only at hstate hin hnv hnw
    have hnot : (⟨s.mouse_x + dx d, s.mouse_y + dy d⟩ : Position) ∉ s.dfs_stack := by
      intro hc
      have := hvis _ hc
      dsimp only at this
      rw [this] at hnv
      exact absurd hnv (by decide)
    have hnd2 : ((⟨s.mouse_x + dx d, s.mouse_y + dy d⟩ : Position) :: s.dfs_stack).Nodup :=
      List.nodup_cons.mpr ⟨hnot, hS.stack.nodup⟩
    have hin2 : ∀ a, a ∈ (⟨s.mouse_x + dx d, s.mouse_y + dy d⟩ : Position) :: s.dfs_stack →
        inb w h a := by
      intro a ha
      rcases List.mem_cons.mp ha with ha | ha
      · rw [ha, ← hS.width, ← hS.height]
        exact hin
      · rw [← hS.width, ← hS.height]
        exact hS.stack.inside a ha
    have hroom := stack_room w h hw hh _ _ hnd2 hin2
    have hpush : stack_push s.dfs_stack ⟨s.mouse_x + dx d, s.mouse_y + dy d⟩ =
        ⟨s.mouse_x + dx d, s.mouse_y + dy d⟩ :: s.dfs_stack := by
      unfold stack_push
      rw [if_pos hroom]
    rw [hpush] at hstate
    rw [hstate]
    refine ⟨hS.init, hd, hS.width, hS.height, ⟨?_, rfl, hnd2, ?_, ?_⟩, ?_⟩
    · dsimp only
      rw [hstk, List.getLast?_cons_cons, ← hstk]
      exact hS.stack.bottom
    · intro a ha
      have := hin2 a ha
      rw [← hS.width, ← hS.height] at this
      exact this
    · dsimp only
      rw [hstk]
      refine ⟨⟨d, hd, ?_, ?_⟩, ?_⟩
      · rw [htop]
        rfl
      · rw [htop]
        exact hnw
      · rw [← hstk]
        exact hlink
    · intro c hc
      exact hvis c hc
  | none =>
    cases rest with
    | nil =>
      exfalso
      obtain ⟨sd, b, p, l, i, -, -, hres⟩ :=
        explore_finish fuel s hst r hfo (by rw [hstk]; simp) hr
      rw [hres] at hp'
      dsimp only at hp'
      cases b <;> simp at hp'
    | cons prev rest' =>
      have hl0 := hS.stack.linked
      rw [hstk] at hl0
      obtain ⟨⟨d0, hd0, hn0, -⟩, -⟩ := hl0
      obtain ⟨d, hd, hnd', -, hstate, -⟩ := explore_backtrack fuel s hst r top prev rest'
        hS.dir_lt hfo hstk ⟨d0, hd0, by rw [hn0, htop]⟩ hr
      rw [he] at hstate
      dsimp only at hstate
      rw [hstate]
      refine ⟨hS.init, hd, hS.width, hS.height, ⟨?_, rfl, ?_, ?_, ?_⟩, ?_⟩
      · dsimp only
        have := hS.stack.bottom
        rw [hstk, List.getLast?_cons_cons] at this
        exact this
      · exact (List.nodup_cons.mp hnd).2
      · intro a ha
        exact hS.stack.inside a (by rw [hstk]; exact List.mem_cons_of_mem _ ha)
      · dsimp only
        rw [hstk] at hlink
        exact hlink.2
      · intro c hc
        exact hvis c (by
          rw [hstk]
          exact List.mem_cons_of_mem _ (List.mem_of_mem_tail hc))

theorem StackReady.at_first (hst : Host) (hw : 1 ≤ hst.mazeWidth) (hh : 1 ≤ hst.mazeHeight) :
    StackReady hst.mazeWidth hst.mazeHeight (init_solver powerOn hst) := by
  have hstk : (init_solver powerOn hst).dfs_stack = [⟨0, 0⟩] := rfl
  refine ⟨rfl, Nat.zero_lt_succ 3, rfl, rfl,
    ⟨rfl, rfl, by rw [hstk]; exact List.nodup_singleton _, ?_, trivial⟩, ?_⟩
  · intro c hc
    have hc' : c = ⟨0, 0⟩ := by simpa [init_solver, powerOn, stack_push, MAX_STACK] using hc
    rw [hc']
    show 0 ≤ (0 : Int) ∧ (0 : Int) < hst.mazeWidth ∧ 0 ≤ (0 : Int) ∧ (0 : Int) < hst.mazeHeight
    omega
  · intro c hc
    exact absurd hc (by simp [init_solver, powerOn, stack_push, MAX_STACK])

/-- The frontier-stack invariant holds in every reachable phase-0 state. -/
theorem Reachable.stack_ready {w h : Int} (hw1 : 1 ≤ w) (hw : w ≤ 16) (hh1 : 1 ≤ h)
    (hh : h ≤ 16) {s : State} (hr : Reachable w h s) (hp : s.phase = 0) :
    StackReady w h s := by
  induction hr with
  | first hst hw' hh' =>
    subst hw' hh'
    exact StackReady.at_first hst hw1 hh1
  | call fuel s hst r hprev hc ih =>
    have hi := hprev.initialized
    have hp0 : s.phase = 0 := by
      by_contra hne
      have := (floodFill_frame fuel s hst r hc).2.2.2.2.2
      rw [init_solver_idem s hi.1 hst] at this
      exact this hne hp
    exact (ih hp0).keep hw hh hp0 fuel hst r hc hp

end Hybrid

end Micromouse

namespace Micromouse

namespace Hybrid

open Bfs

/-! ## Exploration of a true maze with truthful sensors -/

theorem wall_count_le (M : Maze) (hw : M.width ≤ 16) (hh : M.height ≤ 16) (ws : List Wall)
    (hn : ws.Nodup)
    (hb : ∀ wl, wl ∈ ws → wl.dir < 4 ∧ inb M.width M.height ⟨wl.x, wl.y⟩) :
    ws.length ≤ 1024 := by
  have hsub : ws.toFinset ⊆
      ((gridCells M.width M.height) ×ˢ (Finset.range 4)).image
        (fun p => (⟨p.1.x, p.1.y, p.2⟩ : Wall)) := by
    intro wl hwl
    rw [List.mem_toFinset] at hwl
    obtain ⟨h1, h2⟩ := hb wl hwl
    rw [Finset.mem_image]
    refine ⟨(⟨wl.x, wl.y⟩, wl.dir), ?_, rfl⟩
    rw [Finset.mem_product, Finset.mem_range]
    exact ⟨mem_gridCells _ _ _ h2, h1⟩
  have h1 := Finset.card_le_card hsub
  rw [List.toFinset_card_of_nodup hn] at h1
  have h2 := Finset.card_image_le (s := (gridCells M.width M.height) ×ˢ (Finset.range 4))
    (f := fun p => (⟨p.1.x, p.1.y, p.2⟩ : Wall))
  rw [Finset.card_product, Finset.card_range] at h2
  have h3 := FloodFill.card_grid_le M.width M.height hw hh
  omega

/-- Adding a true wall keeps the wall list sound and records the wall: the capacity of 1024
entries is never reached. -/
theorem WallsOK.add {M : Maze} (hw : M.width ≤ 16) (hh : M.height ≤ 16) {ws : List Wall}
    (hok : WallsOK M ws) (x y : Int) (d : Nat) (hd : d < 4)
    (hin : inb M.width M.height ⟨x, y⟩) (ht : M.wall x y d = true) :
    WallsOK M (add_wall ws x y d) ∧ (⟨x, y, d⟩ : Wall) ∈ add_wall ws x y d := by
  have hok' : WallsOK M (add_wall ws x y d) := by
    refine ⟨add_wall_nodup ws x y d hok.1, ?_⟩
    intro wl hwl
    rcases mem_add_wall ws x y d wl hwl with h | h
    · exact hok.2 wl h
    · rw [h]
      exact ⟨hd, hin, ht⟩
  refine ⟨hok', mem_add_wall_self ws x y d ?_⟩
  by_cases hm : (⟨x, y, d⟩ : Wall) ∈ ws
  · exact Or.inl hm
  · refine Or.inr ?_
    have hn : (ws ++ [(⟨x, y, d⟩ : Wall)]).Nodup := by
      rw [List.nodup_append]
      refine ⟨hok.1, List.nodup_singleton _, ?_⟩
      intro a ha hb
      rw [List.mem_singleton] at hb
      subst hb
      exact hm ha
    have := wall_count_le M hw hh _ hn (by
      intro wl hwl
      rcases List.mem_append.mp hwl with h | h
      · exact ⟨(hok.2 wl h).1, (hok.2 wl h).2.1⟩
      · rw [List.mem_singleton.mp h]
        exact ⟨hd, hin⟩)
    rw [List.length_append, List.length_singleton] at this
    unfold MAX_WALLS
    omega

theorem WallsOK.add_if {M : Maze} (hw : M.width ≤ 16) (hh : M.height ≤ 16) {ws : List Wall}
    (hok : WallsOK M ws) (b : Prop) [Decidable b] (x y : Int) (d : Nat) (hd : d < 4)
    (hin : inb M.width M.height ⟨x, y⟩) (ht : b → M.wall x y d = true) :
    WallsOK M (if b then add_wall ws x y d else ws) ∧
      (b → (⟨x, y, d⟩ : Wall) ∈ (if b then add_wall ws x y d else ws)) ∧
      ∀ wl, wl ∈ ws → wl ∈ (if b then add_wall ws x y d else ws) := by
  split_ifs with hb
  · obtain ⟨h1, h2⟩ := hok.add hw hh x y d hd hin (ht hb)
    exact ⟨h1, fun _ => h2, fun wl h => subset_add_wall ws x y d wl h⟩
  · exact ⟨hok, fun h => absurd h hb, fun wl h => h⟩

theorem four_dirs (dir d : Nat) (hdir : dir < 4) (hd : d < 4) :
    d = dir ∨ d = (dir + 3) % 4 ∨ d = (dir + 1) % 4 ∨ d = (dir + 2) % 4 := by
  interval_cases dir <;> interval_cases d <;> simp

theorem nbr_dir_inj (c : Position) (d e : Nat) (hd : d < 4) (he : e < 4)
    (h : nbr c d = nbr c e) : d = e := by
  obtain ⟨x, y⟩ := c
  interval_cases d <;> interval_cases e <;> simp [nbr, dx, dy] at h ⊢

/-- With truthful sensors, sensing keeps the wall list sound and makes it complete at the
current cell, provided the side behind the mouse is open or leads out of the grid. -/
theorem sense_walls_truthful (M : Maze) (hM : M.Valid) (s : State)
    (hw : s.maze_width = M.width) (hh : s.maze_height = M.height) (hdir : s.mouse_dir < 4)
    (hin : inb M.width M.height ⟨s.mouse_x, s.mouse_y⟩) (hok : WallsOK M s.walls)
    (hback : M.wall s.mouse_x s.mouse_y ((s.mouse_dir + 2) % 4) = false ∨
      ¬ inb M.width M.height (nbr ⟨s.mouse_x, s.mouse_y⟩ ((s.mouse_dir + 2) % 4))) :
    WallsOK M (sense_walls s (M.host s)).walls ∧
      ∀ d, d < 4 → M.wall s.mouse_x s.mouse_y d = true →
        has_wall (sense_walls s (M.host s)).walls s.mouse_x s.mouse_y d = true := by
  have hm : ∀ e : Nat, e % 4 < 4 := fun e => Nat.mod_lt _ (by decide)
  have hbk : (s.mouse_x + dx ((s.mouse_dir + 2) % 4) < 0 ∨
      s.mouse_x + dx ((s.mouse_dir + 2) % 4) ≥ s.maze_width ∨
      s.mouse_y + dy ((s.mouse_dir + 2) % 4) < 0 ∨
      s.mouse_y + dy ((s.mouse_dir + 2) % 4) ≥ s.maze_height) ↔
      ¬ inb M.width M.height (nbr ⟨s.mouse_x, s.mouse_y⟩ ((s.mouse_dir + 2) % 4)) := by
    rw [hw, hh]
    unfold inb nbr
    dsimp only
    omega
  obtain ⟨ok1, m1, s1⟩ := hok.add_if hM.width_le hM.height_le
    ((M.host s).wallFront = true) s.mouse_x s.mouse_y s.mouse_dir hdir hin (fun h => h)
  obtain ⟨ok2, m2, s2⟩ := ok1.add_if hM.width_le hM.height_le
    ((M.host s).wallLeft = true) s.mouse_x s.mouse_y ((s.mouse_dir + 3) % 4) (hm _) hin
    (fun h => h)
  obtain ⟨ok3, m3, s3⟩ := ok2.add_if hM.width_le hM.height_le
    ((M.host s).wallRight = true) s.mouse_x s.mouse_y ((s.mouse_dir + 1) % 4) (hm _) hin
    (fun h => h)
  obtain ⟨ok4, m4, s4⟩ := ok3.add_if hM.width_le hM.height_le
    (s.mouse_x + dx ((s.mouse_dir + 2) % 4) < 0 ∨
      s.mouse_x + dx ((s.mouse_dir + 2) % 4) ≥ s.maze_width ∨
      s.mouse_y + dy ((s.mouse_dir + 2) % 4) < 0 ∨
      s.mouse_y + dy ((s.mouse_dir + 2) % 4) ≥ s.maze_height)
    s.mouse_x s.mouse_y ((s.mouse_dir + 2) % 4) (hm _) hin
    (fun h => hM.closed ⟨s.mouse_x, s.mouse_y⟩ _ (hm _) hin (hbk.mp h))
  refine ⟨ok4, ?_⟩
  intro d hd ht
  rw [has_wall_iff]
  rcases four_dirs s.mouse_dir d hdir hd with rfl | rfl | rfl | rfl
  · exact s4 _ (s3 _ (s2 _ (m1 ht)))
  · exact s4 _ (s3 _ (m2 ht))
  · exact s4 _ (m3 ht)
  · rcases hback with hb | hb
    · rw [hb] at ht
      exact absurd ht (by decide)
    · exact m4 (hbk.mpr hb)

theorem init_goals_nodup (s : State) (hst : Host) (hi : s.initialized = false) :
    [(init_solver s hst).goal_cells 0, (init_solver s hst).goal_cells 1,
      (init_solver s hst).goal_cells 2, (init_solver s hst).goal_cells 3].Nodup := by
  unfold init_solver
  rw [if_neg (by simp [hi])]
  simp only [List.nodup_cons, List.mem_cons, List.mem_singleton, Position.mk.injEq,
    List.not_mem_nil, not_false_eq_true, List.nodup_nil, and_true, not_or]
  omega

theorem mem_of_getLast {α : Type} (l : List α) (a : α) (h : l.getLast? = some a) : a ∈ l := by
  rw [List.getLast?_eq_some_iff] at h
  obtain ⟨ys, rfl⟩ := h
  simp

/-- The state after `init_solver` in the first call satisfies the exploration invariant. -/
theorem ExpInv.at_start (M : Maze) (hM : M.Valid) :
    ExpInv M (init_solver powerOn (M.host powerOn)) 0 [] {origin} := by
  have hw := hM.width_ge
  have hh := hM.height_ge
  exact
    { phase0 := rfl
      ready := StackReady.at_first (M.host powerOn) (by show 1 ≤ M.width; omega)
        (by show 1 ≤ M.height; omega)
      goals := init_goals_nodup powerOn _ rfl
      entered := by
        intro c
        rw [Finset.mem_singleton]
        constructor
        · intro h
          exact Or.inr h
        · rintro (h | h)
          · exact absurd h (by simp [init_solver, powerOn])
          · exact h
      reach := by
        intro c hc
        rw [Finset.mem_singleton] at hc
        exact ⟨0, Reach.seed c hc⟩
      walls_ok := ⟨List.nodup_nil, fun wl h => absurd h (List.not_mem_nil _)⟩
      complete := by
        intro c hc
        exact absurd hc (by simp [init_solver, powerOn])
      back_open := by
        refine Or.inr ?_
        show ¬ inb M.width M.height (nbr ⟨0, 0⟩ 2)
        unfold inb nbr
        simp [dx, dy]
      finished := by
        intro c hc
        exact absurd hc (by simp [init_solver, powerOn])
      count := rfl
      log_nodup := List.nodup_nil
      log_sub := fun c h => absurd h (List.not_mem_nil _)
      log_len := rfl }

/-- One exploration call with truthful sensors: the call returns, and either the invariant
holds again one call later, or phase 0 has ended with every reachable cell visited. -/
theorem ExpInv.advance {M : Maze} (hM : M.Valid) (R : Finset Position)
    (hR : ∀ c, c ∈ R ↔ M.Reaches c) {s : State} {k : Nat} {log : List Position}
    {E : Finset Position} (hI : ExpInv M s k log E) (fuel : Nat) (hf : 1026 ≤ fuel) :
    ∃ r, floodFill fuel s (M.host s) = some r ∧
      ((∃ E', ExpInv M r.state (k + 1)
          (if (get_unvisited_neighbors (sensed s (M.host s))).length > 0 then
            log ++ [⟨r.state.mouse_x, r.state.mouse_y⟩] else log) E') ∨
        ExpDone M R r.state (k + 1)
          (if (get_unvisited_neighbors (sensed s (M.host s))).length > 0 then
            log ++ [⟨r.state.mouse_x, r.state.mouse_y⟩] else log)) := by
  have hS := hI.ready
  have hp0 := hI.phase0
  have hfl : floodFill fuel s (M.host s) = explore fuel s (M.host s) := by
    unfold floodFill
    rw [init_solver_idem s hS.init]
    dsimp only
    rw [if_pos hp0]
  -- the stack before the call
  obtain ⟨top, rest, hstk, htop⟩ : ∃ top rest, s.dfs_stack = top :: rest ∧
      top = ⟨s.mouse_x, s.mouse_y⟩ := by
    have := hS.stack.top
    cases hl : s.dfs_stack with
    | nil => rw [hl] at this; exact absurd this (by simp)
    | cons a l =>
      rw [hl] at this
      simp only [List.head?_cons, Option.some.injEq] at this
      exact ⟨a, l, rfl, this⟩
  have hin : inb M.width M.height ⟨s.mouse_x, s.mouse_y⟩ := by
    have := hS.stack.inside top (by rw [hstk]; simp)
    rw [hS.width, hS.height, htop] at this
    exact this
  have hWF : WellFormed s :=
    ⟨hS.dir_lt, by rw [hS.width]; exact hM.width_le, by rw [hS.height]; exact hM.height_le,
      by rw [hS.width, hS.height]; exact hin, hI.goals⟩
  obtain ⟨r, hr⟩ := explore_total fuel s (M.host s) hWF hf
  refine ⟨r, hfl.trans hr, ?_⟩
  have hrf : floodFill fuel s (M.host s) = some r := hfl.trans hr
  obtain ⟨e, he⟩ := sensed_eq s (M.host s)
  obtain ⟨hok', hcomp'⟩ := sense_walls_truthful M hM s hS.width hS.height hS.dir_lt hin
    hI.walls_ok hI.back_open
  have hVtop : set2 s.visited s.mouse_x s.mouse_y true s.mouse_x s.mouse_y = true := by
    simp [set2]
  have hVmono : ∀ x y, s.visited x y = true →
      set2 s.visited s.mouse_x s.mouse_y true x y = true := by
    intro x y h
    unfold set2
    split_ifs
    · rfl
    · exact h
  have hVinv : ∀ c : Position, set2 s.visited s.mouse_x s.mouse_y true c.x c.y = true →
      s.visited c.x c.y = true ∨ c = ⟨s.mouse_x, s.mouse_y⟩ := by
    intro c h
    unfold set2 at h
    split_ifs at h with hc
    · refine Or.inr ?_
      obtain ⟨cx, cy⟩ := c
      dsimp only at hc
      rw [hc.1, hc.2]
    · exact Or.inl h
  have hE : ∀ c : Position, c ∈ E ↔ set2 s.visited s.mouse_x s.mouse_y true c.x c.y = true := by
    intro c
    rw [hI.entered]
    constructor
    · rintro (h | h)
      · exact hVmono _ _ h
      · rw [h]
        exact hVtop
    · exact hVinv c
  have hcomplete : ∀ c : Position, set2 s.visited s.mouse_x s.mouse_y true c.x c.y = true →
      ∀ d, d < 4 → M.wall c.x c.y d = true →
        has_wall (sense_walls s (M.host s)).walls c.x c.y d = true := by
    intro c hc d hd ht
    rcases hVinv c hc with h | h
    · have := hI.complete c h d hd ht
      rw [has_wall_iff] at this ⊢
      exact mem_sense_walls_old s _ _ this
    · rw [h]
      rw [h] at ht
      exact hcomp' d hd ht
  have hsound : ∀ (x y : Int) (d : Nat),
      has_wall (sense_walls s (M.host s)).walls x y d = true → M.wall x y d = true := by
    intro x y d h
    rw [has_wall_iff] at h
    exact (hok'.2 _ h).2.2
  have hopen : ∀ d, d < 4 →
      has_wall (sense_walls s (M.host s)).walls s.mouse_x s.mouse_y d = false →
      M.wall s.mouse_x s.mouse_y d = false := by
    intro d hd h
    cases ht : M.wall s.mouse_x s.mouse_y d with
    | false => rfl
    | true =>
      rw [hcomp' d hd ht] at h
      exact absurd h (by decide)
  have horigin : origin ∈ E := by
    have hm := mem_of_getLast _ _ hS.stack.bottom
    rw [hI.entered]
    rw [hstk] at hm
    rcases List.mem_cons.mp hm with h | h
    · exact Or.inr (h.trans htop)
    · exact Or.inl (hS.below origin (by rw [hstk]; exact h))
  cases hfo : firstOpenDir (sensed s (M.host s)) with
  | some d =>
    refine Or.inl ⟨insert (nbr ⟨s.mouse_x, s.mouse_y⟩ d) E, ?_⟩
    obtain ⟨-, hstate, -⟩ := explore_forward fuel s (M.host s) r d hS.dir_lt hfo hr
    obtain ⟨hd, hinn, hnv, hnw, hlen, -⟩ := firstOpenDir_some _ d hfo
    rw [if_pos hlen]
    rw [he] at hstate hinn hnv hnw
    dsimp only at hstate hinn hnv hnw
    rw [hS.width, hS.height] at hinn
    have hph : r.state.phase = 0 := by rw [hstate]; exact hp0
    have hSr := hS.keep hM.width_le hM.height_le hp0 fuel (M.host s) r hrf hph
    have hpush : stack_push s.dfs_stack ⟨s.mouse_x + dx d, s.mouse_y + dy d⟩ =
        ⟨s.mouse_x + dx d, s.mouse_y + dy d⟩ :: s.dfs_stack := by
      have ht := hSr.stack.top
      rw [hstate] at ht
      dsimp only at ht
      unfold stack_push at ht ⊢
      split_ifs at ht ⊢ with hc
      · rfl
      · exfalso
        rw [hstk] at ht
        simp only [List.head?_cons, Option.some.injEq] at ht
        rw [htop] at ht
        exact nbr_ne ⟨s.mouse_x, s.mouse_y⟩ d hd ht.symm
    have hnE : nbr ⟨s.mouse_x, s.mouse_y⟩ d ∉ E := by
      rw [hE]
      show ¬ set2 s.visited s.mouse_x s.mouse_y true (s.mouse_x + dx d) (s.mouse_y + dy d) = true
      rw [hnv]
      decide
    have hMopen := hopen d hd hnw
    have hmx : r.state.mouse_x = s.mouse_x + dx d := by rw [hstate]
    have hmy : r.state.mouse_y = s.mouse_y + dy d := by rw [hstate]
    have hmd : r.state.mouse_dir = d := by rw [hstate]
    have hvis : r.state.visited = set2 s.visited s.mouse_x s.mouse_y true := by rw [hstate]
    have hwalls : r.state.walls = (sense_walls s (M.host s)).walls := by rw [hstate]
    have hstack : r.state.dfs_stack =
        ⟨s.mouse_x + dx d, s.mouse_y + dy d⟩ :: s.dfs_stack := by rw [hstate, hpush]
    have hgoal : r.state.goal_cells = s.goal_cells := by rw [hstate]
    rw [hmx, hmy]
    exact
      { phase0 := hph
        ready := hSr
        goals := by rw [hgoal]; exact hI.goals
        entered := by
          intro c
          rw [Finset.mem_insert, hE, hvis, hmx, hmy]
          constructor
          · rintro (h | h)
            · exact Or.inr h
            · exact Or.inl h
          · rintro (h | h)
            · exact Or.inr h
            · exact Or.inl h
        reach := by
          intro c hc
          rcases Finset.mem_insert.mp hc with h | h
          · obtain ⟨n, hn⟩ := hI.reach _ ((hI.entered _).mpr (Or.inr rfl))
            rw [h]
            exact ⟨n + 1, Reach.step n _ d hn ⟨hd, hMopen, hinn⟩⟩
          · exact hI.reach c h
        walls_ok := by rw [hwalls]; exact hok'
        complete := by
          intro c hc
          rw [hvis] at hc
          rw [hwalls]
          exact hcomplete c hc
        back_open := by
          refine Or.inl ?_
          rw [hmx, hmy, hmd]
          have := hM.symm ⟨s.mouse_x, s.mouse_y⟩ d hd hin hinn
          rw [← hMopen]
          exact this.symm
        finished := by
          intro c hc hns e' he' ht
          rw [hvis] at hc ⊢
          rw [hstack] at hns
          have hns' : c ∉ s.dfs_stack := fun h => hns (List.mem_cons_of_mem _ h)
          rcases hVinv c hc with h | h
          · exact hVmono _ _ (hI.finished c h hns' e' he' ht)
          · exfalso
            apply hns'
            rw [hstk, h, htop]
            exact List.mem_cons_self _ _
        count := by
          rw [Finset.card_insert_of_not_mem hnE, hstack, List.length_cons]
          have := hI.count
          omega
        log_nodup := by
          rw [List.nodup_append]
          refine ⟨hI.log_nodup, List.nodup_singleton _, ?_⟩
          intro a ha hb
          rw [List.mem_singleton] at hb
          subst hb
          exact hnE (hI.log_sub _ ha).1
        log_sub := by
          intro c hc
          rcases List.mem_append.mp hc with h | h
          · exact ⟨Finset.mem_insert_of_mem (hI.log_sub c h).1, (hI.log_sub c h).2⟩
          · rw [List.mem_singleton] at h
            refine ⟨by rw [h]; exact Finset.mem_insert_self _ _, ?_⟩
            intro ho
            apply hnE
            have : nbr ⟨s.mouse_x, s.mouse_y⟩ d = origin := by rw [← ho, h]; rfl
            rw [this]
            exact horigin
        log_len := by
          rw [Finset.card_insert_of_not_mem hnE, List.length_append, List.length_singleton]
          have := hI.log_len
          omega }
  | none =>
    obtain ⟨hnil, hallv⟩ := firstOpenDir_none _ hfo
    rw [he] at hallv
    dsimp only at hallv
    rw [hS.width, hS.height] at hallv
    have hlen0 : ¬ (get_unvisited_neighbors (sensed s (M.host s))).length > 0 := by
      rw [hnil]
      simp
    rw [if_neg hlen0]
    -- all open neighbours of the current cell are visited
    have htopdone : ∀ d, d < 4 → M.wall s.mouse_x s.mouse_y d = false →
        set2 s.visited s.mouse_x s.mouse_y true (s.mouse_x + dx d) (s.mouse_y + dy d) = true := by
      intro d hd ht
      refine hallv d hd ?_ ?_
      · by_contra hni
        have := hM.closed ⟨s.mouse_x, s.mouse_y⟩ d hd hin hni
        dsimp only at this
        rw [this] at ht
        exact absurd ht (by decide)
      · cases hw : has_wall (sense_walls s (M.host s)).walls s.mouse_x s.mouse_y d with
        | false => rfl
        | true =>
          rw [hsound _ _ _ hw] at ht
          exact absurd ht (by decide)
    cases rest with
    | cons prev rest' =>
      refine Or.inl ⟨E, ?_⟩
      have hl0 := hS.stack.linked
      rw [hstk] at hl0
      obtain ⟨⟨d0, hd0, hn0, hw0⟩, -⟩ := hl0
      obtain ⟨d, hd, hnd', -, hstate, -⟩ := explore_backtrack fuel s (M.host s) r top prev rest'
        hS.dir_lt hfo hstk ⟨d0, hd0, by rw [hn0, htop]⟩ hr
      rw [he] at hstate
      dsimp only at hstate
      have hph : r.state.phase = 0 := by rw [hstate]; exact hp0
      have hSr := hS.keep hM.width_le hM.height_le hp0 fuel (M.host s) r hrf hph
      have hprevv : s.visited prev.x prev.y = true :=
        hS.below prev (by rw [hstk]; simp)
      have hmx : r.state.mouse_x = prev.x := by rw [hstate]
      have hmy : r.state.mouse_y = prev.y := by rw [hstate]
      have hmd : r.state.mouse_dir = d := by rw [hstate]
      have hvis : r.state.visited = set2 s.visited s.mouse_x s.mouse_y true := by rw [hstate]
      have hwalls : r.state.walls = (sense_walls s (M.host s)).walls := by rw [hstate]
      have hstack : r.state.dfs_stack = prev :: rest' := by rw [hstate]
      have hgoal : r.state.goal_cells = s.goal_cells := by rw [hstate]
      have hdd : (d + 2) % 4 = d0 := by
        have h1 : nbr prev ((d + 2) % 4) = ⟨s.mouse_x, s.mouse_y⟩ := by
          rw [← hnd']
          exact nbr_back _ d hd
        rw [← htop, ← hn0] at h1
        exact nbr_dir_inj prev _ _ (opp_lt d) hd0 h1
      exact
        { phase0 := hph
          ready := hSr
          goals := by rw [hgoal]; exact hI.goals
          entered := by
            intro c
            rw [hE, hvis, hmx, hmy]
            constructor
            · exact fun h => Or.inl h
            · rintro (h | h)
              · exact h
              · rw [h]
                exact hVmono _ _ hprevv
          reach := hI.reach
          walls_ok := by rw [hwalls]; exact hok'
          complete := by
            intro c hc
            rw [hvis] at hc
            rw [hwalls]
            exact hcomplete c hc
          back_open := by
            refine Or.inl ?_
            rw [hmx, hmy, hmd, hdd]
            cases ht : M.wall prev.x prev.y d0 with
            | false => rfl
            | true =>
              rw [hI.complete prev hprevv d0 hd0 ht] at hw0
              exact absurd hw0 (by decide)
          finished := by
            intro c hc hns e' he' ht
            rw [hvis] at hc ⊢
            rw [hstack] at hns
            rcases hVinv c hc with h | h
            · by_cases hct : c = top
              · rw [hct, htop] at ht ⊢
                exact htopdone e' he' ht
              · refine hVmono _ _ (hI.finished c h ?_ e' he' ht)
                rw [hstk]
                intro hm
                rcases List.mem_cons.mp hm with h1 | h1
                · exact hct h1
                · exact hns h1
            · rw [h] at ht ⊢
              exact htopdone e' he' ht
          count := by
            rw [hstack]
            have := hI.count
            rw [hstk] at this
            simp only [List.length_cons] at this ⊢
            omega
          log_nodup := hI.log_nodup
          log_sub := hI.log_sub
          log_len := hI.log_len }
    | nil =>
      refine Or.inr ?_
      obtain ⟨sd, b, p, l, i, hcd, hfp, hres⟩ :=
        explore_finish fuel s (M.host s) r hfo (by rw [hstk]; simp) hr
      have hsd := calculate_distances_frame fuel _ sd hcd
      have htopo : top = origin := by
        have := hS.stack.bottom
        rw [hstk] at this
        simpa using this
      have hmx0 : s.mouse_x = 0 ∧ s.mouse_y = 0 := by
        have := htop.symm.trans htopo
        unfold origin at this
        rw [Position.mk.injEq] at this
        exact this
      -- the planner succeeds at once: the mouse stands on the origin
      have hsdm : sd.mouse_x = 0 ∧ sd.mouse_y = 0 ∧ sd.maze_width = M.width ∧
          sd.maze_height = M.height := by
        rw [hsd, he]
        exact ⟨hmx0.1, hmx0.2, hS.width, hS.height⟩
      have hplan := find_path_to_start_spec fuel sd
        (by
          rw [hsdm.1, hsdm.2.1, hsdm.2.2.1, hsdm.2.2.2]
          have := hin
          rw [hmx0.1, hmx0.2] at this
          exact this)
        (by rw [hsdm.2.2.1]; exact hM.width_le) (by rw [hsdm.2.2.2]; exact hM.height_le) hf
      have hseed : Reach (planGraph sd.walls sd.maze_width sd.maze_height
          ⟨sd.mouse_x, sd.mouse_y⟩) 0 origin := by
        refine Reach.seed _ ?_
        show origin = ⟨sd.mouse_x, sd.mouse_y⟩
        rw [hsdm.1, hsdm.2.1]
        rfl
      have hb : b = true ∧ l = 0 ∧ i = 0 := by
        rcases hplan with ⟨path, hp1, hp2⟩ | ⟨hp1, hp2⟩
        · rw [hp1] at hfp
          simp only [Option.some.injEq, Prod.mk.injEq] at hfp
          have hl := hp2.2.2 0 hseed
          have e1 := congrArg State.path_length hfp.2
          have e2 := congrArg State.path_index hfp.2
          dsimp only at e1 e2
          exact ⟨hfp.1.symm, by omega, e2.symm⟩
        · exact absurd hseed (hp2 0)
      obtain ⟨rfl, rfl, rfl⟩ := hb
      have hclosed : ∀ c : Position,
          set2 s.visited s.mouse_x s.mouse_y true c.x c.y = true → ∀ d, d < 4 →
          M.wall c.x c.y d = false →
          set2 s.visited s.mouse_x s.mouse_y true (c.x + dx d) (c.y + dy d) = true := by
        intro c hc d hd ht
        rcases hVinv c hc with h | h
        · by_cases hct : c = top
          · rw [hct, htop] at ht ⊢
            exact htopdone d hd ht
          · refine hVmono _ _ (hI.finished c h ?_ d hd ht)
            rw [hstk]
            simpa using hct
        · rw [h] at ht ⊢
          exact htopdone d hd ht
      have hcover : ∀ c : Position,
          set2 s.visited s.mouse_x s.mouse_y true c.x c.y = true ↔ c ∈ R := by
        intro c
        constructor
        · intro h
          exact (hR c).mpr (hI.reach c ((hE c).mpr h))
        · intro h
          obtain ⟨n, hn⟩ := (hR c).mp h
          have key : ∀ (n : Nat) (c : Position), Reach M.graph n c →
              set2 s.visited s.mouse_x s.mouse_y true c.x c.y = true := by
            intro n c hr
            induction hr with
            | seed c hs =>
              have : c = origin := hs
              rw [this]
              show set2 s.visited s.mouse_x s.mouse_y true 0 0 = true
              simp [set2, hmx0.1, hmx0.2]
            | step n u d _ ho ih => exact hclosed u ih d ho.1 ho.2.1
          exact key n c hn
      have hER : E = R := by
        ext c
        rw [hE, hcover]
      rw [hres]
      exact
        { phase1 := rfl
          at_origin := by
            dsimp only
            exact ⟨hsdm.1, hsdm.2.1⟩
          path_empty := ⟨rfl, rfl⟩
          stack := by
            dsimp only
            rw [hsd, he]
            dsimp only
            rw [hstk, htopo]
          covered := by
            intro c
            dsimp only
            rw [hsd, he]
            exact hcover c
          calls := by
            rw [← hER]
            have := hI.count
            rw [hstk] at this
            simp only [List.length_cons, List.length_nil] at this
            omega
          walls_ok := by
            dsimp only
            rw [hsd, he]
            exact hok'
          complete := by
            intro c hc d hd
            dsimp only
            rw [hsd, he]
            dsimp only
            constructor
            · exact hsound _ _ _
            · exact hcomplete c ((hcover c).mpr hc) d hd
          log_nodup := hI.log_nodup
          log_sub := by
            intro c hc
            rw [← hER]
            exact hI.log_sub c hc
          log_len := by
            rw [← hER]
            exact hI.log_len }

end Hybrid

end Micromouse

namespace Micromouse

namespace Hybrid

open Bfs

/-! ## The exploration run as a whole -/

theorem floodFill_init (fuel : Nat) (s : State) (hst : Host) :
    floodFill fuel (init_solver s hst) hst = floodFill fuel s hst := by
  unfold floodFill
  rw [init_solver_idem (init_solver s hst) (init_solver_initialized s hst) hst]

theorem host_init (M : Maze) (s : State) (hst : Host) :
    M.host (init_solver s hst) = M.host s := by
  unfold init_solver
  split_ifs <;> rfl

theorem init_solver_phase (s : State) (hst : Host) : (init_solver s hst).phase = s.phase := by
  unfold init_solver
  split_ifs <;> rfl

theorem ExploreAt.next {fuel : Nat} {M : Maze} (hM : M.Valid) (R : Finset Position)
    (hR : ∀ c, c ∈ R ↔ M.Reaches c) (hf : 1026 ≤ fuel) {k : Nat} (h : ExploreAt fuel M k) :
    ExploreAt fuel M (k + 1) ∨ ExploreEnd fuel M R (k + 1) := by
  obtain ⟨s, log, E, hrun, hI⟩ := h
  obtain ⟨r, hr, hcase⟩ := hI.advance hM R hR fuel hf
  rw [host_init, floodFill_init] at hr
  rw [host_init] at hcase
  have hnext : explorerRun fuel M (k + 1) =
      some (r.state,
        if (get_unvisited_neighbors
            (sensed (init_solver s (M.host s)) (M.host s))).length > 0 then
          log ++ [⟨r.state.mouse_x, r.state.mouse_y⟩]
        else log) := by
    rw [explorerRun]
    rw [hrun]
    dsimp only
    rw [hr]
    dsimp only
    simp only [hI.phase0, true_and]
  rcases hcase with ⟨E', hI'⟩ | hD
  · refine Or.inl ⟨_, _, E', hnext, ?_⟩
    rw [init_solver_idem r.state hI'.ready.init]
    exact hI'
  · exact Or.inr ⟨_, _, hnext, hD⟩

theorem ExploreAt.zero (fuel : Nat) (M : Maze) (hM : M.Valid) : ExploreAt fuel M 0 :=
  ⟨powerOn, [], {origin}, rfl, ExpInv.at_start M hM⟩

theorem ExploreAt.bound {fuel : Nat} {M : Maze} (R : Finset Position)
    (hR : ∀ c, c ∈ R ↔ M.Reaches c) {k : Nat} (h : ExploreAt fuel M k) :
    k + 2 ≤ 2 * R.card := by
  obtain ⟨s, log, E, -, hI⟩ := h
  have hsub : E ⊆ R := fun c hc => (hR c).mpr (hI.reach c hc)
  have hcard := Finset.card_le_card hsub
  have hlen : 1 ≤ (init_solver s (M.host s)).dfs_stack.length := by
    have := hI.ready.stack.top
    cases hl : (init_solver s (M.host s)).dfs_stack with
    | nil => rw [hl] at this; exact absurd this (by simp)
    | cons a l => simp
  have := hI.count
  omega

theorem ExploreAt.phase {fuel : Nat} {M : Maze} {k : Nat} (h : ExploreAt fuel M k) :
    ∃ q, explorerRun fuel M k = some q ∧ q.1.phase = 0 := by
  obtain ⟨s, log, E, hrun, hI⟩ := h
  refine ⟨(s, log), hrun, ?_⟩
  have := hI.phase0
  rw [init_solver_phase] at this
  exact this

theorem explore_until (fuel : Nat) (M : Maze) (hM : M.Valid) (R : Finset Position)
    (hR : ∀ c, c ∈ R ↔ M.Reaches c) (hf : 1026 ≤ fuel) :
    ∀ m, (∀ j, j ≤ m → ExploreAt fuel M j) ∨
      ∃ n, n ≤ m ∧ (∀ j, j < n → ExploreAt fuel M j) ∧ ExploreEnd fuel M R n := by
  intro m
  induction m with
  | zero =>
    refine Or.inl ?_
    intro j hj
    have : j = 0 := by omega
    rw [this]
    exact ExploreAt.zero fuel M hM
  | succ m ih =>
    rcases ih with h | ⟨n, hn, h1, h2⟩
    · rcases (h m (le_refl m)).next hM R hR hf with h' | h'
      · refine Or.inl ?_
        intro j hj
        by_cases hjm : j ≤ m
        · exact h j hjm
        · have : j = m + 1 := by omega
          rw [this]
          exact h'
      · exact Or.inr ⟨m + 1, le_refl _, fun j hj => h j (by omega), h'⟩
    · exact Or.inr ⟨n, by omega, h1, h2⟩

/-- With truthful sensors the exploration ends: for some `n` the invariant holds before each
of the first `n` calls and the call number `n` ends phase 0. -/
theorem explore_ends (fuel : Nat) (M : Maze) (hM : M.Valid) (R : Finset Position)
    (hR : ∀ c, c ∈ R ↔ M.Reaches c) (hf : 1026 ≤ fuel) :
    ∃ n, (∀ j, j < n → ExploreAt fuel M j) ∧ ExploreEnd fuel M R n := by
  rcases explore_until fuel M hM R hR hf (2 * R.card) with h | ⟨n, -, h1, h2⟩
  · have := (h (2 * R.card) (le_refl _)).bound R hR
    omega
  · exact ⟨n, h1, h2⟩

/-! ### The maze without inner walls -/

theorem openMaze_valid (w h : Int) (hw : 2 ≤ w) (hw' : w ≤ 16) (hh : 2 ≤ h) (hh' : h ≤ 16) :
    (openMaze w h).Valid := by
  refine ⟨hw, hw', hh, hh', ?_, ?_⟩
  · intro c d hd hc hn
    show decide (¬ inb w h (nbr ⟨c.x, c.y⟩ d)) =
      decide (¬ inb w h (nbr ⟨(nbr c d).x, (nbr c d).y⟩ ((d + 2) % 4)))
    have e1 : (⟨c.x, c.y⟩ : Position) = c := rfl
    have e2 : (⟨(nbr c d).x, (nbr c d).y⟩ : Position) = nbr c d := rfl
    have hc' : inb w h c := hc
    have hn' : inb w h (nbr c d) := hn
    rw [e1, e2, nbr_back c d hd]
    simp [hc', hn']
  · intro c d hd hc hn
    show decide (¬ inb w h (nbr ⟨c.x, c.y⟩ d)) = true
    have e1 : (⟨c.x, c.y⟩ : Position) = c := rfl
    have hn' : ¬ inb w h (nbr c d) := hn
    rw [e1]
    simp [hn']

theorem inb_of_mem_gridCells (w h : Int) (c : Position) (hc : c ∈ gridCells w h) :
    inb w h c := by
  unfold gridCells at hc
  rw [Finset.mem_image] at hc
  obtain ⟨p, hp, rfl⟩ := hc
  rw [Finset.mem_product, Finset.mem_range, Finset.mem_range] at hp
  unfold inb
  dsimp only
  omega

theorem openMaze_reaches (w h : Int) (hw : 1 ≤ w) (hh : 1 ≤ h) (c : Position) :
    c ∈ gridCells w h ↔ (openMaze w h).Reaches c := by
  have hopen : ∀ (u : Position) (d : Nat), d < 4 → inb w h (nbr u d) →
      (openMaze w h).graph.Open u d := by
    intro u d hd hn
    refine ⟨hd, ?_, hn⟩
    show decide (¬ inb w h (nbr ⟨u.x, u.y⟩ d)) = false
    have e1 : (⟨u.x, u.y⟩ : Position) = u := rfl
    rw [e1]
    simp [hn]
  constructor
  · intro hc
    have hin := inb_of_mem_gridCells w h c hc
    obtain ⟨x, y⟩ := c
    obtain ⟨h1, h2, h3, h4⟩ := hin
    dsimp only at h1 h2 h3 h4
    have east : ∀ a : Nat, (a : Int) < w → Reach (openMaze w h).graph a ⟨(a : Int), 0⟩ := by
      intro a
      induction a with
      | zero => exact fun _ => Reach.seed _ rfl
      | succ a ih =>
        intro ha
        have hstep := Reach.step a ⟨(a : Int), 0⟩ 1 (ih (by omega))
          (hopen _ 1 (by decide) (by
            unfold inb nbr
            simp only [dx, dy]
            omega))
        have e : nbr ⟨(a : Int), 0⟩ 1 = ⟨((a + 1 : Nat) : Int), 0⟩ := by
          simp [nbr, dx, dy]
        rw [e] at hstep
        exact hstep
    have north : ∀ b : Nat, (b : Int) < h →
        Reach (openMaze w h).graph (x.toNat + b) ⟨x, (b : Int)⟩ := by
      intro b
      induction b with
      | zero =>
        intro _
        have := east x.toNat (by omega)
        rw [Int.toNat_of_nonneg h1] at this
        exact this
      | succ b ih =>
        intro hb
        have hstep := Reach.step _ ⟨x, (b : Int)⟩ 0 (ih (by omega))
          (hopen _ 0 (by decide) (by
            unfold inb nbr
            simp only [dx, dy]
            omega))
        have e : nbr ⟨x, (b : Int)⟩ 0 = ⟨x, ((b + 1 : Nat) : Int)⟩ := by
          simp [nbr, dx, dy]
        rw [e] at hstep
        exact hstep
    have := north y.toNat (by omega)
    rw [Int.toNat_of_nonneg h3] at this
    exact ⟨_, this⟩
  · rintro ⟨n, hr⟩
    rcases Reach.rel hr with hc | hc
    · exact mem_gridCells w h c hc
    · have : c = origin := hc
      rw [this]
      refine mem_gridCells w h origin ?_
      unfold inb origin
      dsimp only
      omega

end Hybrid

end Micromouse

namespace Micromouse

namespace Hybrid

open Bfs

/-! ## Further facts about single calls -/

theorem explore_no_open (fuel : Nat) (s : State) (hst : Host) (r : Result)
    (hfo : firstOpenDir (sensed s hst) = none) (h : explore fuel s hst = some r) :
    (r.state.phase = s.phase ∧ r.state.dfs_stack = s.dfs_stack.tail ∧
        1 < s.dfs_stack.length) ∨
      (r.state.phase ≠ 0 ∧ r.state.dfs_stack = s.dfs_stack ∧ r.cmds = [] ∧
        s.dfs_stack.length ≤ 1) := by
  obtain ⟨hnil, -⟩ := firstOpenDir_none _ hfo
  obtain ⟨-, e2, e3, -⟩ := sensed_fields s hst
  by_cases hlen : 1 < s.dfs_stack.length
  · refine Or.inl ?_
    rw [explore_eq, if_neg (by rw [hnil]; simp), if_pos (by rw [e3]; exact hlen)] at h
    dsimp only at h
    split at h
    · obtain ⟨t, -, rfl⟩ := Option.map_eq_some'.mp h
      exact ⟨e2, by rw [← e3], hlen⟩
    · simp only [Option.some.injEq] at h
      subst h
      exact ⟨e2, by rw [← e3], hlen⟩
  · refine Or.inr ?_
    obtain ⟨sd, b, p, l, i, hcd, -, hres⟩ := explore_finish fuel s hst r hfo (by omega) h
    have hsd := calculate_distances_frame fuel _ sd hcd
    rw [hres]
    dsimp only
    refine ⟨by cases b <;> simp, ?_, rfl, by omega⟩
    rw [hsd]
    exact e3

theorem explore_forward_cmds (fuel : Nat) (s : State) (hst : Host) (r : Result) (d : Nat)
    (hfo : firstOpenDir (sensed s hst) = some d) (h : explore fuel s hst = some r) :
    ∃ t, turn_to_direction fuel s.mouse_dir d [] = some t ∧
      r.cmds = t.2 ++ [Cmd.moveForward] := by
  obtain ⟨hd, -, -, -, hlen, hget⟩ := firstOpenDir_some _ d hfo
  have hsd := sensed_mouse_dir s hst
  rw [explore_eq, if_pos hlen] at h
  dsimp only at h
  rw [hget] at h
  dsimp only [nbr] at h
  rw [dir_toward_nbr _ _ d hd, hsd] at h
  dsimp only at h
  obtain ⟨t, ht, rfl⟩ := Option.map_eq_some'.mp h
  exact ⟨t, ht, rfl⟩

/-- The first call after power-on, when the sensors show exactly one of the sides North and
East of the origin open. -/
theorem first_call_opening (hst : Host)
    (hw : 2 ≤ hst.mazeWidth) (hh : 2 ≤ hst.mazeHeight)
    (hx : hst.wallFront = !hst.wallRight) :
    firstOpenDir (sensed (init_solver powerOn hst) hst) =
      some (if hst.wallFront = true then 1 else 0) := by
  have hw1 : (1 : Int) < hst.mazeWidth := by omega
  have hh1 : (1 : Int) < hst.mazeHeight := by omega
  have hw0 : (0 : Int) < hst.mazeWidth := by omega
  have hh0 : (0 : Int) < hst.mazeHeight := by omega
  obtain ⟨e, he⟩ := sensed_eq (init_solver powerOn hst) hst
  rw [he]
  unfold firstOpenDir
  rw [range_four]
  cases hf' : hst.wallFront <;> cases hl : hst.wallLeft <;> cases hr : hst.wallRight <;>
    simp [hf', hr] at hx <;>
    simp [sense_walls, init_solver, powerOn, add_wall, has_wall, MAX_WALLS,
      set2, dx, dy, inb, nbr, hf', hl, hr, hw1, hh1, hw0, hh0, List.find?]

theorem init_solver_mouse (s : State) (hst : Host) :
    (init_solver s hst).mouse_x = s.mouse_x ∧ (init_solver s hst).mouse_y = s.mouse_y := by
  unfold init_solver
  split_ifs <;> exact ⟨rfl, rfl⟩

theorem explore_forward_total (fuel : Nat) (s : State) (hst : Host) (d : Nat)
    (hdir : s.mouse_dir < 4) (hfo : firstOpenDir (sensed s hst) = some d) (hf : 2 ≤ fuel) :
    ∃ r, explore fuel s hst = some r := by
  obtain ⟨hd, -, -, -, hlen, hget⟩ := firstOpenDir_some _ d hfo
  have hsd := sensed_mouse_dir s hst
  rw [explore_eq, if_pos hlen]
  dsimp only
  rw [hget]
  dsimp only [nbr]
  rw [dir_toward_nbr _ _ d hd, hsd]
  dsimp only
  obtain ⟨t, ht⟩ := turn_to_direction_total fuel s.mouse_dir d hdir hd hf
  rw [ht]
  exact ⟨_, rfl⟩

theorem turn_from_north (fuel : Nat) (hf : 2 ≤ fuel) :
    turn_to_direction fuel 0 0 [] = some (0, []) ∧
      turn_to_direction fuel 0 1 [] = some (1, [Cmd.turnRight]) := by
  obtain ⟨n, rfl⟩ : ∃ n, fuel = n + 2 := ⟨fuel - 2, by omega⟩
  constructor <;> simp [turn_to_direction, Int.tmod]

/-- Every state of the exploration run after its first call is a state the solver can reach. -/
theorem explorerRun_reachable (fuel : Nat) (M : Maze) :
    ∀ n q, explorerRun fuel M (n + 1) = some q → Reachable M.width M.height q.1 := by
  intro n
  induction n with
  | zero =>
    intro q hq
    rw [explorerRun, explorerRun] at hq
    dsimp only at hq
    cases hc : floodFill fuel powerOn (M.host powerOn) with
    | none => rw [hc] at hq; exact absurd hq (by simp)
    | some r =>
      rw [hc] at hq
      simp only [Option.some.injEq] at hq
      rw [← hq]
      rw [← floodFill_init] at hc
      exact Reachable.call fuel _ _ r (Reachable.first (M.host powerOn) rfl rfl) hc
  | succ n ih =>
    intro q hq
    rw [explorerRun] at hq
    cases hk : explorerRun fuel M (n + 1) with
    | none => rw [hk] at hq; exact absurd hq (by simp)
    | some q0 =>
      obtain ⟨s, log⟩ := q0
      rw [hk] at hq
      dsimp only at hq
      cases hc : floodFill fuel s (M.host s) with
      | none => rw [hc] at hq; exact absurd hq (by simp)
      | some r =>
        rw [hc] at hq
        simp only [Option.some.injEq] at hq
        rw [← hq]
        exact Reachable.call fuel s _ r (ih (s, log) hk) hc

end Hybrid

end Micromouse

namespace Micromouse

namespace Hybrid

open Bfs

/-! ## Claims about the phases, the explorer and the wall list of the hybrid solver -/

/-- Claim C11. In an initialised solver with phase 3 a call of `floodFill` returns `IDLE`,
issues no command and leaves the whole state unchanged, for every host answer; hence after any
sequence of calls the state is still the same and the phase is still 3. -/
theorem done_is_absorbing (fuel : Nat) (s : State) (hst : Host) (hi : s.initialized = true)
    (hp : s.phase = 3) :
    floodFill fuel s hst = some { action := Action.IDLE, state := s, cmds := [] } ∧
      ∀ hs : List Host, calls fuel hs s = some (s, []) :=
  ⟨floodFill_done fuel s hst hi hp, calls_done fuel s hi hp⟩

/-- The statement of C11 at a state with phase 3 in a `4 x 4` maze. -/
theorem done_is_absorbing_witness :
    floodFill 0 { stuckState with phase := 3 } (host 4 4 true false true false) =
        some { action := Action.IDLE, state := { stuckState with phase := 3 }, cmds := [] } ∧
      ∀ hs : List Host, calls 0 hs { stuckState with phase := 3 } =
        some ({ stuckState with phase := 3 }, []) :=
  done_is_absorbing 0 { stuckState with phase := 3 } (host 4 4 true false true false) rfl rfl

/-- Claim C12. In a static maze of size 2 .. 16 in each dimension with symmetric walls and
closed boundary, with truthful sensors, successful moves and start at the origin heading north,
exactly `2 * R - 1` calls of `floodFill` are spent in phase 0, where `R` is the number of cells
reachable from the origin: every one of the first `n = 2 * R - 1` calls starts in phase 0 and
returns, and after call number `n` the phase is 1.  In particular the number of phase-0 calls
is at most `2 * R`. -/
theorem explorer_terminates (fuel : Nat) (M : Maze) (R : Finset Position) (hM : M.Valid)
    (hR : ∀ c, c ∈ R ↔ M.Reaches c) (hf : 1026 ≤ fuel) :
    ∃ n, n ≤ 2 * R.card ∧ n + 1 = 2 * R.card ∧
      (∀ j, j < n → ∃ q, explorerRun fuel M j = some q ∧ q.1.phase = 0) ∧
      ∃ q, explorerRun fuel M n = some q ∧ q.1.phase = 1 := by
  obtain ⟨n, h1, s, log, hrun, hD⟩ := explore_ends fuel M hM R hR hf
  have := hD.calls
  exact ⟨n, by omega, this, fun j hj => (h1 j hj).phase, (s, log), hrun, hD.phase1⟩

/-- The statement of C12 in the `2 x 2` maze without inner walls. -/
theorem explorer_terminates_witness :
    ∃ n, n ≤ 2 * (gridCells 2 2).card ∧ n + 1 = 2 * (gridCells 2 2).card ∧
      (∀ j, j < n → ∃ q, explorerRun 1026 (openMaze 2 2) j = some q ∧ q.1.phase = 0) ∧
      ∃ q, explorerRun 1026 (openMaze 2 2) n = some q ∧ q.1.phase = 1 :=
  explorer_terminates 1026 (openMaze 2 2) (gridCells 2 2)
    (openMaze_valid 2 2 (by decide) (by decide) (by decide) (by decide))
    (openMaze_reaches 2 2 (by decide) (by decide)) (by decide)

/-- Claim C13. Under the assumptions of C12, at the call that ends phase 0 the visited cells
are exactly the cells reachable from the origin in the true maze, the cells entered by forward
moves are pairwise distinct (each reachable cell other than the origin was entered by a forward
move exactly once), and the stack holds exactly the origin. -/
theorem explorer_covers (fuel : Nat) (M : Maze) (R : Finset Position) (hM : M.Valid)
    (hR : ∀ c, c ∈ R ↔ M.Reaches c) (hf : 1026 ≤ fuel) :
    ∃ n q, explorerRun fuel M n = some q ∧
      (∀ j, j < n → ∃ p, explorerRun fuel M j = some p ∧ p.1.phase = 0) ∧
      q.1.phase ≠ 0 ∧
      (∀ c : Position, q.1.visited c.x c.y = true ↔ c ∈ R) ∧
      q.2.Nodup ∧ (∀ c, c ∈ q.2 → c ∈ R ∧ c ≠ origin) ∧ q.2.length + 1 = R.card ∧
      q.1.dfs_stack = [origin] := by
  obtain ⟨n, h1, s, log, hrun, hD⟩ := explore_ends fuel M hM R hR hf
  refine ⟨n, (s, log), hrun, fun j hj => (h1 j hj).phase, ?_, hD.covered, hD.log_nodup,
    hD.log_sub, hD.log_len, hD.stack⟩
  show s.phase ≠ 0
  rw [hD.phase1]
  decide

/-- The statement of C13 in the `2 x 2` maze without inner walls. -/
theorem explorer_covers_witness :
    ∃ n q, explorerRun 1026 (openMaze 2 2) n = some q ∧
      (∀ j, j < n → ∃ p, explorerRun 1026 (openMaze 2 2) j = some p ∧ p.1.phase = 0) ∧
      q.1.phase ≠ 0 ∧
      (∀ c : Position, q.1.visited c.x c.y = true ↔ c ∈ gridCells 2 2) ∧
      q.2.Nodup ∧ (∀ c, c ∈ q.2 → c ∈ gridCells 2 2 ∧ c ≠ origin) ∧
      q.2.length + 1 = (gridCells 2 2).card ∧ q.1.dfs_stack = [origin] :=
  explorer_covers 1026 (openMaze 2 2) (gridCells 2 2)
    (openMaze_valid 2 2 (by decide) (by decide) (by decide) (by decide))
    (openMaze_reaches 2 2 (by decide) (by decide)) (by decide)

/-- Claim C14. In a phase-0 call with heading in `0 .. 3`, let `d` be the first direction in
the order North, East, South, West whose neighbour is, after sensing, in bounds, not visited
and not behind a recorded wall of the current cell.  If `d` exists the call returns, turns to
`d`, issues one forward move, and the position belief is the neighbour in direction `d`, which
is pushed on the stack.  If no direction qualifies the call either pops the stack and stays in
phase 0 (backtrack), or, with at most one stack entry, leaves phase 0 without a command.  In
the first call after power-on in a maze of at least `2 x 2` cells with exactly one of North and
East open, the call moves through that opening. -/
theorem explorer_takes_first_open (fuel : Nat) (hf : 2 ≤ fuel) :
    (∀ (s : State) (hst : Host) (d : Nat), (init_solver s hst).phase = 0 → s.mouse_dir < 4 →
      firstOpenDir (sensed (init_solver s hst) hst) = some d →
      ∃ r, floodFill fuel s hst = some r ∧
        r.state.mouse_x = s.mouse_x + dx d ∧ r.state.mouse_y = s.mouse_y + dy d ∧
        r.state.mouse_dir = d ∧ r.state.phase = 0 ∧
        r.state.dfs_stack =
          stack_push (init_solver s hst).dfs_stack ⟨s.mouse_x + dx d, s.mouse_y + dy d⟩ ∧
        ∃ t, t ∈ turnSequences ∧ r.cmds = t ++ [Cmd.moveForward]) ∧
    (∀ (s : State) (hst : Host) (r : Result), (init_solver s hst).phase = 0 →
      firstOpenDir (sensed (init_solver s hst) hst) = none →
      floodFill fuel s hst = some r →
      (r.state.phase = 0 ∧ r.state.dfs_stack = (init_solver s hst).dfs_stack.tail ∧
          1 < (init_solver s hst).dfs_stack.length) ∨
        (r.state.phase ≠ 0 ∧ r.state.dfs_stack = (init_solver s hst).dfs_stack ∧
          r.cmds = [] ∧ (init_solver s hst).dfs_stack.length ≤ 1)) ∧
    (∀ hst : Host, 2 ≤ hst.mazeWidth → 2 ≤ hst.mazeHeight →
      hst.wallFront = !hst.wallRight →
      ∃ r, floodFill fuel powerOn hst = some r ∧
        r.cmds = (if hst.wallFront = true then [Cmd.turnRight, Cmd.moveForward]
          else [Cmd.moveForward]) ∧
        r.state.mouse_x = (if hst.wallFront = true then 1 else 0) ∧
        r.state.mouse_y = (if hst.wallFront = true then 0 else 1)) := by
  have hfl : ∀ (s : State) (hst : Host), (init_solver s hst).phase = 0 →
      floodFill fuel s hst = explore fuel (init_solver s hst) hst := by
    intro s hst hp
    unfold floodFill
    dsimp only
    rw [if_pos hp]
  refine ⟨?_, ?_, ?_⟩
  · intro s hst d hp hdir hfo
    have hdir' : (init_solver s hst).mouse_dir < 4 := by
      rw [init_solver_mouse_dir]
      exact hdir
    obtain ⟨r, hr⟩ := explore_forward_total fuel _ hst d hdir' hfo hf
    obtain ⟨-, hstate, hcmds⟩ := explore_forward fuel _ hst r d hdir' hfo hr
    obtain ⟨e1, e2, -⟩ := sensed_frame (init_solver s hst) hst
    obtain ⟨-, e3, e4, -⟩ := sensed_fields (init_solver s hst) hst
    obtain ⟨m1, m2⟩ := init_solver_mouse s hst
    rw [e1, e2, e4, m1, m2] at hstate
    refine ⟨r, (hfl s hst hp).trans hr, ?_, ?_, ?_, ?_, ?_, hcmds⟩
    · rw [hstate]
    · rw [hstate]
    · rw [hstate]
    · rw [hstate]
      exact e3.trans hp
    · rw [hstate]
  · intro s hst r hp hfo hr
    rw [hfl s hst hp] at hr
    rcases explore_no_open fuel _ hst r hfo hr with ⟨a, b, c⟩ | ⟨a, b, c, d⟩
    · exact Or.inl ⟨a.trans hp, b, c⟩
    · exact Or.inr ⟨a, b, c, d⟩
  · intro hst hw hh hx
    have hfo := first_call_opening hst hw hh hx
    have hdir' : (init_solver powerOn hst).mouse_dir < 4 := Nat.zero_lt_succ 3
    obtain ⟨r, hr⟩ := explore_forward_total fuel _ hst _ hdir' hfo hf
    obtain ⟨-, hstate, -⟩ := explore_forward fuel _ hst r _ hdir' hfo hr
    obtain ⟨t, ht, hcmds⟩ := explore_forward_cmds fuel _ hst r _ hfo hr
    obtain ⟨e1, e2, -⟩ := sensed_frame (init_solver powerOn hst) hst
    rw [e1, e2] at hstate
    obtain ⟨t0, t1⟩ := turn_from_north fuel hf
    have hd0 : (init_solver powerOn hst).mouse_dir = 0 := rfl
    have hx0 : (init_solver powerOn hst).mouse_x = 0 := rfl
    have hy0 : (init_solver powerOn hst).mouse_y = 0 := rfl
    rw [hd0] at ht
    rw [hx0, hy0] at hstate
    refine ⟨r, (hfl powerOn hst rfl).trans hr, ?_, ?_, ?_⟩
    · rw [hcmds]
      cases hfw : hst.wallFront with
      | true =>
        rw [hfw] at ht
        simp only [if_true] at ht ⊢
        rw [t1] at ht
        simp only [Option.some.injEq] at ht
        rw [← ht]
        rfl
      | false =>
        rw [hfw] at ht
        simp only [Bool.false_eq_true, if_false] at ht ⊢
        rw [t0] at ht
        simp only [Option.some.injEq] at ht
        rw [← ht]
        rfl
    · rw [hstate]
      cases hst.wallFront <;> simp [dx]
    · rw [hstate]
      cases hst.wallFront <;> simp [dy]

/-- The statement of C14 for the first call after power-on in a `16 x 16` maze with a wall
in front and no wall to the right. -/
theorem explorer_takes_first_open_witness :
    ∃ r, floodFill 2 powerOn (host 16 16 true true false true) = some r ∧
      r.cmds = [Cmd.turnRight, Cmd.moveForward] ∧ r.state.mouse_x = 1 ∧ r.state.mouse_y = 0 :=
  (explorer_takes_first_open 2 (le_refl 2)).2.2 (host 16 16 true true false true) (by decide)
    (by decide) rfl

/-- Claim C15, counterexample. At the start of the first call the solver is in phase 0 and the
stack is empty (`stack_top = -1`, `init_solver()` has not yet pushed the origin): the stack has
no bottom and no top entry, so the frontier-stack invariant does not hold there. -/
theorem stack_empty_at_first_call :
    powerOn.phase = 0 ∧ powerOn.dfs_stack = [] ∧ ¬ StackInv powerOn :=
  ⟨rfl, rfl, fun h => Option.noConfusion (show (none : Option Position) = some _ from h.top)⟩

/-- Claim C15, amended. In every state the solver can be in after `init_solver()` has run (from
that point of the first call on, hence at the start of every later call), in a maze reported as
`w x h` with `1 <= w, h <= 16` and for arbitrary sensor readings: if the phase is 0 then the
stack is non-empty, its bottom entry is the origin, its top entry is the current position, its
entries are distinct in-bounds cells, and every two consecutive entries are grid neighbours
with no wall recorded on the side of the lower entry that faces the upper one. -/
theorem frontier_stack_invariant (w h : Int) (s : State) (hw1 : 1 ≤ w) (hw : w ≤ 16)
    (hh1 : 1 ≤ h) (hh : h ≤ 16) (hr : Reachable w h s) (hp : s.phase = 0) :
    s.dfs_stack ≠ [] ∧ StackInv s := by
  have hS := hr.stack_ready hw1 hw hh1 hh hp
  refine ⟨?_, hS.stack⟩
  intro hnil
  have := hS.stack.top
  rw [hnil] at this
  exact absurd this (by simp)

/-- The amended statement of C15 at the start of the fourth call of the run in the `2 x 2`
maze without inner walls: the stack holds the four cells of the maze. -/
theorem frontier_stack_invariant_witness :
    ∃ q, explorerRun 1026 (openMaze 2 2) 3 = some q ∧ q.1.phase = 0 ∧
      q.1.mouse_x = 1 ∧ q.1.mouse_y = 0 ∧
      q.1.dfs_stack = [⟨1, 0⟩, ⟨1, 1⟩, ⟨0, 1⟩, ⟨0, 0⟩] ∧
      q.1.dfs_stack ≠ [] ∧ StackInv q.1 := by
  have h : (explorerRun 1026 (openMaze 2 2) 3).map
      (fun q => (q.1.phase, q.1.mouse_x, q.1.mouse_y, q.1.dfs_stack)) =
      some (0, 1, 0, [⟨1, 0⟩, ⟨1, 1⟩, ⟨0, 1⟩, ⟨0, 0⟩]) := by
    decide!
  obtain ⟨q, hq, he⟩ := Option.map_eq_some'.mp h
  simp only [Prod.mk.injEq] at he
  obtain ⟨e1, e2, e3, e4⟩ := he
  obtain ⟨h1, h2⟩ := frontier_stack_invariant 2 2 q.1 (by decide) (by decide) (by decide)
    (by decide) (explorerRun_reachable 1026 (openMaze 2 2) 2 q hq) e1
  exact ⟨q, hq, e1, e2, e3, e4, h1, h2⟩

/-- Claim C16, the code at a failing input. In a maze of `6 x 2` cells `init_solver` sets the
goal cells to `(2, 2), (3, 2), (2, 3), (3, 3)`: it uses `width / 2` for both coordinates.  The
block `{width/2 - 1, width/2} x {height/2 - 1, height/2}` that `initMaze` of the flood-fill
solver computes is `(2, 0), (3, 0), (2, 1), (3, 1)`. -/
theorem init_solver_goal_block_6x2 :
    (List.range 4).map (init_solver powerOn (host 6 2 false false false true)).goal_cells =
        [⟨2, 2⟩, ⟨3, 2⟩, ⟨2, 3⟩, ⟨3, 3⟩] ∧
      (List.range 4).map (fun i =>
          (⟨(FloodFill.initMaze FloodFill.powerOn (host 6 2 false false false true)).goalX i,
            (FloodFill.initMaze FloodFill.powerOn (host 6 2 false false false true)).goalY i⟩ :
            Position)) =
        [⟨2, 0⟩, ⟨3, 0⟩, ⟨2, 1⟩, ⟨3, 1⟩] := by
  decide

/-- Claim C20. If `has_wall(x, y, dir)` already holds, `add_wall(x, y, dir)` leaves the wall
list (and so `wall_count`) unchanged; and `add_wall` applied twice gives the same wall list as
`add_wall` applied once. -/
theorem add_wall_idempotent (ws : List Wall) (x y : Int) (d : Nat) :
    (has_wall ws x y d = true → add_wall ws x y d = ws) ∧
      add_wall (add_wall ws x y d) x y d = add_wall ws x y d := by
  refine ⟨?_, add_wall_twice ws x y d⟩
  intro h
  rw [add_wall_eq, if_neg]
  rw [has_wall_iff] at h
  exact fun hc => hc.1 h

/-- The statement of C20 at a wall list that holds the wall already. -/
theorem add_wall_idempotent_witness :
    add_wall [⟨0, 1, 1⟩] 0 1 1 = [⟨0, 1, 1⟩] :=
  (add_wall_idempotent [⟨0, 1, 1⟩] 0 1 1).1 (by decide)

end Hybrid

namespace FloodFill

/-! ## Claims about the wall array of the flood-fill solver -/

/-- Claim C18. The wall array of the flood-fill solver is symmetric inside the grid after
`initMaze()` has run on an uninitialised solver (boundary walls included), and symmetry is
preserved by `addWall` for every position and every direction in `0 .. 3`, and by `scanWalls`
for every position, every heading in `0 .. 3` and every sensor reading. -/
theorem wall_symmetry_kept (s : State) (hst : Host) (px py : Int) (dir : Nat) :
    (s.mazeInitialized = false → SymmetricWalls (initMaze s hst)) ∧
    (dir < 4 → SymmetricWalls s → SymmetricWalls (addWall s px py dir)) ∧
    (s.direction < 4 → SymmetricWalls s → SymmetricWalls (scanWalls s hst)) :=
  ⟨initMaze_symmetric s hst, addWall_symmetric s px py dir, scanWalls_symmetric s hst⟩

/-- The statement of C18 for `initMaze` at power-on in a `16 x 16` maze and for a scan in the
empty `2 x 2` maze with walls sensed in front and to the left. -/
theorem wall_symmetry_kept_witness :
    SymmetricWalls (initMaze powerOn (Hybrid.host 16 16 false false false true)) ∧
      SymmetricWalls (scanWalls open2 (Hybrid.host 2 2 true true false true)) :=
  ⟨(wall_symmetry_kept powerOn (Hybrid.host 16 16 false false false true) 0 0 0).1 rfl,
    (wall_symmetry_kept open2 (Hybrid.host 2 2 true true false true) 0 0 0).2.2 (by decide)
      (fun _ _ _ _ _ => rfl)⟩

/-- Claim C19. For every cell, heading and sensor triple, after `scanWalls()` a wall entry is
set exactly when it was set before or it is the entry of the current cell in the direction of
a sensor that reports a wall (heading for front, `(heading + 3) % 4` for left,
`(heading + 1) % 4` for right) or the opposite-direction entry of the neighbour in that
direction, provided that neighbour is in bounds; nothing but the wall array changes. -/
theorem scanWalls_records (s : State) (hst : Host) :
    (∀ (c : Position) (d : Nat),
      (scanWalls s hst).walls c.y c.x d = true ↔
        s.walls c.y c.x d = true ∨
          ScanSets s.mazeWidth s.mazeHeight ⟨s.x, s.y⟩ s.direction hst.wallFront hst.wallLeft
            hst.wallRight c d) ∧
      scanWalls s hst = { s with walls := (scanWalls s hst).walls } :=
  ⟨scanWalls_walls s hst, scanWalls_frame s hst⟩

end FloodFill

end Micromouse

namespace Micromouse

namespace Hybrid

open Bfs

/-! ## Turning, the wall list and the end of exploration for arbitrary host answers -/

/-- The loop of `turn_to_direction` ends at the target heading with the commands determined by
the difference of target and heading modulo 4. -/
theorem turn_to_direction_exact (fuel dir tgt : Nat) (hd : dir < 4) (ht : tgt < 4)
    (hf : 2 ≤ fuel) :
    ∃ cmds, turn_to_direction fuel dir tgt [] = some (tgt, cmds) ∧
      (tgt = dir → cmds = []) ∧
      (((tgt : Int) - (dir : Int)) % 4 = 1 → cmds = [Cmd.turnRight]) ∧
      (((tgt : Int) - (dir : Int)) % 4 = 3 → cmds = [Cmd.turnLeft]) ∧
      (((tgt : Int) - (dir : Int)) % 4 = 2 → cmds = [Cmd.turnRight, Cmd.turnRight]) := by
  obtain ⟨n, rfl⟩ : ∃ n, fuel = n + 2 := ⟨fuel - 2, by omega⟩
  have key : turn_to_direction (n + 2) dir tgt [] =
      some (tgt,
        if tgt = dir then []
        else if (tgt + 4 - dir) % 4 = 1 then [Cmd.turnRight]
        else if (tgt + 4 - dir) % 4 = 3 then [Cmd.turnLeft]
        else [Cmd.turnRight, Cmd.turnRight]) := by
    interval_cases dir <;> interval_cases tgt <;> rfl
  refine ⟨_, key, ?_, ?_, ?_, ?_⟩
  · intro h
    rw [if_pos h]
  · intro h
    rw [if_neg (by omega), if_pos (by omega)]
  · intro h
    rw [if_neg (by omega), if_neg (by omega), if_pos (by omega)]
  · intro h
    rw [if_neg (by omega), if_neg (by omega), if_neg (by omega)]

/-! ### The wall list stays inside the grid -/

theorem walls_length_le (w h : Int) (ws : List Wall) (hW : WallsInGrid w h ws) :
    ws.length ≤ 4 * (w.toNat * h.toNat) := by
  have hsub : ws.toFinset ⊆
      ((gridCells w h) ×ˢ (Finset.range 4)).image (fun p => (⟨p.1.x, p.1.y, p.2⟩ : Wall)) := by
    intro wl hwl
    rw [List.mem_toFinset] at hwl
    obtain ⟨h1, h2⟩ := hW.2 wl hwl
    rw [Finset.mem_image]
    refine ⟨(⟨wl.x, wl.y⟩, wl.dir), ?_, rfl⟩
    rw [Finset.mem_product, Finset.mem_range]
    exact ⟨mem_gridCells _ _ _ h2, h1⟩
  have h1 := Finset.card_le_card hsub
  rw [List.toFinset_card_of_nodup hW.1] at h1
  have h2 := Finset.card_image_le (s := (gridCells w h) ×ˢ (Finset.range 4))
    (f := fun p => (⟨p.1.x, p.1.y, p.2⟩ : Wall))
  rw [Finset.card_product, Finset.card_range] at h2
  have h3 := card_gridCells w h
  have h4 : (gridCells w h).card * 4 ≤ w.toNat * h.toNat * 4 := Nat.mul_le_mul_right 4 h3
  omega

theorem grid_walls_le (w h : Int) (hw : w ≤ 16) (hh : h ≤ 16) :
    4 * (w.toNat * h.toNat) ≤ MAX_WALLS := by
  have h1 : w.toNat ≤ 16 := by omega
  have h2 : h.toNat ≤ 16 := by omega
  have h3 : w.toNat * h.toNat ≤ 16 * 16 := Nat.mul_le_mul h1 h2
  show _ ≤ 1024
  omega

/-- In a wall list inside a grid of at most 16 x 16 cells the capacity guard of `add_wall`
never discards a wall of an in-bounds cell. -/
theorem WallsInGrid.records {w h : Int} (hw : w ≤ 16) (hh : h ≤ 16) {ws : List Wall}
    (hW : WallsInGrid w h ws) (x y : Int) (d : Nat) (hd : d < 4) (hin : inb w h ⟨x, y⟩) :
    has_wall (add_wall ws x y d) x y d = true := by
  rw [has_wall_iff]
  refine mem_add_wall_self ws x y d ?_
  by_cases hm : (⟨x, y, d⟩ : Wall) ∈ ws
  · exact Or.inl hm
  · refine Or.inr ?_
    have hW2 : WallsInGrid w h (ws ++ [(⟨x, y, d⟩ : Wall)]) := by
      constructor
      · rw [List.nodup_append]
        refine ⟨hW.1, List.nodup_singleton _, ?_⟩
        intro a ha hb
        rw [List.mem_singleton] at hb
        rw [hb] at ha
        exact hm ha
      · intro wl hwl
        rcases List.mem_append.mp hwl with h1 | h1
        · exact hW.2 wl h1
        · rw [List.mem_singleton] at h1
          rw [h1]
          exact ⟨hd, hin⟩
    have h1 := walls_length_le w h _ hW2
    have h2 := grid_walls_le w h hw hh
    rw [List.length_append, List.length_singleton] at h1
    omega

theorem WallsInGrid.sense {w h : Int} {s : State} (hW : WallsInGrid w h s.walls) (hst : Host)
    (hd : s.mouse_dir < 4) (hin : inb w h ⟨s.mouse_x, s.mouse_y⟩) :
    WallsInGrid w h (sense_walls s hst).walls := by
  refine ⟨sense_walls_nodup s hst hW.1, ?_⟩
  intro wl hwl
  rcases mem_sense_walls s hst wl hwl with h1 | ⟨hx, hy, h1⟩
  · exact hW.2 wl h1
  · have hc : (⟨wl.x, wl.y⟩ : Position) = ⟨s.mouse_x, s.mouse_y⟩ := by rw [hx, hy]
    rw [hc]
    refine ⟨?_, hin⟩
    rcases h1 with ⟨-, h2⟩ | ⟨-, h2⟩ | ⟨-, h2⟩ | ⟨-, h2⟩ <;> rw [h2]
    · exact hd
    · exact Nat.mod_lt _ (by decide)
    · exact Nat.mod_lt _ (by decide)
    · exact Nat.mod_lt _ (by decide)

/-- The wall list after a call: sensed in phase 0, unchanged in every other phase. -/
theorem floodFill_walls (fuel : Nat) (s : State) (hst : Host) (r : Result)
    (hi : s.initialized = true) (h : floodFill fuel s hst = some r) :
    (s.phase = 0 ∧ r.state.walls = (sense_walls s hst).walls) ∨ r.state.walls = s.walls := by
  unfold floodFill at h
  rw [init_solver_idem s hi hst] at h
  dsimp only at h
  split_ifs at h with h0 h1 h2
  · exact Or.inl ⟨h0, (explore_frame fuel s hst r h).2.2.2.2.1⟩
  · exact Or.inr (return_to_start_frame fuel s r h).2.2.2.2.1
  · exact Or.inr (run_optimal_frame fuel s r h).2.2.2.2.1
  · simp only [Option.some.injEq] at h
    subst h
    exact Or.inr rfl

theorem StackReady.mouse_in {w h : Int} {s : State} (hS : StackReady w h s) :
    inb w h ⟨s.mouse_x, s.mouse_y⟩ := by
  have htop := hS.stack.top
  have hin := hS.stack.inside
  rw [hS.width, hS.height] at hin
  cases hl : s.dfs_stack with
  | nil => rw [hl] at htop; exact absurd htop (by simp)
  | cons a l =>
    rw [hl] at htop
    simp only [List.head?_cons, Option.some.injEq] at htop
    rw [← htop]
    exact hin a (by rw [hl]; exact List.mem_cons_self _ _)

/-- Every state the solver can reach has a duplicate-free wall list whose entries name sides
of in-bounds cells. -/
theorem Reachable.walls_in_grid {w h : Int} (hw1 : 1 ≤ w) (hw : w ≤ 16) (hh1 : 1 ≤ h)
    (hh : h ≤ 16) {s : State} (hr : Reachable w h s) : WallsInGrid w h s.walls := by
  induction hr with
  | first hst hw' hh' =>
    have : (init_solver powerOn hst).walls = [] := rfl
    rw [this]
    exact ⟨List.nodup_nil, fun wl hwl => absurd hwl (List.not_mem_nil _)⟩
  | call fuel s hst r hprev hc ih =>
    rcases floodFill_walls fuel s hst r hprev.initialized.1 hc with ⟨hp, he⟩ | he
    · rw [he]
      have hS := hprev.stack_ready hw1 hw hh1 hh hp
      exact ih.sense hst hS.dir_lt hS.mouse_in
    · rw [he]
      exact ih

theorem Reachable.goals_nodup {w h : Int} {s : State} (hr : Reachable w h s) :
    [s.goal_cells 0, s.goal_cells 1, s.goal_cells 2, s.goal_cells 3].Nodup := by
  induction hr with
  | first hst hw' hh' => exact init_goals_nodup powerOn hst rfl
  | call fuel s hst r hprev hc ih =>
    have := (floodFill_frame fuel s hst r hc).2.2.2.1
    rw [init_solver_idem s hprev.initialized.1 hst] at this
    rw [this]
    exact ih

theorem Reachable.well_formed {w h : Int} (hw1 : 1 ≤ w) (hw : w ≤ 16) (hh1 : 1 ≤ h)
    (hh : h ≤ 16) {s : State} (hr : Reachable w h s) (hp : s.phase = 0) : WellFormed s := by
  have hS := hr.stack_ready hw1 hw hh1 hh hp
  refine ⟨hS.dir_lt, by rw [hS.width]; exact hw, by rw [hS.height]; exact hh, ?_, hr.goals_nodup⟩
  rw [hS.width, hS.height]
  exact hS.mouse_in

/-! ### The end of exploration -/

/-- A phase-0 call in a state with the stack invariant either stays in phase 0, or ends the
exploration with the mouse on the origin: there the planner succeeds with an empty path and
the phase becomes 1. -/
theorem explore_end_origin {w h : Int} (hw : w ≤ 16) (hh : h ≤ 16) {s : State}
    (hS : StackReady w h s) (hp : s.phase = 0) (fuel : Nat) (hf : 1026 ≤ fuel) (hst : Host)
    (r : Result) (hr : floodFill fuel s hst = some r) :
    r.state.phase = 0 ∨
      (firstOpenDir (sensed s hst) = none ∧ s.dfs_stack.length = 1 ∧
        s.mouse_x = 0 ∧ s.mouse_y = 0 ∧
        (∃ sd sp, calculate_distances fuel (sensed s hst) = some sd ∧
          find_path_to_start fuel sd = some (true, sp) ∧ sp.path_length = 0 ∧
          sp.path_index = 0 ∧ r.state = { sp with phase := 1 }) ∧
        r.state.phase = 1 ∧ r.state.path_length = 0 ∧ r.state.path_index = 0 ∧
        r.state.mouse_dir = s.mouse_dir ∧ r.state.initialized = true ∧ r.cmds = []) := by
  have hfl : floodFill fuel s hst = explore fuel s hst := by
    unfold floodFill
    rw [init_solver_idem s hS.init hst]
    dsimp only
    rw [if_pos hp]
  rw [hfl] at hr
  obtain ⟨e, he⟩ := sensed_eq s hst
  obtain ⟨f1, f2, f3, -⟩ := sensed_fields s hst
  have hin := hS.mouse_in
  cases hfo : firstOpenDir (sensed s hst) with
  | some d =>
    obtain ⟨-, hstate, -⟩ := explore_forward fuel s hst r d hS.dir_lt hfo hr
    refine Or.inl ?_
    rw [hstate]
    exact f2.trans hp
  | none =>
    have htop := hS.stack.top
    cases hstk : s.dfs_stack with
    | nil => rw [hstk] at htop; exact absurd htop (by simp)
    | cons top rest =>
      rw [hstk] at htop
      simp only [List.head?_cons, Option.some.injEq] at htop
      cases rest with
      | cons prev rest2 =>
        have hl := hS.stack.linked
        rw [hstk] at hl
        obtain ⟨⟨d, hd, hn, -⟩, -⟩ := hl
        rw [htop] at hn
        obtain ⟨d1, -, -, -, hstate, -⟩ :=
          explore_backtrack fuel s hst r top prev rest2 hS.dir_lt hfo hstk ⟨d, hd, hn⟩ hr
        refine Or.inl ?_
        rw [hstate]
        exact f2.trans hp
      | nil =>
        refine Or.inr ?_
        obtain ⟨sd, b, p, l, i, hcd, hfp, hres⟩ :=
          explore_finish fuel s hst r hfo (by rw [hstk]; simp) hr
        have hsd := calculate_distances_frame fuel _ sd hcd
        have htopo : top = origin := by
          have := hS.stack.bottom
          rw [hstk] at this
          simpa using this
        have hmx0 : s.mouse_x = 0 ∧ s.mouse_y = 0 := by
          have := htop.symm.trans htopo
          unfold origin at this
          rw [Position.mk.injEq] at this
          exact this
        have hsdm : sd.mouse_x = 0 ∧ sd.mouse_y = 0 ∧ sd.maze_width = w ∧
            sd.maze_height = h ∧ sd.mouse_dir = s.mouse_dir ∧ sd.initialized = true := by
          rw [hsd, he]
          exact ⟨hmx0.1, hmx0.2, hS.width, hS.height, rfl, hS.init⟩
        have hplan := find_path_to_start_spec fuel sd
          (by
            rw [hsdm.1, hsdm.2.1, hsdm.2.2.1, hsdm.2.2.2.1]
            have := hin
            rw [hmx0.1, hmx0.2] at this
            exact this)
          (by rw [hsdm.2.2.1]; exact hw) (by rw [hsdm.2.2.2.1]; exact hh) hf
        have hseed : Reach (planGraph sd.walls sd.maze_width sd.maze_height
            ⟨sd.mouse_x, sd.mouse_y⟩) 0 origin := by
          refine Reach.seed _ ?_
          show origin = ⟨sd.mouse_x, sd.mouse_y⟩
          rw [hsdm.1, hsdm.2.1]
          rfl
        have hb : b = true ∧ l = 0 ∧ i = 0 := by
          rcases hplan with ⟨path, hp1, hp2⟩ | ⟨hp1, hp2⟩
          · rw [hp1] at hfp
            simp only [Option.some.injEq, Prod.mk.injEq] at hfp
            have hl := hp2.2.2 0 hseed
            have e1 := congrArg State.path_length hfp.2
            have e2 := congrArg State.path_index hfp.2
            dsimp only at e1 e2
            exact ⟨hfp.1.symm, by omega, e2.symm⟩
          · exact absurd hseed (hp2 0)
        obtain ⟨rfl, rfl, rfl⟩ := hb
        rw [hres]
        refine ⟨rfl, rfl, hmx0.1, hmx0.2,
          ⟨sd, _, hcd, hfp, rfl, rfl, rfl⟩, rfl, rfl, rfl, hsdm.2.2.2.2.1, hsdm.2.2.2.2.2, rfl⟩

/-- A phase-1 call with an exhausted path issues turns only and switches to phase 2 at the
origin. -/
theorem return_to_start_arrived (fuel : Nat) (hf : 2 ≤ fuel) (s : State) (hst : Host)
    (hi : s.initialized = true) (hp : s.phase = 1) (hd : s.mouse_dir < 4)
    (hpath : s.path_length ≤ s.path_index) :
    ∃ r, floodFill fuel s hst = some r ∧ r.state.phase = 2 ∧ r.state.mouse_x = 0 ∧
      r.state.mouse_y = 0 ∧ r.state.mouse_dir = 0 ∧ r.cmds ∈ turnSequences ∧
      r.cmds.count Cmd.moveForward = 0 := by
  obtain ⟨t, ht⟩ := turn_to_direction_total fuel s.mouse_dir 0 hd (by decide) hf
  obtain ⟨t1, t2⟩ := turn_to_direction_spec fuel s.mouse_dir 0 hd (by decide) t ht
  refine ⟨{ action := Action.IDLE
            state := { s with phase := 2, mouse_x := 0, mouse_y := 0, mouse_dir := t.1,
                              optimal_run_started := true }
            cmds := t.2 }, ?_, rfl, rfl, rfl, t1, t2, turnSequences_no_move _ t2⟩
  unfold floodFill
  rw [init_solver_idem s hi hst]
  dsimp only
  rw [if_neg (by omega), if_pos hp]
  unfold return_to_start
  rw [if_neg (by omega), ht]
  rfl

/-! ### Sensing in the exploration run -/

/-- The phase of the run never returns to 0, so a run state in phase 0 satisfies the
exploration invariant. -/
theorem exploreAt_of_phase (fuel : Nat) (M : Maze) (hM : M.Valid) (hf : 1026 ≤ fuel) :
    ∀ k q, explorerRun fuel M k = some q → q.1.phase = 0 → ExploreAt fuel M k := by
  classical
  have hR : ∃ R : Finset Position, ∀ c, c ∈ R ↔ M.Reaches c := by
    refine ⟨(gridCells M.width M.height).filter (fun c => M.Reaches c), ?_⟩
    intro c
    rw [Finset.mem_filter]
    constructor
    · exact fun hc => hc.2
    · intro hc
      refine ⟨?_, hc⟩
      obtain ⟨n, hn⟩ := hc
      rcases hn.rel with hrel | hrel
      · exact mem_gridCells _ _ c hrel
      · have hco : c = origin := hrel
        rw [hco]
        refine mem_gridCells _ _ _ ?_
        have := hM.width_ge
        have := hM.height_ge
        unfold inb origin
        dsimp only
        omega
  obtain ⟨R, hR⟩ := hR
  intro k
  induction k with
  | zero => exact fun _ _ _ => ExploreAt.zero fuel M hM
  | succ k ih =>
    intro q hq hp
    rw [explorerRun] at hq
    cases hk : explorerRun fuel M k with
    | none => rw [hk] at hq; exact absurd hq (by simp)
    | some q0 =>
      obtain ⟨s, log⟩ := q0
      rw [hk] at hq
      dsimp only at hq
      cases hc : floodFill fuel s (M.host s) with
      | none => rw [hc] at hq; exact absurd hq (by simp)
      | some r =>
        rw [hc] at hq
        simp only [Option.some.injEq] at hq
        have hp0 : s.phase = 0 := by
          by_contra hne
          have := (floodFill_frame fuel s (M.host s) r hc).2.2.2.2.2
          rw [init_solver_phase] at this
          apply this hne
          rw [← hq] at hp
          exact hp
        rcases (ih (s, log) hk hp0).next hM R hR hf with h1 | h1
        · exact h1
        · obtain ⟨s', log', hrun', hD⟩ := h1
          exfalso
          rw [explorerRun, hk] at hrun'
          dsimp only at hrun'
          rw [hc] at hrun'
          simp only [Option.some.injEq, Prod.mk.injEq] at hrun'
          have h1 := hD.phase1
          rw [← hrun'.1] at h1
          rw [← hq] at hp
          dsimp only at hp
          omega

/-- After `sense_walls()` in a phase-0 call of the run, the recorded walls of the current cell
are exactly its true walls. -/
theorem sensed_current_exact (fuel : Nat) (M : Maze) (hM : M.Valid) (k : Nat)
    (h : ExploreAt fuel M k) :
    ∃ s log, explorerRun fuel M k = some (s, log) ∧ s.phase = 0 ∧
      inb M.width M.height ⟨s.mouse_x, s.mouse_y⟩ ∧
      ∀ d, d < 4 →
        has_wall (sensed (init_solver s (M.host s)) (M.host s)).walls s.mouse_x s.mouse_y d =
          M.wall s.mouse_x s.mouse_y d := by
  obtain ⟨s, log, E, hrun, hI⟩ := h
  have hp := hI.phase0
  rw [init_solver_phase] at hp
  obtain ⟨mx, my⟩ := init_solver_mouse s (M.host s)
  have hin := hI.ready.mouse_in
  rw [mx, my] at hin
  refine ⟨s, log, hrun, hp, hin, ?_⟩
  intro d hd
  have hsw := sense_walls_truthful M hM (init_solver s (M.host s)) hI.ready.width
    hI.ready.height hI.ready.dir_lt hI.ready.mouse_in hI.walls_ok hI.back_open
  rw [host_init, mx, my] at hsw
  obtain ⟨hok, hcomp⟩ := hsw
  rw [(sensed_fields (init_solver s (M.host s)) (M.host s)).2.2.2.1]
  cases hm : M.wall s.mouse_x s.mouse_y d with
  | true => exact hcomp d hd hm
  | false =>
    cases hc : has_wall (sense_walls (init_solver s (M.host s)) (M.host s)).walls
        s.mouse_x s.mouse_y d with
    | false => rfl
    | true =>
      rw [has_wall_iff] at hc
      have := (hok.2 _ hc).2.2
      dsimp only at this
      rw [hm] at this
      exact absurd this (by decide)

end Hybrid

end Micromouse

namespace Micromouse

namespace Bfs

/-! ## Local consistency of a flooded field -/

/-- With an empty queue and symmetric walls the field is locally consistent at every in-bounds
cell that is not a seed: no open neighbour with a finite distance is more than one step
nearer, and a cell with a finite distance has an open neighbour exactly one step nearer. -/
theorem Inv.neighbours {G : Graph} {cells : Finset Position} {st : GState}
    (hI : Inv G cells st) (hend : st.queue.length ≤ st.head) (hS : G.Symm)
    (hin : ∀ c, G.seeds c → inb G.w G.h c) (c : Position) (hc : inb G.w G.h c)
    (hns : ¬ G.seeds c) :
    (∀ d, G.Open c d → st.at (nbr c d) < INF → st.at c ≤ st.at (nbr c d) + 1) ∧
      (st.at c < INF → ∃ d, G.Open c d ∧ st.at (nbr c d) + 1 = st.at c) := by
  have hpend : st.pending = [] := by
    unfold GState.pending
    exact List.drop_eq_nil_of_le hend
  have part1 : ∀ d, G.Open c d → st.at (nbr c d) < INF → st.at c ≤ st.at (nbr c d) + 1 := by
    intro d ho hfin
    have hback := hS.back c d ho.1 hc ho.2.1 ho.2.2
    rcases hI.edges (nbr c d) ((d + 2) % 4) (Or.inl ho.2.2) hback hfin with h1 | h1
    · rwa [nbr_back c d ho.1] at h1
    · rw [hpend] at h1
      exact absurd h1 (List.not_mem_nil _)
  refine ⟨part1, ?_⟩
  intro hfin
  have hr := hI.sound c (Or.inl hc) hfin
  generalize hn : st.at c = n at hr
  cases hr with
  | seed _ hs => exact absurd hs hns
  | step m u d hr ho =>
    have hu : inb G.w G.h u := by
      rcases hr.rel with h | h
      · exact h
      · exact hin u h
    have hum := hI.complete hend m u hr
    have hback := hS.back u d ho.1 hu ho.2.1 ho.2.2
    have hnb : nbr (nbr u d) ((d + 2) % 4) = u := nbr_back u d ho.1
    refine ⟨(d + 2) % 4, hback, ?_⟩
    rw [hnb]
    have h1 := part1 ((d + 2) % 4) hback (by rw [hnb]; exact hum.2)
    rw [hnb, hn] at h1
    omega

end Bfs

namespace FloodFill

open Bfs

/-! ## The stepping operation of the flood-fill solver -/

/-- The function `floodFillDistances` terminates on every maze of size 2 .. 16 in each
dimension, for every wall map, without writing past the end of its queue, and ends with an
empty queue in a state that satisfies the flooding invariant. -/
theorem floodFillDistances_inv (fuel : Nat) (s : State) (hg : CentreGoals s)
    (hw : 2 ≤ s.mazeWidth) (hw16 : s.mazeWidth ≤ 16) (hh : 2 ≤ s.mazeHeight)
    (hh16 : s.mazeHeight ≤ 16) (hf : 257 ≤ fuel) :
    ∃ st' : BfsState, floodFillDistances fuel s =
        some { s with distance := st'.distance, queue := st'.queue, queueHead := st'.queueHead } ∧
      Inv (floodGraph s) (gridCells s.mazeWidth s.mazeHeight) st'.toG ∧
      st'.queue.length ≤ st'.queueHead := by
  have hcard := card_grid_le s.mazeWidth s.mazeHeight hw16 hh16
  obtain ⟨st', hrun, hI, hend⟩ := bfsLoop_spec s (gridCells s.mazeWidth s.mazeHeight)
    (le_trans hcard (by decide)) fuel _
    (seeded_inv s hg hw hw16 hh hh16 _ (seed_all s)) (by
      show _ ≤ fuel + 0
      omega)
  refine ⟨st', ?_, hI, hend⟩
  unfold floodFillDistances
  rw [seed_all]
  dsimp only
  rw [hrun]
  rfl

theorem isGoal_iff (s : State) (c : Position) :
    isGoal s c.x c.y = true ↔ (floodGraph s).seeds c := by
  unfold isGoal
  rw [List.any_eq_true]
  constructor
  · rintro ⟨i, hi, h⟩
    simp only [Bool.and_eq_true, beq_iff_eq] at h
    refine ⟨i, List.mem_range.mp hi, ?_⟩
    obtain ⟨x, y⟩ := c
    dsimp only at h
    rw [h.1, h.2]
  · rintro ⟨i, hi, h⟩
    refine ⟨i, List.mem_range.mpr hi, ?_⟩
    rw [← h]
    simp

/-- The side test of the direction loops of `floodFill` and `getBestDirection`. -/
theorem openSide_iff (s : State) (d : Nat) (hd : d < 4) :
    OpenSide s d ↔ (s.walls s.y s.x d = false ∧
      ¬ (s.x + dx d < 0 ∨ s.x + dx d ≥ s.mazeWidth ∨ s.y + dy d < 0 ∨
        s.y + dy d ≥ s.mazeHeight)) := by
  unfold OpenSide inb nbr
  dsimp only
  constructor
  · rintro ⟨-, h1, h2⟩
    exact ⟨h1, by omega⟩
  · rintro ⟨h1, h2⟩
    exact ⟨hd, h1, by omega⟩

/-- Invariant of the consistency loop after the directions `< j`. -/
theorem minStep_inv (s : State) (j m : Nat) (hj : j < 4) (h1 : m ≤ INF)
    (h2 : ∀ d, d < j → OpenSide s d → m ≤ sideDist s d)
    (h3 : m = INF ∨ ∃ d, d < j ∧ OpenSide s d ∧ sideDist s d = m) :
    minStep s m j ≤ INF ∧
      (∀ d, d < j + 1 → OpenSide s d → minStep s m j ≤ sideDist s d) ∧
      (minStep s m j = INF ∨ ∃ d, d < j + 1 ∧ OpenSide s d ∧ sideDist s d = minStep s m j) := by
  have hopen := openSide_iff s j hj
  have hkeep : ¬ OpenSide s j →
      m ≤ INF ∧ (∀ d, d < j + 1 → OpenSide s d → m ≤ sideDist s d) ∧
        (m = INF ∨ ∃ d, d < j + 1 ∧ OpenSide s d ∧ sideDist s d = m) := by
    intro hno
    refine ⟨h1, ?_, ?_⟩
    · intro d hd ho
      by_cases hdj : d = j
      · rw [hdj] at ho
        exact absurd ho hno
      · exact h2 d (by omega) ho
    · rcases h3 with h | ⟨d, hd, ho, he⟩
      · exact Or.inl h
      · exact Or.inr ⟨d, by omega, ho, he⟩
  unfold minStep
  by_cases hwall : s.walls s.y s.x j = true
  · rw [if_pos hwall]
    exact hkeep (fun ho => by rw [ho.2.1] at hwall; exact absurd hwall (by decide))
  · rw [if_neg hwall]
    dsimp only
    by_cases hb : s.x + dx j ≥ 0 ∧ s.x + dx j < s.mazeWidth ∧ s.y + dy j ≥ 0 ∧
        s.y + dy j < s.mazeHeight
    · rw [if_pos hb]
      have ho : OpenSide s j := hopen.mpr ⟨by simpa using hwall, by omega⟩
      by_cases hlt : s.distance (s.y + dy j) (s.x + dx j) < m
      · rw [if_pos hlt]
        refine ⟨by omega, ?_, Or.inr ⟨j, by omega, ho, rfl⟩⟩
        intro d hd hod
        by_cases hdj : d = j
        · rw [hdj]
          exact le_refl _
        · have := h2 d (by omega) hod
          omega
      · rw [if_neg hlt]
        refine ⟨h1, ?_, ?_⟩
        · intro d hd hod
          by_cases hdj : d = j
          · rw [hdj]
            show m ≤ s.distance (s.y + dy j) (s.x + dx j)
            omega
          · exact h2 d (by omega) hod
        · rcases h3 with h | ⟨d, hd, hod, he⟩
          · exact Or.inl h
          · exact Or.inr ⟨d, by omega, hod, he⟩
    · rw [if_neg hb]
      exact hkeep (fun ho => hb (by have := (hopen.mp ho).2; omega))

/-- The value `minNeighborDist` of the consistency check: the least distance among the open
in-bounds neighbours, capped at `INF`. -/
theorem minStep_fold (s : State) :
    (List.range 4).foldl (minStep s) INF ≤ INF ∧
      (∀ d, OpenSide s d → (List.range 4).foldl (minStep s) INF ≤ sideDist s d) ∧
      ((List.range 4).foldl (minStep s) INF = INF ∨
        ∃ d, OpenSide s d ∧ sideDist s d = (List.range 4).foldl (minStep s) INF) := by
  rw [range_four]
  simp only [List.foldl]
  obtain ⟨a1, a2, a3⟩ := minStep_inv s 0 INF (by decide) (le_refl _)
    (fun d hd => absurd hd (by omega)) (Or.inl rfl)
  obtain ⟨b1, b2, b3⟩ := minStep_inv s 1 _ (by decide) a1 a2 a3
  obtain ⟨c1, c2, c3⟩ := minStep_inv s 2 _ (by decide) b1 b2 b3
  obtain ⟨d1, d2, d3⟩ := minStep_inv s 3 _ (by decide) c1 c2 c3
  refine ⟨d1, fun d ho => d2 d ho.1 ho, ?_⟩
  rcases d3 with h | ⟨d, -, ho, he⟩
  · exact Or.inl h
  · exact Or.inr ⟨d, ho, he⟩

/-- Invariant of the loop of `getBestDirection` after the directions `< j`. -/
theorem bestStep_inv (s : State) (j : Nat) (acc : Nat × Option Nat) (hj : j < 4)
    (h1 : acc.1 ≤ INF) (h2 : ∀ d, d < j → OpenSide s d → acc.1 ≤ sideDist s d)
    (h3 : ∀ e, acc.2 = some e → e < j ∧ OpenSide s e ∧ sideDist s e = acc.1 ∧ acc.1 < INF ∧
      ∀ d, d < e → OpenSide s d → acc.1 < sideDist s d) :
    (bestStep s acc j).1 ≤ INF ∧
      (∀ d, d < j + 1 → OpenSide s d → (bestStep s acc j).1 ≤ sideDist s d) ∧
      (∀ e, (bestStep s acc j).2 = some e →
        e < j + 1 ∧ OpenSide s e ∧ sideDist s e = (bestStep s acc j).1 ∧
          (bestStep s acc j).1 < INF ∧
          ∀ d, d < e → OpenSide s d → (bestStep s acc j).1 < sideDist s d) := by
  have hopen := openSide_iff s j hj
  have hkeep : ¬ OpenSide s j →
      acc.1 ≤ INF ∧ (∀ d, d < j + 1 → OpenSide s d → acc.1 ≤ sideDist s d) ∧
        (∀ e, acc.2 = some e →
          e < j + 1 ∧ OpenSide s e ∧ sideDist s e = acc.1 ∧ acc.1 < INF ∧
            ∀ d, d < e → OpenSide s d → acc.1 < sideDist s d) := by
    intro hno
    refine ⟨h1, ?_, ?_⟩
    · intro d hd ho
      by_cases hdj : d = j
      · rw [hdj] at ho
        exact absurd ho hno
      · exact h2 d (by omega) ho
    · intro e he
      obtain ⟨q1, q2, q3, q4, q5⟩ := h3 e he
      exact ⟨by omega, q2, q3, q4, q5⟩
  unfold bestStep
  by_cases hwall : s.walls s.y s.x j = true
  · rw [if_pos hwall]
    exact hkeep (fun ho => by rw [ho.2.1] at hwall; exact absurd hwall (by decide))
  · rw [if_neg hwall]
    dsimp only
    by_cases hb : s.x + dx j < 0 ∨ s.x + dx j ≥ s.mazeWidth ∨ s.y + dy j < 0 ∨
        s.y + dy j ≥ s.mazeHeight
    · rw [if_pos hb]
      exact hkeep (fun ho => (hopen.mp ho).2 hb)
    · rw [if_neg hb]
      have ho : OpenSide s j := hopen.mpr ⟨by simpa using hwall, hb⟩
      by_cases hlt : s.distance (s.y + dy j) (s.x + dx j) < acc.1
      · rw [if_pos hlt]
        dsimp only
        refine ⟨by omega, ?_, ?_⟩
        · intro d hd hod
          by_cases hdj : d = j
          · rw [hdj]
            exact le_refl _
          · have := h2 d (by omega) hod
            omega
        · intro e he
          simp only [Option.some.injEq] at he
          subst he
          refine ⟨by omega, ho, rfl, by omega, ?_⟩
          intro d hd hod
          have := h2 d hd hod
          omega
      · rw [if_neg hlt]
        refine ⟨h1, ?_, ?_⟩
        · intro d hd hod
          by_cases hdj : d = j
          · rw [hdj]
            show acc.1 ≤ s.distance (s.y + dy j) (s.x + dx j)
            omega
          · exact h2 d (by omega) hod
        · intro e he
          obtain ⟨q1, q2, q3, q4, q5⟩ := h3 e he
          exact ⟨by omega, q2, q3, q4, q5⟩

/-- The direction `getBestDirection` returns is the first open side whose neighbour has the
least distance among the open in-bounds neighbours, and that distance is finite. -/
theorem getBestDirection_some (s : State) (e : Nat) (h : getBestDirection s = some e) :
    OpenSide s e ∧ sideDist s e < INF ∧ (∀ d, OpenSide s d → sideDist s e ≤ sideDist s d) ∧
      ∀ d, d < e → OpenSide s d → sideDist s e < sideDist s d := by
  unfold getBestDirection at h
  rw [range_four] at h
  simp only [List.foldl] at h
  obtain ⟨a1, a2, a3⟩ := bestStep_inv s 0 (INF, none) (by decide) (le_refl _)
    (fun d hd => absurd hd (by omega)) (fun e he => absurd he (by simp))
  obtain ⟨b1, b2, b3⟩ := bestStep_inv s 1 _ (by decide) a1 a2 a3
  obtain ⟨c1, c2, c3⟩ := bestStep_inv s 2 _ (by decide) b1 b2 b3
  obtain ⟨d1, d2, d3⟩ := bestStep_inv s 3 _ (by decide) c1 c2 c3
  obtain ⟨q1, q2, q3, q4, q5⟩ := d3 e h
  refine ⟨q2, by rw [q3]; exact q4, ?_, ?_⟩
  · intro d ho
    rw [q3]
    exact d2 d ho.1 ho
  · intro d hd ho
    rw [q3]
    exact q5 d hd ho

/-- Invariant of the loop of `getBestDirection` while no direction has been chosen. -/
theorem bestStep_none (s : State) (j : Nat) (acc : Nat × Option Nat) (hj : j < 4)
    (h1 : acc.2 = none → acc.1 = INF)
    (h2 : acc.2 = none → ∀ d, d < j → OpenSide s d → INF ≤ sideDist s d) :
    ((bestStep s acc j).2 = none → (bestStep s acc j).1 = INF) ∧
      ((bestStep s acc j).2 = none → ∀ d, d < j + 1 → OpenSide s d → INF ≤ sideDist s d) := by
  have hopen := openSide_iff s j hj
  have hkeep : ¬ OpenSide s j →
      (acc.2 = none → acc.1 = INF) ∧
        (acc.2 = none → ∀ d, d < j + 1 → OpenSide s d → INF ≤ sideDist s d) := by
    intro hno
    refine ⟨h1, ?_⟩
    intro hn d hd ho
    by_cases hdj : d = j
    · rw [hdj] at ho
      exact absurd ho hno
    · exact h2 hn d (by omega) ho
  unfold bestStep
  by_cases hwall : s.walls s.y s.x j = true
  · rw [if_pos hwall]
    exact hkeep (fun ho => by rw [ho.2.1] at hwall; exact absurd hwall (by decide))
  · rw [if_neg hwall]
    dsimp only
    by_cases hb : s.x + dx j < 0 ∨ s.x + dx j ≥ s.mazeWidth ∨ s.y + dy j < 0 ∨
        s.y + dy j ≥ s.mazeHeight
    · rw [if_pos hb]
      exact hkeep (fun ho => (hopen.mp ho).2 hb)
    · rw [if_neg hb]
      by_cases hlt : s.distance (s.y + dy j) (s.x + dx j) < acc.1
      · rw [if_pos hlt]
        exact ⟨fun h => Option.noConfusion h, fun h => Option.noConfusion h⟩
      · rw [if_neg hlt]
        refine ⟨h1, ?_⟩
        intro hn d hd ho
        by_cases hdj : d = j
        · rw [hdj]
          have := h1 hn
          show INF ≤ s.distance (s.y + dy j) (s.x + dx j)
          omega
        · exact h2 hn d (by omega) ho

/-- The function `getBestDirection` returns -1 only when no open in-bounds neighbour has a
distance below `INF`. -/
theorem getBestDirection_none (s : State) (h : getBestDirection s = none) :
    ∀ d, OpenSide s d → INF ≤ sideDist s d := by
  unfold getBestDirection at h
  rw [range_four] at h
  simp only [List.foldl] at h
  obtain ⟨a1, a2⟩ := bestStep_none s 0 (INF, none) (by decide) (fun _ => rfl)
    (fun _ d hd => absurd hd (by omega))
  obtain ⟨b1, b2⟩ := bestStep_none s 1 _ (by decide) a1 a2
  obtain ⟨c1, c2⟩ := bestStep_none s 2 _ (by decide) b1 b2
  obtain ⟨-, d2⟩ := bestStep_none s 3 _ (by decide) c1 c2
  exact fun d ho => d2 h d ho.1 ho

theorem turnTo_eq : ∀ (fuel dir tgt : Nat) (cmds : List Cmd),
    turnTo fuel dir tgt cmds = Hybrid.turn_to_direction fuel dir tgt cmds := by
  intro fuel
  induction fuel with
  | zero => intro dir tgt cmds; rfl
  | succ n ih =>
    intro dir tgt cmds
    unfold turnTo Hybrid.turn_to_direction
    rw [ih, ih, ih]

/-- The state in which `floodFill` chooses its move: `scanWalls()` has run, the field has been
reflooded when the consistency check failed, and whenever `getBestDirection()` finds a
direction the field is consistent at the current cell and the direction is the first one in
the order N, E, S, W whose neighbour is exactly one step nearer. -/
theorem reflooded_spec (fuel : Nat) (hf : 257 ≤ fuel) (s : State) (hst : Host)
    (hg : CentreGoals s) (hw : 2 ≤ s.mazeWidth) (hw16 : s.mazeWidth ≤ 16)
    (hh : 2 ≤ s.mazeHeight) (hh16 : s.mazeHeight ≤ 16) (hsym : SymmetricWalls s)
    (hdir : s.direction < 4) (hin : inb s.mazeWidth s.mazeHeight ⟨s.x, s.y⟩)
    (hng : isGoal s s.x s.y = false) :
    ∃ s3, reflooded fuel s hst = some s3 ∧ s3.x = s.x ∧ s3.y = s.y ∧
      s3.direction = s.direction ∧ s3.steps = s.steps ∧
      s3.walls = (scanWalls s hst).walls ∧
      ∀ d, getBestDirection s3 = some d →
        Consistent s3 ∧ OpenSide s3 d ∧ sideDist s3 d + 1 = s3.distance s3.y s3.x ∧
          ∀ e, e < d → OpenSide s3 e → sideDist s3 e + 1 ≠ s3.distance s3.y s3.x := by
  have hfr := scanWalls_frame s hst
  -- what a chosen direction means in a state whose field is consistent or not yet known
  have hchoose : ∀ t : State, (∀ d, getBestDirection t = some d →
      t.distance t.y t.x = 1 + sideDist t d) →
      ∀ d, getBestDirection t = some d →
        Consistent t ∧ OpenSide t d ∧ sideDist t d + 1 = t.distance t.y t.x ∧
          ∀ e, e < d → OpenSide t e → sideDist t e + 1 ≠ t.distance t.y t.x := by
    intro t ht d hd
    obtain ⟨q1, -, q3, q4⟩ := getBestDirection_some t d hd
    have := ht d hd
    refine ⟨⟨sideDist t d, ⟨d, q1, rfl⟩, q3, this⟩, q1, by omega, ?_⟩
    intro e he hoe
    have := q4 e he hoe
    omega
  obtain ⟨m1, m2, m3⟩ := minStep_fold (scanWalls s hst)
  unfold reflooded
  dsimp only
  by_cases hre : (List.range 4).foldl (minStep (scanWalls s hst)) INF ≠ INF ∧
      (scanWalls s hst).distance (scanWalls s hst).y (scanWalls s hst).x ≠
        (List.range 4).foldl (minStep (scanWalls s hst)) INF + 1
  · -- reflood
    rw [if_pos hre]
    have e1 : (scanWalls s hst).mazeWidth = s.mazeWidth := by rw [hfr]
    have e2 : (scanWalls s hst).mazeHeight = s.mazeHeight := by rw [hfr]
    have e3 : (scanWalls s hst).goalX = s.goalX := by rw [hfr]
    have e4 : (scanWalls s hst).goalY = s.goalY := by rw [hfr]
    have e5 : (scanWalls s hst).x = s.x := by rw [hfr]
    have e6 : (scanWalls s hst).y = s.y := by rw [hfr]
    have hg2 : CentreGoals (scanWalls s hst) := by
      unfold CentreGoals
      rw [e1, e2, e3, e4]
      exact hg
    have hsym2 := scanWalls_symmetric s hst hdir hsym
    obtain ⟨st', hrun, hI, hend⟩ := floodFillDistances_inv fuel (scanWalls s hst) hg2
      (by rw [e1]; exact hw) (by rw [e1]; exact hw16) (by rw [e2]; exact hh)
      (by rw [e2]; exact hh16) hf
    have hS : (floodGraph (scanWalls s hst)).Symm := fun c d hd hc hn => hsym2 c d hd hc hn
    have hseedin := centre_goals_inb (scanWalls s hst) hg2 (by rw [e1]; exact hw)
      (by rw [e2]; exact hh)
    obtain ⟨t, ht⟩ : ∃ t : State, t = { scanWalls s hst with
        distance := st'.distance, queue := st'.queue, queueHead := st'.queueHead } := ⟨_, rfl⟩
    rw [← ht] at hrun
    have t1 : t.x = s.x := by rw [ht]; exact e5
    have t2 : t.y = s.y := by rw [ht]; exact e6
    have t3 : t.walls = (scanWalls s hst).walls := by rw [ht]
    have t4 : t.mazeWidth = (scanWalls s hst).mazeWidth := by rw [ht]
    have t5 : t.mazeHeight = (scanWalls s hst).mazeHeight := by rw [ht]
    have t6 : t.distance = st'.distance := by rw [ht]
    refine ⟨t, hrun, t1, t2, by rw [ht, hfr], by rw [ht, hfr], t3, ?_⟩
    apply hchoose
    intro d hd
    obtain ⟨q1, q2, q3, -⟩ := getBestDirection_some _ d hd
    have hns : ¬ (floodGraph (scanWalls s hst)).seeds ⟨s.x, s.y⟩ := by
      intro hs
      have h1 := (isGoal_iff (scanWalls s hst) ⟨s.x, s.y⟩).mpr hs
      have h2 : isGoal (scanWalls s hst) s.x s.y = isGoal s s.x s.y := by
        unfold isGoal
        rw [e3, e4]
      dsimp only at h1
      rw [h2, hng] at h1
      exact absurd h1 (by decide)
    have hcin : inb (floodGraph (scanWalls s hst)).w (floodGraph (scanWalls s hst)).h
        ⟨s.x, s.y⟩ := by
      show inb (scanWalls s hst).mazeWidth (scanWalls s hst).mazeHeight _
      rw [e1, e2]
      exact hin
    obtain ⟨n1, n2⟩ := hI.neighbours hend hS hseedin ⟨s.x, s.y⟩ hcin hns
    -- sides of the reflooded state are sides of the flooding graph
    have hside : ∀ e, OpenSide t e ↔ (floodGraph (scanWalls s hst)).Open ⟨s.x, s.y⟩ e := by
      intro e
      unfold OpenSide Graph.Open
      rw [t1, t2, t3, t4, t5]
      rfl
    have hat : ∀ e, sideDist t e = st'.toG.at (nbr ⟨s.x, s.y⟩ e) := by
      intro e
      unfold sideDist
      rw [t1, t2, t6]
      rfl
    have hcur : t.distance t.y t.x = st'.toG.at ⟨s.x, s.y⟩ := by
      rw [t1, t2, t6]
      rfl
    rw [hcur, hat]
    have hI2 : (INF : Nat) = Bfs.INF := rfl
    rw [hat, hI2] at q2
    have hod := (hside d).mp q1
    have hle := n1 d hod q2
    have hfin : st'.toG.at ⟨s.x, s.y⟩ < Bfs.INF := by
      -- the current cell is reachable through the open side `d`
      have hreach := hI.sound (nbr ⟨s.x, s.y⟩ d) (Or.inl hod.2.2) q2
      have hback := hS.back ⟨s.x, s.y⟩ d q1.1 hcin hod.2.1 hod.2.2
      have hstep := Reach.step _ _ _ hreach hback
      rw [nbr_back _ d q1.1] at hstep
      exact (hI.complete hend _ _ hstep).2
    obtain ⟨e, he1, he2⟩ := n2 hfin
    have hmin := q3 e ((hside e).mpr he1)
    rw [hat, hat] at hmin
    omega
  · -- no reflood
    rw [if_neg hre]
    refine ⟨_, rfl, by rw [hfr], by rw [hfr], by rw [hfr], by rw [hfr], rfl, ?_⟩
    apply hchoose
    intro d hd
    obtain ⟨q1, q2, q3, -⟩ := getBestDirection_some _ d hd
    have hm := m2 d q1
    rcases m3 with h | ⟨e, he1, he2⟩
    · omega
    · have hde := q3 e he1
      have hcur : (scanWalls s hst).distance (scanWalls s hst).y (scanWalls s hst).x =
          (List.range 4).foldl (minStep (scanWalls s hst)) INF + 1 := by
        by_contra hne
        exact hre ⟨by omega, hne⟩
      omega

end FloodFill

end Micromouse

namespace Micromouse

namespace AStar

open Bfs

/-! ## The two-phase move of the A* explorer -/

end AStar

end Micromouse

namespace Micromouse

/-! ## Claims about the distance fields, the two-phase move, the wall followers and the end of
exploration -/

namespace Hybrid

open Bfs

/-- Claim C21. On every maze up to 16 x 16 with distinct goal cells and for every wall list,
`calculate_distances` terminates and changes the distance array only; running it again on its
own result gives the same state, and its result depends only on the wall list, the goal cells
and the maze size: every state that agrees on these, whatever its distance array and other
fields hold, gets the same field. -/
theorem calculate_distances_idempotent (fuel : Nat) (s : State)
    (hnd : [s.goal_cells 0, s.goal_cells 1, s.goal_cells 2, s.goal_cells 3].Nodup)
    (hw : s.maze_width ≤ 16) (hh : s.maze_height ≤ 16) (hf : 261 ≤ fuel) :
    ∃ t, calculate_distances fuel s = some t ∧ calculate_distances fuel t = some t ∧
      t = { s with distances := t.distances } ∧
      ∀ s2 : State, s2.walls = s.walls → s2.goal_cells = s.goal_cells →
        s2.maze_width = s.maze_width → s2.maze_height = s.maze_height →
        ∃ t2, calculate_distances fuel s2 = some t2 ∧ t2.distances = t.distances := by
  obtain ⟨dist, hrun, -⟩ := calculate_distances_spec fuel s hnd hw hh hf
  unfold calculate_distances at hrun
  obtain ⟨st, hst, he⟩ := Option.map_eq_some'.mp hrun
  have hd : st.distances = dist := congrArg State.distances he
  refine ⟨{ s with distances := dist }, ?_, ?_, rfl, ?_⟩
  · unfold calculate_distances
    rw [hst, ← hd]
    rfl
  · unfold calculate_distances
    dsimp only
    rw [hst, ← hd]
    rfl
  · intro s2 e1 e2 e3 e4
    refine ⟨{ s2 with distances := dist }, ?_, rfl⟩
    unfold calculate_distances
    rw [e1, e2, e3, e4, hst, ← hd]
    rfl

/-- The statement of C21 for the solver after `init_solver` in the empty `4 x 4` maze. -/
theorem calculate_distances_idempotent_witness :
    ∃ t, calculate_distances 261 open4 = some t ∧ calculate_distances 261 t = some t ∧
      t = { open4 with distances := t.distances } ∧
      ∀ s2 : State, s2.walls = open4.walls → s2.goal_cells = open4.goal_cells →
        s2.maze_width = open4.maze_width → s2.maze_height = open4.maze_height →
        ∃ t2, calculate_distances 261 s2 = some t2 ∧ t2.distances = t.distances :=
  calculate_distances_idempotent 261 open4 (by decide) (by decide) (by decide) (by decide)

end Hybrid

namespace FloodFill

open Bfs

/-- Claim C22. Let `s1` be the state after the initialisation block of a call of `floodFill`,
in a maze of size 2 .. 16 in each dimension with the goal cells of `initMaze`, a symmetric wall
map, heading in `0 .. 3`, the mouse in bounds on a non-goal cell and the goal not yet reached.
Then the call returns; `s3` is the state in which the move is chosen (after `scanWalls()` and
the reflood of a failed consistency check).  The function `getBestDirection()` finds a direction
exactly when some open in-bounds neighbour has a distance below `INF`.  Whenever it finds a direction
`d`, the field of `s3` is consistent at the current cell (`distance[current]` is 1 + the least
distance among the open in-bounds neighbours), the neighbour in direction `d` is open, in
bounds and exactly one step nearer, no earlier direction in the order N, E, S, W has such a
neighbour, and the call turns to `d` and issues one forward move, advancing the position
belief to that neighbour exactly when the host confirms the move. -/
theorem floodFill_moves_downhill (fuel : Nat) (hf : 257 ≤ fuel) (s s1 : State) (hst : Host)
    (hstart : startup fuel s hst = some s1) (hg : CentreGoals s1) (hw : 2 ≤ s1.mazeWidth)
    (hw16 : s1.mazeWidth ≤ 16) (hh : 2 ≤ s1.mazeHeight) (hh16 : s1.mazeHeight ≤ 16)
    (hsym : SymmetricWalls s1) (hdir : s1.direction < 4)
    (hin : inb s1.mazeWidth s1.mazeHeight ⟨s1.x, s1.y⟩) (hgr : s1.goalReached = false)
    (hng : isGoal s1 s1.x s1.y = false) :
    ∃ s3 r, reflooded fuel s1 hst = some s3 ∧ floodFill fuel s hst = some r ∧
      s3.x = s1.x ∧ s3.y = s1.y ∧ s3.walls = (scanWalls s1 hst).walls ∧
      r.state.distance = s3.distance ∧ r.state.walls = s3.walls ∧
      (getBestDirection s3 = none ↔ ∀ d, OpenSide s3 d → INF ≤ sideDist s3 d) ∧
      (getBestDirection s3 = none → r.cmds = []) ∧
      ∀ d, getBestDirection s3 = some d →
        Consistent s3 ∧ OpenSide s3 d ∧ sideDist s3 d + 1 = s3.distance s3.y s3.x ∧
          (∀ e, e < d → OpenSide s3 e → sideDist s3 e + 1 ≠ s3.distance s3.y s3.x) ∧
          r.state.direction = d ∧
          (∃ t, t ∈ Hybrid.turnSequences ∧ r.cmds = t ++ [Cmd.moveForward]) ∧
          (hst.moveForward = true → r.state.x = s1.x + dx d ∧ r.state.y = s1.y + dy d) ∧
          (hst.moveForward = false → r.state.x = s1.x ∧ r.state.y = s1.y) := by
  obtain ⟨s3, hre, e1, e2, e3, -, e5, hmove⟩ :=
    reflooded_spec fuel hf s1 hst hg hw hw16 hh hh16 hsym hdir hin hng
  have hiff : getBestDirection s3 = none ↔ ∀ d, OpenSide s3 d → INF ≤ sideDist s3 d := by
    constructor
    · exact getBestDirection_none s3
    · intro hall
      cases hb : getBestDirection s3 with
      | none => rfl
      | some e =>
        obtain ⟨q1, q2, -, -⟩ := getBestDirection_some s3 e hb
        have := hall e q1
        omega
  cases hb : getBestDirection s3 with
  | none =>
    have hfl : floodFill fuel s hst =
        some { action := Action.IDLE, state := s3, cmds := [] } := by
      unfold floodFill
      rw [hstart]
      dsimp only
      rw [if_neg (by rw [hgr]; decide), if_neg (by rw [hng]; decide)]
      simp only [hre, hb]
    exact ⟨s3, _, hre, hfl, e1, e2, e5, rfl, rfl, hiff, fun _ => rfl,
      fun d hd => Option.noConfusion (hb.symm.trans hd)⟩
  | some d =>
    obtain ⟨q1, q2, q3, q4⟩ := hmove d hb
    obtain ⟨t, ht⟩ := Hybrid.turn_to_direction_total fuel s3.direction d
      (by rw [e3]; exact hdir) q2.1 (by omega)
    obtain ⟨t1, t2⟩ := Hybrid.turn_to_direction_spec fuel s3.direction d
      (by rw [e3]; exact hdir) q2.1 t ht
    have hfl : floodFill fuel s hst =
        some
          (if hst.moveForward = true then
            { action := Action.IDLE
              state :=
                { s3 with
                  direction := t.1, steps := s3.steps + 1, x := s3.x + dx t.1, y := s3.y + dy t.1 }
              cmds := t.2 ++ [Cmd.moveForward] }
          else
            { action := Action.IDLE
              state := { s3 with direction := t.1 }
              cmds := t.2 ++ [Cmd.moveForward] }) := by
      unfold floodFill
      rw [hstart]
      dsimp only
      rw [if_neg (by rw [hgr]; decide), if_neg (by rw [hng]; decide)]
      simp only [hre, hb, turnTo_eq, ht, Option.map_some']
    refine ⟨s3, _, hre, hfl, e1, e2, e5, ?_, ?_, hiff,
      fun h => Option.noConfusion (hb.symm.trans h), ?_⟩
    · split_ifs <;> rfl
    · split_ifs <;> rfl
    · intro d' hd'
      have hdd : d = d' := Option.some.inj (hb.symm.trans hd')
      subst hdd
      refine ⟨q1, q2, q3, q4, ?_, ⟨t.2, t2, ?_⟩, ?_, ?_⟩
      · split_ifs <;> exact t1
      · split_ifs <;> rfl
      · intro hm
        rw [if_pos hm]
        dsimp only
        rw [t1, e1, e2]
        exact ⟨rfl, rfl⟩
      · intro hm
        rw [if_neg (by rw [hm]; decide)]
        exact ⟨e1, e2⟩

/-- The statement of C22 for a call at the origin of a `4 x 4` maze with a stale field: the
check fails, the field is reflooded (`distance[0][0] = 2`), `getBestDirection()` returns north,
whose neighbour `(0, 1)` has distance 1, and the call issues one forward move to `(0, 1)`. -/
theorem floodFill_moves_downhill_witness :
    ∃ s3 r, reflooded 257 start4 (Hybrid.host 4 4 false true false true) = some s3 ∧
      floodFill 257 start4 (Hybrid.host 4 4 false true false true) = some r ∧
      getBestDirection s3 = some 0 ∧ s3.distance 0 0 = 2 ∧ sideDist s3 0 = 1 ∧
      sideDist s3 1 = 1 ∧ r.cmds = [Cmd.moveForward] ∧ r.state.x = 0 ∧ r.state.y = 1 ∧
      r.state.direction = 0 ∧
      Consistent s3 ∧ OpenSide s3 0 ∧ sideDist s3 0 + 1 = s3.distance s3.y s3.x ∧
      (∀ e, e < 0 → OpenSide s3 e → sideDist s3 e + 1 ≠ s3.distance s3.y s3.x) ∧
      (getBestDirection s3 = none ↔ ∀ d, OpenSide s3 d → INF ≤ sideDist s3 d) := by
  obtain ⟨s3, r, h1, h2, -, -, -, -, -, h8, -, h10⟩ :=
    floodFill_moves_downhill 257 (by decide) start4 start4
      (Hybrid.host 4 4 false true false true) rfl (by unfold CentreGoals; decide) (by decide)
      (by decide) (by decide) (by decide)
      (initMaze_symmetric powerOn (Hybrid.host 4 4 false true false true) rfl) (by decide)
      (by decide) rfl (by decide)
  have e3 : (reflooded 257 start4 (Hybrid.host 4 4 false true false true)).map
      (fun t => (getBestDirection t, t.distance 0 0, sideDist t 0, sideDist t 1)) =
      some (some 0, 2, 1, 1) := by
    decide!
  have er : (floodFill 257 start4 (Hybrid.host 4 4 false true false true)).map
      (fun t => (t.cmds, t.state.x, t.state.y, t.state.direction)) =
      some ([Cmd.moveForward], 0, 1, 0) := by
    decide!
  rw [h1] at e3
  rw [h2] at er
  simp only [Option.map_some', Option.some.injEq, Prod.mk.injEq] at e3 er
  obtain ⟨a1, a2, a3, a4⟩ := e3
  obtain ⟨b1, b2, b3, b4⟩ := er
  obtain ⟨c1, c2, c3, c4, -⟩ := h10 0 a1
  exact ⟨s3, r, h1, h2, a1, a2, a3, a4, b1, b2, b3, b4, c1, c2, c3, c4, h8⟩

/-- Claim C28. On every maze of size 2 .. 16 in each dimension with the goal cells of
`initMaze` and for every wall map, `floodFillDistances` terminates without a write past the
end of `queue`; the cells it has enqueued are pairwise distinct in-bounds cells, so their
number `queueTail` is at most `width x height`, which is at most 256 = `MAX_QUEUE`. -/
theorem floodFillDistances_queue_bound (fuel : Nat) (s : State) (hg : CentreGoals s)
    (hw : 2 ≤ s.mazeWidth) (hw16 : s.mazeWidth ≤ 16) (hh : 2 ≤ s.mazeHeight)
    (hh16 : s.mazeHeight ≤ 16) (hf : 257 ≤ fuel) :
    ∃ s', floodFillDistances fuel s = some s' ∧ s'.queue.Nodup ∧
      (∀ c, c ∈ s'.queue → inb s.mazeWidth s.mazeHeight c) ∧
      s'.queue.length ≤ s.mazeWidth.toNat * s.mazeHeight.toNat ∧
      s.mazeWidth.toNat * s.mazeHeight.toNat ≤ MAX_QUEUE := by
  obtain ⟨st', hrun, hI, -⟩ := floodFillDistances_inv fuel s hg hw hw16 hh hh16 hf
  have hin : ∀ c, c ∈ st'.queue → inb s.mazeWidth s.mazeHeight c := by
    intro c hc
    rcases (hI.queued c hc).1 with h1 | h1
    · exact h1
    · exact centre_goals_inb s hg hw hh c h1
  refine ⟨_, hrun, hI.nodup, hin, ?_, ?_⟩
  · have h1 := nodup_length_le_card st'.queue (gridCells s.mazeWidth s.mazeHeight) hI.nodup
      (fun c hc => mem_gridCells _ _ c (hin c hc))
    have h2 := card_gridCells s.mazeWidth s.mazeHeight
    exact le_trans h1 h2
  · have h1 : s.mazeWidth.toNat ≤ 16 := by omega
    have h2 : s.mazeHeight.toNat ≤ 16 := by omega
    have h3 := Nat.mul_le_mul h1 h2
    show _ ≤ 256
    omega

/-- The statement of C28 in the `4 x 4` maze `walled4` with three inner walls: the flood
enqueues the four goal cells and eleven further cells by relaxation, 15 cells in all (the
walled-in origin is never enqueued). -/
theorem floodFillDistances_queue_bound_witness :
    CentreGoals walled4 ∧
      (floodFillDistances 257 walled4).map (fun s' => s'.queue) =
        some [⟨1, 1⟩, ⟨2, 1⟩, ⟨1, 2⟩, ⟨2, 2⟩, ⟨1, 0⟩, ⟨3, 1⟩, ⟨2, 0⟩, ⟨1, 3⟩, ⟨0, 2⟩, ⟨2, 3⟩,
          ⟨3, 2⟩, ⟨3, 0⟩, ⟨0, 3⟩, ⟨0, 1⟩, ⟨3, 3⟩] ∧
      ∃ s', floodFillDistances 257 walled4 = some s' ∧ s'.queue.Nodup ∧
        (∀ c, c ∈ s'.queue → inb walled4.mazeWidth walled4.mazeHeight c) ∧
        s'.queue.length ≤ walled4.mazeWidth.toNat * walled4.mazeHeight.toNat ∧
        walled4.mazeWidth.toNat * walled4.mazeHeight.toNat ≤ MAX_QUEUE :=
  ⟨by unfold CentreGoals; decide, by decide!,
    floodFillDistances_queue_bound 257 walled4 (by unfold CentreGoals; decide) (by decide)
      (by decide) (by decide) (by decide) (by decide)⟩

end FloodFill

namespace AStar

end AStar

/-- Claim C24, the code at a failing input. In a `2 x 2` maze the start cell lies in the centre
block: the first call of either wall follower detects the goal and returns after setting
`goalReached`.  The next call of the left-hand follower issues a forward move and changes the
position, the next call of the right-hand follower turns right, moves and changes position and
heading.  In general every call made with `goalReached` set issues at least one turn or move
command: the flag only silences the goal report, no branch returns early on it as
`if (goalReached) return IDLE;` of the flood-fill solver does. -/
theorem followers_continue_after_goal :
    (LeftHandRule.leftWallFollower Follower.powerOn (Hybrid.host 2 2 false true false true) =
        { action := Action.IDLE, state := { Follower.powerOn with goalReached := true }
          cmds := [] } ∧
      LeftHandRule.leftWallFollower { Follower.powerOn with goalReached := true }
          (Hybrid.host 2 2 false true false true) =
        { action := Action.IDLE
          state := { x := 0, y := 1, direction := 0, steps := 1, goalReached := true }
          cmds := [Cmd.moveForward] }) ∧
    (RightHandRule.rightWallFollower Follower.powerOn (Hybrid.host 2 2 false true false true) =
        { action := Action.IDLE, state := { Follower.powerOn with goalReached := true }
          cmds := [] } ∧
      RightHandRule.rightWallFollower { Follower.powerOn with goalReached := true }
          (Hybrid.host 2 2 false true false true) =
        { action := Action.IDLE
          state := { x := 1, y := 0, direction := 1, steps := 1, goalReached := true }
          cmds := [Cmd.turnRight, Cmd.moveForward] }) ∧
    ∀ (s : Follower) (hst : Host),
      (LeftHandRule.leftWallFollower { s with goalReached := true } hst).cmds ≠ [] ∧
        (RightHandRule.rightWallFollower { s with goalReached := true } hst).cmds ≠ [] := by
  refine ⟨⟨by decide, by decide⟩, ⟨by decide, by decide⟩, ?_⟩
  intro s hst
  constructor
  · unfold LeftHandRule.leftWallFollower
    dsimp only
    rw [if_neg (by simp)]
    split_ifs <;> simp
  · unfold RightHandRule.rightWallFollower
    dsimp only
    rw [if_neg (by simp)]
    split_ifs <;> simp

namespace Hybrid

open Bfs

/-- Claim C25. For every heading `h` and target `t` in `0 .. 3`, `turn_to_direction(t)`
terminates with `mouse_dir = t` and changes no other part of the state; it issues no command
when `t = h`, one right turn when `(t - h) mod 4 = 1`, one left turn when it is 3 and two right
turns when it is 2. -/
theorem turn_to_direction_turns (fuel : Nat) (hf : 2 ≤ fuel) (s : State) (t : Nat)
    (hh : s.mouse_dir < 4) (ht : t < 4) :
    ∃ cmds, turn_to_direction_state fuel s t = some ({ s with mouse_dir := t }, cmds) ∧
      t < 4 ∧
      (t = s.mouse_dir → cmds = []) ∧
      (((t : Int) - (s.mouse_dir : Int)) % 4 = 1 → cmds = [Cmd.turnRight]) ∧
      (((t : Int) - (s.mouse_dir : Int)) % 4 = 3 → cmds = [Cmd.turnLeft]) ∧
      (((t : Int) - (s.mouse_dir : Int)) % 4 = 2 → cmds = [Cmd.turnRight, Cmd.turnRight]) := by
  obtain ⟨cmds, hrun, h0, h1, h3, h2⟩ := turn_to_direction_exact fuel s.mouse_dir t hh ht hf
  refine ⟨cmds, ?_, ht, h0, h1, h3, h2⟩
  unfold turn_to_direction_state
  rw [hrun]
  rfl

/-- The statement of C25 for heading north and target south. -/
theorem turn_to_direction_turns_witness :
    ∃ cmds, turn_to_direction_state 2 powerOn 2 = some ({ powerOn with mouse_dir := 2 }, cmds) ∧
      2 < 4 ∧
      (2 = powerOn.mouse_dir → cmds = []) ∧
      ((((2 : Nat) : Int) - (powerOn.mouse_dir : Int)) % 4 = 1 → cmds = [Cmd.turnRight]) ∧
      ((((2 : Nat) : Int) - (powerOn.mouse_dir : Int)) % 4 = 3 → cmds = [Cmd.turnLeft]) ∧
      ((((2 : Nat) : Int) - (powerOn.mouse_dir : Int)) % 4 = 2 →
        cmds = [Cmd.turnRight, Cmd.turnRight]) :=
  turn_to_direction_turns 2 (by decide) powerOn 2 (by decide) (by decide)

/-- Claim C26. In a static maze of size 2 .. 16 in each dimension with symmetric walls and
closed boundary, with truthful sensors, successful moves and start at the origin heading north,
in every call of the run that starts in phase 0 the mouse is in bounds and, after
`sense_walls()`, `has_wall(current, d)` equals the true wall of the current cell on side `d`
for all four directions; in particular every side on the maze boundary is recorded. -/
theorem sensing_complete_at_current (fuel : Nat) (M : Maze) (hM : M.Valid) (hf : 1026 ≤ fuel)
    (k : Nat) (s : State) (log : List Position) (hrun : explorerRun fuel M k = some (s, log))
    (hp : s.phase = 0) :
    inb M.width M.height ⟨s.mouse_x, s.mouse_y⟩ ∧
      (∀ d, d < 4 →
        has_wall (sensed (init_solver s (M.host s)) (M.host s)).walls s.mouse_x s.mouse_y d =
          M.wall s.mouse_x s.mouse_y d) ∧
      ∀ d, d < 4 → ¬ inb M.width M.height (nbr ⟨s.mouse_x, s.mouse_y⟩ d) →
        has_wall (sensed (init_solver s (M.host s)) (M.host s)).walls s.mouse_x s.mouse_y d =
          true := by
  have hat := exploreAt_of_phase fuel M hM hf k (s, log) hrun hp
  obtain ⟨s', log', hrun', -, hin, hall⟩ := sensed_current_exact fuel M hM k hat
  rw [hrun] at hrun'
  simp only [Option.some.injEq, Prod.mk.injEq] at hrun'
  obtain ⟨rfl, -⟩ := hrun'
  refine ⟨hin, hall, ?_⟩
  intro d hd hout
  rw [hall d hd]
  exact hM.closed ⟨s.mouse_x, s.mouse_y⟩ d hd hin hout

/-- The statement of C26 for the first call in the `2 x 2` maze without inner walls. -/
theorem sensing_complete_at_current_witness :
    inb (openMaze 2 2).width (openMaze 2 2).height ⟨powerOn.mouse_x, powerOn.mouse_y⟩ ∧
      (∀ d, d < 4 →
        has_wall (sensed (init_solver powerOn ((openMaze 2 2).host powerOn))
            ((openMaze 2 2).host powerOn)).walls powerOn.mouse_x powerOn.mouse_y d =
          (openMaze 2 2).wall powerOn.mouse_x powerOn.mouse_y d) ∧
      ∀ d, d < 4 →
        ¬ inb (openMaze 2 2).width (openMaze 2 2).height
          (nbr ⟨powerOn.mouse_x, powerOn.mouse_y⟩ d) →
        has_wall (sensed (init_solver powerOn ((openMaze 2 2).host powerOn))
            ((openMaze 2 2).host powerOn)).walls powerOn.mouse_x powerOn.mouse_y d = true :=
  sensing_complete_at_current 1026 (openMaze 2 2)
    (openMaze_valid 2 2 (by decide) (by decide) (by decide) (by decide)) (by decide) 0 powerOn []
    rfl rfl

/-- Claim C27. In every state the solver reaches in a maze of size 1 .. 16 in each dimension,
for arbitrary host answers, a phase-0 call returns and never sets phase 3.  When it leaves
phase 0, the stack has one entry, no unvisited open neighbour exists and the mouse is at
`(0, 0)`; `find_path_to_start()` returns 1 with `path_length = 0`, the phase becomes 1 and no
command is issued.  The next call, in phase 1, issues no forward move and switches to phase 2
with the mouse at the origin. -/
theorem planner_called_at_origin (w h : Int) (hw1 : 1 ≤ w) (hw : w ≤ 16) (hh1 : 1 ≤ h)
    (hh : h ≤ 16) (fuel : Nat) (hf : 1026 ≤ fuel) (s : State) (hs : Reachable w h s)
    (hp : s.phase = 0) (hst : Host) :
    ∃ r, floodFill fuel s hst = some r ∧ r.state.phase ≠ 3 ∧
      (r.state.phase ≠ 0 →
        firstOpenDir (sensed s hst) = none ∧ s.dfs_stack.length = 1 ∧
        s.mouse_x = 0 ∧ s.mouse_y = 0 ∧
        (∃ sd sp, calculate_distances fuel (sensed s hst) = some sd ∧
          find_path_to_start fuel sd = some (true, sp) ∧ sp.path_length = 0) ∧
        r.state.phase = 1 ∧ r.cmds = [] ∧
        ∀ hst' : Host, ∃ r', floodFill fuel r.state hst' = some r' ∧ r'.state.phase = 2 ∧
          r'.cmds.count Cmd.moveForward = 0 ∧ r'.state.mouse_x = 0 ∧ r'.state.mouse_y = 0) := by
  have hS := hs.stack_ready hw1 hw hh1 hh hp
  have hW := hs.well_formed hw1 hw hh1 hh hp
  rw [← init_solver_idem s hS.init hst] at hW
  obtain ⟨r, hr⟩ := floodFill_total fuel s hst hW hf
  refine ⟨r, hr, ?_, ?_⟩
  · rcases explore_end_origin hw hh hS hp fuel hf hst r hr with h0 | ⟨-, -, -, -, -, h1, -⟩
    · rw [h0]
      decide
    · rw [h1]
      decide
  · intro hne
    rcases explore_end_origin hw hh hS hp fuel hf hst r hr with h0 |
      ⟨a1, a2, a3, a4, ⟨sd, sp, b1, b2, b3, -, -⟩, a5, a6, a7, a8, a9, a10⟩
    · exact absurd h0 hne
    · refine ⟨a1, a2, a3, a4, ⟨sd, sp, b1, b2, b3⟩, a5, a10, ?_⟩
      intro hst'
      obtain ⟨r', c1, c2, c3, c4, -, -, c7⟩ := return_to_start_arrived fuel (by omega) r.state
        hst' a9 a5 (by rw [a8]; exact hS.dir_lt) (by rw [a6, a7])
      exact ⟨r', c1, c2, c7, c3, c4⟩

/-- The statement of C27 for the seventh call of the run in the `2 x 2` maze without inner
walls: the call starts in phase 0 at the origin with a one-element stack and every cell
visited; it ends phase 0 with phase 1 and an empty path, and the next call switches to phase 2
without a forward move. -/
theorem planner_called_at_origin_witness :
    ∃ q r, explorerRun 1026 (openMaze 2 2) 6 = some q ∧ q.1.phase = 0 ∧
      floodFill 1026 q.1 ((openMaze 2 2).host q.1) = some r ∧ r.state.phase = 1 ∧
      r.state.phase ≠ 3 ∧
      firstOpenDir (sensed q.1 ((openMaze 2 2).host q.1)) = none ∧
      q.1.dfs_stack.length = 1 ∧ q.1.mouse_x = 0 ∧ q.1.mouse_y = 0 ∧
      (∃ sd sp, calculate_distances 1026 (sensed q.1 ((openMaze 2 2).host q.1)) = some sd ∧
        find_path_to_start 1026 sd = some (true, sp) ∧ sp.path_length = 0) ∧
      r.cmds = [] ∧
      ∀ hst' : Host, ∃ r', floodFill 1026 r.state hst' = some r' ∧ r'.state.phase = 2 ∧
        r'.cmds.count Cmd.moveForward = 0 ∧ r'.state.mouse_x = 0 ∧ r'.state.mouse_y = 0 := by
  have h6 : (explorerRun 1026 (openMaze 2 2) 6).map (fun q => q.1.phase) = some 0 := by
    decide!
  have h7 : (explorerRun 1026 (openMaze 2 2) 7).map (fun q => q.1.phase) = some 1 := by
    decide!
  obtain ⟨q, hq, e0⟩ := Option.map_eq_some'.mp h6
  obtain ⟨r, hr, hne, himp⟩ := planner_called_at_origin 2 2 (by decide) (by decide) (by decide)
    (by decide) 1026 (by decide) q.1 (explorerRun_reachable 1026 (openMaze 2 2) 5 q hq) e0
    ((openMaze 2 2).host q.1)
  have e1 : r.state.phase = 1 := by
    obtain ⟨s, log⟩ := q
    rw [explorerRun, hq] at h7
    dsimp only at h7 hr
    rw [hr] at h7
    simpa using h7
  obtain ⟨a1, a2, a3, a4, a5, -, a7, a8⟩ := himp (by rw [e1]; decide)
  exact ⟨q, r, hq, e0, hr, e1, hne, a1, a2, a3, a4, a5, a7, a8⟩

/-- Claim C29. In every state the solver reaches in a maze of size 1 .. 16 in each dimension,
for arbitrary host answers, the wall list holds no triple twice and only triples with an
in-bounds cell and a direction in `0 .. 3`; hence `wall_count` is at most `4 x width x height`,
which is at most 1024 = `MAX_WALLS`, and for every in-bounds cell and direction in `0 .. 3`
`has_wall(x, y, dir)` holds after `add_wall(x, y, dir)`. -/
theorem wall_list_never_drops (w h : Int) (hw1 : 1 ≤ w) (hw : w ≤ 16) (hh1 : 1 ≤ h)
    (hh : h ≤ 16) (s : State) (hs : Reachable w h s) :
    s.walls.Nodup ∧ (∀ wl, wl ∈ s.walls → wl.dir < 4 ∧ inb w h ⟨wl.x, wl.y⟩) ∧
      s.walls.length ≤ 4 * (w.toNat * h.toNat) ∧ 4 * (w.toNat * h.toNat) ≤ MAX_WALLS ∧
      ∀ (x y : Int) (d : Nat), inb w h ⟨x, y⟩ → d < 4 →
        has_wall (add_wall s.walls x y d) x y d = true := by
  have hW := hs.walls_in_grid hw1 hw hh1 hh
  exact ⟨hW.1, hW.2, walls_length_le w h s.walls hW, grid_walls_le w h hw hh,
    fun x y d hin hd => hW.records hw hh x y d hd hin⟩

/-- The statement of C29 at the start of the fourth call of the run in the `2 x 2` maze
without inner walls, where six walls have been recorded. -/
theorem wall_list_never_drops_witness :
    ∃ q, explorerRun 1026 (openMaze 2 2) 3 = some q ∧
      q.1.walls = [⟨0, 0, 3⟩, ⟨0, 0, 2⟩, ⟨0, 1, 0⟩, ⟨0, 1, 3⟩, ⟨1, 1, 1⟩, ⟨1, 1, 0⟩] ∧
      q.1.walls.Nodup ∧ (∀ wl, wl ∈ q.1.walls → wl.dir < 4 ∧ inb 2 2 ⟨wl.x, wl.y⟩) ∧
      q.1.walls.length ≤ 4 * ((2 : Int).toNat * (2 : Int).toNat) ∧
      4 * ((2 : Int).toNat * (2 : Int).toNat) ≤ MAX_WALLS ∧
      ∀ (x y : Int) (d : Nat), inb 2 2 ⟨x, y⟩ → d < 4 →
        has_wall (add_wall q.1.walls x y d) x y d = true := by
  have h : (explorerRun 1026 (openMaze 2 2) 3).map (fun q => q.1.walls) =
      some [⟨0, 0, 3⟩, ⟨0, 0, 2⟩, ⟨0, 1, 0⟩, ⟨0, 1, 3⟩, ⟨1, 1, 1⟩, ⟨1, 1, 0⟩] := by
    decide!
  obtain ⟨q, hq, he⟩ := Option.map_eq_some'.mp h
  exact ⟨q, hq, he,
    wall_list_never_drops 2 2 (by decide) (by decide) (by decide) (by decide) q.1
      (explorerRun_reachable 1026 (openMaze 2 2) 2 q hq)⟩

end Hybrid

end Micromouse

set_option maxRecDepth 1000000

namespace Micromouse

namespace Hybrid

open Bfs

/-! ## The distance field with walls read on the side of the entered cell -/

theorem mem_enteringNeighbourDistances (s : State) (c : Position) (v : Nat) :
    v ∈ enteringNeighbourDistances s c.x c.y ↔
      ∃ d, d < 4 ∧ inb s.maze_width s.maze_height (nbr c d) ∧
        has_wall s.walls (nbr c d).x (nbr c d).y ((d + 2) % 4) = false ∧
        v = s.distances (nbr c d).x (nbr c d).y := by
  unfold enteringNeighbourDistances
  rw [List.mem_filterMap]
  constructor
  · rintro ⟨d, hd, h⟩
    split_ifs at h with hc
    simp only [Option.some.injEq] at h
    exact ⟨d, List.mem_range.mp hd, hc.1, hc.2, h.symm⟩
  · rintro ⟨d, hd, h1, h2, h3⟩
    refine ⟨d, List.mem_range.mpr hd, ?_⟩
    rw [if_pos ⟨h1, h2⟩, h3]
    rfl

/-- A walk of the flood from a goal cell to `c`, read backwards, is an entering path from `c`. -/
theorem entered_of_reach (s : State) (hin : ∀ i, i < 4 → inb s.maze_width s.maze_height (s.goal_cells i))
    (n : Nat) (c : Position)
    (h : Reach (floodGraph s.walls s.maze_width s.maze_height s.goal_cells) n c) :
    EnteredPath s n c := by
  induction h with
  | seed c hs => exact EnteredPath.here c ((is_goal_iff s.goal_cells c).mpr hs)
  | step n u d hru ho ih =>
    have hu : inb s.maze_width s.maze_height u := by
      rcases hru.rel with h | ⟨i, hi, rfl⟩
      · exact h
      · exact hin i hi
    have hd2 : (d + 2) % 4 < 4 := Nat.mod_lt _ (by decide)
    have hb := nbr_back u d ho.1
    refine EnteredPath.step n (nbr u d) ((d + 2) % 4) hd2 ?_ ?_ ?_
    · rw [hb]
      exact hu
    · rw [hb, FloodFill.opp_opp d ho.1]
      exact ho.2.1
    · rw [hb]
      exact ih

/-- An entering path from an in-bounds cell, read backwards, is a walk of the flood. -/
theorem reach_of_entered (s : State) (n : Nat) (c : Position) (h : EnteredPath s n c) :
    inb s.maze_width s.maze_height c →
      Reach (floodGraph s.walls s.maze_width s.maze_height s.goal_cells) n c := by
  induction h with
  | here c hg => exact fun _ => Reach.seed c ((is_goal_iff s.goal_cells c).mp hg)
  | step n c d hd hin hwl _ ih =>
    intro hc
    have hd2 : (d + 2) % 4 < 4 := Nat.mod_lt _ (by decide)
    have hb := nbr_back c d hd
    have := Reach.step n (nbr c d) ((d + 2) % 4) (ih hin) ⟨hd2, hwl, by rw [hb]; exact hc⟩
    rw [hb] at this
    exact this

/-- For every wall list, the field of `calculate_distances` is consistent at every in-bounds
non-goal cell with a finite distance when the walls are read on the side of the neighbour. -/
theorem calculate_distances_entered (fuel : Nat) (s : State) (hg : GoalsInGrid s)
    (hw : s.maze_width ≤ 16) (hh : s.maze_height ≤ 16) (hf : 261 ≤ fuel) :
    ∃ dist, calculate_distances fuel s = some { s with distances := dist } ∧
      (∀ i, i < 4 → dist (s.goal_cells i).x (s.goal_cells i).y = 0) ∧
      (∀ c, inb s.maze_width s.maze_height c →
        (is_goal s.goal_cells c.x c.y = false → dist c.x c.y < INF →
          EnteredConsistentAt { s with distances := dist } c.x c.y) ∧
        (dist c.x c.y < INF →
          EnteredPath s (dist c.x c.y) c ∧ ∀ n, EnteredPath s n c → dist c.x c.y ≤ n) ∧
        (dist c.x c.y = INF ↔ ∀ n, ¬ EnteredPath s n c)) := by
  obtain ⟨dist, hrun, hres⟩ := calculate_distances_spec fuel s hg.1 hw hh hf
  refine ⟨dist, hrun, ?_, ?_⟩
  · intro i hi
    have hseed : (floodGraph s.walls s.maze_width s.maze_height s.goal_cells).seeds
        (s.goal_cells i) := ⟨i, hi, rfl⟩
    have := (hres _ (Or.inr hseed)).2.1 0 (Reach.seed _ hseed)
    exact Nat.le_zero.mp this
  · intro c hc
    obtain ⟨hsound, hmin, hinf⟩ := hres c (Or.inl hc)
    refine ⟨?_, ?_, ?_⟩
    · intro hng hfin
      have hr := hsound hfin
      have hnseed : ¬ (floodGraph s.walls s.maze_width s.maze_height s.goal_cells).seeds c := by
        intro hs
        have := (is_goal_iff s.goal_cells c).mpr hs
        rw [hng] at this
        exact Bool.noConfusion this
      obtain ⟨k, hk⟩ : ∃ k, dist c.x c.y = k := ⟨_, rfl⟩
      rw [hk] at hr hfin
      clear hsound hinf hmin
      cases hr with
      | seed _ hs => exact absurd hs hnseed
      | step n u d hru ho =>
        have hu : inb s.maze_width s.maze_height u := by
          rcases hru.rel with h | ⟨i, hi, rfl⟩
          · exact h
          · exact hg.2 i hi
        obtain ⟨husound, humin, -⟩ := hres u (Or.inl hu)
        have hun : dist u.x u.y ≤ n := humin n hru
        have hufin : dist u.x u.y < INF := by
          omega
        have hk' : dist (nbr u d).x (nbr u d).y = n + 1 := hk
        have hge : n + 1 ≤ dist u.x u.y + 1 := by
          have := (hres (nbr u d) (Or.inl ho.2.2)).2.1 _ (Reach.step _ u d (husound hufin) ho)
          rw [hk'] at this
          exact this
        have hd2 : (d + 2) % 4 < 4 := Nat.mod_lt _ (by decide)
        have hb := nbr_back u d ho.1
        have hmn : (enteringNeighbourDistances { s with distances := dist } (nbr u d).x
            (nbr u d).y).min? = some n := by
          rw [List.min?_eq_some_iff']
          constructor
          · rw [mem_enteringNeighbourDistances]
            refine ⟨(d + 2) % 4, hd2, ?_, ?_, ?_⟩
            · rw [hb]
              exact hu
            · rw [hb, FloodFill.opp_opp d ho.1]
              exact ho.2.1
            · rw [hb]
              show n = dist u.x u.y
              omega
          · intro b hb'
            rw [mem_enteringNeighbourDistances] at hb'
            obtain ⟨e, he, hein, hew, rfl⟩ := hb'
            show n ≤ dist (nbr (nbr u d) e).x (nbr (nbr u d) e).y
            by_cases hfe : dist (nbr (nbr u d) e).x (nbr (nbr u d) e).y < INF
            · have he2 : (e + 2) % 4 < 4 := Nat.mod_lt _ (by decide)
              have hre := Reach.step _ _ ((e + 2) % 4) ((hres _ (Or.inl hein)).1 hfe)
                ⟨he2, hew, by rw [nbr_back _ e he]; exact ho.2.2⟩
              rw [nbr_back _ e he] at hre
              have := (hres (nbr u d) (Or.inl ho.2.2)).2.1 _ hre
              rw [hk'] at this
              omega
            · omega
        unfold EnteredConsistentAt
        rw [hmn]
        show dist (nbr u d).x (nbr u d).y = 1 + n
        omega
    · intro hfin
      refine ⟨entered_of_reach s hg.2 _ c (hsound hfin), ?_⟩
      intro n hp
      exact hmin n (reach_of_entered s n c hp hc)
    · rw [hinf]
      constructor
      · intro h n hp
        exact h n (reach_of_entered s n c hp hc)
      · intro h n hr
        exact h n (entered_of_reach s hg.2 n c hr)

end Hybrid

namespace FloodFill

open Bfs

/-- The statement of C1 at the `4 x 4` maze `walled4`, whose wall map holds the boundary and
three inner walls on both sides: the flood relaxes eleven non-goal cells, walks around the wall
east of `(0, 1)` (distance 2 instead of 1), and leaves the walled-in origin at `INF`. -/
theorem floodFillDistances_shortest_witness :
    CentreGoals walled4 ∧ SymmetricWalls walled4 ∧
      (floodFillDistances 257 walled4).map
          (fun s' => (List.range 4).map (fun y => (List.range 4).map
            (fun x => s'.distance (y : Int) (x : Int)))) =
        some [[9999, 1, 1, 2], [2, 0, 0, 1], [1, 0, 0, 1], [2, 1, 1, 2]] ∧
      ∃ s', floodFillDistances 257 walled4 = some s' ∧
        ∀ c, inb walled4.mazeWidth walled4.mazeHeight c →
          (∀ n, GoalPath walled4 n c →
            GoalPath walled4 (s'.distance c.y c.x) c ∧ s'.distance c.y c.x ≤ n) ∧
          (s'.distance c.y c.x = INF ↔ ∀ n, ¬ GoalPath walled4 n c) :=
  ⟨by unfold CentreGoals; decide,
    addWall_symmetric _ 0 0 1 (by decide) (addWall_symmetric _ 0 0 0 (by decide)
      (addWall_symmetric _ 0 1 1 (by decide)
        (initMaze_symmetric powerOn (Hybrid.host 4 4 false true false true) rfl))),
    by decide!,
    floodFillDistances_shortest 257 walled4 (by unfold CentreGoals; decide) (by decide)
      (by decide) (by decide) (by decide)
      (addWall_symmetric _ 0 0 1 (by decide) (addWall_symmetric _ 0 0 0 (by decide)
        (addWall_symmetric _ 0 1 1 (by decide)
          (initMaze_symmetric powerOn (Hybrid.host 4 4 false true false true) rfl))))
      (by decide)⟩

end FloodFill

namespace Hybrid

open Bfs

/-- Claim C2, amended. For every recorded wall list, goal cells that are distinct and inside
the grid and a maze of at most 16 x 16 cells, `calculate_distances` terminates and changes only
the distance array; each goal cell has distance 0; every in-bounds non-goal cell with a finite
distance has distance one more than the least distance among its open in-bounds neighbours,
where the neighbour `n` of the cell in direction `d` is open when
`has_wall(n.x, n.y, (d + 2) % 4)` is false; a finite distance is the length of a shortest path
to a goal cell through such open neighbours; and an in-bounds cell has distance `INF` exactly
when no such path leads from it to a goal cell. -/
theorem calculate_distances_field (fuel : Nat) (s : State) (hg : GoalsInGrid s)
    (hw : s.maze_width ≤ 16) (hh : s.maze_height ≤ 16) (hf : 261 ≤ fuel) :
    ∃ s', calculate_distances fuel s = some s' ∧
      s' = { s with distances := s'.distances } ∧
      (∀ i, i < 4 → s'.distances (s.goal_cells i).x (s.goal_cells i).y = 0) ∧
      (∀ c, inb s.maze_width s.maze_height c →
        (is_goal s.goal_cells c.x c.y = false → s'.distances c.x c.y < INF →
          EnteredConsistentAt s' c.x c.y) ∧
        (s'.distances c.x c.y < INF →
          EnteredPath s (s'.distances c.x c.y) c ∧
            ∀ n, EnteredPath s n c → s'.distances c.x c.y ≤ n) ∧
        (s'.distances c.x c.y = INF ↔ ∀ n, ¬ EnteredPath s n c)) := by
  obtain ⟨dist, hrun, h0, hc⟩ := calculate_distances_entered fuel s hg hw hh hf
  exact ⟨_, hrun, rfl, h0, hc⟩

/-- The amended statement of C2 at the `4 x 4` maze with the one-sided wall list
`(0, 1, East)` of the counterexample: the list is not symmetric, the cell `(0, 1)` has
distance 1, and the neighbours from which it can be entered have the distances 1, 0 and 2. -/
theorem calculate_distances_field_witness :
    oneSidedWall.walls = [⟨0, 1, 1⟩] ∧
      ¬ SymmetricWalls oneSidedWall.walls oneSidedWall.maze_width oneSidedWall.maze_height ∧
      GoalsInGrid oneSidedWall ∧
      (calculate_distances 261 oneSidedWall).map
          (fun t => (is_goal t.goal_cells 0 1, t.distances 0 1,
            enteringNeighbourDistances t 0 1, decide (EnteredConsistentAt t 0 1),
            t.distances 0 0, enteringNeighbourDistances t 0 0)) =
        some (false, 1, [1, 0, 2], true, 2, [1, 1]) ∧
      ∃ s', calculate_distances 261 oneSidedWall = some s' ∧
        s' = { oneSidedWall with distances := s'.distances } ∧
        (∀ i, i < 4 →
          s'.distances (oneSidedWall.goal_cells i).x (oneSidedWall.goal_cells i).y = 0) ∧
        (∀ c, inb oneSidedWall.maze_width oneSidedWall.maze_height c →
          (is_goal oneSidedWall.goal_cells c.x c.y = false → s'.distances c.x c.y < INF →
            EnteredConsistentAt s' c.x c.y) ∧
          (s'.distances c.x c.y < INF →
            EnteredPath oneSidedWall (s'.distances c.x c.y) c ∧
              ∀ n, EnteredPath oneSidedWall n c → s'.distances c.x c.y ≤ n) ∧
          (s'.distances c.x c.y = INF ↔ ∀ n, ¬ EnteredPath oneSidedWall n c)) :=
  ⟨rfl,
    fun h => absurd (h ⟨0, 1⟩ 1 (by decide) (by decide) (by decide)) (by decide),
    ⟨by decide, by decide⟩, by decide!,
    calculate_distances_field 261 oneSidedWall ⟨by decide, by decide⟩ (by decide) (by decide)
      (by decide)⟩

/-- The statement of C3 at a `4 x 4` maze with the mouse on `(2, 2)` and walls recorded on the
south and west side of that cell: the planner returns 1 with a path of six cells around the
walls, which is a walk from the mouse cell to the origin, and no such walk is shorter. -/
theorem find_path_to_start_shortest_witness :
    inb planFrom22.maze_width planFrom22.maze_height ⟨planFrom22.mouse_x, planFrom22.mouse_y⟩ ∧
      ∃ s', find_path_to_start 1026 planFrom22 = some (true, s') ∧ s'.path_length = 6 ∧
        s'.path_to_start.take s'.path_length =
          [⟨2, 3⟩, ⟨1, 3⟩, ⟨0, 3⟩, ⟨0, 2⟩, ⟨0, 1⟩, ⟨0, 0⟩] ∧
        (s'.path_to_start.take s'.path_length).length = s'.path_length ∧
        IsWalk
          (planGraph planFrom22.walls planFrom22.maze_width planFrom22.maze_height
            ⟨planFrom22.mouse_x, planFrom22.mouse_y⟩)
          ⟨planFrom22.mouse_x, planFrom22.mouse_y⟩ (s'.path_to_start.take s'.path_length) ∧
        walkEnd ⟨planFrom22.mouse_x, planFrom22.mouse_y⟩
            (s'.path_to_start.take s'.path_length) = origin ∧
        (∀ l, IsWalk
            (planGraph planFrom22.walls planFrom22.maze_width planFrom22.maze_height
              ⟨planFrom22.mouse_x, planFrom22.mouse_y⟩)
            ⟨planFrom22.mouse_x, planFrom22.mouse_y⟩ l →
          walkEnd ⟨planFrom22.mouse_x, planFrom22.mouse_y⟩ l = origin →
            s'.path_length ≤ l.length) := by
  have hv : (find_path_to_start 1026 planFrom22).map
      (fun r => (r.1, r.2.path_length, r.2.path_to_start.take r.2.path_length)) =
      some (true, 6, [⟨2, 3⟩, ⟨1, 3⟩, ⟨0, 3⟩, ⟨0, 2⟩, ⟨0, 1⟩, ⟨0, 0⟩]) := by
    decide!
  obtain ⟨b, s', hrun, himp⟩ :=
    find_path_to_start_shortest 1026 planFrom22 (by decide) (by decide) (by decide) (by decide)
  rw [hrun] at hv
  simp only [Option.map_some', Option.some.injEq, Prod.mk.injEq] at hv
  obtain ⟨hb, hl, hp⟩ := hv
  subst hb
  obtain ⟨a1, a2, a3, a4, -⟩ := himp rfl
  exact ⟨by decide, s', hrun, hl, hp, a1, a2, a3, a4⟩

end Hybrid

end Micromouse
